import Mathlib

/-!
# POLE (portable OLE structured storage): a shallow embedding of `pole.cpp`

The definitions below follow `src/pole/pole.cpp` function by function.

Conventions of the embedding

* `unsigned int` values are natural numbers; where the source relies on 32-bit
  wrap-around the model writes the reduction `% 2 ^ 32` explicitly.
* `std::vector<T>` is `List T`; `std::string` is the list of its bytes.
* A pointer to a directory entry is the index of the entry (`Option Nat`, with
  `none` for the null pointer).
* Loops and recursions of the source that may fail to terminate on damaged
  inputs (`AllocTable::follow`, the sibling-tree walks) carry a step bound and
  return `none` when the bound is exhausted; the bound is chosen so that it is
  only exhausted when the source would revisit a node, that is, loop forever.
* The host file is a byte map `Nat → Nat` together with the `filesize` that the
  source tracks.
-/

namespace POLE

/-! ## Little-endian helpers -/

/-- The source's `readU16`: two bytes, little-endian. -/
def readU16 (b0 b1 : Nat) : Nat := b0 + b1 * 2 ^ 8

/-- The source's `readU32`: four bytes, little-endian. -/
def readU32 (b0 b1 b2 b3 : Nat) : Nat := b0 + b1 * 2 ^ 8 + b2 * 2 ^ 16 + b3 * 2 ^ 24

/-- The source's `writeU16`: the two low bytes of `data`. -/
def writeU16 (data : Nat) : List Nat := [data % 256, (data / 2 ^ 8) % 256]

/-- The source's `writeU32`: the four low bytes of `data`. -/
def writeU32 (data : Nat) : List Nat :=
  [data % 256, (data / 2 ^ 8) % 256, (data / 2 ^ 16) % 256, (data / 2 ^ 24) % 256]

/-! ## AllocTable -/

/-- A sector allocation table (`class AllocTable`). -/
structure AllocTable where
  blockSize : Nat
  data : List Nat
  dirtyBlocks : List Nat
  bMaybeFragmented : Bool
deriving DecidableEq, Repr

namespace AllocTable

def Avail : Nat := 0xffffffff
def Eof : Nat := 0xfffffffe
def Bat : Nat := 0xfffffffd
def MetaBat : Nat := 0xfffffffc

/-- Source `AllocTable::count`. -/
def count (t : AllocTable) : Nat := t.data.length

/-- Source `AllocTable::resize`: the vector is cut or grown to `newsize`; new slots hold `Avail`. -/
def resize (t : AllocTable) (newsize : Nat) : AllocTable :=
  { t with data := t.data.take newsize ++ List.replicate (newsize - t.data.length) Avail }

/-- The constructor `AllocTable::AllocTable`. It sets `blockSize` and resizes the table to 128
slots; it never assigns `bMaybeFragmented`, whose initial value is therefore whatever the
allocation holds. The model takes that value as the argument `frag`. -/
def new (frag : Bool) : AllocTable :=
  resize { blockSize := 4096, data := [], dirtyBlocks := [], bMaybeFragmented := frag } 128

/-- Source `AllocTable::operator[]`. -/
def get (t : AllocTable) (index : Nat) : Nat := t.data.getD index 0

/-- Source `AllocTable::set`. The argument of `resize` is the 32-bit value `index + 1`. -/
def set (t : AllocTable) (index value : Nat) : AllocTable :=
  let t1 := if index >= t.count then t.resize ((index + 1) % 2 ^ 32) else t
  { t1 with
    data := t1.data.set index value
    bMaybeFragmented := if value = Avail then true else t1.bMaybeFragmented }

/-- Source `AllocTable::setChain`: link every element to its successor, the last one to `Eof`. -/
def setChain (t : AllocTable) : List Nat → AllocTable
  | [] => t
  | [c] => t.set c Eof
  | c :: d :: rest => setChain (t.set c d) (d :: rest)

/-- The `while` loop of `AllocTable::follow`, from sector `p`. One unit of `fuel` is spent per
iteration; `none` means that the fuel ran out. -/
def followLoop (t : AllocTable) : Nat → Nat → Option (List Nat)
  | 0, _ => none
  | fuel + 1, p =>
    if p < t.count then
      if p = Eof then some []
      else if p = Bat then some []
      else if p = MetaBat then some []
      else if p >= t.count then some []
      else if t.get p >= t.count then some [p]
      else (followLoop t fuel (t.get p)).map (fun chain => p :: chain)
    else some []

/-- Source `AllocTable::follow`. Every iteration of the loop appends one in-range index, so a run of
more than `count` iterations repeats an index and then never ends; the model gives the loop
`count + 1` iterations and returns `none` in that case. -/
def follow (t : AllocTable) (start : Nat) : Option (List Nat) :=
  if start >= t.count then some [] else t.followLoop (t.count + 1) start

/-- The scan of `AllocTable::unused`: the first index, counted from `i`, holding `Avail`. -/
def scan : List Nat → Nat → Option Nat
  | [], _ => none
  | d :: ds, i => if d = Avail then some i else scan ds (i + 1)

/-- Source `AllocTable::unused`: returns the block and the table afterwards. When no scan is made or
the scan finds nothing, the source calls `resize(maxIdx)` with the current size. -/
def unused (t : AllocTable) : Nat × AllocTable :=
  let maxIdx := t.data.length
  match (if t.bMaybeFragmented then scan t.data 0 else none) with
  | some i => (i, t)
  | none => (maxIdx, { t.resize maxIdx with bMaybeFragmented := false })

/-- Source `AllocTable::markAsDirty`. -/
def markAsDirty (t : AllocTable) (dataIndex bigBlockSize : Nat) : AllocTable :=
  let dbidx := dataIndex / (bigBlockSize / 4)
  if dbidx ∈ t.dirtyBlocks then t else { t with dirtyBlocks := t.dirtyBlocks ++ [dbidx] }

/-- Source `AllocTable::isDirty`. -/
def isDirty (t : AllocTable) : Bool := decide (t.dirtyBlocks.length > 0)

/-- Source `AllocTable::save`: every slot as four little-endian bytes. -/
def save (t : AllocTable) : List Nat := t.data.flatMap writeU32

/-- The slot read by `AllocTable::load` at index `i` of `buffer`. -/
def loadSlot (buffer : List Nat) (i : Nat) : Nat :=
  readU32 (buffer.getD (4 * i) 0) (buffer.getD (4 * i + 1) 0)
    (buffer.getD (4 * i + 2) 0) (buffer.getD (4 * i + 3) 0)

/-- The loop of `AllocTable::load`: `set(i, readU32(buffer + i*4))` for `i = k, k+1, ...`. -/
def loadLoop (buffer : List Nat) : Nat → Nat → AllocTable → AllocTable
  | 0, _, t => t
  | n + 1, i, t => loadLoop buffer n (i + 1) (t.set i (loadSlot buffer i))

/-- Source `AllocTable::load`. -/
def load (t : AllocTable) (buffer : List Nat) (len : Nat) : AllocTable :=
  let t1 := t.resize (len / 4)
  loadLoop buffer t1.count 0 t1

end AllocTable

/-! ## DirEntry -/

/-- A directory entry (`class DirEntry`). -/
structure DirEntry where
  valid : Bool
  name : List Nat
  dir : Bool
  size : Nat
  start : Nat
  prev : Nat
  next : Nat
  child : Nat
deriving DecidableEq, Repr, Inhabited

/-- The sign of `std::string::compare` on two byte strings: byte-wise lexicographic order, a
proper prefix being smaller. -/
def strCompare : List Nat → List Nat → Int
  | [], [] => 0
  | [], _ :: _ => -1
  | _ :: _, [] => 1
  | a :: as, b :: bs => if a < b then -1 else if b < a then 1 else strCompare as bs

/-- Source `DirEntry::compare(const std::string&)`: shorter names first, then `std::string::compare`. -/
def DirEntry.compare (e : DirEntry) (name2 : List Nat) : Int :=
  if e.name.length < name2.length then -1
  else if e.name.length > name2.length then 1
  else strCompare e.name name2

/-- The bytes of a string literal. -/
def str (s : String) : List Nat := s.toList.map Char.toNat

/-! ## DirTree -/

/-- The in-memory directory (`class DirTree`). -/
structure DirTree where
  entries : List DirEntry
  dirtyBlocks : List Nat
deriving DecidableEq, Repr

namespace DirTree

def End : Nat := 0xffffffff

/-- Source `DirTree::entryCount`. -/
def entryCount (dt : DirTree) : Nat := dt.entries.length

/-- Source `DirTree::entry(unsigned index)`: `none` is the null pointer. -/
def entry (dt : DirTree) (index : Nat) : Option DirEntry := dt.entries.get? index

/-- Assignment through the pointer `entry(index)`: the entry at `index` is replaced. -/
def setEntry (dt : DirTree) (index : Nat) (e : DirEntry) : DirTree :=
  { dt with entries := dt.entries.set index e }

/-- Source `DirTree::markAsDirty`. -/
def markAsDirty (dt : DirTree) (dataIndex bigBlockSize : Nat) : DirTree :=
  let dbidx := dataIndex / (bigBlockSize / 128)
  if dbidx ∈ dt.dirtyBlocks then dt else { dt with dirtyBlocks := dt.dirtyBlocks ++ [dbidx] }

/-- Source `DirTree::isDirty`. -/
def isDirty (dt : DirTree) : Bool := decide (dt.dirtyBlocks.length > 0)

/-- The root entry written by `DirTree::clear`. -/
def rootEntry : DirEntry :=
  { valid := true, name := str "Root Entry", dir := true, size := 0, start := End,
    prev := End, next := End, child := End }

/-- The constructor `DirTree::DirTree`, that is `DirTree::clear` on an empty directory: only the
root entry is left and its directory sector is marked dirty. -/
def clear (bigBlockSize : Nat) : DirTree :=
  markAsDirty { entries := [rootEntry], dirtyBlocks := [] } 0 bigBlockSize

end DirTree

/-- The recursion of `dirtree_find_sibling`. The result is the pair of the returned index and the
value of the reference parameter `closest` afterwards; `fuel` bounds the depth. -/
def dirtree_find_sibling (dt : DirTree) (name : List Nat) : Nat → Nat → Nat → Option (Nat × Nat)
  | 0, _, _ => none
  | fuel + 1, index, closest =>
    match dt.entry index with
    | none => some (0, closest)
    | some e =>
      if e.valid = false then some (0, closest)
      else if e.compare name = 0 then some (index, closest)
      else if e.compare name > 0 then
        if e.prev > 0 ∧ e.prev < dt.entryCount then
          dirtree_find_sibling dt name fuel e.prev closest
        else some (0, index)
      else
        if e.next > 0 ∧ e.next < dt.entryCount then
          dirtree_find_sibling dt name fuel e.next closest
        else some (0, index)

/-- The recursion of `dirtree_find_siblings`: the in-order walk (prev, self, next) from `index`.
It returns `none` when the depth bound `fuel` is exhausted or when `entry(index)` is the null
pointer, which the source dereferences. -/
def dirtree_find_siblings (dt : DirTree) : Nat → Nat → Option (List Nat)
  | 0, _ => none
  | fuel + 1, index =>
    match dt.entry index with
    | none => none
    | some e =>
      match (if e.prev ≠ DirTree.End then dirtree_find_siblings dt fuel e.prev else some []) with
      | none => none
      | some l =>
        match (if e.next ≠ DirTree.End then dirtree_find_siblings dt fuel e.next else some []) with
        | none => none
        | some r => some (l ++ index :: r)

namespace DirTree

/-- Source `DirTree::find_child`. A search that ends visits no entry twice, so its depth is at
most `entryCount`; `none` stands for a search that never ends. -/
def find_child (dt : DirTree) (index : Nat) (name : List Nat) (closest : Nat) :
    Option (Nat × Nat) :=
  match dt.entry index with
  | none => some (0, closest)
  | some p =>
    if p.valid = true ∧ p.child < dt.entryCount then
      dirtree_find_sibling dt name (dt.entryCount + 1) p.child closest
    else some (0, closest)

/-- Source `DirTree::children`. A walk that ends has no entry twice on one branch, so its depth
is at most `entryCount`. -/
def children (dt : DirTree) (index : Nat) : Option (List Nat) :=
  match dt.entry index with
  | none => some []
  | some e =>
    if e.valid = true ∧ e.child < dt.entryCount then
      dirtree_find_siblings dt (dt.entryCount + 1) e.child
    else some []

/-- The scan of `DirTree::unused`: the first index, counted from `i`, of an invalid entry. -/
def firstInvalid : List DirEntry → Nat → Option Nat
  | [], _ => none
  | e :: es, i => if e.valid = false then some i else firstInvalid es (i + 1)

/-- The entry appended by `entries.push_back(DirEntry())`. Its name is empty; the other fields
are not initialised by the source and are all assigned by the caller before they are read. -/
def blankEntry : DirEntry :=
  { valid := false, name := [], dir := false, size := 0, start := 0, prev := 0, next := 0,
    child := 0 }

/-- Source `DirTree::unused`: the index and the directory afterwards. -/
def unused (dt : DirTree) : Nat × DirTree :=
  match firstInvalid dt.entries 0 with
  | some i => (i, dt)
  | none => (dt.entries.length, { dt with entries := dt.entries ++ [blankEntry] })

/-- The path split at the head of `DirTree::entry(name, ...)`, after the optional leading slash
has been skipped: `cur` is the component being read. A component is pushed at every slash and
at the end of the string when the string does not end in a slash. -/
def splitAux : List Nat → List Nat → List (List Nat)
  | [], cur => [cur]
  | c :: cs, cur =>
    if c = 47 then
      cur :: (match cs with
        | [] => []
        | _ :: _ => splitAux cs [])
    else splitAux cs (cur ++ [c])

/-- The list `names` built by `DirTree::entry(name, ...)`. -/
def splitPath (name : List Nat) : List (List Nat) :=
  let rest := match name with
    | 47 :: cs => cs
    | cs => cs
  match rest with
  | [] => []
  | _ :: _ => splitAux rest []

end DirTree

/-! ## Header -/

/-- The file header (`class Header`). -/
structure Header where
  id : List Nat
  b_shift : Nat
  s_shift : Nat
  num_bat : Nat
  dirent_start : Nat
  threshold : Nat
  sbat_start : Nat
  num_sbat : Nat
  mbat_start : Nat
  num_mbat : Nat
  bb_blocks : List Nat
  dirty : Bool
deriving DecidableEq, Repr

def pole_magic : List Nat := [0xd0, 0xcf, 0x11, 0xe0, 0xa1, 0xb1, 0x1a, 0xe1]

namespace Header

/-- The constructor `Header::Header`. -/
def new : Header :=
  { id := pole_magic, b_shift := 9, s_shift := 6, num_bat := 0, dirent_start := 0,
    threshold := 4096, sbat_start := 0, num_sbat := 0, mbat_start := AllocTable.Eof,
    num_mbat := 0, bb_blocks := List.replicate 109 AllocTable.Avail, dirty := true }

/-- Source `Header::valid`. -/
def valid (h : Header) : Bool :=
  if h.threshold ≠ 4096 then false
  else if h.num_bat = 0 then false
  else if h.num_bat < 109 ∧ h.num_mbat ≠ 0 then false
  else if h.s_shift > h.b_shift then false
  else if h.b_shift ≤ 6 then false
  else if h.b_shift ≥ 31 then false
  else true

end Header

/-! ## The host file and memory buffers -/

/-- The bytes `data` written at position `pos` of the byte map `f` (`seekp` then `write`). -/
def fileWrite (f : Nat → Nat) (pos : Nat) (data : List Nat) : Nat → Nat :=
  fun i => if pos ≤ i ∧ i < pos + data.length then data.getD (i - pos) 0 else f i

/-- The `n` bytes of the byte map `f` from position `pos` (`seekg` then `read`). -/
def fileRead (f : Nat → Nat) (pos n : Nat) : List Nat :=
  (List.range n).map (fun i => f (pos + i))

/-- The `n` bytes of the buffer `buf` from offset `off` (the source of a `memcpy` or of a file
write through the pointer `buf + off`); bytes past the end of the list read as 0. -/
def slice (buf : List Nat) (off n : Nat) : List Nat :=
  (List.range n).map (fun k => buf.getD (off + k) 0)

/-- The buffer `buf` with `bytes` stored from offset `off` on (the target of a `memcpy` or of a
file read through the pointer `buf + off`). -/
def poke (buf : List Nat) (off : Nat) (bytes : List Nat) : List Nat :=
  buf.take off ++ bytes ++ buf.drop (off + bytes.length)

/-! ## StorageIO -/

/-- Modelled from the spec: the result codes of `Storage`, declared in `pole.h`, which is not
among the sources. The spec lists them as `Ok`, `OpenFailed`, `NotOLE` and `BadOLE`. -/
inductive Result where
  | Ok : Result
  | OpenFailed : Result
  | NotOLE : Result
  | BadOLE : Result
deriving DecidableEq, Repr

/-- The container state (`class StorageIO`). `file` and `filesize` stand for the host file: the
byte at every position (zero where nothing was written) and the size that the source tracks. -/
structure StorageIO where
  file : Nat → Nat
  filesize : Nat
  result : Result
  opened : Bool
  writeable : Bool
  header : Header
  dirtree : DirTree
  bbat : AllocTable
  sbat : AllocTable
  sb_blocks : List Nat
  mbat_blocks : List Nat
  mbat_data : List Nat
  mbatDirty : Bool

namespace StorageIO

/-- The constructor `StorageIO::StorageIO`. The two tables are built by `AllocTable::AllocTable`,
which leaves `bMaybeFragmented` unset: `fragB` and `fragS` are the values the two flags happen
to hold. No file is attached yet (an empty byte map). `mbatDirty` is first assigned by `init`;
the model starts it as `false`. -/
def new (fragB fragS : Bool) : StorageIO :=
  let header := Header.new
  let bbat := { AllocTable.new fragB with blockSize := 2 ^ header.b_shift }
  let sbat := { AllocTable.new fragS with blockSize := 2 ^ header.s_shift }
  { file := fun _ => 0, filesize := 0, result := Result.Ok, opened := false, writeable := false,
    header := header, dirtree := DirTree.clear bbat.blockSize, bbat := bbat, sbat := sbat,
    sb_blocks := [], mbat_blocks := [], mbat_data := [], mbatDirty := false }

/-- Source `StorageIO::create`, for a host file that opens: the file is truncated. -/
def create (io : StorageIO) : StorageIO :=
  { io with file := fun _ => 0, opened := true, result := Result.Ok }

/-- Source `StorageIO::addbbatBlock`. -/
def addbbatBlock (io : StorageIO) : StorageIO :=
  let r := io.bbat.unused
  let newblockIdx := r.1
  let io1 := { io with bbat := r.2.set newblockIdx AllocTable.MetaBat }
  let io2 :=
    if io1.header.num_bat < 109 then
      { io1 with header := { io1.header with
          bb_blocks := io1.header.bb_blocks.set io1.header.num_bat newblockIdx } }
    else
      let io3 := { io1 with mbatDirty := true, mbat_data := io1.mbat_data ++ [newblockIdx] }
      let metaIdx := io3.header.num_bat - 109
      let idxPerBlock := io3.bbat.blockSize / 4 - 1
      let idxBlock := metaIdx / idxPerBlock
      if idxBlock = io3.mbat_blocks.length then
        let r2 := io3.bbat.unused
        let newmetaIdx := r2.1
        { io3 with
          bbat := r2.2.set newmetaIdx AllocTable.MetaBat
          mbat_blocks := io3.mbat_blocks ++ [newmetaIdx]
          header := { io3.header with
            mbat_start := if io3.header.num_mbat = 0 then newmetaIdx else io3.header.mbat_start
            num_mbat := io3.header.num_mbat + 1 } }
      else io3
  { io2 with header := { io2.header with num_bat := io2.header.num_bat + 1, dirty := true } }

/-- The loop `while (bbidx >= header->num_bat) addbbatBlock();`. Every call adds one to
`num_bat`, so `bbidx + 1 - num_bat` iterations are enough; that is the `fuel` callers pass. -/
def addbbatLoop : Nat → Nat → StorageIO → StorageIO
  | 0, _, io => io
  | fuel + 1, bbidx, io =>
    if bbidx ≥ io.header.num_bat then addbbatLoop fuel bbidx io.addbbatBlock else io

/-- Source `StorageIO::ExtendFile`: the state, the chain and the returned block afterwards. -/
def ExtendFile (io : StorageIO) (chain : List Nat) : StorageIO × List Nat × Nat :=
  let r := io.bbat.unused
  let newblockIdx := r.1
  let io1 := { io with bbat := r.2.set newblockIdx AllocTable.Eof }
  let bbidx := newblockIdx / (io1.bbat.blockSize / 4)
  let io2 := addbbatLoop (bbidx + 1 - io1.header.num_bat) bbidx io1
  let io3 := { io2 with bbat := io2.bbat.markAsDirty newblockIdx io2.bbat.blockSize }
  let io4 :=
    if chain.length > 0 then
      let last := chain.getD (chain.length - 1) 0
      { io3 with bbat := (io3.bbat.set last newblockIdx).markAsDirty last io3.bbat.blockSize }
    else io3
  (io4, chain ++ [newblockIdx], newblockIdx)

/-- Source `StorageIO::init`. The last line of the source, `sb_blocks = bbat->follow(3)`,
follows a chain of one sector here (slot 3 holds `Eof`), so the walk always ends; should the
bounded walk of the model give out, the list is left empty. -/
def init (io : StorageIO) : StorageIO :=
  let header := { io.header with
    bb_blocks := io.header.bb_blocks.set 0 0
    dirent_start := 1, sbat_start := 2, num_bat := 1, num_sbat := 1, dirty := true }
  let b0 := (io.bbat.set 0 AllocTable.Eof).markAsDirty 0 io.bbat.blockSize
  let b1 := (b0.set 1 AllocTable.Eof).markAsDirty 1 b0.blockSize
  let b2 := (b1.set 2 AllocTable.Eof).markAsDirty 2 b1.blockSize
  let b3 := (b2.set 3 AllocTable.Eof).markAsDirty 3 b2.blockSize
  { io with header := header, bbat := b3, sb_blocks := (b3.follow 3).getD [], mbatDirty := false }

/-- Source `StorageIO::open` with `bCreate = true` on a container that is not open yet:
`create(); init(); writeable = true`. -/
def openCreate (io : StorageIO) : StorageIO :=
  { io.create.init with writeable := true }

end StorageIO

/-! ## Path resolution and entry creation -/

namespace DirTree

/-- Assignment to one field through the pointer `entry(index)`. -/
def modify (dt : DirTree) (index : Nat) (f : DirEntry → DirEntry) : DirTree :=
  match dt.entry index with
  | none => dt
  | some e => dt.setEntry index (f e)

/-- The creation branch of `DirTree::entry(name, create, ...)` inside the directory: a slot is
taken with `unused()`, filled in, and hung into the sibling tree of `parent` at `closest`.
The result is the new index and the directory afterwards. -/
def createEntry (dt : DirTree) (parent closest : Nat) (nm : List Nat) (isDir : Bool)
    (streamSize bigBlockSize : Nat) : Nat × DirTree :=
  let r := dt.unused
  let index := r.1
  let dt1 := r.2.modify index (fun e =>
    { e with valid := true, name := nm, dir := isDir, size := if isDir then 0 else streamSize,
             start := AllocTable.Eof, child := End })
  let dt2 :=
    if closest = End then
      let dt3 := dt1.modify index (fun e => { e with prev := End })
      let pchild := ((dt3.entry parent).getD blankEntry).child
      let dt4 := dt3.modify index (fun e => { e with next := pchild })
      (dt4.modify parent (fun e => { e with child := index })).markAsDirty parent bigBlockSize
    else
      let closeE := (dt1.entry closest).getD blankEntry
      let dt3 :=
        if closeE.compare nm < 0 then
          ((dt1.modify index (fun e => { e with prev := closeE.next })).modify index
            (fun e => { e with next := End })).modify closest (fun e => { e with next := index })
        else
          ((dt1.modify index (fun e => { e with next := closeE.prev })).modify index
            (fun e => { e with prev := End })).modify closest (fun e => { e with prev := index })
      dt3.markAsDirty closest bigBlockSize
  (index, dt2.markAsDirty index bigBlockSize)

/-- The loop of `DirTree::entry(name)` with `create = false`, from entry `index`: the pointer
returned (`some none` is the null pointer, `none` a search that never ends). -/
def lookupLoop (dt : DirTree) : List (List Nat) → Nat → Option (Option Nat)
  | [], index => some (if index < dt.entryCount then some index else none)
  | nm :: rest, index =>
    match dt.find_child index nm End with
    | none => none
    | some r => if r.1 > 0 then lookupLoop dt rest r.1 else some none

/-- Source `DirTree::entry(name)` with the default `create = false`. -/
def lookup (dt : DirTree) (name : List Nat) : Option (Option Nat) :=
  if name.length = 0 then some none
  else if name = [47] then some (if 0 < dt.entryCount then some 0 else none)
  else lookupLoop dt (splitPath name) 0

end DirTree

namespace StorageIO

/-- The loop of `DirTree::entry` that lengthens the directory chain on the big table until it
has more than `bbidx` sectors. Every iteration adds one sector to `blocks`, so
`bbidx + 1 - blocks.length` iterations are enough; that is the `fuel` the caller passes. -/
def extendDirLoop (bigBlockSize : Nat) : Nat → Nat → List Nat → StorageIO → StorageIO
  | 0, _, _, io => io
  | fuel + 1, bbidx, blocks, io =>
    if blocks.length ≤ bbidx then
      let r := io.bbat.unused
      let nblock := r.1
      let b1 :=
        if blocks.length > 0 then
          let last := blocks.getD (blocks.length - 1) 0
          (r.2.set last nblock).markAsDirty last bigBlockSize
        else r.2
      let b2 := (b1.set nblock AllocTable.Eof).markAsDirty nblock bigBlockSize
      let io1 := { io with bbat := b2 }
      let bbidx2 := nblock / (io1.bbat.blockSize / 4)
      let io2 := addbbatLoop (bbidx2 + 1 - io1.header.num_bat) bbidx2 io1
      extendDirLoop bigBlockSize fuel bbidx (blocks ++ [nblock]) io2
    else io

end StorageIO

namespace DirTree

/-- The `for` loop of `DirTree::entry(name, create, bigBlockSize, io, streamSize)` over the
components still to resolve, from entry `index`. The result is the container afterwards and
the pointer returned; `none` stands for a run that never ends. -/
def entryLoop (create : Bool) (bigBlockSize streamSize : Nat) :
    List (List Nat) → Nat → StorageIO → Option ( StorageIO × Option Nat)
  | [], index, io => some (io, if index < io.dirtree.entryCount then some index else none)
  | nm :: rest, index, io =>
    match io.dirtree.find_child index nm End with
    | none => none
    | some r =>
      if r.1 > 0 then entryLoop create bigBlockSize streamSize rest r.1 io
      else if create = false ∨ io.writeable = false then some (io, none)
      else
        let c := io.dirtree.createEntry index r.2 nm (decide (rest.length > 0)) streamSize
          bigBlockSize
        let io1 := { io with dirtree := c.2 }
        let bbidx := c.1 / (bigBlockSize / 128)
        match io1.bbat.follow io1.header.dirent_start with
        | none => none
        | some blocks =>
          entryLoop create bigBlockSize streamSize rest c.1
            ( StorageIO.extendDirLoop bigBlockSize (bbidx + 1 - blocks.length) bbidx blocks io1)

/-- Source `DirTree::entry(name, create, bigBlockSize, io, streamSize)`, called on the
directory of `io`. -/
def entryByName (io : StorageIO) (name : List Nat) (create : Bool) (bigBlockSize streamSize : Nat) :
    Option ( StorageIO × Option Nat) :=
  if name.length = 0 then some (io, none)
  else if name = [47] then some (io, if 0 < io.dirtree.entryCount then some 0 else none)
  else entryLoop create bigBlockSize streamSize (splitPath name) 0 io

/-- Source `DirTree::findSib`, with a bound on the depth. -/
def findSib (dt : DirTree) (inIdx : Nat) : Nat → Nat → Option Nat
  | 0, _ => none
  | fuel + 1, sibIdx =>
    match dt.entry sibIdx with
    | none => some 0
    | some sib =>
      if sib.valid = false then some 0
      else if sib.next = inIdx ∨ sib.prev = inIdx then some sibIdx
      else
        match dt.entry inIdx with
        | none => none
        | some targetSib =>
          if sib.compare targetSib.name > 0 then findSib dt inIdx fuel sib.prev
          else findSib dt inIdx fuel sib.next

/-- The string handling of `DirTree::findParentAndSib`: the path of the parent, or `none` where
the source returns early because no slash is found. -/
def parentName (inFullName : List Nat) : Option (List Nat) :=
  let localName := if inFullName.head? ≠ some 47 then 47 :: inFullName else inFullName
  let stripped := if localName.getLast? = some 47 then localName.dropLast else localName
  match stripped.reverse.indexOf? 47 with
  | none => none
  | some k =>
    let lastSlash := stripped.length - 1 - k
    some (stripped.take (if lastSlash = 0 then 1 else lastSlash))

/-- Source `DirTree::findParentAndSib`: the pair `(parentIdx, sibIdx)`. The result is `none`
when a search never ends or when the parent path resolves to the null pointer, which the
source dereferences. -/
def findParentAndSib (dt : DirTree) (inIdx : Nat) (inFullName : List Nat) : Option (Nat × Nat) :=
  if inIdx = 0 ∨ inIdx ≥ dt.entryCount ∨ inFullName = [47] ∨ inFullName = [] then some (0, 0)
  else
    match parentName inFullName with
    | none => some (0, 0)
    | some pn =>
      match dt.lookup pn with
      | none => none
      | some none => none
      | some (some parentIdx) =>
        match dt.entry parentIdx with
        | none => none
        | some parent =>
          if parent.child = inIdx then some (parentIdx, 0)
          else (findSib dt inIdx (dt.entryCount + 1) parent.child).map (fun s => (parentIdx, s))

/-- The `for (;;)` loop of `DirTree::deleteEntry`: from `(smlSib, smlIdx)` down the `prev`
links; the result is `(smlIdx, smlrIdx)` at the `break`. -/
def smallestLoop (dt : DirTree) (nEntries : Nat) : Nat → Nat → Option (Nat × Nat)
  | 0, _ => none
  | fuel + 1, smlIdx =>
    match dt.entry smlIdx with
    | none => none
    | some smlSib =>
      let smlrIdx := smlSib.prev
      match dt.entry smlrIdx with
      | none => none
      | some smlrSib =>
        if smlrSib.prev = 0 ∨ smlrSib.prev > nEntries then some (smlIdx, smlrIdx)
        else smallestLoop dt nEntries fuel smlrIdx

/-- The first part of `DirTree::deleteEntry`: the index `replIdx` that takes the place of the
entry `inIdx` in its sibling tree, and the directory after the links below `inIdx` have been
spliced. The result is `none` when the source dereferences a null pointer or never returns. -/
def replacement (dt : DirTree) (inIdx bigBlockSize : Nat) : Option (Nat × DirTree) :=
  let nEntries := dt.entryCount
  match dt.entry inIdx with
  | none => none
  | some dirToDel =>
    if dirToDel.next = 0 ∨ dirToDel.next > nEntries then some (dirToDel.prev, dt)
    else
      match dt.entry dirToDel.next with
      | none => none
      | some sibNext =>
        if sibNext.prev = 0 ∨ sibNext.prev > nEntries then
          some (dirToDel.next,
            (dt.modify dirToDel.next (fun e => { e with prev := dirToDel.prev })).markAsDirty
              dirToDel.next bigBlockSize)
        else
          match smallestLoop dt nEntries (nEntries + 1) dirToDel.next with
          | none => none
          | some (smlIdx, smlrIdx) =>
            let smlrNext := ((dt.entry smlrIdx).getD blankEntry).next
            let dt1 := dt.modify smlIdx (fun e => { e with prev := smlrNext })
            let d1 := (dt1.entry inIdx).getD blankEntry
            let dt2 := dt1.modify smlrIdx (fun e => { e with prev := d1.prev })
            let d2 := (dt2.entry inIdx).getD blankEntry
            let dt3 := dt2.modify smlrIdx (fun e => { e with next := d2.next })
            some (smlrIdx, (dt3.markAsDirty smlIdx bigBlockSize).markAsDirty smlrIdx bigBlockSize)

/-- The second part of `DirTree::deleteEntry`: `replIdx` is hung where `inIdx` used to hang, at
the sibling `sibIdx` or, when `sibIdx` is 0, at the `child` link of `parentIdx`. -/
def reattach (dt : DirTree) (inIdx parentIdx sibIdx replIdx bigBlockSize : Nat) :
    Option DirTree :=
  if sibIdx ≠ 0 then
    match dt.entry sibIdx with
    | none => none
    | some sib =>
      some ((if sib.next = inIdx then dt.modify sibIdx (fun e => { e with next := replIdx })
             else dt.modify sibIdx (fun e => { e with prev := replIdx })).markAsDirty
              sibIdx bigBlockSize)
  else
    match dt.entry parentIdx with
    | none => none
    | some _ =>
      some ((dt.modify parentIdx (fun e => { e with child := replIdx })).markAsDirty
        parentIdx bigBlockSize)

/-- Source `DirTree::deleteEntry`, for the entry at index `inIdx`: `findParentAndSib`, the
replacement, the re-attachment, and at last `valid = false`. The result is `none` when the
source dereferences a null pointer or never returns. -/
def deleteEntry (dt : DirTree) (inIdx : Nat) (inFullName : List Nat) (bigBlockSize : Nat) :
    Option DirTree :=
  match dt.findParentAndSib inIdx inFullName with
  | none => none
  | some ps =>
    match dt.replacement inIdx bigBlockSize with
    | none => none
    | some rd =>
      match rd.2.reattach inIdx ps.1 ps.2 rd.1 bigBlockSize with
      | none => none
      | some dtb =>
        some ((dtb.modify inIdx (fun e => { e with valid := false })).markAsDirty inIdx
          bigBlockSize)

end DirTree

/-! ## The name order -/

/-- The comparator of `DirEntry::compare` as a function of the two names. -/
def cmpName (a b : List Nat) : Int :=
  if a.length < b.length then -1 else if a.length > b.length then 1 else strCompare a b

/-- The strict order on names induced by `DirEntry::compare`. -/
def nameLt (a b : List Nat) : Prop := cmpName a b < 0

instance (a b : List Nat) : Decidable (nameLt a b) := by unfold nameLt; infer_instance

/-! ## Sibling trees as shapes

The sibling tree of a storage is a set of links between entries. To state what the walks
return, the links are compared with a binary tree of entry indices. -/

/-- A binary tree of entry indices. -/
inductive Shape where
  | leaf : Shape
  | node : Shape → Nat → Shape → Shape
deriving DecidableEq, Repr

namespace Shape

/-- The indices of a tree from left to right. -/
def inorder : Shape → List Nat
  | leaf => []
  | node l i r => l.inorder ++ i :: r.inorder

/-- The number of nodes on the longest branch. -/
def height : Shape → Nat
  | leaf => 0
  | node l _ r => max l.height r.height + 1

end Shape

/-- The entry at `index`, with `DirTree.blankEntry` for an index out of range. -/
def entAt (es : List DirEntry) (index : Nat) : DirEntry := es.getD index DirTree.blankEntry

/-- The name of the entry at `index`. -/
def nameAt (es : List DirEntry) (index : Nat) : List Nat := (entAt es index).name

/-- The check that the `prev` and `next` links below the link value `p` spell out the tree
`t`: an empty tree is the link `End`, and a node is a valid entry with an index in
`[1, length)` whose `prev` and `next` links spell out its subtrees. -/
def repB (es : List DirEntry) : Nat → Shape → Bool
  | p, .leaf => decide (p = DirTree.End)
  | p, .node l i r =>
    decide (p = i) && decide (0 < i) && decide (i < es.length) && (entAt es i).valid &&
      repB es (entAt es i).prev l && repB es (entAt es i).next r

/-- The links below `p` form the tree `t`. -/
def Rep (es : List DirEntry) (p : Nat) (t : Shape) : Prop := repB es p t = true

instance (es : List DirEntry) (p : Nat) (t : Shape) : Decidable (Rep es p t) := by
  unfold Rep; infer_instance

/-- The names along `l` are strictly increasing in the order of `DirEntry::compare`. -/
def SortedNames (es : List DirEntry) (l : List Nat) : Prop :=
  (l.map (nameAt es)).Pairwise nameLt

instance (es : List DirEntry) (l : List Nat) : Decidable (SortedNames es l) := by
  unfold SortedNames; infer_instance

/-- The tree `t` with the new index `n`, named `nm`, hung where the search of
`dirtree_find_sibling` for `nm` leaves the tree. -/
def Shape.ins (es : List DirEntry) (nm : List Nat) (n : Nat) : Shape → Shape
  | .leaf => .node .leaf n .leaf
  | .node l i r =>
    if cmpName (nameAt es i) nm > 0 then .node (Shape.ins es nm n l) i r
    else .node l i (Shape.ins es nm n r)

/-- The effect on the entries of hanging the new entry `n`, named like `nm`, below `q`:
everything but `n` and `q` is as before, `n` is a valid leaf, and `q` points to `n` on the
side where `nm` belongs. -/
structure Upd (es es' : List DirEntry) (nm : List Nat) (n q : Nat) : Prop where
  len : es.length ≤ es'.length
  frame : ∀ j, j ≠ n → j ≠ q → j < es.length → entAt es' j = entAt es j
  n_pos : 0 < n
  n_lt : n < es'.length
  n_valid : (entAt es' n).valid = true
  n_prev : (entAt es' n).prev = DirTree.End
  n_next : (entAt es' n).next = DirTree.End
  q_eq : entAt es' q =
    if cmpName (nameAt es q) nm < 0 then { entAt es q with next := n }
    else { entAt es q with prev := n }

/-! ## Storage: the public queries -/

namespace Storage

/-- Source `Storage::entries`: the names of the children of the storage at `path`. -/
def entries (io : StorageIO) (path : List Nat) : Option (List (List Nat)) :=
  match io.dirtree.lookup path with
  | none => none
  | some none => some []
  | some (some parent) =>
    if (entAt io.dirtree.entries parent).dir = true then
      (io.dirtree.children parent).map (fun cs => cs.map (nameAt io.dirtree.entries))
    else some []

/-- Source `Storage::isDirectory`. -/
def isDirectory (io : StorageIO) (name : List Nat) : Option Bool :=
  match io.dirtree.lookup name with
  | none => none
  | some none => some false
  | some (some e) => some (entAt io.dirtree.entries e).dir

/-- Source `Storage::exists`. -/
def existsPath (io : StorageIO) (name : List Nat) : Option Bool :=
  match io.dirtree.lookup name with
  | none => none
  | some none => some false
  | some (some _) => some true

end Storage

/-! ## Scenario containers -/

/-- The container after `DirTree::entry(path, create = true)`, or the container itself when the
call does not return. -/
def createPath (io : StorageIO) (path : String) (size : Nat) : StorageIO :=
  match DirTree.entryByName io (str path) true io.bbat.blockSize size with
  | some r => r.1
  | none => io

/-- A freshly created container in which the streams `aaa`, `bb` and `c` were created under
the root, in that order. -/
def threeNames : StorageIO :=
  createPath (createPath (createPath ( StorageIO.new false false).openCreate "/aaa" 0) "/bb" 0)
    "/c" 0

/-- The container `threeNames` after the stream `dddd` was created under the root as well. -/
def fourNames : StorageIO := createPath threeNames "/dddd" 0

/-! ## Sector input and output

The file stream is taken to be in a good state at every call (`fileCheck` clears its error
flags), and every buffer pointer is non-null. A buffer that the source allocates with
`new unsigned char[n]` starts as `n` zero bytes in the model. Positions in the host file are
`unsigned int` in the source: the products and sums that give them are taken modulo `2 ^ 32`. -/

namespace StorageIO

/-- The loop of `StorageIO::loadBigBlocks`: the buffer and the byte count afterwards. The
count `p` is an `unsigned long`; when the block starts past `filesize` the subtraction
`filesize - pos` wraps around and nothing is transferred. -/
def loadBigBlocksLoop (io : StorageIO) (maxlen : Nat) :
    List Nat → List Nat → Nat → List Nat × Nat
  | [], data, bytes => (data, bytes)
  | block :: rest, data, bytes =>
    if bytes < maxlen then
      let pos := io.bbat.blockSize * (block + 1) % 2 ^ 32
      let p0 := if io.bbat.blockSize < maxlen - bytes then io.bbat.blockSize else maxlen - bytes
      let p := if pos + p0 > io.filesize then (io.filesize + 2 ^ 64 - pos) % 2 ^ 64 else p0
      let got := if pos + p0 > io.filesize then io.filesize - pos else p0
      loadBigBlocksLoop io maxlen rest (poke data bytes (fileRead io.file pos got))
        ((bytes + p) % 2 ^ 32)
    else (data, bytes)

/-- Source `StorageIO::loadBigBlocks`: the buffer `data` afterwards and the returned count. -/
def loadBigBlocks (io : StorageIO) (blocks : List Nat) (data : List Nat) (maxlen : Nat) :
    List Nat × Nat :=
  if blocks.length < 1 ∨ maxlen = 0 then (data, 0) else loadBigBlocksLoop io maxlen blocks data 0

/-- Source `StorageIO::loadBigBlock`. -/
def loadBigBlock (io : StorageIO) (block : Nat) (data : List Nat) (maxlen : Nat) :
    List Nat × Nat :=
  io.loadBigBlocks [block] data maxlen

/-- The loop of `StorageIO::saveBigBlocks`. At every call of the source `offset` is at most the
block size, so `blockSize - offset` does not wrap. -/
def saveBigBlocksLoop (data : List Nat) (len : Nat) :
    List Nat → Nat → Nat → StorageIO → StorageIO × Nat
  | [], _, bytes, io => (io, bytes)
  | block :: rest, offset, bytes, io =>
    if bytes < len then
      let pos := (io.bbat.blockSize * (block + 1) + offset) % 2 ^ 32
      let maxWrite := io.bbat.blockSize - offset
      let tobeWritten := if len - bytes > maxWrite then maxWrite else len - bytes
      saveBigBlocksLoop data len rest 0 (bytes + tobeWritten)
        { io with
          file := fileWrite io.file pos (slice data bytes tobeWritten)
          filesize := if io.filesize < (pos + tobeWritten) % 2 ^ 32 then
              (pos + tobeWritten) % 2 ^ 32
            else io.filesize }
    else (io, bytes)

/-- Source `StorageIO::saveBigBlocks`: the container afterwards and the returned count. -/
def saveBigBlocks (io : StorageIO) (blocks : List Nat) (offset : Nat) (data : List Nat)
    (len : Nat) : StorageIO × Nat :=
  if blocks.length < 1 ∨ len = 0 then (io, 0) else saveBigBlocksLoop data len blocks offset 0 io

/-- Source `StorageIO::saveBigBlock`. -/
def saveBigBlock (io : StorageIO) (block offset : Nat) (data : List Nat) (len : Nat) :
    StorageIO × Nat :=
  io.saveBigBlocks [block] offset data len

/-- The loop of `StorageIO::loadSmallBlocks`; `buf` is the local buffer of one big block. -/
def loadSmallBlocksLoop (io : StorageIO) (maxlen : Nat) :
    List Nat → List Nat → List Nat → Nat → List Nat × Nat
  | [], _, data, bytes => (data, bytes)
  | block :: rest, buf, data, bytes =>
    if bytes < maxlen then
      let pos := block * io.sbat.blockSize % 2 ^ 32
      let bbindex := pos / io.bbat.blockSize
      if bbindex ≥ io.sb_blocks.length then (data, bytes)
      else
        let buf1 := (io.loadBigBlock (io.sb_blocks.getD bbindex 0) buf io.bbat.blockSize).1
        let offset := pos % io.bbat.blockSize
        let p0 := if maxlen - bytes < io.bbat.blockSize - offset then maxlen - bytes
          else io.bbat.blockSize - offset
        let p := if io.sbat.blockSize < p0 then io.sbat.blockSize else p0
        loadSmallBlocksLoop io maxlen rest buf1 (poke data bytes (slice buf1 offset p))
          (bytes + p)
    else (data, bytes)

/-- Source `StorageIO::loadSmallBlocks`. -/
def loadSmallBlocks (io : StorageIO) (blocks : List Nat) (data : List Nat) (maxlen : Nat) :
    List Nat × Nat :=
  if blocks.length < 1 ∨ maxlen = 0 then (data, 0)
  else loadSmallBlocksLoop io maxlen blocks (List.replicate io.bbat.blockSize 0) data 0

/-- Source `StorageIO::loadSmallBlock`. -/
def loadSmallBlock (io : StorageIO) (block : Nat) (data : List Nat) (maxlen : Nat) :
    List Nat × Nat :=
  io.loadSmallBlocks [block] data maxlen

/-- The loop of `StorageIO::saveSmallBlocks` over the blocks from `startAtBlock` on. -/
def saveSmallBlocksLoop (data : List Nat) (len : Nat) :
    List Nat → Nat → Nat → StorageIO → StorageIO × Nat
  | [], _, bytes, io => (io, bytes)
  | block :: rest, offset, bytes, io =>
    if bytes < len then
      let pos := block * io.sbat.blockSize % 2 ^ 32
      let bbindex := pos / io.bbat.blockSize
      if bbindex ≥ io.sb_blocks.length then (io, bytes)
      else
        let offset2 := pos % io.bbat.blockSize
        let maxWrite := io.sbat.blockSize - offset
        let tobeWritten := if len - bytes > maxWrite then maxWrite else len - bytes
        let io1 := (io.saveBigBlock (io.sb_blocks.getD bbindex 0) (offset2 + offset)
          (data.drop bytes) tobeWritten).1
        saveSmallBlocksLoop data len rest 0 (bytes + tobeWritten)
          { io1 with
            filesize := if io1.filesize < (pos + tobeWritten) % 2 ^ 32 then
                (pos + tobeWritten) % 2 ^ 32
              else io1.filesize }
    else (io, bytes)

/-- Source `StorageIO::saveSmallBlocks`. -/
def saveSmallBlocks (io : StorageIO) (blocks : List Nat) (offset : Nat) (data : List Nat)
    (len startAtBlock : Nat) : StorageIO × Nat :=
  if blocks.length < 1 ∨ len = 0 then (io, 0)
  else saveSmallBlocksLoop data len (blocks.drop startAtBlock) offset 0 io

/-- Source `StorageIO::saveSmallBlock`. -/
def saveSmallBlock (io : StorageIO) (block offset : Nat) (data : List Nat) (len : Nat) :
    StorageIO × Nat :=
  io.saveSmallBlocks [block] offset data len 0

end StorageIO

/-! ## StreamIO -/

/-- The state of an open stream (`class StreamIO`); the owning container is passed along with
it. `entryIdx` is the index of the directory entry. -/
structure StreamIO where
  entryIdx : Nat
  fullName : List Nat
  eof : Bool
  fail : Bool
  blocks : List Nat
  m_pos : Nat
  cache_data : List Nat
  cache_size : Nat
  cache_pos : Nat
deriving DecidableEq, Repr

namespace StreamIO

/-- The constructor `StreamIO::StreamIO(io, entry)` for the entry at index `e`; `none` when the
walk of the chain never ends. -/
def new (io : StorageIO) (e : Nat) : Option StreamIO :=
  let ent := entAt io.dirtree.entries e
  match (if ent.size ≥ io.header.threshold then io.bbat.follow ent.start
         else io.sbat.follow ent.start) with
  | none => none
  | some blocks =>
    some { entryIdx := e, fullName := [], eof := false, fail := false, blocks := blocks,
           m_pos := 0, cache_data := List.replicate 4096 0, cache_size := 0, cache_pos := 0 }

/-- Source `StreamIO::seek`. -/
def seek (s : StreamIO) (pos : Nat) : StreamIO := { s with m_pos := pos }

/-- Source `StreamIO::tell`. -/
def tell (s : StreamIO) : Nat := s.m_pos

/-- The loop of the small-file branch of `StreamIO::read(pos, data, maxlen)` over the blocks
from `index` on: `buf` is the local buffer, `acc` the bytes copied to `data` so far (their
number is `totalbytes`). -/
def readSmallLoop (io : StorageIO) (maxlen : Nat) :
    List Nat → Nat → List Nat → List Nat → List Nat
  | [], _, _, acc => acc
  | block :: rest, offset, buf, acc =>
    if acc.length < maxlen then
      let buf1 := (io.loadSmallBlock block buf io.bbat.blockSize).1
      let count0 := io.sbat.blockSize - offset
      let count := if count0 > maxlen - acc.length then maxlen - acc.length else count0
      readSmallLoop io maxlen rest 0 buf1 (acc ++ slice buf1 offset count)
    else acc

/-- The loop of the big-file branch of `StreamIO::read(pos, data, maxlen)`. -/
def readBigLoop (io : StorageIO) (maxlen : Nat) :
    List Nat → Nat → List Nat → List Nat → List Nat
  | [], _, _, acc => acc
  | block :: rest, offset, buf, acc =>
    if acc.length < maxlen then
      let buf1 := (io.loadBigBlock block buf io.bbat.blockSize).1
      let count0 := io.bbat.blockSize - offset
      let count := if count0 > maxlen - acc.length then maxlen - acc.length else count0
      readBigLoop io maxlen rest 0 buf1 (acc ++ slice buf1 offset count)
    else acc

/-- Source `StreamIO::read(pos, data, maxlen)`: the bytes copied to `data`, in order; the
returned count `totalbytes` is the length of the list. The clamp
`maxlen = entry->size - pos` is 32-bit unsigned arithmetic. -/
def read (io : StorageIO) (s : StreamIO) (pos maxlen : Nat) : List Nat :=
  if maxlen = 0 then []
  else
    let entry := entAt io.dirtree.entries s.entryIdx
    let maxlen1 :=
      if (pos + maxlen) % 2 ^ 32 > entry.size then (entry.size + 2 ^ 32 - pos) % 2 ^ 32
      else maxlen
    if entry.size < io.header.threshold then
      let index := pos / io.sbat.blockSize
      if index ≥ s.blocks.length then []
      else
        readSmallLoop io maxlen1 (s.blocks.drop index) (pos % io.sbat.blockSize)
          (List.replicate io.sbat.blockSize 0) []
    else
      let index := pos / io.bbat.blockSize
      if index ≥ s.blocks.length then []
      else
        readBigLoop io maxlen1 (s.blocks.drop index) (pos % io.bbat.blockSize)
          (List.replicate io.bbat.blockSize 0) []

/-- Source `StreamIO::read(data, maxlen)`: a read at the cursor, which then advances by the
number of bytes read. -/
def readCur (io : StorageIO) (s : StreamIO) (maxlen : Nat) : StreamIO × List Nat :=
  let bytes := read io s s.tell maxlen
  ({ s with m_pos := s.m_pos + bytes.length }, bytes)

/-- The loop `while (bbidx >= io->header->num_sbat)` of `StreamIO::write`: the small table's
own chain on the big table gets one more sector and `num_sbat` grows by one, so
`bbidx + 1 - num_sbat` iterations are enough. -/
def sbatGrowLoop : Nat → Nat → StorageIO → Option StorageIO
  | 0, _, io => some io
  | fuel + 1, bbidx, io =>
    if bbidx ≥ io.header.num_sbat then
      match io.bbat.follow io.header.sbat_start with
      | none => none
      | some sbat_blocks =>
        let io1 := (io.ExtendFile sbat_blocks).1
        sbatGrowLoop fuel bbidx
          { io1 with header := { io1.header with num_sbat := io1.header.num_sbat + 1 } }
    else some io

/-- The loop `while (sidx >= io->sb_blocks.size()) io->ExtendFile(&io->sb_blocks)`. -/
def sbBlocksGrowLoop : Nat → Nat → StorageIO → StorageIO
  | 0, _, io => io
  | fuel + 1, sidx, io =>
    if sidx ≥ io.sb_blocks.length then
      let r := io.ExtendFile io.sb_blocks
      sbBlocksGrowLoop fuel sidx { r.1 with sb_blocks := r.2.1 }
    else io

/-- The loop `while (index >= blocks.size())` of the small-file branch of `StreamIO::write`:
every iteration claims one small sector, so `index + 1 - blocks.size()` iterations are enough. -/
def growSmallLoop : Nat → Nat → StorageIO → List Nat → Option ( StorageIO × List Nat)
  | 0, _, io, blocks => some (io, blocks)
  | fuel + 1, index, io, blocks =>
    if index ≥ blocks.length then
      let r := io.sbat.unused
      let nblock := r.1
      let sb1 :=
        if blocks.length > 0 then
          let last := blocks.getD (blocks.length - 1) 0
          (r.2.set last nblock).markAsDirty last io.bbat.blockSize
        else r.2
      let sb2 := (sb1.set nblock AllocTable.Eof).markAsDirty nblock io.bbat.blockSize
      let io1 := { io with sbat := sb2 }
      let bbidx := nblock / (io1.bbat.blockSize / 4)
      match sbatGrowLoop (bbidx + 1 - io1.header.num_sbat) bbidx io1 with
      | none => none
      | some io2 =>
        let sidx := nblock * io2.sbat.blockSize % 2 ^ 32 / io2.bbat.blockSize
        growSmallLoop fuel index (sbBlocksGrowLoop (sidx + 1 - io2.sb_blocks.length) sidx io2)
          (blocks ++ [nblock])
    else some (io, blocks)

/-- The loop `while (index >= blocks.size()) io->ExtendFile(&blocks)` of the big-file branch
of `StreamIO::write`. -/
def growBigLoop : Nat → Nat → StorageIO → List Nat → StorageIO × List Nat
  | 0, _, io, blocks => (io, blocks)
  | fuel + 1, index, io, blocks =>
    if index ≥ blocks.length then
      let r := io.ExtendFile blocks
      growBigLoop fuel index r.1 r.2.1
    else (io, blocks)

/-- The loop `while (remainder > 0)` of the big-file branch of `StreamIO::write` over the
blocks from `index` on: the container and `totalbytes` afterwards. -/
def writeBigLoop (data : List Nat) :
    List Nat → Nat → Nat → Nat → StorageIO → StorageIO × Nat
  | [], _, _, totalbytes, io => (io, totalbytes)
  | block :: rest, offset, remainder, totalbytes, io =>
    if remainder > 0 then
      let count0 := io.bbat.blockSize - offset
      let count := if remainder < count0 then remainder else count0
      writeBigLoop data rest 0 (remainder - count) (totalbytes + count)
        (io.saveBigBlock block offset (data.drop totalbytes) count).1
    else (io, totalbytes)

/-- The body of `StreamIO::write(pos, data, len)` after the sanity checks and the call of
`setSize`: the chain is lengthened, the bytes are stored, `entry->start` is brought in line
with the chain and the cursor advances by `len`. The index `(pos + len - 1) / blockSize` is
32-bit unsigned arithmetic; `len` is not 0 here. -/
def writeCore (io : StorageIO) (s : StreamIO) (pos : Nat) (data : List Nat) (len : Nat) :
    Option ( StorageIO × StreamIO × Nat) :=
  let entry := entAt io.dirtree.entries s.entryIdx
  let r : Option ( StorageIO × List Nat × Nat) :=
    if entry.size < io.header.threshold then
      let index := (pos + len - 1) % 2 ^ 32 / io.sbat.blockSize
      match growSmallLoop (index + 1 - s.blocks.length) index io s.blocks with
      | none => none
      | some g =>
        let w := g.1.saveSmallBlocks g.2 (pos % g.1.sbat.blockSize) data len
          (pos / g.1.sbat.blockSize)
        some (w.1, g.2, w.2)
    else
      let index := (pos + len - 1) % 2 ^ 32 / io.bbat.blockSize
      let g := growBigLoop (index + 1 - s.blocks.length) index io s.blocks
      let w := writeBigLoop data (g.2.drop (pos / g.1.bbat.blockSize))
        (pos % g.1.bbat.blockSize) len 0 g.1
      some (w.1, g.2, w.2)
  match r with
  | none => none
  | some (io1, blocks, totalbytes) =>
    let entry1 := entAt io1.dirtree.entries s.entryIdx
    let io2 :=
      if blocks.length > 0 ∧ entry1.start ≠ blocks.getD 0 0 then
        let dt1 := io1.dirtree.modify s.entryIdx (fun e => { e with start := blocks.getD 0 0 })
        { io1 with dirtree := dt1.markAsDirty s.entryIdx io1.bbat.blockSize }
      else io1
    some (io2, { s with blocks := blocks, m_pos := s.m_pos + len }, totalbytes)

/-- The loop of `StreamIO::setSize` that frees the old chain: every sector is set to `Avail`
and `markAsDirty` is called with the loop counter `idx`. -/
def freeLoop (bigBlockSize : Nat) : List Nat → Nat → AllocTable → AllocTable
  | [], _, t => t
  | b :: rest, idx, t =>
    freeLoop bigBlockSize rest (idx + 1) ((t.set b AllocTable.Avail).markAsDirty idx bigBlockSize)

/-- Source `StreamIO::setSize`. The call `write(0, buffer, len)` inside has
`len <= entry->size`, so it never calls `setSize` again: the model calls `writeCore`. The
scratch buffer holds the bytes read, then zeros up to `len`. -/
def setSize (io : StorageIO) (s : StreamIO) (newSize : Nat) : Option ( StorageIO × StreamIO) :=
  if io.writeable = false then some (io, s)
  else
    let entry := entAt io.dirtree.entries s.entryIdx
    let bOver := decide (newSize ≥ io.header.threshold ∧ entry.size < io.header.threshold)
    let bUnder := decide (newSize < io.header.threshold ∧ entry.size ≥ io.header.threshold)
    if bOver = true ∨ bUnder = true then
      let len := if newSize > entry.size then entry.size else newSize
      let savePos := s.tell
      let rd := if len ≠ 0 then readCur io (s.seek 0) len else (s, [])
      let s1 := rd.1
      let buffer := rd.2 ++ List.replicate (len - rd.2.length) 0
      let io1 :=
        if bOver = true then { io with sbat := freeLoop io.bbat.blockSize s1.blocks 0 io.sbat }
        else { io with bbat := freeLoop io.bbat.blockSize s1.blocks 0 io.bbat }
      let s2 := { s1 with blocks := [] }
      let dt1 := io1.dirtree.modify s.entryIdx (fun e => { e with start := DirTree.End })
      let dt2 := dt1.modify s.entryIdx (fun e => { e with size := newSize })
      let io2 := { io1 with dirtree := dt2.markAsDirty s.entryIdx io1.bbat.blockSize }
      let w : Option ( StorageIO × StreamIO) :=
        if len ≠ 0 then (writeCore io2 s2 0 buffer len).map (fun r => (r.1, r.2.1))
        else some (io2, s2)
      match w with
      | none => none
      | some (io3, s3) =>
        if savePos ≤ (entAt io3.dirtree.entries s.entryIdx).size then some (io3, s3.seek savePos)
        else some (io3, s3)
    else if entry.size ≠ newSize then
      let dt1 := io.dirtree.modify s.entryIdx (fun e => { e with size := newSize })
      some ({ io with dirtree := dt1.markAsDirty s.entryIdx io.bbat.blockSize }, s)
    else some (io, s)

/-- Source `StreamIO::write(pos, data, len)`: the container, the stream and the returned count
afterwards; `none` when a chain walk never ends. The sum `pos + len` is 32-bit unsigned
arithmetic. -/
def write (io : StorageIO) (s : StreamIO) (pos : Nat) (data : List Nat) (len : Nat) :
    Option ( StorageIO × StreamIO × Nat) :=
  if len = 0 then some (io, s, 0)
  else if io.writeable = false then some (io, s, 0)
  else
    let entry := entAt io.dirtree.entries s.entryIdx
    if (pos + len) % 2 ^ 32 > entry.size then
      match setSize io s ((pos + len) % 2 ^ 32) with
      | none => none
      | some r => writeCore r.1 r.2 pos data len
    else writeCore io s pos data len

/-- Source `StreamIO::write(data, len)`: a write at the cursor. -/
def writeCur (io : StorageIO) (s : StreamIO) (data : List Nat) (len : Nat) :
    Option ( StorageIO × StreamIO × Nat) :=
  write io s s.tell data len

end StreamIO

namespace StorageIO

/-- Source `StorageIO::streamIO`: the container afterwards and the stream, `none` inside for
the null pointer. -/
def streamIO (io : StorageIO) (name : List Nat) (bCreate : Bool) (streamSize : Nat) :
    Option ( StorageIO × Option StreamIO) :=
  if name.length = 0 then some (io, none)
  else
    match DirTree.entryByName io name bCreate io.bbat.blockSize streamSize with
    | none => none
    | some (io1, none) => some (io1, none)
    | some (io1, some e) =>
      if (entAt io1.dirtree.entries e).dir = true then some (io1, none)
      else
        match StreamIO.new io1 e with
        | none => none
        | some s => some (io1, some { s with fullName := name })

end StorageIO

/-- A freshly created container: the constructor, then `open` with `bCreate = true`. The
arguments are the values that the unset flags of the two tables happen to hold. -/
def freshContainer (fragB fragS : Bool) : StorageIO :=
  ( StorageIO.new fragB fragS).openCreate

/-- The stream `/a` on a fresh container after `write(0, data, 100)` with 100 bytes of value 7
and `setSize(10)`: the entry size is 10 and the chain in memory still has two small sectors. -/
def shrunkStream : Option ( StorageIO × StreamIO) :=
  match StorageIO.streamIO (freshContainer true true) (str "/a") true 0 with
  | some (io, some st) =>
    match StreamIO.write io st 0 (List.replicate 100 7) 100 with
    | some w => StreamIO.setSize w.1 w.2.1 10
    | none => none
  | _ => none

/-! ## Serialisation and flush -/

namespace Header

/-- Source `Header::save`: the 512 bytes of the buffer afterwards. The stores are made in the
order of the source on a buffer whose first `0x4c` bytes were cleared by `memset`; the loop
over `bb_blocks` fills the rest. -/
def save (h : Header) : List Nat :=
  let b0 := List.replicate 512 0
  let b1 := poke b0 0 pole_magic
  let b2 := poke b1 8 (writeU32 0)
  let b3 := poke b2 12 (writeU32 0)
  let b4 := poke b3 16 (writeU32 0)
  let b5 := poke b4 24 (writeU16 0x003e)
  let b6 := poke b5 26 (writeU16 3)
  let b7 := poke b6 28 (writeU16 0xfffe)
  let b8 := poke b7 0x1e (writeU16 h.b_shift)
  let b9 := poke b8 0x20 (writeU16 h.s_shift)
  let b10 := poke b9 0x2c (writeU32 h.num_bat)
  let b11 := poke b10 0x30 (writeU32 h.dirent_start)
  let b12 := poke b11 0x38 (writeU32 h.threshold)
  let b13 := poke b12 0x3c (writeU32 h.sbat_start)
  let b14 := poke b13 0x40 (writeU32 h.num_sbat)
  let b15 := poke b14 0x44 (writeU32 h.mbat_start)
  let b16 := poke b15 0x48 (writeU32 h.num_mbat)
  poke b16 0x4c ((List.range 109).flatMap (fun i => writeU32 (h.bb_blocks.getD i 0)))

/-- The 32-bit value read by `readU32(buffer + off)`. -/
def u32At (buffer : List Nat) (off : Nat) : Nat :=
  readU32 (buffer.getD off 0) (buffer.getD (off + 1) 0) (buffer.getD (off + 2) 0)
    (buffer.getD (off + 3) 0)

/-- The 16-bit value read by `readU16(buffer + off)`. -/
def u16At (buffer : List Nat) (off : Nat) : Nat :=
  readU16 (buffer.getD off 0) (buffer.getD (off + 1) 0)

/-- Source `Header::load`. -/
def load (buffer : List Nat) : Header :=
  { id := (List.range 8).map (fun i => buffer.getD i 0)
    b_shift := u16At buffer 0x1e
    s_shift := u16At buffer 0x20
    num_bat := u32At buffer 0x2c
    dirent_start := u32At buffer 0x30
    threshold := u32At buffer 0x38
    sbat_start := u32At buffer 0x3c
    num_sbat := u32At buffer 0x40
    mbat_start := u32At buffer 0x44
    num_mbat := u32At buffer 0x48
    bb_blocks := (List.range 109).map (fun i => u32At buffer (0x4c + i * 4))
    dirty := false }

end Header

namespace DirTree

/-- The loop that stores a name as 16-bit units, low byte first, from character `j` on. -/
def pokeName (base : Nat) : List Nat → Nat → List Nat → List Nat
  | [], _, buffer => buffer
  | c :: cs, j, buffer => pokeName base cs (j + 1) (poke buffer (base + j * 2) [c])

/-- The entries as `DirTree::save` leaves them in memory: for every entry but the root that
is a storage, `start` becomes `0xffffffff` and `size` 0. -/
def saveEntries (es : List DirEntry) : List DirEntry :=
  match es with
  | [] => []
  | root :: rest =>
    root :: rest.map (fun e => if e.dir = true then { e with start := 0xffffffff, size := 0 }
      else e)

/-- The stores of `DirTree::save` for the root record, at offset 0. -/
def saveRoot (buffer : List Nat) (root : DirEntry) : List Nat :=
  let b1 := pokeName 0 (str "Root Entry") 0 buffer
  let b2 := poke b1 0x40 (writeU16 ((str "Root Entry").length * 2 + 2))
  let b3 := poke b2 0x74 (writeU32 0xffffffff)
  let b4 := poke b3 0x78 (writeU32 0)
  let b5 := poke b4 0x44 (writeU32 0xffffffff)
  let b6 := poke b5 0x48 (writeU32 0xffffffff)
  let b7 := poke b6 0x4c (writeU32 root.child)
  poke b7 0x42 [5]

/-- The stores of one iteration of the loop of `DirTree::save`, for the entry `e` (already
brought into the form of `saveEntries`) at index `i`. -/
def saveRecord (buffer : List Nat) (i : Nat) (e : DirEntry) : List Nat :=
  let name := e.name.take 32
  let b1 := pokeName (i * 128) name 0 buffer
  let b2 := poke b1 (i * 128 + 0x40) (writeU16 (name.length * 2 + 2))
  let b3 := poke b2 (i * 128 + 0x74) (writeU32 e.start)
  let b4 := poke b3 (i * 128 + 0x78) (writeU32 e.size)
  let b5 := poke b4 (i * 128 + 0x44) (writeU32 e.prev)
  let b6 := poke b5 (i * 128 + 0x48) (writeU32 e.next)
  let b7 := poke b6 (i * 128 + 0x4c) (writeU32 e.child)
  let b8 := poke b7 (i * 128 + 0x42) [if e.valid = false then 0 else if e.dir = true then 1 else 2]
  poke b8 (i * 128 + 0x43) [1]

/-- The loop of `DirTree::save` over the entries from index `i` on. -/
def saveLoop : List DirEntry → Nat → List Nat → List Nat
  | [], _, buffer => buffer
  | e :: es, i, buffer => saveLoop es (i + 1) (saveRecord buffer i e)

/-- Source `DirTree::save`: the bytes of the buffer, `size()` of them. -/
def save (dt : DirTree) : List Nat :=
  let b0 := List.replicate (dt.entryCount * 128) 0
  match saveEntries dt.entries with
  | [] => b0
  | root :: rest => saveLoop rest 1 (saveRoot b0 root)

end DirTree

namespace StorageIO

/-- The loop of `AllocTable::flush` and of `DirTree::flush` over the backing sectors from
index `idx` on: a sector whose index is in `dirtyBlocks` is written from `buffer`, at most
`bufLen` bytes in all (`bufLen - pos` is a 32-bit subtraction). -/
def flushLoop (buffer : List Nat) (bufLen : Nat) (dirtyBlocks : List Nat) (bigBlockSize : Nat) :
    List Nat → Nat → StorageIO → StorageIO
  | [], _, io => io
  | block :: rest, idx, io =>
    let pos := bigBlockSize * idx
    let bytesToWrite :=
      if (bufLen + 2 ^ 32 - pos) % 2 ^ 32 < bigBlockSize then (bufLen + 2 ^ 32 - pos) % 2 ^ 32
      else bigBlockSize
    flushLoop buffer bufLen dirtyBlocks bigBlockSize rest (idx + 1)
      (if idx ∈ dirtyBlocks then (io.saveBigBlock block 0 (buffer.drop pos) bytesToWrite).1
       else io)

/-- The loop of `AllocTable::flush`: every dirty backing sector gets a whole block of the
buffer. -/
def flushTableLoop (buffer : List Nat) (dirtyBlocks : List Nat) (bigBlockSize : Nat) :
    List Nat → Nat → StorageIO → StorageIO
  | [], _, io => io
  | block :: rest, idx, io =>
    flushTableLoop buffer dirtyBlocks bigBlockSize rest (idx + 1)
      (if idx ∈ dirtyBlocks then
        (io.saveBigBlock block 0 (buffer.drop (bigBlockSize * idx)) bigBlockSize).1
       else io)

/-- Source `StorageIO::getbbatBlocks` with `bLoading = false`: `num_bat` slots, the first 109
from the header and the others from `mbat_data`. The copy loop of the source stops once slot
`num_bat - 1` is written; stores past the end of `blocks` are left out. -/
def getbbatBlocks (io : StorageIO) : List Nat :=
  let n := io.header.num_bat
  let blocks := (List.range n).map
    (fun i => if i < 109 then io.header.bb_blocks.getD i 0 else 0)
  (List.range (io.mbat_data.length)).foldl
    (fun bl idx => if idx < n - 109 then bl.set (109 + idx) (io.mbat_data.getD idx 0) else bl)
    blocks

/-- Source `StorageIO::flushbbat`: `bbat->flush(getbbatBlocks(false), this, blockSize)`; the
table's dirty set is cleared. Bytes of the buffer past the saved table are zero in the model. -/
def flushbbat (io : StorageIO) : StorageIO :=
  let io1 := flushTableLoop io.bbat.save io.bbat.dirtyBlocks io.bbat.blockSize io.getbbatBlocks 0
    io
  { io1 with bbat := { io1.bbat with dirtyBlocks := [] } }

/-- Source `StorageIO::flushsbat`. -/
def flushsbat (io : StorageIO) : Option StorageIO :=
  match io.bbat.follow io.header.sbat_start with
  | none => none
  | some blocks =>
    let io1 := flushTableLoop io.sbat.save io.sbat.dirtyBlocks io.bbat.blockSize blocks 0 io
    some { io1 with sbat := { io1.sbat with dirtyBlocks := [] } }

/-- The call of `DirTree::flush` in `StorageIO::flush`: the directory is saved (which also
rewrites the storages in memory), the root record gets the start and the size of the small
pool, and the dirty sectors of the directory chain are written. -/
def flushDirtree (io : StorageIO) : Option StorageIO :=
  match io.bbat.follow io.header.dirent_start with
  | none => none
  | some blocks =>
    let sb_start := if io.sb_blocks.length > 0 then io.sb_blocks.getD 0 0 else 0xffffffff
    let sb_size := io.sb_blocks.length * io.bbat.blockSize
    let bufLen := io.dirtree.entryCount * 128
    let buffer := poke (poke io.dirtree.save 0x74 (writeU32 sb_start)) 0x78 (writeU32 sb_size)
    let io1 := flushLoop buffer bufLen io.dirtree.dirtyBlocks io.bbat.blockSize blocks 0
      { io with dirtree := { io.dirtree with entries := DirTree.saveEntries io.dirtree.entries } }
    some { io1 with dirtree := { io1.dirtree with dirtyBlocks := [] } }

/-- The loop of `StorageIO::flush` that lays out `mbat_data` with the link to the next
meta-table sector after every `blockCapacity` entries. -/
def mbatBuffer (mbat_blocks : List Nat) (blockCapacity : Nat) :
    List Nat → Nat → Nat → List Nat → List Nat
  | [], _, _, buffer => buffer
  | d :: ds, dcount, blockIdx, buffer =>
    let b1 := buffer ++ writeU32 d
    if dcount + 1 = blockCapacity then
      let link := if blockIdx + 1 = mbat_blocks.length then AllocTable.Eof
        else mbat_blocks.getD (blockIdx + 1) 0
      mbatBuffer mbat_blocks blockCapacity ds 0 (blockIdx + 1) (b1 ++ writeU32 link)
    else mbatBuffer mbat_blocks blockCapacity ds (dcount + 1) blockIdx b1

/-- Source `StorageIO::flush`; `none` when a chain walk never ends. The header is written at
position 0 when it is dirty, then the two tables, the directory and the meta-table sectors. -/
def flush (io : StorageIO) : Option StorageIO :=
  let io1 :=
    if io.header.dirty = true then
      { io with file := fileWrite io.file 0 io.header.save
                header := { io.header with dirty := false } }
    else io
  let io2 := if io1.bbat.isDirty = true then io1.flushbbat else io1
  match (if io2.sbat.isDirty = true then io2.flushsbat else some io2) with
  | none => none
  | some io3 =>
    match (if io3.dirtree.isDirty = true then io3.flushDirtree else some io3) with
    | none => none
    | some io4 =>
      if io4.mbatDirty = true ∧ io4.mbat_blocks.length > 0 then
        let nBytes := io4.bbat.blockSize * io4.mbat_blocks.length % 2 ^ 32
        let buffer := mbatBuffer io4.mbat_blocks (io4.bbat.blockSize / 4 - 1) io4.mbat_data 0 0 []
        some { (io4.saveBigBlocks io4.mbat_blocks 0 buffer nBytes).1 with mbatDirty := false }
      else some io4

/-- Source `StorageIO::deleteLeaf` for the entry at index `e`: the chain of the stream is
freed in the table of its pool (`markAsDirty` gets the loop counter), then the entry is
deleted. -/
def deleteLeaf (io : StorageIO) (e : Nat) (fullName : List Nat) : Option ( StorageIO × Bool) :=
  let entry := entAt io.dirtree.entries e
  let freed : Option StorageIO :=
    if entry.size ≥ io.header.threshold then
      (io.bbat.follow entry.start).map (fun blocks =>
        { io with bbat := StreamIO.freeLoop io.bbat.blockSize blocks 0 io.bbat })
    else
      (io.sbat.follow entry.start).map (fun blocks =>
        { io with sbat := StreamIO.freeLoop io.bbat.blockSize blocks 0 io.sbat })
  match freed with
  | none => none
  | some io1 =>
    match io1.dirtree.deleteEntry e fullName io1.bbat.blockSize with
    | none => none
    | some dt => some ({ io1 with dirtree := dt }, true)

/-- Source `StorageIO::deleteNode` for the entry at index `e`. One pass of the `while` loop
deletes the entry at `entry->child` and then the loop goes on; the model makes the rest of the
loop a call of the function on the same entry. `fuel` bounds the nesting of calls and
passes; `none` when it runs out or when a callee does not return. -/
def deleteNode : Nat → StorageIO → Nat → List Nat → Option ( StorageIO × Bool)
  | 0, _, _, _ => none
  | fuel + 1, io, e, fullName =>
    let lclName := if fullName.getLast? ≠ some 47 then fullName ++ [47] else fullName
    let entry := entAt io.dirtree.entries e
    if entry.child ≠ 0 ∧ entry.child < io.dirtree.entryCount then
      let childEnt := entAt io.dirtree.entries entry.child
      let childFullName := lclName ++ childEnt.name
      match (if childEnt.dir = true then deleteNode fuel io entry.child childFullName
             else io.deleteLeaf entry.child childFullName) with
      | none => none
      | some r => if r.2 = false then some (r.1, false) else deleteNode fuel r.1 e fullName
    else
      match io.dirtree.deleteEntry e fullName io.bbat.blockSize with
      | none => none
      | some dt => some ({ io with dirtree := dt }, true)

/-- Source `StorageIO::deleteByName`: the container afterwards and the returned flag. Every
pass and every call of `deleteNode` on a directory forest deletes an entry for good, so
`entryCount + 1` bounds their nesting. -/
def deleteByName (io : StorageIO) (fullName : List Nat) : Option ( StorageIO × Bool) :=
  if fullName.length = 0 then some (io, false)
  else if io.writeable = false then some (io, false)
  else
    match io.dirtree.lookup fullName with
    | none => none
    | some none => some (io, false)
    | some (some e) =>
      match (if (entAt io.dirtree.entries e).dir = true then
               deleteNode (io.dirtree.entryCount + 1) io e fullName
             else io.deleteLeaf e fullName) with
      | none => none
      | some r =>
        if r.2 = true then
          match r.1.flush with
          | none => none
          | some io1 => some (io1, true)
        else some (r.1, false)

end StorageIO

/-- The container `fourNames` as it is when opened without write access. -/
def readOnlyFour : StorageIO := { fourNames with writeable := false }

/-- A stream object for entry 1 (`aaa`) of `readOnlyFour`, with an empty chain. -/
def streamOne : StreamIO :=
  { entryIdx := 1, fullName := str "/aaa", eof := false, fail := false, blocks := [],
    m_pos := 0, cache_data := List.replicate 4096 0, cache_size := 0, cache_pos := 0 }

/-- The scenario of deleting and reusing: on a fresh container the stream `/x` is created with
size `n` and `n` bytes are written to it, `/x` is deleted, then `/y` is created and written
in the same way. The result is the chain of `/x` before the deletion, the chain of `/y`
afterwards, and the directory indices of the two entries. -/
def deleteAndReuse (fragB fragS : Bool) (n : Nat) :
    Option (List Nat × List Nat × Nat × Nat) :=
  match StorageIO.streamIO (freshContainer fragB fragS) (str "/x") true n with
  | some (io1, some sx) =>
    match StreamIO.write io1 sx 0 (List.replicate n 1) n with
    | some (io2, sx2, _) =>
      match io2.deleteByName (str "/x") with
      | some (io3, _) =>
        match StorageIO.streamIO io3 (str "/y") true n with
        | some (io4, some sy) =>
          match StreamIO.write io4 sy 0 (List.replicate n 2) n with
          | some (_, sy2, _) => some (sx2.blocks, sy2.blocks, sx2.entryIdx, sy2.entryIdx)
          | none => none
        | _ => none
      | none => none
    | none => none
  | _ => none

/-! ## Loading a container -/

namespace DirTree

/-- The loop of `DirTree::load` that collects the name of the record at offset `p`: the low
bytes of the 16-bit units, up to the first zero byte or `name_len` bytes. `name_len` is at most
64, so 33 units of `fuel` are enough. -/
def loadNameLoop (buffer : List Nat) (p name_len : Nat) : Nat → Nat → List Nat → List Nat
  | 0, _, acc => acc
  | fuel + 1, j, acc =>
    if buffer.getD (j + p) 0 ≠ 0 ∧ j < name_len then
      loadNameLoop buffer p name_len fuel (j + 2) (acc ++ [buffer.getD (j + p) 0])
    else acc

/-- The body of the loop of `DirTree::load`: the entry read from the record of index `i`. -/
def loadEntry (buffer : List Nat) (i : Nat) : DirEntry :=
  let p := i * 128
  let name_len0 := Header.u16At buffer (0x40 + p)
  let name_len := if name_len0 > 64 then 64 else name_len0
  let name0 := loadNameLoop buffer p name_len 33 0 []
  let name := if buffer.getD p 0 < 32 then name0.drop 1 else name0
  let type := buffer.getD (0x42 + p) 0
  { valid := decide (type ≠ 0 ∧ (type = 2 ∨ type = 1 ∨ type = 5) ∧ ¬ name_len < 1)
    name := name
    start := Header.u32At buffer (0x74 + p)
    size := Header.u32At buffer (0x78 + p)
    prev := Header.u32At buffer (0x44 + p)
    next := Header.u32At buffer (0x48 + p)
    child := Header.u32At buffer (0x4c + p)
    dir := decide (type ≠ 2) }

/-- Source `DirTree::load`: the entries are replaced by the `size / 128` records of `buffer`. -/
def load (dt : DirTree) (buffer : List Nat) (size : Nat) : DirTree :=
  { dt with entries := (List.range (size / 128)).map (loadEntry buffer) }

end DirTree

namespace StorageIO

/-- The state of the loops of `getbbatBlocks(true)`: the counters `k` and `mdidx`, the vector
`blocks`, the two meta-table vectors and the sector buffer `buffer2`. -/
structure BatLoad where
  k : Nat
  mdidx : Nat
  blocks : List Nat
  mbat_blocks : List Nat
  mbat_data : List Nat
  buffer2 : List Nat
deriving DecidableEq, Repr

/-- The inner loop of `getbbatBlocks(true)` over the offsets `s` of one meta-table sector:
until `k` reaches `num_bat`, the slot is stored in `blocks[k]` and in `mbat_data[mdidx]`. -/
def batLoadInner (num_bat : Nat) : List Nat → BatLoad → BatLoad
  | [], st => st
  | s :: rest, st =>
    if st.k ≥ num_bat then st
    else
      let v := Header.u32At st.buffer2 s
      batLoadInner num_bat rest
        { st with blocks := st.blocks.set st.k v, mbat_data := st.mbat_data.set st.mdidx v,
                  mdidx := st.mdidx + 1, k := st.k + 1 }

/-- The outer loop of `getbbatBlocks(true)` over the meta-table sectors `r`: the first one is
`mbat_start`, every later one is the slot read last, which is taken back from `blocks` and
from `mbat_data`. The vector `mbat_data` is grown to a whole sector per meta-table sector. -/
def batLoadOuter (io : StorageIO) : List Nat → BatLoad → BatLoad
  | [], st => st
  | r :: rest, st =>
    let st1 := if r = 0 then st else { st with k := st.k - 1, mdidx := st.mdidx - 1 }
    let sector := if r = 0 then io.header.mbat_start else st1.blocks.getD st1.k 0
    let mb := st1.mbat_blocks ++ [sector]
    let n := mb.length * (io.bbat.blockSize / 4)
    let md := st1.mbat_data.take n ++ List.replicate (n - st1.mbat_data.length) 0
    let buf := (io.loadBigBlock sector st1.buffer2 io.bbat.blockSize).1
    batLoadOuter io rest
      (batLoadInner io.header.num_bat ((List.range ((io.bbat.blockSize + 3) / 4)).map (· * 4))
        { st1 with mbat_blocks := mb, mbat_data := md, buffer2 := buf })

/-- Source `StorageIO::getbbatBlocks` with `bLoading = true`: the container with the two
meta-table vectors rebuilt from the file, and the list of the table's sectors. -/
def getbbatBlocksLoading (io : StorageIO) : StorageIO × List Nat :=
  let n := io.header.num_bat
  let blocks := (List.range n).map
    (fun i => if i < 109 then io.header.bb_blocks.getD i 0 else 0)
  if n > 109 ∧ io.header.num_mbat > 0 then
    let st := batLoadOuter io (List.range io.header.num_mbat)
      { k := 109, mdidx := 0, blocks := blocks, mbat_blocks := [], mbat_data := [],
        buffer2 := List.replicate io.bbat.blockSize 0 }
    ({ io with mbat_blocks := st.mbat_blocks, mbat_data := st.mbat_data.take st.mdidx },
      st.blocks)
  else ({ io with mbat_blocks := [], mbat_data := [] }, blocks)

/-- The part "load big bat" of `StorageIO::load`; the buffer length is a 32-bit product. The
buffer that the source allocates with `new unsigned char[buflen]` is not initialised: where
a sector lies past the end of the host file its bytes are indeterminate in the source and
zero in the model. -/
def loadBbat (io : StorageIO) : StorageIO :=
  let g := io.getbbatBlocksLoading
  let buflen : Nat := g.2.length * g.1.bbat.blockSize % 2 ^ 32
  let bbuf := (g.1.loadBigBlocks g.2 (List.replicate buflen 0) buflen).1
  if buflen > 0 then { g.1 with bbat := g.1.bbat.load bbuf buflen } else g.1

/-- The part "load small bat" of `StorageIO::load`; `none` when the chain walk never ends.
The buffer starts as zero bytes in the model and is not initialised in the source. -/
def loadSbat (io : StorageIO) : Option StorageIO :=
  match io.bbat.follow io.header.sbat_start with
  | none => none
  | some sblocks =>
    let buflen : Nat := sblocks.length * io.bbat.blockSize % 2 ^ 32
    let sbuf := (io.loadBigBlocks sblocks (List.replicate buflen 0) buflen).1
    some (if buflen > 0 then { io with sbat := io.sbat.load sbuf buflen } else io)

/-- The end of `StorageIO::load`: the directory is read from its chain, `sb_blocks` is the
chain that starts at the `start` field of the root record, and the result is `Ok`. The buffer
starts as zero bytes in the model and is not initialised in the source. -/
def loadDirtree (io : StorageIO) : Option StorageIO :=
  match io.bbat.follow io.header.dirent_start with
  | none => none
  | some dblocks =>
    let buflen : Nat := dblocks.length * io.bbat.blockSize % 2 ^ 32
    let buffer := (io.loadBigBlocks dblocks (List.replicate buflen 0) buflen).1
    let io1 := { io with dirtree := io.dirtree.load buffer buflen }
    match io1.bbat.follow (Header.u32At buffer 0x74) with
    | none => none
    | some sb => some { io1 with sb_blocks := sb, result := Result.Ok, opened := true }

/-- Source `StorageIO::load` for a host file that opens: `host` gives its bytes and `hostSize`
its length. The result is the container afterwards; `none` when a chain walk never ends. -/
def load (io : StorageIO) (host : Nat → Nat) (hostSize : Nat) : Option StorageIO :=
  let io0 := { io with result := Result.OpenFailed, file := host, filesize := hostSize }
  let io1 := { io0 with header := Header.load (fileRead host 0 512) }
  if io1.header.id ≠ pole_magic then some { io1 with result := Result.NotOLE }
  else if io1.header.valid = false ∨ io1.header.threshold ≠ 4096 then
    some { io1 with result := Result.BadOLE }
  else
    let bb := { io1.bbat with blockSize := 2 ^ io1.header.b_shift }
    let sb := { io1.sbat with blockSize := 2 ^ io1.header.s_shift }
    let io2 := { io1 with result := Result.BadOLE, bbat := bb, sbat := sb }
    match io2.loadBbat.loadSbat with
    | none => none
    | some io5 => io5.loadDirtree

/-- Source `StorageIO::open` with `bCreate = false` on a container that is not open yet. -/
def openLoad (io : StorageIO) (bWriteAccess : Bool) (host : Nat → Nat) (hostSize : Nat) :
    Option StorageIO :=
  ({ io with writeable := bWriteAccess } : StorageIO).load host hostSize

end StorageIO

/-- A host file of 1024 bytes: a header that passes the magic check and `Header::valid`
(`num_bat = 1`, the table in sector 0, the directory chain starting at sector 1), then the
table sector, in which slot 1 holds 1: the directory chain runs in a circle. -/
def cyclicFile : List Nat :=
  Header.save { Header.new with
    num_bat := 1, dirent_start := 1, sbat_start := AllocTable.Eof,
    bb_blocks := (Header.new).bb_blocks.set 0 0 } ++
  (writeU32 AllocTable.Bat ++ writeU32 1 ++
    (List.replicate 126 AllocTable.Avail).flatMap writeU32)

/-- The byte map of `cyclicFile`. -/
def cyclicHost : Nat → Nat := fun i => cyclicFile.getD i 0

/-- The scenario of a cursor past the new size: on a fresh container the stream `/a` is
created with size 0, 5000 bytes are written, the cursor is moved to 4500 and `setSize(100)`
is called. The result is the cursor afterwards and the entry size. -/
def shrinkWithCursor (fragB fragS : Bool) : Option (Nat × Nat) :=
  match StorageIO.streamIO (freshContainer fragB fragS) (str "/a") true 0 with
  | some (io, some st) =>
    match StreamIO.write io st 0 (List.replicate 5000 7) 5000 with
    | some (io2, st2, _) =>
      match StreamIO.setSize io2 (st2.seek 4500) 100 with
      | some (io3, st3) => some (st3.tell, (entAt io3.dirtree.entries st3.entryIdx).size)
      | none => none
    | none => none
  | _ => none

/-- The scenario of a small pool that grows between two flushes: on a fresh container the
streams `/a`, `/b`, `/c` and `/d` are created with size 0 and the container is flushed; then
600 bytes are written to `/d` (directory entry 4, in the second directory sector) and the
container is flushed again. The result is the `start` and `size` fields of the root record in
the host file (directory sector `dirent_start`, offsets 0x74 and 0x78), then `sb_blocks[0]`
and `|sb_blocks| * bigSize` in memory. -/
def rootAfterGrowth (fragB fragS : Bool) : Option (Nat × Nat × Nat × Nat) :=
  let io0 := createPath (createPath (createPath (freshContainer fragB fragS) "/a" 0) "/b" 0)
    "/c" 0
  match StorageIO.streamIO io0 (str "/d") true 0 with
  | some (io1, some st) =>
    match io1.flush with
    | some io2 =>
      match StreamIO.write io2 st 0 (List.replicate 600 7) 600 with
      | some (io3, _, _) =>
        match io3.flush with
        | some io4 =>
          let rec0 := fileRead io4.file (io4.bbat.blockSize * (io4.header.dirent_start + 1)) 128
          some (Header.u32At rec0 0x74, Header.u32At rec0 0x78, io4.sb_blocks.getD 0 0,
            io4.sb_blocks.length * io4.bbat.blockSize)
        | none => none
      | none => none
    | none => none
  | _ => none

namespace AllocTable

/-- The table `t2` extends `t1`: it is at least as long, has the same block size, and every
slot of `t1` that is in use (does not hold `Avail`) holds the same value in `t2`. This is what
an allocation does to the slots it does not claim. -/
def Ext (t1 t2 : AllocTable) : Prop :=
  t1.count ≤ t2.count ∧ t2.blockSize = t1.blockSize ∧
    ∀ i, i < t1.count → t1.get i ≠ Avail → t2.get i = t1.get i

/-- The list is a chain of the table: every element is a slot of the table that holds its
successor, and the last one holds `Eof`. -/
def IsChain (t : AllocTable) : List Nat → Prop
  | [] => True
  | a :: l => a < t.count ∧ t.get a = l.head?.getD Eof ∧ IsChain t l

/-- The chain that starts at `start`: a chain without repetition whose first element is
`start`; the empty chain starts at `Eof`. -/
def ChainFrom (t : AllocTable) (start : Nat) (l : List Nat) : Prop :=
  l.Nodup ∧ IsChain t l ∧ l.head?.getD Eof = start

end AllocTable

namespace StorageIO

/-- The big table covers its slots: `num_bat` table sectors hold at least `count` slots, and a
sector holds at least three slots. -/
def Covered (io : StorageIO) : Prop :=
  12 ≤ io.bbat.blockSize ∧ io.bbat.count ≤ io.header.num_bat * (io.bbat.blockSize / 4)

/-- What an allocation on the big table leaves in place: the host file, the directory, the
small table, the small-block chain and the header fields that describe streams. -/
structure Same (io io2 : StorageIO) : Prop where
  file : io2.file = io.file
  filesize : io2.filesize = io.filesize
  writeable : io2.writeable = io.writeable
  dirtree : io2.dirtree = io.dirtree
  sbat : io2.sbat = io.sbat
  sb_blocks : io2.sb_blocks = io.sb_blocks
  threshold : io2.header.threshold = io.header.threshold
  sbat_start : io2.header.sbat_start = io.header.sbat_start
  dirent_start : io2.header.dirent_start = io.header.dirent_start
  num_sbat : io2.header.num_sbat = io.header.num_sbat
  blockSize : io2.bbat.blockSize = io.bbat.blockSize

end StorageIO

namespace AllocTable

/-- The table `t2` extends `t1` but for the slot `x`: as `Ext`, with no promise about slot
`x` (the last element of the chain that an allocation lengthens). -/
def ExtBut (t1 t2 : AllocTable) (x : Option Nat) : Prop :=
  t1.count ≤ t2.count ∧ t2.blockSize = t1.blockSize ∧
    ∀ i, i < t1.count → t1.get i ≠ Avail → some i ≠ x → t2.get i = t1.get i

end AllocTable

namespace StorageIO

/-- What a transfer to the host file leaves in place: everything but the bytes of the file
and its size, which does not shrink. -/
structure FileOnly (io io2 : StorageIO) : Prop where
  filesize : io.filesize ≤ io2.filesize
  writeable : io2.writeable = io.writeable
  header : io2.header = io.header
  dirtree : io2.dirtree = io.dirtree
  bbat : io2.bbat = io.bbat
  sbat : io2.sbat = io.sbat
  sb_blocks : io2.sb_blocks = io.sb_blocks

end StorageIO

/-- The bytes `d` are stored in the big sectors `blocks` of the file `f` of size `fsz`, from
the start of the first sector on, `bbs` bytes to a sector, and lie inside the file. -/
def Stored (f : Nat → Nat) (fsz bbs : Nat) : List Nat → List Nat → Prop
  | [], d => d = []
  | b :: rest, d =>
    d = [] ∨ ((∀ i, i < min d.length bbs → f (bbs * (b + 1) + i) = d.getD i 0) ∧
      bbs * (b + 1) + min d.length bbs ≤ fsz ∧ Stored f fsz bbs rest (d.drop (min d.length bbs)))

/-- The stream `/data` created with size 0 on a fresh container, with its container; when the
creation does not give a stream, the fresh container and the stream object `streamOne`. -/
def dataStream (fragB fragS : Bool) : StorageIO × StreamIO :=
  match StorageIO.streamIO (freshContainer fragB fragS) (str "/data") true 0 with
  | some (io, some st) => (io, st)
  | _ => (freshContainer fragB fragS, streamOne)

/-! ## Tables with a cycle -/

namespace AllocTable

/-- A table whose only slot links to itself: `T[0] = 0`. -/
def selfLoop : AllocTable :=
  { blockSize := 512, data := [0], dirtyBlocks := [], bMaybeFragmented := false }

/-- A table whose two slots link to each other: `T[0] = 1` and `T[1] = 0`. -/
def twoCycle : AllocTable :=
  { blockSize := 512, data := [1, 0], dirtyBlocks := [], bMaybeFragmented := false }

/-- A table holding the chain 0, 1, 2 and a free slot. -/
def shortChain : AllocTable :=
  { blockSize := 512, data := [1, 2, Eof, Avail], dirtyBlocks := [], bMaybeFragmented := true }

end AllocTable

/-- A fresh container in which a stream with a name of 32 characters was created under the
root. -/
def longName : StorageIO :=
  createPath ( StorageIO.new false false).openCreate "/abcdefghijklmnopqrstuvwxyz012345" 0

namespace StorageIO

/-- The bookkeeping of the meta table is in step with `num_bat`: `mbat_data` holds the table
sectors beyond the 109 inline slots, `mbat_blocks` has one sector for every
`blockSize / 4 - 1` of them, and `num_mbat` counts `mbat_blocks`. -/
def MbatOK (io : StorageIO) : Prop :=
  io.mbat_data.length = io.header.num_bat - 109 ∧
  io.mbat_blocks.length = (io.header.num_bat - 109 + (io.bbat.blockSize / 4 - 1) - 1) /
    (io.bbat.blockSize / 4 - 1) ∧
  io.header.num_mbat = io.mbat_blocks.length

end StorageIO

/-- The entries that an ordered search for `nm` probes on its way down the tree `t`: at each
node the search stops on an equal name, goes left when the name of the node is greater than
`nm`, and right otherwise. -/
def Shape.probe (es : List DirEntry) (nm : List Nat) : Shape → List Nat
  | .leaf => []
  | .node l i r =>
    if cmpName (nameAt es i) nm = 0 then [i]
    else if cmpName (nameAt es i) nm > 0 then i :: Shape.probe es nm l
    else i :: Shape.probe es nm r

namespace DirTree

/-- The loop of `DirTree::parent` from `j` on, over at most `fuel` entries: the first entry
with `index` among its children, or -1. The result is `none` when a call of `children` does
not return. -/
def parentLoop (dt : DirTree) (index : Nat) : Nat → Nat → Option Int
  | 0, _ => some (-1)
  | fuel + 1, j =>
    match dt.children j with
    | none => none
    | some chi => if index ∈ chi then some (j : Int) else parentLoop dt index fuel (j + 1)

/-- Source `DirTree::parent`. -/
def parent (dt : DirTree) (index : Nat) : Option Int :=
  parentLoop dt index dt.entryCount 0

/-- The loop of `DirTree::fullName`: it runs over `p`, `p - 1`, ..., 1 and puts the name of
every valid storage among them in front of `result`. The result is `none` when `entry(p)`
is the null pointer, which the source dereferences. -/
def fullNameLoop (dt : DirTree) : Nat → List Nat → Option (List Nat)
  | 0, result => some result
  | p + 1, result =>
    match dt.entry (p + 1) with
    | none => none
    | some e =>
      fullNameLoop dt p (if e.dir = true ∧ e.valid = true then 47 :: (e.name ++ result)
        else result)

/-- Source `DirTree::fullName`. -/
def fullName (dt : DirTree) (index : Nat) : Option (List Nat) :=
  if index = 0 then some [47]
  else
    match dt.entry index with
    | none => none
    | some e =>
      match dt.parent index with
      | none => none
      | some p => fullNameLoop dt p.toNat (47 :: e.name)

end DirTree

/-- A fresh container in which the stream `/A/a` and then the stream `/B/x` were created. -/
def twoStorages : StorageIO :=
  createPath (createPath ( StorageIO.new false false).openCreate "/A/a" 0) "/B/x" 0
/-- The container `io` after the stream `name` was created and one byte was written to it at
position `pos`; `none` when a call does not return or the stream is not opened. -/
def writeByteAt (io : StorageIO) (name : String) (pos : Nat) : Option StorageIO :=
  match StorageIO.streamIO io (str name) true 0 with
  | some (io1, some st) => ( StreamIO.write io1 st pos [1] 1).map (fun w => w.1)
  | _ => none

/-- A fresh container with the small streams `/a` and `/b`, each written with one byte at
position 4094 (64 small blocks each), and `/c`, written with one byte at position 0 (one small
block), after `flush`. -/
def threeSmall (fragB fragS : Bool) : Option StorageIO :=
  match writeByteAt (freshContainer fragB fragS) "/a" 4094 with
  | none => none
  | some io1 =>
    match writeByteAt io1 "/b" 4094 with
    | none => none
    | some io2 =>
      match writeByteAt io2 "/c" 0 with
      | none => none
      | some io3 => io3.flush

/-- The deletion of the last stream of `threeSmall` by `StorageIO::deleteLeaf`: the chain of
the stream, the dirty set of the small table before the call, the dirty set after it, and the
slots of the chain after it. -/
def freedDirty (fragB fragS : Bool) : Option (List Nat × List Nat × List Nat × List Nat) :=
  match threeSmall fragB fragS with
  | none => none
  | some io =>
    match io.sbat.follow (entAt io.dirtree.entries 3).start with
    | none => none
    | some blocks =>
      (io.deleteLeaf 3 (str "/c")).map (fun d =>
        (blocks, io.sbat.dirtyBlocks, d.1.sbat.dirtyBlocks, blocks.map d.1.sbat.get))

namespace AllocTable

/-- The table `t2` comes from `t1` by an allocation that hangs the free slot `n` behind the
slot `x`: the slots in use other than `x` keep their values, `n` was free or past the end and
is a slot of `t2`, `x` holds `n`, and `n` holds `Eof` (when `x` is `n` itself only the first
two are promised). -/
def Linked (t1 t2 : AllocTable) (x : Option Nat) (n : Nat) : Prop :=
  ExtBut t1 t2 x ∧ n < t2.count ∧ (n < t1.count → t1.get n = Avail) ∧
    (∀ y, x = some y → y ≠ n → t2.get y = n) ∧ (x ≠ some n → t2.get n = Eof)

end AllocTable

namespace StorageIO

/-- The big table is in order around the chain `L` of the small table's sectors: the big
blocks have at least 512 bytes, the table has at most `0xfffffffc` slots, `num_bat` table
sectors cover the table, `L` is the chain from `sbat_start`, it is not empty and has at least
`num_sbat` sectors, and the last sector of `sb_blocks` is a slot in use that is not on `L`. -/
structure BigOK (io : StorageIO) (L : List Nat) : Prop where
  bbs : 512 ≤ io.bbat.blockSize
  lim : io.bbat.count ≤ AllocTable.MetaBat
  cov : io.bbat.count ≤ io.header.num_bat * (io.bbat.blockSize / 4)
  chain : AllocTable.ChainFrom io.bbat io.header.sbat_start L
  ne : L ≠ []
  nsbat : io.header.num_sbat ≤ L.length
  sblast : ∀ y, io.sb_blocks.getLast? = some y →
    y < io.bbat.count ∧ io.bbat.get y ≠ AllocTable.Avail ∧ y ∉ L

/-- Both tables are in order: the big table around `L`, and `num_sbat` sectors cover the small
table. -/
def TablesOK (io : StorageIO) (L : List Nat) : Prop :=
  io.BigOK L ∧ io.sbat.count ≤ io.header.num_sbat * (io.bbat.blockSize / 4)

/-- The slot `x` may be linked to a new sector: it is a slot of the big table and, if it lies
on `L`, it is the last element of `L`. -/
def EndOK (io : StorageIO) (L : List Nat) (x : Option Nat) : Prop :=
  ∀ y, x = some y → y < io.bbat.count ∧ (y ∈ L → L.getLast? = some y)

end StorageIO

namespace StorageIO

/-- What the growth of the small pool leaves in place: the host file, the directory, the small
table, the block sizes and the header fields that locate the chains. -/
structure Kept (io io2 : StorageIO) : Prop where
  file : io2.file = io.file
  filesize : io2.filesize = io.filesize
  writeable : io2.writeable = io.writeable
  dirtree : io2.dirtree = io.dirtree
  sbat : io2.sbat = io.sbat
  threshold : io2.header.threshold = io.header.threshold
  sbat_start : io2.header.sbat_start = io.header.sbat_start
  dirent_start : io2.header.dirent_start = io.header.dirent_start
  blockSize : io2.bbat.blockSize = io.bbat.blockSize

/-- What the small-sector branch of `write` leaves in place while it lengthens a chain: the
host file, the directory, the threshold and the block sizes; `sb_blocks` only gets longer. -/
structure Grown (io io2 : StorageIO) : Prop where
  file : io2.file = io.file
  filesize : io2.filesize = io.filesize
  writeable : io2.writeable = io.writeable
  dirtree : io2.dirtree = io.dirtree
  threshold : io2.header.threshold = io.header.threshold
  bbs : io2.bbat.blockSize = io.bbat.blockSize
  sbs : io2.sbat.blockSize = io.sbat.blockSize
  sb : ∃ more, io2.sb_blocks = io.sb_blocks ++ more

end StorageIO

namespace StorageIO

/-- Room below the 32-bit limit for the sectors that `write(pos, data, len)` can claim: the
small blocks are not larger than the big ones, the end `pos + len` of the write is a 32-bit
value, and the big table has six free indices for every small block and every big block that
a stream of `pos + len` bytes needs. -/
def WriteRoom (io : StorageIO) (pos len : Nat) : Prop :=
  io.sbat.blockSize ≤ io.bbat.blockSize ∧ pos + len < 2 ^ 32 ∧
  io.bbat.count + 6 * (io.sbat.count + (pos + len) / io.sbat.blockSize + 1) +
    6 * ((pos + len) / io.bbat.blockSize + 1) + 3 < AllocTable.MetaBat

end StorageIO

namespace StorageIO

/-- Room below the 32-bit limit for the directory sectors that the creation of the entries
of `name` can claim: three free indices for every component and every directory sector that
the entries present and the new ones need. -/
def CreateRoom (io : StorageIO) (name : List Nat) : Prop :=
  io.bbat.count + 3 * ((DirTree.splitPath name).length *
    ((io.dirtree.entries.length + (DirTree.splitPath name).length) /
      (io.bbat.blockSize / 128) + 1)) < AllocTable.MetaBat

end StorageIO

namespace StorageIO

/-- The slot `x` ends a chain of the big table: it is a slot of the table and what it holds is
no index of the table (an end marker). -/
def ChainEnd (io : StorageIO) (x : Option Nat) : Prop :=
  ∀ y, x = some y → y < io.bbat.count ∧ io.bbat.count ≤ io.bbat.get y

end StorageIO

namespace StreamIO

/-- The stream object fits the container: its entry exists, a small stream's sectors are slots
of the small table, and a big stream's last sector ends a chain of the big table. A stream
object that the constructor has just built fits (`StreamIO.new_fits`); one whose chain went
stale through a write by another object on the same stream need not. -/
def Sync (io : StorageIO) (s : StreamIO) : Prop :=
  s.entryIdx < io.dirtree.entries.length ∧
  ((entAt io.dirtree.entries s.entryIdx).size < io.header.threshold →
    ∀ b ∈ s.blocks, b < io.sbat.count) ∧
  (io.header.threshold ≤ (entAt io.dirtree.entries s.entryIdx).size →
    io.ChainEnd s.blocks.getLast?)

end StreamIO

/-- The states reachable from a created container (`StorageIO::init`) by entry creation,
stream writes, `ExtendFile` and `addbbatBlock`. Every step starts with room below the 32-bit
limit of the sector indices; a write goes through a stream object that fits the container,
and `ExtendFile` lengthens a chain whose last sector ends a chain of the big table. -/
inductive Reach : StorageIO → Prop
  | init (fragB fragS : Bool) : Reach (freshContainer fragB fragS)
  | create (io : StorageIO) (name : List Nat) (size : Nat) (r : StorageIO × Option Nat) :
      Reach io → io.CreateRoom name →
      DirTree.entryByName io name true io.bbat.blockSize size = some r → Reach r.1
  | write (io : StorageIO) (s : StreamIO) (pos : Nat) (data : List Nat) (len : Nat)
      (r : StorageIO × StreamIO × Nat) :
      Reach io → StreamIO.Sync io s → io.WriteRoom pos len →
      StreamIO.write io s pos data len = some r → Reach r.1
  | extend (io : StorageIO) (c : List Nat) :
      Reach io → io.bbat.count + 3 < AllocTable.MetaBat → io.ChainEnd c.getLast? →
      Reach (io.ExtendFile c).1
  | addbbat (io : StorageIO) :
      Reach io → io.bbat.count + 2 < AllocTable.MetaBat → Reach io.addbbatBlock

/-- The entry `/a` created on a fresh container. -/
def reachedCreate : StorageIO × Option Nat :=
  (DirTree.entryByName (freshContainer true true) (str "/a") true
    (freshContainer true true).bbat.blockSize 0).getD (freshContainer true true, none)

/-- The stream object of entry 1 of `reachedCreate`. -/
def reachedStream : StreamIO :=
  match StreamIO.new reachedCreate.1 1 with
  | some s => s
  | none => { entryIdx := 0, fullName := [], eof := false, fail := false, blocks := [],
              m_pos := 0, cache_data := [], cache_size := 0, cache_pos := 0 }

/-- The state after 100 bytes are written to the stream at offset 0. -/
def reachedWrite : StorageIO × StreamIO × Nat :=
  ( StreamIO.write reachedCreate.1 reachedStream 0 (List.replicate 100 7) 100).getD
    (reachedCreate.1, reachedStream, 0)

/-- A created container on which `entry("/P//R", create)` was called: the storage `P`
(index 1), a storage with the empty name under it (index 2) and the stream `R` in that one
(index 3). -/
def emptyComponent : StorageIO := createPath (freshContainer true true) "/P//R" 0

/-- Two stream objects on the stream `/c` of a created container. The first object writes one
byte at position 0 and keeps the small chain it got; the second object writes one byte at
position 4096, which moves the stream to the big pool; then the first object, whose chain is
the freed small one, writes one byte at position 4097. -/
def staleWrite (fragB fragS : Bool) : Option StorageIO :=
  match StorageIO.streamIO (freshContainer fragB fragS) (str "/c") true 0 with
  | some (io0, some first) =>
    match StreamIO.write io0 first 0 [7] 1 with
    | some (io1, first1, _) =>
      match StorageIO.streamIO io1 (str "/c") false 0 with
      | some (io2, some second) =>
        match StreamIO.write io2 second 4096 [7] 1 with
        | some (io3, _, _) => ( StreamIO.write io3 first1 4097 [7] 1).map (fun r => r.1)
        | none => none
      | _ => none
    | none => none
  | _ => none

/-! # Theorems

The lemmas and theorems about the definitions above. -/

theorem DirEntry.compare_eq (e : DirEntry) (n : List Nat) : e.compare n = cmpName e.name n := rfl

theorem strCompare_self (a : List Nat) : strCompare a a = 0 := by
  induction a with
  | nil => rfl
  | cons x xs ih => simp [strCompare, ih]

theorem strCompare_eq_zero {a b : List Nat} (h : strCompare a b = 0) : a = b := by
  induction a generalizing b with
  | nil => cases b with
    | nil => rfl
    | cons y ys => simp [strCompare] at h
  | cons x xs ih => cases b with
    | nil => simp [strCompare] at h
    | cons y ys =>
      simp only [strCompare] at h
      split_ifs at h with h1 h2
      · omega
      · have hxy : x = y := by omega
        rw [hxy, ih h]

theorem strCompare_swap (a b : List Nat) : strCompare b a = - strCompare a b := by
  induction a generalizing b with
  | nil => cases b <;> simp [strCompare]
  | cons x xs ih => cases b with
    | nil => simp [strCompare]
    | cons y ys =>
      simp only [strCompare]
      split_ifs <;> first | omega | simp | exact ih ys

theorem strCompare_trans {a b c : List Nat} (h1 : strCompare a b < 0) (h2 : strCompare b c < 0) :
    strCompare a c < 0 := by
  induction a generalizing b c with
  | nil => cases c with
    | nil => cases b <;> simp [strCompare] at h1 h2
    | cons z zs => simp [strCompare]
  | cons x xs ih => cases b with
    | nil => simp [strCompare] at h1
    | cons y ys => cases c with
      | nil => simp [strCompare] at h2
      | cons z zs =>
        simp only [strCompare] at h1 h2 ⊢
        split_ifs at h1 h2 ⊢ <;> first | omega | exact ih h1 h2

theorem cmpName_self (a : List Nat) : cmpName a a = 0 := by
  simp [cmpName, strCompare_self]

theorem cmpName_eq_zero {a b : List Nat} (h : cmpName a b = 0) : a = b := by
  unfold cmpName at h
  split_ifs at h
  · omega
  · exact strCompare_eq_zero h

theorem cmpName_swap (a b : List Nat) : cmpName b a = - cmpName a b := by
  unfold cmpName
  split_ifs <;> first | omega | simp | exact strCompare_swap a b

theorem nameLt_irrefl (a : List Nat) : ¬ nameLt a a := by
  simp [nameLt, cmpName_self]

theorem nameLt_trans {a b c : List Nat} (h1 : nameLt a b) (h2 : nameLt b c) : nameLt a c := by
  unfold nameLt cmpName at *
  split_ifs at h1 h2 ⊢ <;> first | omega | exact strCompare_trans h1 h2

theorem nameLt_of_cmp_pos {a b : List Nat} (h : cmpName a b > 0) : nameLt b a := by
  unfold nameLt; rw [cmpName_swap a b]; omega

theorem cmp_pos_of_nameLt {a b : List Nat} (h : nameLt b a) : cmpName a b > 0 := by
  unfold nameLt at h; rw [cmpName_swap b a]; omega

/-! ## Sibling trees: the walks -/

theorem Rep_leaf {es : List DirEntry} {p : Nat} : Rep es p .leaf ↔ p = DirTree.End := by
  simp [Rep, repB]

theorem Rep_node {es : List DirEntry} {p i : Nat} {l r : Shape} :
    Rep es p (.node l i r) ↔
      p = i ∧ 0 < i ∧ i < es.length ∧ (entAt es i).valid = true ∧
        Rep es (entAt es i).prev l ∧ Rep es (entAt es i).next r := by
  simp [Rep, repB, and_assoc]

theorem entry_eq_entAt (dt : DirTree) {i : Nat} (h : i < dt.entries.length) :
    dt.entry i = some (entAt dt.entries i) := by
  simp [DirTree.entry, entAt, List.getD, List.getElem?_eq_getElem h]

theorem entry_eq_none (dt : DirTree) {i : Nat} (h : dt.entries.length ≤ i) :
    dt.entry i = none := by
  simp [DirTree.entry, h]

/-- The root of a non-empty represented tree is an index in range. -/
theorem Rep_root_lt {es : List DirEntry} {p : Nat} {t : Shape} (h : Rep es p t) :
    (t = .leaf ∧ p = DirTree.End) ∨ (0 < p ∧ p < es.length) := by
  cases t with
  | leaf => exact Or.inl ⟨rfl, Rep_leaf.1 h⟩
  | node l i r =>
    obtain ⟨rfl, h0, h1, _⟩ := Rep_node.1 h
    exact Or.inr ⟨h0, h1⟩

theorem Rep_mem_lt {es : List DirEntry} {p : Nat} {t : Shape} (h : Rep es p t) :
    ∀ j ∈ t.inorder, 0 < j ∧ j < es.length := by
  induction t generalizing p with
  | leaf => simp [Shape.inorder]
  | node l i r ihl ihr =>
    obtain ⟨rfl, h0, h1, _, hl, hr⟩ := Rep_node.1 h
    intro j hj
    simp only [Shape.inorder, List.mem_append, List.mem_cons] at hj
    rcases hj with hj | rfl | hj
    · exact ihl hl j hj
    · exact ⟨h0, h1⟩
    · exact ihr hr j hj

theorem Rep_mem_valid {es : List DirEntry} {p : Nat} {t : Shape} (h : Rep es p t) :
    ∀ j ∈ t.inorder, (entAt es j).valid = true := by
  induction t generalizing p with
  | leaf => simp [Shape.inorder]
  | node l i r ihl ihr =>
    obtain ⟨rfl, _, _, hv, hl, hr⟩ := Rep_node.1 h
    intro j hj
    simp only [Shape.inorder, List.mem_append, List.mem_cons] at hj
    rcases hj with hj | rfl | hj
    · exact ihl hl j hj
    · exact hv
    · exact ihr hr j hj

/-- Entries outside a represented tree can change freely. -/
theorem Rep_frame {es es' : List DirEntry} {p : Nat} {t : Shape} (h : Rep es p t)
    (hlen : es.length ≤ es'.length)
    (hsame : ∀ j ∈ t.inorder, entAt es' j = entAt es j) : Rep es' p t := by
  induction t generalizing p with
  | leaf => exact Rep_leaf.2 (Rep_leaf.1 h)
  | node l i r ihl ihr =>
    obtain ⟨rfl, h0, h1, hv, hl, hr⟩ := Rep_node.1 h
    have hi : entAt es' p = entAt es p := hsame p (by simp [Shape.inorder])
    refine Rep_node.2 ⟨rfl, h0, by omega, by rw [hi]; exact hv, ?_, ?_⟩
    · rw [hi]; exact ihl hl (fun j hj => hsame j (by simp [Shape.inorder, hj]))
    · rw [hi]; exact ihr hr (fun j hj => hsame j (by simp [Shape.inorder, hj]))

/-- The in-order walk of the source returns the in-order list of a represented tree. -/
theorem find_siblings_of_Rep (dt : DirTree) (hlen : dt.entries.length ≤ DirTree.End) :
    ∀ (t : Shape) (p fuel : Nat), Rep dt.entries p t → t.height ≤ fuel →
      (if p ≠ DirTree.End then dirtree_find_siblings dt fuel p else some []) = some t.inorder := by
  intro t
  induction t with
  | leaf =>
    intro p fuel h _
    simp [Rep_leaf.1 h, Shape.inorder]
  | node l i r ihl ihr =>
    intro p fuel h hf
    obtain ⟨rfl, h0, h1, hv, hl, hr⟩ := Rep_node.1 h
    have hp : p ≠ DirTree.End := by omega
    simp only [Shape.height] at hf
    obtain ⟨f, rfl⟩ : ∃ f, fuel = f + 1 := ⟨fuel - 1, by omega⟩
    have e1 := ihl _ f hl (by omega)
    have e2 := ihr _ f hr (by omega)
    simp only [hp, ne_eq, not_false_eq_true, if_true, dirtree_find_siblings,
      entry_eq_entAt dt h1]
    simp only [ne_eq] at e1 e2
    rw [e1, e2]
    simp [Shape.inorder]

theorem length_le_of_nodup_lt {l : List Nat} {n : Nat} (hnd : l.Nodup) (hlt : ∀ x ∈ l, x < n) :
    l.length ≤ n := by
  have h1 : l.toFinset.card = l.length := List.toFinset_card_of_nodup hnd
  have h2 : l.toFinset ⊆ Finset.range n := by
    intro x hx
    simp only [List.mem_toFinset] at hx
    simpa using hlt x hx
  have h3 := Finset.card_le_card h2
  simp only [Finset.card_range] at h3
  omega

theorem height_le_length (t : Shape) : t.height ≤ t.inorder.length := by
  induction t with
  | leaf => simp [Shape.height]
  | node l i r ihl ihr =>
    simp only [Shape.height, Shape.inorder, List.length_append, List.length_cons]
    omega

theorem nodup_of_sorted {es : List DirEntry} {l : List Nat} (h : SortedNames es l) : l.Nodup := by
  unfold SortedNames at h
  rw [List.pairwise_map] at h
  exact h.imp (fun {a b} hab heq => by subst heq; exact nameLt_irrefl _ hab)

/-- Source `DirTree::children` returns the in-order list of the children of a storage whose
sibling tree is represented by `t`. -/
theorem children_of_Rep (dt : DirTree) (hlen : dt.entries.length ≤ DirTree.End) (p : Nat)
    (t : Shape) (hp : p < dt.entries.length) (hv : (entAt dt.entries p).valid = true)
    (hrep : Rep dt.entries (entAt dt.entries p).child t) (hnd : t.inorder.Nodup) :
    dt.children p = some t.inorder := by
  unfold DirTree.children
  rw [entry_eq_entAt dt hp]
  have hh : t.height ≤ dt.entryCount + 1 := by
    have := height_le_length t
    have := length_le_of_nodup_lt hnd (fun x hx => (Rep_mem_lt hrep x hx).2)
    simp only [DirTree.entryCount]; omega
  have hw := find_siblings_of_Rep dt hlen t _ _ hrep hh
  rcases Rep_root_lt hrep with ⟨rfl, hc⟩ | ⟨_, hc⟩
  · have : ¬ (entAt dt.entries p).child < dt.entryCount := by
      simp only [DirTree.entryCount]; omega
    simp [hv, this, Shape.inorder]
  · have hne : (entAt dt.entries p).child ≠ DirTree.End := by omega
    simp only [hne, ne_eq, not_false_eq_true, if_true, DirTree.entryCount] at hw
    simp [hv, DirTree.entryCount, hc, hw]

/-! ## Insertion into a sibling tree -/

theorem find_sibling_step (dt : DirTree) (nm : List Nat) (f i cl : Nat)
    (hi : i < dt.entries.length) (hv : (entAt dt.entries i).valid = true) :
    dirtree_find_sibling dt nm (f + 1) i cl =
      if cmpName (nameAt dt.entries i) nm = 0 then some (i, cl)
      else if cmpName (nameAt dt.entries i) nm > 0 then
        if (entAt dt.entries i).prev > 0 ∧ (entAt dt.entries i).prev < dt.entryCount then
          dirtree_find_sibling dt nm f (entAt dt.entries i).prev cl
        else some (0, i)
      else
        if (entAt dt.entries i).next > 0 ∧ (entAt dt.entries i).next < dt.entryCount then
          dirtree_find_sibling dt nm f (entAt dt.entries i).next cl
        else some (0, i) := by
  simp [dirtree_find_sibling, entry_eq_entAt dt hi, hv, DirEntry.compare_eq, nameAt]

theorem Rep_single {es' : List DirEntry} {n : Nat} (h0 : 0 < n) (h1 : n < es'.length)
    (hv : (entAt es' n).valid = true) (hp : (entAt es' n).prev = DirTree.End)
    (hn : (entAt es' n).next = DirTree.End) : Rep es' n (.node .leaf n .leaf) :=
  Rep_node.2 ⟨rfl, h0, h1, hv, Rep_leaf.2 hp, Rep_leaf.2 hn⟩

/-- The search for a name that is not in a represented tree ends at a node `q` of the tree,
and hanging the new entry below `q` gives the tree with the entry inserted. -/
theorem find_sibling_attach (dt : DirTree) (nm : List Nat)
    (hlen : dt.entries.length ≤ DirTree.End) :
    ∀ (t : Shape) (p fuel cl : Nat), Rep dt.entries p t → t ≠ .leaf → t.inorder.Nodup →
      (∀ i ∈ t.inorder, nameAt dt.entries i ≠ nm) → t.height ≤ fuel →
      ∃ q, dirtree_find_sibling dt nm fuel p cl = some (0, q) ∧ q ∈ t.inorder ∧
        (if cmpName (nameAt dt.entries q) nm < 0 then (entAt dt.entries q).next
          else (entAt dt.entries q).prev) = DirTree.End ∧
        ∀ es' n, n ∉ t.inorder → Upd dt.entries es' nm n q →
          Rep es' p (Shape.ins dt.entries nm n t) := by
  intro t
  induction t with
  | leaf => intro p fuel cl _ h; exact absurd rfl h
  | node l i r ihl ihr =>
    intro p fuel cl h _ hnd hne hf
    obtain ⟨rfl, h0, h1, hv, hl, hr⟩ := Rep_node.1 h
    simp only [Shape.height] at hf
    obtain ⟨f, rfl⟩ : ∃ f, fuel = f + 1 := ⟨fuel - 1, by omega⟩
    simp only [Shape.inorder] at hnd
    have hndl : l.inorder.Nodup := (List.nodup_append.1 hnd).1
    have hndr : r.inorder.Nodup := (List.nodup_cons.1 (List.nodup_append.1 hnd).2.1).2
    have hpl : p ∉ l.inorder := fun hm =>
      (List.nodup_append.1 hnd).2.2 hm (List.mem_cons_self _ _) 
    have hpr : p ∉ r.inorder := (List.nodup_cons.1 (List.nodup_append.1 hnd).2.1).1
    have hdisj : ∀ a ∈ l.inorder, a ∉ r.inorder := fun a ha hb =>
      (List.nodup_append.1 hnd).2.2 ha (List.mem_cons_of_mem _ hb)
    have hcmp : cmpName (nameAt dt.entries p) nm ≠ 0 := fun hz =>
      hne p (by simp [Shape.inorder]) (cmpName_eq_zero hz)
    rw [find_sibling_step dt nm f p cl h1 hv, if_neg hcmp]
    by_cases hpos : cmpName (nameAt dt.entries p) nm > 0
    · rw [if_pos hpos]
      have hnlt : ¬ cmpName (nameAt dt.entries p) nm < 0 := by omega
      rcases Rep_root_lt hl with ⟨rfl, hE⟩ | ⟨hq0, hq1⟩
      · have : ¬ ((entAt dt.entries p).prev > 0 ∧ (entAt dt.entries p).prev < dt.entryCount) := by
          simp only [DirTree.entryCount]; omega
        rw [if_neg this]
        refine ⟨p, rfl, by simp [Shape.inorder], by rw [if_neg hnlt]; exact hE, ?_⟩
        intro es' n hn u
        have hq := u.q_eq
        rw [if_neg hnlt] at hq
        have hnp : n ≠ p := fun e => hn (by simp [Shape.inorder, e])
        simp only [Shape.ins, if_pos hpos]
        refine Rep_node.2 ⟨rfl, h0, by have := u.len; omega, by rw [hq]; exact hv, ?_, ?_⟩
        · rw [hq]; exact Rep_single u.n_pos u.n_lt u.n_valid u.n_prev u.n_next
        · rw [hq]
          refine Rep_frame hr u.len (fun j hj => u.frame j ?_ ?_ (Rep_mem_lt hr j hj).2)
          · rintro rfl; exact hn (by simp [Shape.inorder, hj])
          · rintro rfl; exact hpr hj
      · have hc : (entAt dt.entries p).prev > 0 ∧ (entAt dt.entries p).prev < dt.entryCount :=
          ⟨hq0, hq1⟩
        rw [if_pos hc]
        have hlne : l ≠ .leaf := by
          rintro rfl
          have := Rep_leaf.1 hl
          omega
        obtain ⟨q, hfind, hqm, hend, hins⟩ := ihl _ f cl hl hlne hndl
          (fun i hi => hne i (by simp [Shape.inorder, hi])) (by omega)
        refine ⟨q, hfind, by simp [Shape.inorder, hqm], hend, ?_⟩
        intro es' n hn u
        have hnp : n ≠ p := fun e => hn (by simp [Shape.inorder, e])
        have hqp : q ≠ p := fun e => hpl (e ▸ hqm)
        have hp' : entAt es' p = entAt dt.entries p := u.frame p (Ne.symm hnp) (Ne.symm hqp) h1
        simp only [Shape.ins, if_pos hpos]
        refine Rep_node.2 ⟨rfl, h0, by have := u.len; omega, by rw [hp']; exact hv, ?_, ?_⟩
        · rw [hp']; exact hins es' n (fun hm => hn (by simp [Shape.inorder, hm])) u
        · rw [hp']
          refine Rep_frame hr u.len (fun j hj => u.frame j ?_ ?_ (Rep_mem_lt hr j hj).2)
          · rintro rfl; exact hn (by simp [Shape.inorder, hj])
          · rintro rfl; exact hdisj j hqm hj
    · rw [if_neg hpos]
      have hnlt : cmpName (nameAt dt.entries p) nm < 0 := by omega
      rcases Rep_root_lt hr with ⟨rfl, hE⟩ | ⟨hq0, hq1⟩
      · have : ¬ ((entAt dt.entries p).next > 0 ∧ (entAt dt.entries p).next < dt.entryCount) := by
          simp only [DirTree.entryCount]; omega
        rw [if_neg this]
        refine ⟨p, rfl, by simp [Shape.inorder], by rw [if_pos hnlt]; exact hE, ?_⟩
        intro es' n hn u
        have hq := u.q_eq
        rw [if_pos hnlt] at hq
        have hnp : n ≠ p := fun e => hn (by simp [Shape.inorder, e])
        simp only [Shape.ins, if_neg hpos]
        refine Rep_node.2 ⟨rfl, h0, by have := u.len; omega, by rw [hq]; exact hv, ?_, ?_⟩
        · rw [hq]
          refine Rep_frame hl u.len (fun j hj => u.frame j ?_ ?_ (Rep_mem_lt hl j hj).2)
          · rintro rfl; exact hn (by simp [Shape.inorder, hj])
          · rintro rfl; exact hpl hj
        · rw [hq]; exact Rep_single u.n_pos u.n_lt u.n_valid u.n_prev u.n_next
      · have hc : (entAt dt.entries p).next > 0 ∧ (entAt dt.entries p).next < dt.entryCount :=
          ⟨hq0, hq1⟩
        rw [if_pos hc]
        have hrne : r ≠ .leaf := by
          rintro rfl
          have := Rep_leaf.1 hr
          omega
        obtain ⟨q, hfind, hqm, hend, hins⟩ := ihr _ f cl hr hrne hndr
          (fun i hi => hne i (by simp [Shape.inorder, hi])) (by omega)
        refine ⟨q, hfind, by simp [Shape.inorder, hqm], hend, ?_⟩
        intro es' n hn u
        have hnp : n ≠ p := fun e => hn (by simp [Shape.inorder, e])
        have hqp : q ≠ p := fun e => hpr (e ▸ hqm)
        have hp' : entAt es' p = entAt dt.entries p := u.frame p (Ne.symm hnp) (Ne.symm hqp) h1
        simp only [Shape.ins, if_neg hpos]
        refine Rep_node.2 ⟨rfl, h0, by have := u.len; omega, by rw [hp']; exact hv, ?_, ?_⟩
        · rw [hp']
          refine Rep_frame hl u.len (fun j hj => u.frame j ?_ ?_ (Rep_mem_lt hl j hj).2)
          · rintro rfl; exact hn (by simp [Shape.inorder, hj])
          · rintro rfl; exact hdisj j hj hqm
        · rw [hp']; exact hins es' n (fun hm => hn (by simp [Shape.inorder, hm])) u

theorem sortedNames_iff {es : List DirEntry} {l : List Nat} :
    SortedNames es l ↔ l.Pairwise (fun i j => nameLt (nameAt es i) (nameAt es j)) := by
  unfold SortedNames
  exact List.pairwise_map

/-- The in-order list of the tree after an insertion: the new index stands between the
entries with smaller names and those with larger names. -/
theorem ins_inorder (es : List DirEntry) (nm : List Nat) (n : Nat) :
    ∀ t : Shape, SortedNames es t.inorder → (∀ i ∈ t.inorder, nameAt es i ≠ nm) →
      ∃ l r, t.inorder = l ++ r ∧ (Shape.ins es nm n t).inorder = l ++ n :: r ∧
        (∀ i ∈ l, nameLt (nameAt es i) nm) ∧ (∀ j ∈ r, nameLt nm (nameAt es j)) := by
  intro t
  induction t with
  | leaf =>
    intro _ _
    exact ⟨[], [], by simp [Shape.inorder], by simp [Shape.ins, Shape.inorder], by simp, by simp⟩
  | node a i b iha ihb =>
    intro hs hne
    rw [sortedNames_iff, Shape.inorder, List.pairwise_append, List.pairwise_cons] at hs
    obtain ⟨hsa, ⟨hib, hsb⟩, hab⟩ := hs
    rw [← sortedNames_iff] at hsa hsb
    have hcmp : cmpName (nameAt es i) nm ≠ 0 := fun hz =>
      hne i (by simp [Shape.inorder]) (cmpName_eq_zero hz)
    by_cases hpos : cmpName (nameAt es i) nm > 0
    · obtain ⟨l, r, e1, e2, hl, hr⟩ := iha hsa (fun j hj => hne j (by simp [Shape.inorder, hj]))
      have hi : nameLt nm (nameAt es i) := nameLt_of_cmp_pos hpos
      refine ⟨l, r ++ i :: b.inorder, by simp [Shape.inorder, e1],
        by simp [Shape.ins, hpos, Shape.inorder, e2], hl, ?_⟩
      intro j hj
      simp only [List.mem_append, List.mem_cons] at hj
      rcases hj with hj | rfl | hj
      · exact hr j hj
      · exact hi
      · exact nameLt_trans hi (hib j hj)
    · obtain ⟨l, r, e1, e2, hl, hr⟩ := ihb hsb (fun j hj => hne j (by simp [Shape.inorder, hj]))
      have hi : nameLt (nameAt es i) nm := by unfold nameLt; omega
      refine ⟨a.inorder ++ i :: l, r, by simp [Shape.inorder, e1],
        by simp [Shape.ins, hpos, Shape.inorder, e2], ?_, hr⟩
      intro j hj
      simp only [List.mem_append, List.mem_cons] at hj
      rcases hj with hj | rfl | hj
      · exact nameLt_trans (hab j hj i (List.mem_cons_self _ _)) hi
      · exact hi
      · exact hl j hj

/-! ## The entries after `createEntry` -/

@[simp] theorem markAsDirty_entries (dt : DirTree) (a b : Nat) :
    (dt.markAsDirty a b).entries = dt.entries := by
  simp only [DirTree.markAsDirty]
  split_ifs <;> rfl

@[simp] theorem modify_length (dt : DirTree) (i : Nat) (f : DirEntry → DirEntry) :
    (dt.modify i f).entries.length = dt.entries.length := by
  unfold DirTree.modify
  cases h : dt.entry i <;> simp [DirTree.setEntry]

theorem entAt_modify_self (dt : DirTree) (i : Nat) (f : DirEntry → DirEntry)
    (h : i < dt.entries.length) : entAt (dt.modify i f).entries i = f (entAt dt.entries i) := by
  unfold DirTree.modify
  rw [entry_eq_entAt dt h]
  simp [DirTree.setEntry, entAt, List.getD, h]

theorem entAt_modify_ne (dt : DirTree) (i j : Nat) (f : DirEntry → DirEntry) (h : j ≠ i) :
    entAt (dt.modify i f).entries j = entAt dt.entries j := by
  unfold DirTree.modify
  cases hi : dt.entry i with
  | none => rfl
  | some e => simp [DirTree.setEntry, entAt, List.getD, List.getElem?_set_ne (Ne.symm h)]

theorem firstInvalid_some {es : List DirEntry} {k i : Nat}
    (h : DirTree.firstInvalid es k = some i) :
    k ≤ i ∧ i - k < es.length ∧ (entAt es (i - k)).valid = false := by
  induction es generalizing k with
  | nil => simp [DirTree.firstInvalid] at h
  | cons e es ih =>
    simp only [DirTree.firstInvalid] at h
    split_ifs at h with hv
    · simp only [Option.some.injEq] at h
      subst h
      simp [entAt, hv]
    · obtain ⟨h1, h2, h3⟩ := ih h
      refine ⟨by omega, by simp only [List.length_cons]; omega, ?_⟩
      have : i - k = (i - (k + 1)) + 1 := by omega
      rw [this]
      simpa [entAt] using h3

theorem firstInvalid_none {es : List DirEntry} {k : Nat}
    (h : DirTree.firstInvalid es k = none) : ∀ j, j < es.length → (entAt es j).valid = true := by
  induction es generalizing k with
  | nil => intro j hj; simp at hj
  | cons e es ih =>
    simp only [DirTree.firstInvalid] at h
    split_ifs at h with hv
    intro j hj
    cases j with
    | zero => simpa [entAt] using hv
    | succ j =>
      have := ih h j (by simpa using hj)
      simpa [entAt] using this

/-- What `DirTree::unused` returns: a slot in range of the directory afterwards that is not a
valid entry of the directory before; the old entries are kept. -/
theorem unused_spec (dt : DirTree) :
    dt.entries.length ≤ dt.unused.2.entries.length ∧
      dt.unused.1 < dt.unused.2.entries.length ∧
      (∀ j, j < dt.entries.length → entAt dt.unused.2.entries j = entAt dt.entries j) ∧
      (dt.unused.1 < dt.entries.length → (entAt dt.entries dt.unused.1).valid = false) ∧
      (dt.entries.length ≤ dt.unused.1 → ∀ j, j < dt.entries.length →
        (entAt dt.entries j).valid = true) := by
  unfold DirTree.unused
  cases h : DirTree.firstInvalid dt.entries 0 with
  | none =>
    simp only
    refine ⟨by simp, by simp, ?_, by simp, fun _ => firstInvalid_none h⟩
    intro j hj
    simp [entAt, List.getD, List.getElem?_append_left hj]
  | some i =>
    obtain ⟨_, h2, h3⟩ := firstInvalid_some h
    simp only [Nat.sub_zero] at h2 h3
    simp only
    exact ⟨le_refl _, h2, fun _ _ => trivial, fun _ => h3, fun hle => by omega⟩

theorem entAt_modify (dt : DirTree) (i j : Nat) (f : DirEntry → DirEntry) :
    entAt (dt.modify i f).entries j =
      if j = i ∧ i < dt.entries.length then f (entAt dt.entries i) else entAt dt.entries j := by
  by_cases h : j = i
  · subst h
    by_cases hl : j < dt.entries.length
    · simp [hl, entAt_modify_self dt j f hl]
    · have : dt.entry j = none := entry_eq_none dt (by omega)
      simp [hl, DirTree.modify, this]
  · simp [h, entAt_modify_ne dt i j f h]

theorem entry_getD (dt : DirTree) (i : Nat) :
    (dt.entry i).getD DirTree.blankEntry = entAt dt.entries i := by
  simp [DirTree.entry, entAt, List.getD]

theorem createEntry_fst (dt : DirTree) (parent cl : Nat) (nm : List Nat) (isDir : Bool)
    (s b : Nat) : (dt.createEntry parent cl nm isDir s b).1 = dt.unused.1 := rfl

/-- The entries after `createEntry` when the search ended at the node `q`. -/
theorem createEntry_nonempty (dt : DirTree) (parent q : Nat) (nm : List Nat) (isDir : Bool)
    (s b : Nat) (hq : q ≠ DirTree.End) (hql : q < dt.entries.length)
    (hqv : (entAt dt.entries q).valid = true) (h0 : 0 < dt.unused.1)
    (hend : (if cmpName (nameAt dt.entries q) nm < 0 then (entAt dt.entries q).next
      else (entAt dt.entries q).prev) = DirTree.End) :
    Upd dt.entries (dt.createEntry parent q nm isDir s b).2.entries nm dt.unused.1 q ∧
      entAt (dt.createEntry parent q nm isDir s b).2.entries dt.unused.1 =
        { valid := true, name := nm, dir := isDir, size := if isDir then 0 else s,
          start := AllocTable.Eof, prev := DirTree.End, next := DirTree.End,
          child := DirTree.End } := by
  obtain ⟨u1, u2, u3, u4, u5⟩ := unused_spec dt
  have hqn : q ≠ dt.unused.1 := by
    intro e
    by_cases hl : dt.unused.1 < dt.entries.length
    · have := u4 hl
      rw [← e] at this
      simp [this] at hqv
    · omega
  have hq1 : entAt dt.unused.2.entries q = entAt dt.entries q := u3 q hql
  have hql1 : q < dt.unused.2.entries.length := by omega
  by_cases hc : cmpName (nameAt dt.entries q) nm < 0
  · rw [if_pos hc] at hend
    have hc' : (entAt dt.entries q).compare nm < 0 := hc
    refine ⟨⟨?_, ?_, h0, ?_, ?_, ?_, ?_, ?_⟩, ?_⟩ <;>
      simp [DirTree.createEntry, hq, entry_getD, entAt_modify, hqn, Ne.symm hqn, u2, hq1, hc',
        hend, hql1, hc]
    · exact u1
    · intro j hj1 hj2 hj3
      simp [hj1, hj2, u3 j hj3]
  · rw [if_neg hc] at hend
    have hc' : ¬ (entAt dt.entries q).compare nm < 0 := hc
    refine ⟨⟨?_, ?_, h0, ?_, ?_, ?_, ?_, ?_⟩, ?_⟩ <;>
      simp [DirTree.createEntry, hq, entry_getD, entAt_modify, hqn, Ne.symm hqn, u2, hq1, hc',
        hend, hql1, hc]
    · exact u1
    · intro j hj1 hj2 hj3
      simp [hj1, hj2, u3 j hj3]

/-- The entries after `createEntry` when the search found no node (`closest` is `End`): the
new entry becomes the child of `parent` and its `next` link is the old child link. -/
theorem createEntry_empty (dt : DirTree) (p : Nat) (nm : List Nat) (isDir : Bool)
    (s b : Nat) (hpl : p < dt.entries.length) (hpv : (entAt dt.entries p).valid = true) :
    dt.entries.length ≤ (dt.createEntry p DirTree.End nm isDir s b).2.entries.length ∧
      dt.unused.1 < (dt.createEntry p DirTree.End nm isDir s b).2.entries.length ∧
      p ≠ dt.unused.1 ∧
      entAt (dt.createEntry p DirTree.End nm isDir s b).2.entries dt.unused.1 =
        { valid := true, name := nm, dir := isDir, size := if isDir then 0 else s,
          start := AllocTable.Eof, prev := DirTree.End, next := (entAt dt.entries p).child,
          child := DirTree.End } ∧
      entAt (dt.createEntry p DirTree.End nm isDir s b).2.entries p =
        { entAt dt.entries p with child := dt.unused.1 } ∧
      ∀ j, j ≠ dt.unused.1 → j ≠ p → j < dt.entries.length →
        entAt (dt.createEntry p DirTree.End nm isDir s b).2.entries j = entAt dt.entries j := by
  obtain ⟨u1, u2, u3, u4, u5⟩ := unused_spec dt
  have hpn : p ≠ dt.unused.1 := by
    intro e
    by_cases hl : dt.unused.1 < dt.entries.length
    · have := u4 hl
      rw [← e] at this
      simp [this] at hpv
    · omega
  have hp1 : entAt dt.unused.2.entries p = entAt dt.entries p := u3 p hpl
  have hpl1 : p < dt.unused.2.entries.length := by omega
  refine ⟨?_, ?_, hpn, ?_, ?_, ?_⟩ <;>
    simp [DirTree.createEntry, entry_getD, entAt_modify, hpn, Ne.symm hpn, u2, hp1, hpl1]
  · exact u1
  · intro j hj1 hj2 hj3
    simp [hj1, hj2, u3 j hj3]

/-! ## The parts of the container that the allocation loops leave alone -/

@[simp] theorem addbbatBlock_dirtree (io : StorageIO) : io.addbbatBlock.dirtree = io.dirtree := by
  simp only [ StorageIO.addbbatBlock]
  split_ifs <;> rfl

@[simp] theorem addbbatBlock_writeable (io : StorageIO) :
    io.addbbatBlock.writeable = io.writeable := by
  simp only [ StorageIO.addbbatBlock]
  split_ifs <;> rfl

@[simp] theorem addbbatLoop_dirtree (fuel bbidx : Nat) (io : StorageIO) :
    ( StorageIO.addbbatLoop fuel bbidx io).dirtree = io.dirtree := by
  induction fuel generalizing io with
  | zero => rfl
  | succ f ih =>
    simp only [ StorageIO.addbbatLoop]
    split_ifs
    · rw [ih]; simp
    · rfl

@[simp] theorem addbbatLoop_writeable (fuel bbidx : Nat) (io : StorageIO) :
    ( StorageIO.addbbatLoop fuel bbidx io).writeable = io.writeable := by
  induction fuel generalizing io with
  | zero => rfl
  | succ f ih =>
    simp only [ StorageIO.addbbatLoop]
    split_ifs
    · rw [ih]; simp
    · rfl

@[simp] theorem extendDirLoop_dirtree (b fuel bbidx : Nat) (blocks : List Nat) (io : StorageIO) :
    ( StorageIO.extendDirLoop b fuel bbidx blocks io).dirtree = io.dirtree := by
  induction fuel generalizing io blocks with
  | zero => rfl
  | succ f ih =>
    simp only [ StorageIO.extendDirLoop]
    split_ifs <;> simp [ih]

@[simp] theorem extendDirLoop_writeable (b fuel bbidx : Nat) (blocks : List Nat)
    (io : StorageIO) :
    ( StorageIO.extendDirLoop b fuel bbidx blocks io).writeable = io.writeable := by
  induction fuel generalizing io blocks with
  | zero => rfl
  | succ f ih =>
    simp only [ StorageIO.extendDirLoop]
    split_ifs <;> simp [ih]

/-! ## Path resolution -/

theorem lookupLoop_nil (dt : DirTree) (i p : Nat)
    (h : dt.lookupLoop [] i = some (some p)) : p = i ∧ p < dt.entries.length := by
  simp only [DirTree.lookupLoop, DirTree.entryCount, Option.some.injEq] at h
  split_ifs at h with hl
  simp only [Option.some.injEq] at h
  exact ⟨h.symm, h ▸ hl⟩

/-- A resolved prefix of the path is skipped by the loop of `DirTree::entry`. -/
theorem entryLoop_prefix (create : Bool) (bbs s : Nat) (io : StorageIO) (rest : List (List Nat)) :
    ∀ (pre : List (List Nat)) (i p : Nat), io.dirtree.lookupLoop pre i = some (some p) →
      DirTree.entryLoop create bbs s (pre ++ rest) i io =
        DirTree.entryLoop create bbs s rest p io := by
  intro pre
  induction pre with
  | nil =>
    intro i p h
    rw [(lookupLoop_nil _ _ _ h).1]
    rfl
  | cons a pre ih =>
    intro i p h
    simp only [DirTree.lookupLoop] at h
    simp only [List.cons_append, DirTree.entryLoop]
    cases hf : io.dirtree.find_child i a DirTree.End with
    | none => simp [hf] at h
    | some r =>
      simp only [hf] at h
      split_ifs at h with hr
      · simp only [hf, hr, if_true]
        exact ih _ _ h
      · simp at h

theorem lookupLoop_lt (dt : DirTree) :
    ∀ (pre : List (List Nat)) (i p : Nat), dt.lookupLoop pre i = some (some p) →
      p < dt.entries.length := by
  intro pre
  induction pre with
  | nil => intro i p h; exact (lookupLoop_nil _ _ _ h).2
  | cons a pre ih =>
    intro i p h
    simp only [DirTree.lookupLoop] at h
    cases hf : dt.find_child i a DirTree.End with
    | none => simp [hf] at h
    | some r =>
      simp only [hf] at h
      split_ifs at h with hr
      · exact ih _ _ h
      · simp at h

/-- A path that resolves from the root either is empty or starts at a valid root entry. -/
theorem lookupLoop_root (dt : DirTree) (pre : List (List Nat)) (p : Nat)
    (h : dt.lookupLoop pre 0 = some (some p)) :
    p = 0 ∨ (0 < dt.entries.length ∧ (entAt dt.entries 0).valid = true) := by
  cases pre with
  | nil => exact Or.inl (lookupLoop_nil _ _ _ h).1
  | cons a pre =>
    right
    simp only [DirTree.lookupLoop] at h
    cases hf : dt.find_child 0 a DirTree.End with
    | none => simp [hf] at h
    | some r =>
      simp only [hf] at h
      split_ifs at h with hr
      · unfold DirTree.find_child at hf
        by_cases hl : 0 < dt.entries.length
        · rw [entry_eq_entAt dt hl] at hf
          simp only at hf
          split_ifs at hf with hc
          · exact ⟨hl, hc.1⟩
          · simp only [Option.some.injEq] at hf
            rw [← hf] at hr
            simp at hr
        · rw [entry_eq_none dt (by omega)] at hf
          simp only [Option.some.injEq] at hf
          rw [← hf] at hr
          simp at hr
      · simp at h

/-! ## Creating a child of a storage -/

theorem unused_length_le (dt : DirTree) :
    dt.unused.2.entries.length ≤ dt.entries.length + 1 := by
  unfold DirTree.unused
  cases DirTree.firstInvalid dt.entries 0 <;> simp

theorem createEntry_length (dt : DirTree) (p cl : Nat) (nm : List Nat) (isDir : Bool)
    (s b : Nat) :
    (dt.createEntry p cl nm isDir s b).2.entries.length = dt.unused.2.entries.length := by
  simp only [DirTree.createEntry]
  split_ifs <;> simp

/-- A slot handed out by `DirTree::unused` is not index 0 while the root entry is valid. -/
theorem unused_pos (dt : DirTree) (h0 : 0 < dt.entries.length)
    (hv : (entAt dt.entries 0).valid = true) : 0 < dt.unused.1 := by
  obtain ⟨_, _, _, u4, _⟩ := unused_spec dt
  by_contra hn
  have hz : dt.unused.1 = 0 := by omega
  have := u4 (by omega)
  rw [hz] at this
  simp [this] at hv

theorem unused_not_mem (dt : DirTree) {c : Nat} {t : Shape} (hrep : Rep dt.entries c t) :
    dt.unused.1 ∉ t.inorder := by
  obtain ⟨_, _, _, u4, _⟩ := unused_spec dt
  intro hm
  have h1 := (Rep_mem_lt hrep _ hm).2
  have h2 := Rep_mem_valid hrep _ hm
  simp [u4 h1] at h2

theorem sorted_insert {es es' : List DirEntry} {l r : List Nat} {n : Nat} {nm : List Nat}
    (hs : SortedNames es (l ++ r))
    (hsame : ∀ j ∈ l ++ r, nameAt es' j = nameAt es j) (hn : nameAt es' n = nm)
    (hl : ∀ i ∈ l, nameLt (nameAt es i) nm) (hr : ∀ j ∈ r, nameLt nm (nameAt es j)) :
    SortedNames es' (l ++ n :: r) := by
  rw [sortedNames_iff, List.pairwise_append] at hs
  obtain ⟨h1, h2, h3⟩ := hs
  rw [sortedNames_iff, List.pairwise_append, List.pairwise_cons]
  refine ⟨?_, ⟨?_, ?_⟩, ?_⟩
  · refine List.Pairwise.imp_of_mem ?_ h1
    intro a b ha hb hab
    rw [hsame a (List.mem_append_left _ ha), hsame b (List.mem_append_left _ hb)]
    exact hab
  · intro j hj
    rw [hn, hsame j (List.mem_append_right _ hj)]
    exact hr j hj
  · refine List.Pairwise.imp_of_mem ?_ h2
    intro a b ha hb hab
    rw [hsame a (List.mem_append_right _ ha), hsame b (List.mem_append_right _ hb)]
    exact hab
  · intro a ha b hb
    simp only [List.mem_cons] at hb
    rcases hb with rfl | hb
    · rw [hn, hsame a (List.mem_append_left _ ha)]
      exact hl a ha
    · rw [hsame a (List.mem_append_left _ ha), hsame b (List.mem_append_right _ hb)]
      exact h3 a ha b hb

/-- The search for a new name below the storage `p` fails, and `createEntry` at the place
where it ended gives a sibling tree with the new entry inserted in the order of the names. -/
theorem createEntry_child (dt : DirTree) (p : Nat) (nm : List Nat) (t : Shape) (isDir : Bool)
    (s b : Nat) (hlen : dt.entries.length ≤ DirTree.End)
    (h0 : 0 < dt.entries.length) (hroot : (entAt dt.entries 0).valid = true)
    (hpl : p < dt.entries.length) (hpv : (entAt dt.entries p).valid = true)
    (hrep : Rep dt.entries (entAt dt.entries p).child t) (hpt : p ∉ t.inorder)
    (hsorted : SortedNames dt.entries t.inorder)
    (hnew : ∀ i ∈ t.inorder, nameAt dt.entries i ≠ nm) :
    ∃ cl t', dt.find_child p nm DirTree.End = some (0, cl) ∧
      (entAt (dt.createEntry p cl nm isDir s b).2.entries p).valid = true ∧
      Rep (dt.createEntry p cl nm isDir s b).2.entries
        (entAt (dt.createEntry p cl nm isDir s b).2.entries p).child t' ∧
      (∃ l r, t.inorder = l ++ r ∧ t'.inorder = l ++ dt.unused.1 :: r ∧
        (∀ i ∈ l, nameLt (nameAt dt.entries i) nm) ∧
        (∀ j ∈ r, nameLt nm (nameAt dt.entries j))) ∧
      (∀ j ∈ t.inorder,
        nameAt (dt.createEntry p cl nm isDir s b).2.entries j = nameAt dt.entries j) ∧
      entAt (dt.createEntry p cl nm isDir s b).2.entries dt.unused.1 =
        { valid := true, name := nm, dir := isDir, size := if isDir then 0 else s,
          start := AllocTable.Eof, prev := DirTree.End, next := DirTree.End,
          child := DirTree.End } := by
  have hn0 : 0 < dt.unused.1 := unused_pos dt h0 hroot
  have hnt : dt.unused.1 ∉ t.inorder := unused_not_mem dt hrep
  have hnd : t.inorder.Nodup := nodup_of_sorted hsorted
  cases t with
  | leaf =>
    have hc : (entAt dt.entries p).child = DirTree.End := Rep_leaf.1 hrep
    have hfind : dt.find_child p nm DirTree.End = some (0, DirTree.End) := by
      unfold DirTree.find_child
      rw [entry_eq_entAt dt hpl]
      have : ¬ (entAt dt.entries p).child < dt.entryCount := by
        simp only [DirTree.entryCount]; omega
      simp [this]
    obtain ⟨c1, c2, c3, c4, c5, c6⟩ := createEntry_empty dt p nm isDir s b hpl hpv
    rw [hc] at c4
    refine ⟨DirTree.End, .node .leaf dt.unused.1 .leaf, hfind, by rw [c5]; exact hpv, ?_,
      ⟨[], [], by simp [Shape.inorder], by simp [Shape.inorder], by simp, by simp⟩,
      by simp [Shape.inorder], c4⟩
    rw [c5]
    exact Rep_single hn0 c2 (by rw [c4]) (by rw [c4]) (by rw [c4])
  | node a i c =>
    obtain ⟨hq0, hq1⟩ : 0 < (entAt dt.entries p).child ∧
        (entAt dt.entries p).child < dt.entries.length := by
      rcases Rep_root_lt hrep with ⟨h, _⟩ | h
      · exact absurd h (by simp)
      · exact h
    have hh : (Shape.node a i c).height ≤ dt.entryCount + 1 := by
      have := height_le_length (Shape.node a i c)
      have := length_le_of_nodup_lt hnd (fun x hx => (Rep_mem_lt hrep x hx).2)
      simp only [DirTree.entryCount]; omega
    obtain ⟨q, hfs, hqm, hend, hins⟩ := find_sibling_attach dt nm hlen _ _ _ DirTree.End hrep
      (by simp) hnd hnew hh
    have hfind : dt.find_child p nm DirTree.End = some (0, q) := by
      unfold DirTree.find_child
      rw [entry_eq_entAt dt hpl]
      simp [hpv, DirTree.entryCount, hq1]
      simpa [DirTree.entryCount] using hfs
    have hql := (Rep_mem_lt hrep q hqm).2
    have hqE : q ≠ DirTree.End := by omega
    obtain ⟨u, hne⟩ := createEntry_nonempty dt p q nm isDir s b hqE hql
      (Rep_mem_valid hrep q hqm) hn0 hend
    have hpq : p ≠ q := fun e => hpt (e ▸ hqm)
    have hpn : p ≠ dt.unused.1 := by
      obtain ⟨_, _, _, u4, _⟩ := unused_spec dt
      intro e
      have := u4 (e ▸ hpl)
      rw [← e] at this
      simp [this] at hpv
    have hp' := u.frame p hpn hpq hpl
    refine ⟨q, Shape.ins dt.entries nm dt.unused.1 (.node a i c), hfind, by rw [hp']; exact hpv,
      by rw [hp']; exact hins _ _ hnt u, ins_inorder dt.entries nm _ _ hsorted hnew, ?_, hne⟩
    intro j hj
    have hjn : j ≠ dt.unused.1 := fun e => hnt (e ▸ hj)
    by_cases hjq : j = q
    · subst hjq
      unfold nameAt
      rw [u.q_eq]
      split_ifs <;> rfl
    · unfold nameAt
      rw [u.frame j hjn hjq (Rep_mem_lt hrep j hj).2]

/-! ## The loop of `DirTree::entry` at the component that is created -/

theorem splitPath_nil : DirTree.splitPath [] = [] := rfl

theorem splitPath_slash : DirTree.splitPath [47] = [] := rfl

/-- One run of the creating branch: the last component `nm` is new below `p`. -/
theorem entryLoop_create_last (io : StorageIO) (p : Nat) (nm : List Nat) (cl bbs s : Nat)
    (hw : io.writeable = true)
    (hfind : io.dirtree.find_child p nm DirTree.End = some (0, cl))
    (hchain : (io.bbat.follow io.header.dirent_start).isSome = true) :
    ∃ io', DirTree.entryLoop true bbs s [nm] p io = some (io', some io.dirtree.unused.1) ∧
      io'.dirtree = (io.dirtree.createEntry p cl nm false s bbs).2 ∧
      io'.writeable = true := by
  obtain ⟨blocks, hb⟩ := Option.isSome_iff_exists.1 hchain
  obtain ⟨_, u2, _, _, _⟩ := unused_spec io.dirtree
  have hl := createEntry_length io.dirtree p cl nm false s bbs
  refine ⟨ StorageIO.extendDirLoop bbs
    ((io.dirtree.createEntry p cl nm false s bbs).1 / (bbs / 128) + 1 - blocks.length)
    ((io.dirtree.createEntry p cl nm false s bbs).1 / (bbs / 128)) blocks
    { io with dirtree := (io.dirtree.createEntry p cl nm false s bbs).2 }, ?_, ?_, ?_⟩
  · simp only [DirTree.entryLoop, hfind, hw, hb]
    simp only [gt_iff_lt, lt_self_iff_false, if_false, Bool.true_eq_false, or_self,
      List.length_nil, decide_False, extendDirLoop_dirtree, DirTree.entryCount,
      createEntry_fst, hl, u2, if_true]
  · simp
  · simp [hw]

/-- C7: if the children of the storage `p` form a binary search tree `t` under the
length-major comparator and `path` names a new child `nm` of `p`, then
`DirTree::entry(path, create = true)` returns a new entry `n` named `nm`, and the in-order walk
of the sibling tree of `p` (`DirTree::children`, the list behind `Storage::entries`) is the
walk before with `n` inserted, strictly increasing in the order of the names. -/
theorem entry_create_inorder_insert (io : StorageIO) (path nm : List Nat)
    (pre : List (List Nat)) (p bbs s : Nat) (t : Shape)
    (hlen : io.dirtree.entryCount < DirTree.End) (hw : io.writeable = true)
    (hsplit : DirTree.splitPath path = pre ++ [nm])
    (hpre : io.dirtree.lookupLoop pre 0 = some (some p))
    (hpv : (entAt io.dirtree.entries p).valid = true)
    (hrep : Rep io.dirtree.entries (entAt io.dirtree.entries p).child t)
    (hpt : p ∉ t.inorder) (hsorted : SortedNames io.dirtree.entries t.inorder)
    (hnew : ∀ i ∈ t.inorder, nameAt io.dirtree.entries i ≠ nm)
    (hchain : (io.bbat.follow io.header.dirent_start).isSome = true) :
    ∃ io' n l r, DirTree.entryByName io path true bbs s = some (io', some n) ∧
      io.dirtree.children p = some (l ++ r) ∧
      io'.dirtree.children p = some (l ++ n :: r) ∧
      nameAt io'.dirtree.entries n = nm ∧
      (∀ j ∈ l ++ r, nameAt io'.dirtree.entries j = nameAt io.dirtree.entries j) ∧
      SortedNames io'.dirtree.entries (l ++ n :: r) := by
  simp only [DirTree.entryCount] at hlen
  have hpl : p < io.dirtree.entries.length := lookupLoop_lt _ _ _ _ hpre
  have hroot : 0 < io.dirtree.entries.length ∧ (entAt io.dirtree.entries 0).valid = true := by
    rcases lookupLoop_root _ _ _ hpre with h | h
    · subst h; exact ⟨hpl, hpv⟩
    · exact h
  obtain ⟨cl, t', hfind, hv', hrep', ⟨l, r, e1, e2, hl, hr⟩, hnames, hnew'⟩ :=
    createEntry_child io.dirtree p nm t false s bbs (by omega) hroot.1 hroot.2 hpl hpv hrep hpt
      hsorted hnew
  obtain ⟨io', hrun, hdt, _⟩ := entryLoop_create_last io p nm cl bbs s hw hfind hchain
  have hname : nameAt io'.dirtree.entries io.dirtree.unused.1 = nm := by
    rw [hdt]; unfold nameAt; rw [hnew']
  have hsame : ∀ j ∈ l ++ r, nameAt io'.dirtree.entries j = nameAt io.dirtree.entries j := by
    intro j hj; rw [hdt]; exact hnames j (e1 ▸ hj)
  have hs' : SortedNames io'.dirtree.entries (l ++ io.dirtree.unused.1 :: r) :=
    sorted_insert (e1 ▸ hsorted) hsame hname hl hr
  have hlen' : io'.dirtree.entries.length ≤ DirTree.End := by
    rw [hdt, createEntry_length]
    have := unused_length_le io.dirtree
    omega
  have hpl' : p < io'.dirtree.entries.length := by
    rw [hdt, createEntry_length]
    have := (unused_spec io.dirtree).1
    omega
  refine ⟨io', io.dirtree.unused.1, l, r, ?_, ?_, ?_, hname, hsame, hs'⟩
  · unfold DirTree.entryByName
    have h1 : path.length ≠ 0 := by
      intro h
      have : path = [] := List.length_eq_zero.1 h
      rw [this, splitPath_nil] at hsplit
      simp at hsplit
    have h2 : path ≠ [47] := by
      intro h
      rw [h, splitPath_slash] at hsplit
      simp at hsplit
    rw [if_neg h1, if_neg h2, hsplit, entryLoop_prefix true bbs s io [nm] pre 0 p hpre]
    exact hrun
  · rw [← e1]
    exact children_of_Rep io.dirtree (by omega) p t hpl hpv hrep (nodup_of_sorted hsorted)
  · rw [← e2]
    refine children_of_Rep io'.dirtree hlen' p t' hpl' ?_ ?_ ?_
    · rw [hdt]; exact hv'
    · rw [hdt]; exact hrep'
    · rw [e2]; exact nodup_of_sorted hs'

set_option maxRecDepth 100000 in
/-- Witness of C7: the theorem at the container holding `aaa`, `bb` and `c`, for the new path
`/dddd`. -/
theorem entry_create_inorder_insert_witness :
    ∃ io' n l r, DirTree.entryByName threeNames (str "/dddd") true 512 0 = some (io', some n) ∧
      threeNames.dirtree.children 0 = some (l ++ r) ∧
      io'.dirtree.children 0 = some (l ++ n :: r) ∧
      nameAt io'.dirtree.entries n = str "dddd" ∧
      (∀ j ∈ l ++ r, nameAt io'.dirtree.entries j = nameAt threeNames.dirtree.entries j) ∧
      SortedNames io'.dirtree.entries (l ++ n :: r) :=
  entry_create_inorder_insert threeNames (str "/dddd") (str "dddd") [] 0 512 0
    (.node (.node (.node .leaf 3 .leaf) 2 .leaf) 1 .leaf)
    (by decide) (by decide) (by decide) (by decide) (by decide) (by decide) (by decide)
    (by decide) (by decide) (by decide)

/-! ## Deletion from a sibling tree: the replacement -/

theorem entAt_markAsDirty (dt : DirTree) (a b j : Nat) :
    entAt (dt.markAsDirty a b).entries j = entAt dt.entries j := by
  rw [markAsDirty_entries]

/-- The walk of `deleteEntry` down the `prev` links from `j` ends at the smallest node `m` of
the tree below `j` and at its parent `s`; taking `m` out of the tree is the change of one
link of `s`. -/
theorem smallestLoop_spec (dt : DirTree) (hlen : dt.entries.length < DirTree.End) :
    ∀ (rl : Shape) (j : Nat) (rr : Shape) (fuel : Nat), rl ≠ .leaf →
      Rep dt.entries j (.node rl j rr) → (Shape.node rl j rr).inorder.Nodup →
      (Shape.node rl j rr).height ≤ fuel →
      ∃ s m t', DirTree.smallestLoop dt dt.entryCount fuel j = some (s, m) ∧
        (Shape.node rl j rr).inorder = m :: t'.inorder ∧ s ∈ t'.inorder ∧
        0 < m ∧ m < dt.entries.length ∧ (entAt dt.entries m).valid = true ∧
        ∀ es', dt.entries.length ≤ es'.length →
          (∀ k ∈ t'.inorder, k ≠ s → entAt es' k = entAt dt.entries k) →
          entAt es' s = { entAt dt.entries s with prev := (entAt dt.entries m).next } →
          Rep es' j t' := by
  intro rl
  induction rl with
  | leaf => intro j rr fuel h; exact absurd rfl h
  | node a k b iha _ =>
    intro j rr fuel _ hrep hnd hf
    obtain ⟨_, hj0, hj1, hjv, hl, hr⟩ := Rep_node.1 hrep
    obtain ⟨hk, hk0, hk1, hkv, hka, hkb⟩ := Rep_node.1 hl
    simp only [Shape.height] at hf
    obtain ⟨f, rfl⟩ : ∃ f, fuel = f + 1 := ⟨fuel - 1, by omega⟩
    simp only [Shape.inorder, List.append_assoc, List.cons_append] at hnd
    have hstep : DirTree.smallestLoop dt dt.entryCount (f + 1) j =
        if (entAt dt.entries k).prev = 0 ∨ (entAt dt.entries k).prev > dt.entryCount then
          some (j, k)
        else DirTree.smallestLoop dt dt.entryCount f k := by
      simp only [DirTree.smallestLoop, entry_eq_entAt dt hj1, hk, entry_eq_entAt dt hk1]
    rw [hstep]
    rcases Rep_root_lt hka with ⟨rfl, hE⟩ | ⟨hq0, hq1⟩
    · have hc : (entAt dt.entries k).prev = 0 ∨ (entAt dt.entries k).prev > dt.entryCount := by
        right; simp only [DirTree.entryCount]; omega
      rw [if_pos hc]
      simp only [Shape.inorder, List.nil_append] at hnd
      have hjb : j ∉ b.inorder := fun hm => by
        have := (List.nodup_cons.1 hnd).2
        exact (List.nodup_append.1 this).2.2 hm (List.mem_cons_self _ _)
      have hjr : j ∉ rr.inorder := by
        have := (List.nodup_cons.1 hnd).2
        exact (List.nodup_cons.1 (List.nodup_append.1 this).2.1).1
      refine ⟨j, k, .node b j rr, rfl, by simp [Shape.inorder], by simp [Shape.inorder],
        hk0, hk1, hkv, ?_⟩
      intro es' hle hsame hs
      refine Rep_node.2 ⟨rfl, hj0, by omega, by rw [hs]; exact hjv, ?_, ?_⟩
      · rw [hs]
        refine Rep_frame hkb hle (fun x hx => hsame x (by simp [Shape.inorder, hx]) ?_)
        rintro rfl; exact hjb hx
      · rw [hs]
        refine Rep_frame hr hle (fun x hx => hsame x (by simp [Shape.inorder, hx]) ?_)
        rintro rfl; exact hjr hx
    · have hc : ¬ ((entAt dt.entries k).prev = 0 ∨
          (entAt dt.entries k).prev > dt.entryCount) := by
        simp only [DirTree.entryCount]; omega
      rw [if_neg hc]
      have hane : a ≠ .leaf := by
        rintro rfl
        have := Rep_leaf.1 hka
        omega
      have hnd' : (a.inorder ++ k :: b.inorder).Nodup := by
        have := List.nodup_append.1 (by simpa [List.append_assoc] using hnd :
          ((a.inorder ++ k :: b.inorder) ++ j :: rr.inorder).Nodup)
        exact this.1
      have hdis : ∀ y ∈ a.inorder ++ k :: b.inorder, y ≠ j ∧ y ∉ rr.inorder := by
        have := List.nodup_append.1 (by simpa [List.append_assoc] using hnd :
          ((a.inorder ++ k :: b.inorder) ++ j :: rr.inorder).Nodup)
        intro y hy
        refine ⟨?_, fun hm => this.2.2 hy (List.mem_cons_of_mem _ hm)⟩
        rintro rfl
        exact this.2.2 hy (List.mem_cons_self _ _)
      obtain ⟨s, m, ta, hrun, hin, hsm, hm0, hm1, hmv, hre⟩ :=
        iha k b f hane (hk ▸ hl) (by simpa [Shape.inorder] using hnd') (by
          simp only [Shape.height]; omega)
      have hin' : a.inorder ++ k :: b.inorder = m :: ta.inorder := by
        simpa [Shape.inorder] using hin
      have hsub : ∀ y ∈ ta.inorder, y ∈ a.inorder ++ k :: b.inorder := by
        intro y hy; rw [hin']; exact List.mem_cons_of_mem _ hy
      refine ⟨s, m, .node ta j rr, hrun, ?_, by simp [Shape.inorder, hsm], hm0, hm1, hmv, ?_⟩
      · simp only [Shape.inorder, List.append_assoc, List.cons_append]
        have : a.inorder ++ (k :: (b.inorder ++ j :: rr.inorder)) =
            (a.inorder ++ k :: b.inorder) ++ j :: rr.inorder := by simp
        rw [this, hin']
        rfl
      · intro es' hle hsame hs
        have hsj : j ≠ s := fun e => (hdis s (hsub s hsm)).1 e.symm
        have hj' : entAt es' j = entAt dt.entries j := hsame j (by simp [Shape.inorder]) hsj
        refine Rep_node.2 ⟨rfl, hj0, by omega, by rw [hj']; exact hjv, ?_, ?_⟩
        · rw [hj', hk]
          exact hre es' hle (fun y hy hys => hsame y (by simp [Shape.inorder, hy]) hys) hs
        · rw [hj']
          refine Rep_frame hr hle (fun y hy => hsame y (by simp [Shape.inorder, hy]) ?_)
          rintro rfl
          exact (hdis y (hsub y hsm)).2 hy

theorem nameAt_modify (dt : DirTree) (i j : Nat) (f : DirEntry → DirEntry)
    (hf : ∀ e, (f e).name = e.name) :
    nameAt (dt.modify i f).entries j = nameAt dt.entries j := by
  unfold nameAt
  rw [entAt_modify]
  split_ifs with h
  · rw [hf, h.1]
  · rfl

theorem validAt_modify (dt : DirTree) (i j : Nat) (f : DirEntry → DirEntry)
    (hf : ∀ e, (f e).valid = e.valid) :
    (entAt (dt.modify i f).entries j).valid = (entAt dt.entries j).valid := by
  rw [entAt_modify]
  split_ifs with h
  · rw [hf, h.1]
  · rfl

@[simp] theorem nameAt_modify_prev (dt : DirTree) (i j v : Nat) :
    nameAt (dt.modify i (fun e => { e with prev := v })).entries j = nameAt dt.entries j :=
  nameAt_modify dt i j _ (fun _ => rfl)

@[simp] theorem nameAt_modify_next (dt : DirTree) (i j v : Nat) :
    nameAt (dt.modify i (fun e => { e with next := v })).entries j = nameAt dt.entries j :=
  nameAt_modify dt i j _ (fun _ => rfl)

@[simp] theorem nameAt_modify_child (dt : DirTree) (i j v : Nat) :
    nameAt (dt.modify i (fun e => { e with child := v })).entries j = nameAt dt.entries j :=
  nameAt_modify dt i j _ (fun _ => rfl)

@[simp] theorem nameAt_modify_valid (dt : DirTree) (i j : Nat) (v : Bool) :
    nameAt (dt.modify i (fun e => { e with valid := v })).entries j = nameAt dt.entries j :=
  nameAt_modify dt i j _ (fun _ => rfl)

@[simp] theorem validAt_modify_prev (dt : DirTree) (i j v : Nat) :
    (entAt (dt.modify i (fun e => { e with prev := v })).entries j).valid =
      (entAt dt.entries j).valid :=
  validAt_modify dt i j _ (fun _ => rfl)

@[simp] theorem validAt_modify_next (dt : DirTree) (i j v : Nat) :
    (entAt (dt.modify i (fun e => { e with next := v })).entries j).valid =
      (entAt dt.entries j).valid :=
  validAt_modify dt i j _ (fun _ => rfl)

@[simp] theorem validAt_modify_child (dt : DirTree) (i j v : Nat) :
    (entAt (dt.modify i (fun e => { e with child := v })).entries j).valid =
      (entAt dt.entries j).valid :=
  validAt_modify dt i j _ (fun _ => rfl)

/-- The first part of `deleteEntry` at a node `x` with subtrees `l` and `r`: the replacement
index is the root of a tree whose in-order list is that of `l` followed by that of `r`; only
entries of `r` are changed, and no name or valid flag changes. -/
theorem replacement_spec (dt : DirTree) (x bbs : Nat) (l r : Shape)
    (hlen : dt.entries.length < DirTree.End)
    (hrep : Rep dt.entries x (.node l x r)) (hnd : (Shape.node l x r).inorder.Nodup) :
    ∃ rep dta tj, dt.replacement x bbs = some (rep, dta) ∧
      dta.entries.length = dt.entries.length ∧ Rep dta.entries rep tj ∧
      tj.inorder = l.inorder ++ r.inorder ∧
      (∀ j, j ∉ r.inorder → entAt dta.entries j = entAt dt.entries j) ∧
      (∀ j, nameAt dta.entries j = nameAt dt.entries j) ∧
      (∀ j, (entAt dta.entries j).valid = (entAt dt.entries j).valid) := by
  obtain ⟨_, hx0, hx1, hxv, hl, hr⟩ := Rep_node.1 hrep
  simp only [Shape.inorder] at hnd
  have hxr : x ∉ r.inorder := (List.nodup_cons.1 (List.nodup_append.1 hnd).2.1).1
  have hlr : ∀ a ∈ l.inorder, a ∉ r.inorder := fun a ha hb =>
    (List.nodup_append.1 hnd).2.2 ha (List.mem_cons_of_mem _ hb)
  unfold DirTree.replacement
  rw [entry_eq_entAt dt hx1]
  simp only
  cases r with
  | leaf =>
    have hE : (entAt dt.entries x).next = DirTree.End := Rep_leaf.1 hr
    have hc : (entAt dt.entries x).next = 0 ∨ (entAt dt.entries x).next > dt.entryCount := by
      right; simp only [DirTree.entryCount]; omega
    rw [if_pos hc]
    exact ⟨_, _, l, rfl, rfl, hl, by simp [Shape.inorder], fun _ _ => rfl, fun _ => rfl,
      fun _ => rfl⟩
  | node rl j rr =>
    obtain ⟨hj, hj0, hj1, hjv, hjl, hjr⟩ := Rep_node.1 hr
    have hndr : (Shape.node rl j rr).inorder.Nodup :=
      (List.nodup_cons.1 (List.nodup_append.1 hnd).2.1).2
    have hc : ¬ ((entAt dt.entries x).next = 0 ∨ (entAt dt.entries x).next > dt.entryCount) := by
      simp only [DirTree.entryCount]; omega
    rw [if_neg hc, hj, entry_eq_entAt dt hj1]
    simp only
    have hxj : x ≠ j := fun e => hxr (by simp [Shape.inorder, e])
    rcases Rep_root_lt hjl with ⟨rfl, hE⟩ | ⟨hq0, hq1⟩
    · have hc2 : (entAt dt.entries j).prev = 0 ∨ (entAt dt.entries j).prev > dt.entryCount := by
        right; simp only [DirTree.entryCount]; omega
      rw [if_pos hc2]
      have hjl' : j ∉ l.inorder := fun hm => hlr j hm (by simp [Shape.inorder])
      have hjrr : j ∉ rr.inorder := by
        simp only [Shape.inorder, List.nil_append] at hndr
        exact (List.nodup_cons.1 hndr).1
      refine ⟨_, _, .node l j rr, rfl, by simp, ?_, by simp [Shape.inorder], ?_, ?_, ?_⟩
      · refine Rep_node.2 ⟨rfl, hj0, by simpa using hj1, ?_, ?_, ?_⟩
        · simp [entAt_modify, hj1, hjv]
        · simp only [markAsDirty_entries, entAt_modify, hj1, and_self, if_true]
          refine Rep_frame hl (by simp) (fun k hk => ?_)
          have : k ≠ j := fun e => hjl' (e ▸ hk)
          simp [entAt_modify, this]
        · simp only [markAsDirty_entries, entAt_modify, hj1, and_self, if_true]
          refine Rep_frame hjr (by simp) (fun k hk => ?_)
          have : k ≠ j := fun e => hjrr (e ▸ hk)
          simp [entAt_modify, this]
      · intro k hk
        have : k ≠ j := fun e => hk (by simp [Shape.inorder, e])
        simp [entAt_modify, this]
      · intro k
        simp only [markAsDirty_entries, nameAt_modify_prev]
      · intro k
        simp only [markAsDirty_entries, validAt_modify_prev]
    · have hc2 : ¬ ((entAt dt.entries j).prev = 0 ∨
          (entAt dt.entries j).prev > dt.entryCount) := by
        simp only [DirTree.entryCount]; omega
      rw [if_neg hc2]
      have hrlne : rl ≠ .leaf := by
        rintro rfl
        have := Rep_leaf.1 hjl
        omega
      have hh : (Shape.node rl j rr).height ≤ dt.entryCount + 1 := by
        have := height_le_length (Shape.node rl j rr)
        have := length_le_of_nodup_lt hndr (fun y hy => (Rep_mem_lt (hj ▸ hr) y hy).2)
        simp only [DirTree.entryCount]; omega
      obtain ⟨s, m, t', hrun, hin, hsm, hm0, hm1, hmv, hre⟩ :=
        smallestLoop_spec dt hlen rl j rr _ hrlne (hj ▸ hr) hndr hh
      rw [hrun]
      simp only
      have hnd2 : (m :: t'.inorder).Nodup := hin ▸ hndr
      have hmt : m ∉ t'.inorder := (List.nodup_cons.1 hnd2).1
      have hsm' : s ≠ m := fun e => hmt (e ▸ hsm)
      have hmr : m ∈ (Shape.node rl j rr).inorder := by rw [hin]; exact List.mem_cons_self _ _
      have hsr : s ∈ (Shape.node rl j rr).inorder := by
        rw [hin]; exact List.mem_cons_of_mem _ hsm
      have hxm : x ≠ m := fun e => hxr (e ▸ hmr)
      have hxs : x ≠ s := fun e => hxr (e ▸ hsr)
      have hs1 : s < dt.entries.length := (Rep_mem_lt (hj ▸ hr) s hsr).2
      refine ⟨_, _, .node l m t', rfl, by simp, ?_, ?_, ?_, ?_, ?_⟩
      · refine Rep_node.2 ⟨rfl, hm0, by simpa using hm1, ?_, ?_, ?_⟩
        · simp [entAt_modify, entry_getD, hm1, hmv, Ne.symm hsm']
        · simp only [markAsDirty_entries, entry_getD, entAt_modify, modify_length, hm1, hxm,
            hxs, Ne.symm hsm', and_self, if_true, false_and, if_false]
          refine Rep_frame hl (by simp) (fun k hk => ?_)
          have h1 : k ≠ m := fun e => hlr k hk (e ▸ hmr)
          have h2 : k ≠ s := fun e => hlr k hk (e ▸ hsr)
          simp [entAt_modify, h1, h2]
        · simp only [markAsDirty_entries, entry_getD, entAt_modify, modify_length, hm1, hxm,
            hxs, Ne.symm hsm', and_self, if_true, false_and, if_false]
          rw [hj]
          refine hre _ (by simp) (fun k hk hks => ?_) ?_
          · have h1 : k ≠ m := fun e => hmt (e ▸ hk)
            simp [entAt_modify, h1, hks]
          · simp [entAt_modify, hsm', hs1]
      · simp only [Shape.inorder, hin]
        simp [Shape.inorder] at hin
        simp [hin]
      · intro k hk
        have h1 : k ≠ m := fun e => hk (e ▸ hmr)
        have h2 : k ≠ s := fun e => hk (e ▸ hsr)
        simp [entAt_modify, h1, h2]
      · intro k
        simp only [markAsDirty_entries, nameAt_modify_prev, nameAt_modify_next]
      · intro k
        simp only [markAsDirty_entries, validAt_modify_prev, validAt_modify_next]

/-! ## Deletion from a sibling tree: the sibling that points to the entry -/

theorem erase_mid {l r : List Nat} {x : Nat} (h : x ∉ l) : (l ++ x :: r).erase x = l ++ r := by
  rw [List.erase_append_right _ h, List.erase_cons_head]

theorem findSib_step (dt : DirTree) (x f i : Nat) (hi : i < dt.entries.length)
    (hv : (entAt dt.entries i).valid = true) (hx : x < dt.entries.length) :
    dt.findSib x (f + 1) i =
      if (entAt dt.entries i).next = x ∨ (entAt dt.entries i).prev = x then some i
      else if cmpName (nameAt dt.entries i) (nameAt dt.entries x) > 0 then
        dt.findSib x f (entAt dt.entries i).prev
      else dt.findSib x f (entAt dt.entries i).next := by
  simp [DirTree.findSib, entry_eq_entAt dt hi, entry_eq_entAt dt hx, hv, DirEntry.compare_eq,
    nameAt]

/-- A link that represents a tree not containing `x` is not `x`. -/
theorem Rep_root_ne {es : List DirEntry} {p x : Nat} {t : Shape} (h : Rep es p t)
    (hx : x < es.length) (hlen : es.length ≤ DirTree.End) (hnot : x ∉ t.inorder) : p ≠ x := by
  cases t with
  | leaf => have := Rep_leaf.1 h; omega
  | node l i r =>
    obtain ⟨rfl, _⟩ := Rep_node.1 h
    intro e
    exact hnot (by simp [Shape.inorder, e])

/-- The search of `findSib` for an entry `x` of a sorted sibling tree, other than its root,
ends at the node `s` that points to `x`; replacing the subtree at `x` through that link by a
tree with the same entries but `x` gives the in-order list without `x`. -/
theorem findSib_attach (dt : DirTree) (x : Nat) (hlen : dt.entries.length < DirTree.End) :
    ∀ (t : Shape) (c fuel : Nat), Rep dt.entries c t → SortedNames dt.entries t.inorder →
      x ∈ t.inorder → c ≠ x → t.height ≤ fuel →
      ∃ s l r, dt.findSib x fuel c = some s ∧ s ∈ t.inorder ∧ s ≠ x ∧
        Rep dt.entries x (.node l x r) ∧ List.Sublist (Shape.node l x r).inorder t.inorder ∧
        s ∉ l.inorder ∧ s ∉ r.inorder ∧
        ∀ (es1 es2 : List DirEntry) (rep : Nat) (tj : Shape),
          es1.length = dt.entries.length → es2.length = es1.length → Rep es1 rep tj →
          tj.inorder = l.inorder ++ r.inorder →
          (∀ k, k ∉ r.inorder → entAt es1 k = entAt dt.entries k) →
          (∀ k, k ≠ s → entAt es2 k = entAt es1 k) →
          entAt es2 s = (if (entAt es1 s).next = x then { entAt es1 s with next := rep }
            else { entAt es1 s with prev := rep }) →
          ∃ t', Rep es2 c t' ∧ t'.inorder = t.inorder.erase x := by
  intro t
  induction t with
  | leaf => intro c fuel _ _ hx; simp [Shape.inorder] at hx
  | node a i b iha ihb =>
    intro c fuel hrep hs hxm hcx hf
    obtain ⟨rfl, hc0, hc1, hcv, hl, hr⟩ := Rep_node.1 hrep
    have hnd : (Shape.node a c b).inorder.Nodup := nodup_of_sorted hs
    have hxl : x < dt.entries.length := (Rep_mem_lt hrep x hxm).2
    simp only [Shape.height] at hf
    obtain ⟨f, rfl⟩ : ∃ f, fuel = f + 1 := ⟨fuel - 1, by omega⟩
    have hs' := hs
    rw [sortedNames_iff, Shape.inorder, List.pairwise_append, List.pairwise_cons] at hs'
    obtain ⟨hsa, ⟨hcb, hsb⟩, hac⟩ := hs'
    rw [← sortedNames_iff] at hsa hsb
    simp only [Shape.inorder] at hnd hxm
    have hca : c ∉ a.inorder := fun hm =>
      (List.nodup_append.1 hnd).2.2 hm (List.mem_cons_self _ _)
    have hcb' : c ∉ b.inorder := (List.nodup_cons.1 (List.nodup_append.1 hnd).2.1).1
    have hdisj : ∀ y ∈ a.inorder, y ∉ b.inorder := fun y ha hb =>
      (List.nodup_append.1 hnd).2.2 ha (List.mem_cons_of_mem _ hb)
    have hnda : a.inorder.Nodup := (List.nodup_append.1 hnd).1
    have hndb : b.inorder.Nodup := (List.nodup_cons.1 (List.nodup_append.1 hnd).2.1).2
    rw [findSib_step dt x f c hc1 hcv hxl]
    simp only [List.mem_append, List.mem_cons] at hxm
    rcases hxm with hxa | hxc | hxb
    · -- x is in the left subtree
      have hxb : x ∉ b.inorder := hdisj x hxa
      have hcmp : cmpName (nameAt dt.entries c) (nameAt dt.entries x) > 0 :=
        cmp_pos_of_nameLt (hac x hxa c (List.mem_cons_self _ _))
      have hnext : (entAt dt.entries c).next ≠ x := Rep_root_ne hr hxl (by omega) hxb
      by_cases hp : (entAt dt.entries c).prev = x
      · rw [if_pos (Or.inr hp)]
        cases a with
        | leaf => simp [Shape.inorder] at hxa
        | node al k ar =>
          obtain ⟨hk, _⟩ := Rep_node.1 hl
          have hkx : k = x := hk.symm.trans hp
          subst hkx
          have hnda' : (al.inorder ++ k :: ar.inorder).Nodup := by
            simpa [Shape.inorder] using hnda
          have hkal : k ∉ al.inorder := fun hm =>
            (List.nodup_append.1 hnda').2.2 hm (List.mem_cons_self _ _)
          refine ⟨c, al, ar, rfl, by simp [Shape.inorder], hcx, hp ▸ hl,
            by simp [Shape.inorder],
            fun hm => hca (by simp [Shape.inorder, hm]),
            fun hm => hca (by simp [Shape.inorder, hm]), ?_⟩
          intro es1 es2 rep tj h1 h2 hrj hin hf1 hf2 hsq
          have hc1' : entAt es1 c = entAt dt.entries c :=
            hf1 c (fun hm => hca (by simp [Shape.inorder, hm]))
          rw [hc1', if_neg hnext] at hsq
          refine ⟨.node tj c b, Rep_node.2 ⟨rfl, hc0, by omega, by rw [hsq]; exact hcv, ?_, ?_⟩,
            ?_⟩
          · rw [hsq]
            refine Rep_frame hrj (by omega) (fun y hy => hf2 y ?_)
            rintro rfl
            rw [hin] at hy
            exact hca (by
              simp only [Shape.inorder, List.mem_append, List.mem_cons]
              rcases List.mem_append.1 hy with h | h
              · exact Or.inl h
              · exact Or.inr (Or.inr h))
          · rw [hsq]
            refine Rep_frame hr (by omega) (fun y hy => ?_)
            have hyc : y ≠ c := fun e => hcb' (e ▸ hy)
            rw [hf2 y hyc]
            exact hf1 y (fun hm => hdisj y (by simp [Shape.inorder, hm]) hy)
          · simp only [Shape.inorder, hin, List.append_assoc, List.cons_append]
            exact (erase_mid hkal).symm
      · have hno : ¬ ((entAt dt.entries c).next = x ∨ (entAt dt.entries c).prev = x) := by
          rintro (h | h)
          · exact hnext h
          · exact hp h
        rw [if_neg hno, if_pos hcmp]
        obtain ⟨s, l, r, hrun, hsm, hsx, hrx, hsub, hsl, hsr, hall⟩ :=
          iha _ f hl hsa hxa hp (by omega)
        have hsubm : ∀ y ∈ r.inorder, y ∈ a.inorder := fun y hy =>
          hsub.subset (by simp [Shape.inorder, hy])
        refine ⟨s, l, r, hrun, by simp [Shape.inorder, hsm], hsx, hrx,
          hsub.trans (by simp [Shape.inorder]), hsl, hsr, ?_⟩
        intro es1 es2 rep tj h1 h2 hrj hin hf1 hf2 hsq
        obtain ⟨ta, hra, hia⟩ := hall es1 es2 rep tj h1 h2 hrj hin hf1 hf2 hsq
        have hcs : c ≠ s := fun e => hca (e ▸ hsm)
        have hc' : entAt es2 c = entAt dt.entries c := by
          rw [hf2 c hcs]
          exact hf1 c (fun hm => hca (hsubm c hm))
        refine ⟨.node ta c b, Rep_node.2 ⟨rfl, hc0, by omega, by rw [hc']; exact hcv, ?_, ?_⟩, ?_⟩
        · rw [hc']; exact hra
        · rw [hc']
          refine Rep_frame hr (by omega) (fun y hy => ?_)
          have hys : y ≠ s := fun e => hdisj s hsm (e ▸ hy)
          rw [hf2 y hys]
          exact hf1 y (fun hm => hdisj y (hsubm y hm) hy)
        · simp only [Shape.inorder, hia]
          exact (List.erase_append_left _ hxa).symm
    · exact absurd hxc.symm hcx
    · -- x is in the right subtree
      have hxa : x ∉ a.inorder := fun h => hdisj x h hxb
      have hlt : nameLt (nameAt dt.entries c) (nameAt dt.entries x) := hcb x hxb
      have hcmp : ¬ cmpName (nameAt dt.entries c) (nameAt dt.entries x) > 0 := by
        unfold nameLt at hlt; omega
      have hprev : (entAt dt.entries c).prev ≠ x := Rep_root_ne hl hxl (by omega) hxa
      by_cases hn : (entAt dt.entries c).next = x
      · rw [if_pos (Or.inl hn)]
        cases b with
        | leaf => simp [Shape.inorder] at hxb
        | node bl k br =>
          obtain ⟨hk, _⟩ := Rep_node.1 hr
          have hkx : k = x := hk.symm.trans hn
          subst hkx
          have hndb' : (bl.inorder ++ k :: br.inorder).Nodup := by
            simpa [Shape.inorder] using hndb
          have hkbl : k ∉ bl.inorder := fun hm =>
            (List.nodup_append.1 hndb').2.2 hm (List.mem_cons_self _ _)
          refine ⟨c, bl, br, rfl, by simp [Shape.inorder], hcx, hn ▸ hr,
            by simp [Shape.inorder],
            fun hm => hcb' (by simp [Shape.inorder, hm]),
            fun hm => hcb' (by simp [Shape.inorder, hm]), ?_⟩
          intro es1 es2 rep tj h1 h2 hrj hin hf1 hf2 hsq
          have hc1' : entAt es1 c = entAt dt.entries c :=
            hf1 c (fun hm => hcb' (by simp [Shape.inorder, hm]))
          rw [hc1', if_pos hn] at hsq
          refine ⟨.node a c tj, Rep_node.2 ⟨rfl, hc0, by omega, by rw [hsq]; exact hcv, ?_, ?_⟩,
            ?_⟩
          · rw [hsq]
            refine Rep_frame hl (by omega) (fun y hy => ?_)
            have hyc : y ≠ c := fun e => hca (e ▸ hy)
            rw [hf2 y hyc]
            exact hf1 y (fun hm => hdisj y hy (by simp [Shape.inorder, hm]))
          · rw [hsq]
            refine Rep_frame hrj (by omega) (fun y hy => hf2 y ?_)
            rintro rfl
            rw [hin] at hy
            exact hcb' (by
              simp only [Shape.inorder, List.mem_append, List.mem_cons]
              rcases List.mem_append.1 hy with h | h
              · exact Or.inl h
              · exact Or.inr (Or.inr h))
          · simp only [Shape.inorder, hin]
            rw [List.erase_append_right _ hxa, List.erase_cons_tail (by simpa using hcx),
              erase_mid hkbl]
      · have hno : ¬ ((entAt dt.entries c).next = x ∨ (entAt dt.entries c).prev = x) := by
          rintro (h | h)
          · exact hn h
          · exact hprev h
        rw [if_neg hno, if_neg hcmp]
        obtain ⟨s, l, r, hrun, hsm, hsx, hrx, hsub, hsl, hsr, hall⟩ :=
          ihb _ f hr hsb hxb hn (by omega)
        have hsubm : ∀ y ∈ r.inorder, y ∈ b.inorder := fun y hy =>
          hsub.subset (by simp [Shape.inorder, hy])
        refine ⟨s, l, r, hrun, by simp [Shape.inorder, hsm], hsx, hrx,
          hsub.trans (by simp [Shape.inorder]),
          hsl, hsr, ?_⟩
        intro es1 es2 rep tj h1 h2 hrj hin hf1 hf2 hsq
        obtain ⟨tb, hrb, hib⟩ := hall es1 es2 rep tj h1 h2 hrj hin hf1 hf2 hsq
        have hcs : c ≠ s := fun e => hcb' (e ▸ hsm)
        have hc' : entAt es2 c = entAt dt.entries c := by
          rw [hf2 c hcs]
          exact hf1 c (fun hm => hcb' (hsubm c hm))
        refine ⟨.node a c tb, Rep_node.2 ⟨rfl, hc0, by omega, by rw [hc']; exact hcv, ?_, ?_⟩, ?_⟩
        · rw [hc']
          refine Rep_frame hl (by omega) (fun y hy => ?_)
          have hys : y ≠ s := fun e => hdisj y hy (e ▸ hsm)
          rw [hf2 y hys]
          exact hf1 y (fun hm => hdisj y hy (hsubm y hm))
        · rw [hc']; exact hrb
        · simp only [Shape.inorder, hib]
          rw [List.erase_append_right _ hxa, List.erase_cons_tail (by simpa using hcx)]

/-! ## Deletion from a sibling tree: `deleteEntry` -/

theorem reattach_parent (dt : DirTree) (x p rep b : Nat) (hp : p < dt.entries.length) :
    ∃ dt2, dt.reattach x p 0 rep b = some dt2 ∧ dt2.entries.length = dt.entries.length ∧
      entAt dt2.entries p = { entAt dt.entries p with child := rep } ∧
      (∀ k, k ≠ p → entAt dt2.entries k = entAt dt.entries k) ∧
      (∀ k, nameAt dt2.entries k = nameAt dt.entries k) ∧
      (∀ k, (entAt dt2.entries k).valid = (entAt dt.entries k).valid) := by
  refine ⟨_, by simp [DirTree.reattach, entry_eq_entAt dt hp]; rfl, by simp, ?_, ?_, ?_, ?_⟩
  · simp [entAt_modify, hp]
  · intro k hk; simp [entAt_modify, hk]
  · intro k; simp
  · intro k; simp

theorem reattach_sib (dt : DirTree) (x p s rep b : Nat) (hs0 : s ≠ 0)
    (hs : s < dt.entries.length) :
    ∃ dt2, dt.reattach x p s rep b = some dt2 ∧ dt2.entries.length = dt.entries.length ∧
      entAt dt2.entries s = (if (entAt dt.entries s).next = x
        then { entAt dt.entries s with next := rep }
        else { entAt dt.entries s with prev := rep }) ∧
      (∀ k, k ≠ s → entAt dt2.entries k = entAt dt.entries k) ∧
      (∀ k, nameAt dt2.entries k = nameAt dt.entries k) ∧
      (∀ k, (entAt dt2.entries k).valid = (entAt dt.entries k).valid) := by
  by_cases hn : (entAt dt.entries s).next = x
  · refine ⟨_, by simp [DirTree.reattach, entry_eq_entAt dt hs, hs0, hn]; rfl, by simp, ?_, ?_,
      ?_, ?_⟩
    · simp [entAt_modify, hs, hn]
    · intro k hk; simp [entAt_modify, hk]
    · intro k; simp
    · intro k; simp
  · refine ⟨_, by simp [DirTree.reattach, entry_eq_entAt dt hs, hs0, hn]; rfl, by simp, ?_, ?_,
      ?_, ?_⟩
    · simp [entAt_modify, hs, hn]
    · intro k hk; simp [entAt_modify, hk]
    · intro k; simp
    · intro k; simp

theorem lookup_lt (dt : DirTree) (pn : List Nat) (p : Nat)
    (h : dt.lookup pn = some (some p)) : p < dt.entries.length := by
  unfold DirTree.lookup at h
  split_ifs at h with h1 h2 h3
  · simp at h
  · simp only [DirTree.entryCount] at h3
    simp only [Option.some.injEq] at h
    omega
  · simp at h
  · exact lookupLoop_lt _ _ _ _ h

theorem sortedNames_congr {es es' : List DirEntry} (l : List Nat)
    (h : ∀ j, nameAt es' j = nameAt es j) : SortedNames es' l ↔ SortedNames es l := by
  have : nameAt es' = nameAt es := funext h
  unfold SortedNames
  rw [this]

theorem parentName_slash : DirTree.parentName [47] = none := by decide

theorem parentName_nil : DirTree.parentName [] = none := by decide

theorem findParentAndSib_eq (dt : DirTree) (x p : Nat) (fullName pn : List Nat)
    (hx0 : 0 < x) (hx1 : x < dt.entries.length)
    (hname : DirTree.parentName fullName = some pn) (hlook : dt.lookup pn = some (some p)) :
    dt.findParentAndSib x fullName =
      if (entAt dt.entries p).child = x then some (p, 0)
      else (dt.findSib x (dt.entryCount + 1) (entAt dt.entries p).child).map
        (fun s => (p, s)) := by
  have h1 : fullName ≠ [47] := by
    rintro rfl; rw [parentName_slash] at hname; simp at hname
  have h2 : fullName ≠ [] := by
    rintro rfl; rw [parentName_nil] at hname; simp at hname
  have hp : p < dt.entries.length := lookup_lt dt pn p hlook
  have hc : ¬ (x = 0 ∨ x ≥ dt.entryCount ∨ fullName = [47] ∨ fullName = []) := by
    simp only [DirTree.entryCount]
    rintro (h | h | h | h)
    · omega
    · omega
    · exact h1 h
    · exact h2 h
  unfold DirTree.findParentAndSib
  rw [if_neg hc]
  simp only [hname, hlook, entry_eq_entAt dt hp]

/-- C8 (amended): if the children of the storage `p` form a binary search tree `t` under the
length-major comparator, `x` is one of them and the parent part of `fullName` resolves to
`p`, then `DirTree::deleteEntry` returns, entry `x` is invalid afterwards, and the in-order
walk of the sibling tree of `p` is the walk before with `x` removed: every other child is
still reached, in the same strictly increasing order, whichever replacement case applies and
whether `x` hung from a sibling or from the `child` link of `p`. -/
theorem deleteEntry_inorder_remove (dt : DirTree) (p x bbs : Nat) (fullName pn : List Nat)
    (t : Shape) (hlen : dt.entryCount < DirTree.End)
    (hname : DirTree.parentName fullName = some pn) (hlook : dt.lookup pn = some (some p))
    (hpv : (entAt dt.entries p).valid = true)
    (hrep : Rep dt.entries (entAt dt.entries p).child t) (hpt : p ∉ t.inorder)
    (hsorted : SortedNames dt.entries t.inorder) (hx : x ∈ t.inorder) :
    ∃ dt', dt.deleteEntry x fullName bbs = some dt' ∧
      (entAt dt'.entries x).valid = false ∧
      dt'.children p = some (t.inorder.erase x) ∧
      (∀ j, nameAt dt'.entries j = nameAt dt.entries j) ∧
      SortedNames dt'.entries (t.inorder.erase x) ∧
      (∀ j, j ≠ x → (entAt dt'.entries j).valid = (entAt dt.entries j).valid) := by
  simp only [DirTree.entryCount] at hlen
  obtain ⟨hx0, hx1⟩ := Rep_mem_lt hrep x hx
  have hp : p < dt.entries.length := lookup_lt dt pn p hlook
  have hnd : t.inorder.Nodup := nodup_of_sorted hsorted
  have hpx : p ≠ x := fun e => hpt (e ▸ hx)
  have hfp := findParentAndSib_eq dt x p fullName pn hx0 hx1 hname hlook
  -- the facts that every case ends with
  have hfinish : ∀ (dtb : DirTree) (t' : Shape), dtb.entries.length = dt.entries.length →
      (entAt dtb.entries p).valid = true → Rep dtb.entries (entAt dtb.entries p).child t' →
      t'.inorder = t.inorder.erase x → (∀ j, nameAt dtb.entries j = nameAt dt.entries j) →
      (∀ j, (entAt dtb.entries j).valid = (entAt dt.entries j).valid) →
      (entAt ((dtb.modify x (fun e => { e with valid := false })).markAsDirty x bbs).entries
          x).valid = false ∧
        ((dtb.modify x (fun e => { e with valid := false })).markAsDirty x bbs).children p =
          some (t.inorder.erase x) ∧
        (∀ j, nameAt ((dtb.modify x (fun e => { e with valid := false })).markAsDirty x
          bbs).entries j = nameAt dt.entries j) ∧
        SortedNames ((dtb.modify x (fun e => { e with valid := false })).markAsDirty x
          bbs).entries (t.inorder.erase x) ∧
        (∀ j, j ≠ x → (entAt ((dtb.modify x (fun e => { e with valid := false })).markAsDirty x
          bbs).entries j).valid = (entAt dt.entries j).valid) := by
    intro dtb t' hl hv hr hin hnm hvl
    have hxt : x ∉ t'.inorder := by
      rw [hin]; intro hm
      exact ((List.Nodup.mem_erase_iff hnd).1 hm).1 rfl
    have hnames : ∀ j, nameAt ((dtb.modify x (fun e => { e with valid := false })).markAsDirty
        x bbs).entries j = nameAt dt.entries j := by
      intro j; simp [hnm]
    refine ⟨by simp [entAt_modify, hl, hx1], ?_, hnames, ?_, ?_⟩
    · rw [← hin]
      refine children_of_Rep _ (by simp [hl]; omega) p t' (by simp [hl, hp]) ?_ ?_
        (hin ▸ hnd.erase x)
      · simp [entAt_modify, hpx, hv]
      · simp only [markAsDirty_entries, entAt_modify, hpx, false_and, if_false]
        refine Rep_frame hr (by simp) (fun k hk => ?_)
        have : k ≠ x := fun e => hxt (e ▸ hk)
        simp [entAt_modify, this]
    · rw [sortedNames_congr _ hnames]
      exact (List.Pairwise.sublist ((List.erase_sublist x t.inorder).map _) hsorted)
    · intro j hj
      simp [entAt_modify, hj, hvl]
  unfold DirTree.deleteEntry
  rw [hfp]
  by_cases hc : (entAt dt.entries p).child = x
  · -- `x` hangs from the `child` link of `p`
    rw [if_pos hc]
    cases t with
    | leaf => simp [Shape.inorder] at hx
    | node l i r =>
      obtain ⟨hi, _⟩ := Rep_node.1 hrep
      have hix : i = x := hi.symm.trans hc
      subst hix
      obtain ⟨rep, dta, tj, hrun, hl1, hrj, hin, hf1, hn1, hv1⟩ :=
        replacement_spec dt i bbs l r hlen (hc ▸ hrep) hnd
      have hpr : p ∉ r.inorder := fun hm => hpt (by simp [Shape.inorder, hm])
      obtain ⟨dt2, hre, hl2, hp2, hf2, hn2, hv2⟩ :=
        reattach_parent dta i p rep bbs (by omega)
      simp only [hrun, hre]
      have hil : i ∉ l.inorder := fun hm => by
        simp only [Shape.inorder] at hnd
        exact (List.nodup_append.1 hnd).2.2 hm (List.mem_cons_self _ _)
      have hfin := hfinish dt2 tj (by omega) (by rw [hv2, hv1]; exact hpv) ?_
        (by rw [hin]; simp only [Shape.inorder]; exact (erase_mid hil).symm)
        (fun j => by rw [hn2, hn1]) (fun j => by rw [hv2, hv1])
      · exact ⟨_, rfl, hfin⟩
      · rw [hp2]
        refine Rep_frame hrj (by omega) (fun k hk => hf2 k ?_)
        rintro rfl
        rw [hin] at hk
        exact hpt (by
          simp only [Shape.inorder, List.mem_append, List.mem_cons]
          rcases List.mem_append.1 hk with h | h
          · exact Or.inl h
          · exact Or.inr (Or.inr h))
  · -- `x` hangs from a sibling
    rw [if_neg hc]
    have hh : t.height ≤ dt.entryCount + 1 := by
      have := height_le_length t
      have := length_le_of_nodup_lt hnd (fun y hy => (Rep_mem_lt hrep y hy).2)
      simp only [DirTree.entryCount]; omega
    obtain ⟨s, l, r, hrun, hsm, hsx, hrx, hsub, hsl, hsr, hall⟩ :=
      findSib_attach dt x hlen t _ _ hrep hsorted hx hc hh
    obtain ⟨hs0, hs1⟩ := Rep_mem_lt hrep s hsm
    obtain ⟨rep, dta, tj, hrun1, hl1, hrj, hin, hf1, hn1, hv1⟩ :=
      replacement_spec dt x bbs l r hlen hrx (hsub.nodup hnd)
    obtain ⟨dt2, hre, hl2, hs2, hf2, hn2, hv2⟩ :=
      reattach_sib dta x p s rep bbs (by omega) (by omega)
    simp only [hrun, Option.map_some', hrun1, hre]
    obtain ⟨t', hr', hin'⟩ := hall dta.entries dt2.entries rep tj hl1 hl2 hrj hin hf1 hf2 hs2
    have hps : p ≠ s := fun e => hpt (e ▸ hsm)
    have hpr : p ∉ r.inorder := fun hm => hpt (hsub.subset (by simp [Shape.inorder, hm]))
    have hp2 : entAt dt2.entries p = entAt dt.entries p := by
      rw [hf2 p hps]; exact hf1 p hpr
    have hfin := hfinish dt2 t' (by omega) (by rw [hp2]; exact hpv) (by rw [hp2]; exact hr') hin'
      (fun j => by rw [hn2, hn1]) (fun j => by rw [hv2, hv1])
    exact ⟨_, rfl, hfin⟩

set_option maxRecDepth 100000 in
/-- Witness of C8: the theorem at the directory holding `aaa`, `bb`, `c` and `dddd`, for the
entry `aaa` (index 1), the root of the sibling tree, addressed as `/aaa`. -/
theorem deleteEntry_inorder_remove_witness :
    ∃ dt', fourNames.dirtree.deleteEntry 1 (str "/aaa") 512 = some dt' ∧
      (entAt dt'.entries 1).valid = false ∧
      dt'.children 0 =
        some ((Shape.node (.node (.node .leaf 3 .leaf) 2 .leaf) 1
          (.node .leaf 4 .leaf)).inorder.erase 1) ∧
      (∀ j, nameAt dt'.entries j = nameAt fourNames.dirtree.entries j) ∧
      SortedNames dt'.entries
        ((Shape.node (.node (.node .leaf 3 .leaf) 2 .leaf) 1
          (.node .leaf 4 .leaf)).inorder.erase 1) ∧
      (∀ j, j ≠ 1 → (entAt dt'.entries j).valid = (entAt fourNames.dirtree.entries j).valid) :=
  deleteEntry_inorder_remove fourNames.dirtree 0 1 512 (str "/aaa") (str "/")
    (.node (.node (.node .leaf 3 .leaf) 2 .leaf) 1 (.node .leaf 4 .leaf))
    (by decide) (by decide) (by decide) (by decide) (by decide) (by decide) (by decide)
    (by decide)

/-! ## `StreamIO::read`: the number of bytes copied -/

@[simp] theorem slice_length (buf : List Nat) (off n : Nat) : (slice buf off n).length = n := by
  simp [slice]

theorem readSmallLoop_length_le (io : StorageIO) (maxlen : Nat) :
    ∀ (blocks : List Nat) (offset : Nat) (buf acc : List Nat), acc.length ≤ maxlen →
      ( StreamIO.readSmallLoop io maxlen blocks offset buf acc).length ≤ maxlen := by
  intro blocks
  induction blocks with
  | nil => intro _ _ acc h; simpa [ StreamIO.readSmallLoop] using h
  | cons b rest ih =>
    intro offset buf acc h
    simp only [ StreamIO.readSmallLoop]
    split_ifs with h1 h2
    · exact ih _ _ _ (by simp; omega)
    · exact ih _ _ _ (by simp; omega)
    · exact h

theorem readBigLoop_length_le (io : StorageIO) (maxlen : Nat) :
    ∀ (blocks : List Nat) (offset : Nat) (buf acc : List Nat), acc.length ≤ maxlen →
      ( StreamIO.readBigLoop io maxlen blocks offset buf acc).length ≤ maxlen := by
  intro blocks
  induction blocks with
  | nil => intro _ _ acc h; simpa [ StreamIO.readBigLoop] using h
  | cons b rest ih =>
    intro offset buf acc h
    simp only [ StreamIO.readBigLoop]
    split_ifs with h1 h2
    · exact ih _ _ _ (by simp; omega)
    · exact ih _ _ _ (by simp; omega)
    · exact h

/-- For a position inside the stream the clamp of `StreamIO::read` works: the number of bytes
copied is at most `maxlen` and at most `size - pos`. -/
theorem read_length_le (io : StorageIO) (s : StreamIO) (pos maxlen : Nat)
    (hpos : pos ≤ (entAt io.dirtree.entries s.entryIdx).size)
    (h32 : pos + maxlen < 2 ^ 32) :
    ( StreamIO.read io s pos maxlen).length ≤ maxlen ∧
      ( StreamIO.read io s pos maxlen).length ≤
        (entAt io.dirtree.entries s.entryIdx).size - pos := by
  have hmod : (pos + maxlen) % 2 ^ 32 = pos + maxlen := Nat.mod_eq_of_lt h32
  obtain ⟨m1, hm1, hle1, hle2⟩ : ∃ m1,
      (if (pos + maxlen) % 2 ^ 32 > (entAt io.dirtree.entries s.entryIdx).size then
        ((entAt io.dirtree.entries s.entryIdx).size + 2 ^ 32 - pos) % 2 ^ 32 else maxlen) = m1 ∧
      m1 ≤ maxlen ∧ m1 ≤ (entAt io.dirtree.entries s.entryIdx).size - pos := by
    rw [hmod]
    by_cases hc : pos + maxlen > (entAt io.dirtree.entries s.entryIdx).size
    · have hw : ((entAt io.dirtree.entries s.entryIdx).size + 2 ^ 32 - pos) % 2 ^ 32 =
          (entAt io.dirtree.entries s.entryIdx).size - pos := by
        have : (entAt io.dirtree.entries s.entryIdx).size + 2 ^ 32 - pos =
            ((entAt io.dirtree.entries s.entryIdx).size - pos) + 2 ^ 32 := by omega
        rw [this, Nat.add_mod_right]
        exact Nat.mod_eq_of_lt (by omega)
      rw [if_pos hc, hw]
      exact ⟨_, rfl, by omega, le_refl _⟩
    · rw [if_neg hc]
      exact ⟨_, rfl, le_refl _, by omega⟩
  unfold StreamIO.read
  simp only [hm1]
  have hS := fun bl off buf => readSmallLoop_length_le io m1 bl off buf [] (by simp)
  have hB := fun bl off buf => readBigLoop_length_le io m1 bl off buf [] (by simp)
  split_ifs
  · simp
  · simp
  · have := hS (s.blocks.drop (pos / io.sbat.blockSize)) (pos % io.sbat.blockSize)
      (List.replicate io.sbat.blockSize 0)
    omega
  · simp
  · have := hB (s.blocks.drop (pos / io.bbat.blockSize)) (pos % io.bbat.blockSize)
      (List.replicate io.bbat.blockSize 0)
    omega

set_option maxRecDepth 1000000 in
/-- C4, at the failing input: on the stream `shrunkStream` (entry size 10, two small sectors in
the chain) `read(pos = 11, buf, max = 1)` copies 117 bytes: the clamp `entry->size - pos`
wraps around for `pos > size`, so the result is neither 0 nor at most `max`. -/
theorem read_past_size_copies_117 :
    shrunkStream.map (fun r =>
      ((entAt r.1.dirtree.entries r.2.entryIdx).size, r.2.blocks.length,
        ( StreamIO.read r.1 r.2 11 1).length)) = some (10, 2, 117) := by
  decide

/-! ## Containers that are not writeable -/

theorem entryLoop_readonly (bbs s : Nat) (io : StorageIO) (hw : io.writeable = false) :
    ∀ (names : List (List Nat)) (i : Nat),
      DirTree.entryLoop true bbs s names i io =
        (io.dirtree.lookupLoop names i).map (fun r => (io, r)) := by
  intro names
  induction names with
  | nil => intro i; rfl
  | cons nm rest ih =>
    intro i
    simp only [DirTree.entryLoop, DirTree.lookupLoop]
    cases hf : io.dirtree.find_child i nm DirTree.End with
    | none => rfl
    | some r =>
      simp only
      split_ifs with h1 h2
      · exact ih r.1
      · rfl
      · exact absurd (Or.inr hw) h2

/-- C5: on a container that is not writeable, `DirTree::entry(path, create = true)` for a
missing path returns the null pointer, `StreamIO::write` returns 0, `StreamIO::setSize` does
nothing and `StorageIO::deleteByName` returns false; each of them returns the container (and
the stream) exactly as it was, so the directory, both tables, the header and the size of the
stream are unchanged. -/
theorem readonly_container_unchanged (io : StorageIO) (hw : io.writeable = false) :
    (∀ (path : List Nat) (bbs s : Nat), io.dirtree.lookup path = some none →
      DirTree.entryByName io path true bbs s = some (io, none)) ∧
    (∀ (st : StreamIO) (pos : Nat) (data : List Nat) (len : Nat),
      StreamIO.write io st pos data len = some (io, st, 0)) ∧
    (∀ (st : StreamIO) (newSize : Nat), StreamIO.setSize io st newSize = some (io, st)) ∧
    (∀ fullName : List Nat, io.deleteByName fullName = some (io, false)) := by
  refine ⟨?_, ?_, ?_, ?_⟩
  · intro path bbs s h
    unfold DirTree.lookup at h
    unfold DirTree.entryByName
    split_ifs at h ⊢ with h1 h2 h3
    · rfl
    · simp at h
    · rfl
    · rw [entryLoop_readonly bbs s io hw, h]; rfl
  · intro st pos data len
    unfold StreamIO.write
    split_ifs <;> rfl
  · intro st newSize
    unfold StreamIO.setSize
    simp [hw]
  · intro fullName
    unfold StorageIO.deleteByName
    split_ifs <;> rfl

set_option maxRecDepth 100000 in
/-- Witness of C5: the theorem at the read-only container `readOnlyFour`, with the missing
path `/zz`, a write of three bytes, `setSize(5000)` and `deleteByName("/aaa")`. -/
theorem readonly_container_unchanged_witness :
    DirTree.entryByName readOnlyFour (str "/zz") true 512 7 = some (readOnlyFour, none) ∧
      StreamIO.write readOnlyFour streamOne 0 [1, 2, 3] 3 = some (readOnlyFour, streamOne, 0) ∧
      StreamIO.setSize readOnlyFour streamOne 5000 = some (readOnlyFour, streamOne) ∧
      readOnlyFour.deleteByName (str "/aaa") = some (readOnlyFour, false) :=
  ⟨(readonly_container_unchanged readOnlyFour rfl).1 (str "/zz") 512 7 (by decide),
    (readonly_container_unchanged readOnlyFour rfl).2.1 streamOne 0 [1, 2, 3] 3,
    (readonly_container_unchanged readOnlyFour rfl).2.2.1 streamOne 5000,
    (readonly_container_unchanged readOnlyFour rfl).2.2.2 (str "/aaa")⟩

set_option maxRecDepth 1000000 in
/-- C10, at the failing input: when the flag `bMaybeFragmented`, which the constructor of the
table never sets, starts as `false`, the stream `/x` of 1000 bytes gets the small sectors
128 to 143 past the end of the table, and after its deletion `/y` gets the sectors 0 to 15:
no sector of `/y` was a sector of `/x` (the directory slot 1 is reused). -/
theorem reuse_fails_when_flag_unset :
    deleteAndReuse false false 1000 =
      some ([128, 129, 130, 131, 132, 133, 134, 135, 136, 137, 138, 139, 140, 141, 142, 143],
        [0, 1, 2, 3, 4, 5, 6, 7, 8, 9, 10, 11, 12, 13, 14, 15], 1, 1) := by
  decide

set_option maxRecDepth 1000000 in
/-- When the unset flag starts as `true`, the scenario of C10 with 1000 bytes does what the
claim says: `/y` gets exactly the sectors that `/x` had. -/
theorem reuse_holds_when_flag_set :
    deleteAndReuse true true 1000 =
      some ([0, 1, 2, 3, 4, 5, 6, 7, 8, 9, 10, 11, 12, 13, 14, 15],
        [0, 1, 2, 3, 4, 5, 6, 7, 8, 9, 10, 11, 12, 13, 14, 15], 1, 1) := by
  decide

theorem poke_length (buf : List Nat) (off : Nat) (bytes : List Nat)
    (h : off + bytes.length ≤ buf.length) : (poke buf off bytes).length = buf.length := by
  simp only [poke, List.length_append, List.length_take, List.length_drop]
  omega

theorem poke_getD (buf : List Nat) (off : Nat) (bytes : List Nat) (i : Nat)
    (h : off + bytes.length ≤ buf.length) :
    (poke buf off bytes).getD i 0 =
      if off ≤ i ∧ i < off + bytes.length then bytes.getD (i - off) 0 else buf.getD i 0 := by
  simp only [poke, List.getD_eq_getElem?_getD]
  by_cases h1 : i < off
  · rw [if_neg (by omega), List.append_assoc, List.getElem?_append_left (by simp; omega),
      List.getElem?_take_of_lt h1]
  · by_cases h2 : i < off + bytes.length
    · rw [if_pos ⟨by omega, h2⟩, List.append_assoc,
        List.getElem?_append_right (by simp; omega),
        List.getElem?_append_left (by simp; omega)]
      simp only [List.length_take]
      rw [Nat.min_eq_left (by omega)]
    · rw [if_neg (by omega), List.getElem?_append_right (by simp; omega), List.getElem?_drop]
      simp only [List.length_append, List.length_take]
      rw [Nat.min_eq_left (by omega)]
      congr 2
      omega

@[simp] theorem writeU16_length (x : Nat) : (writeU16 x).length = 2 := rfl

@[simp] theorem writeU32_length (x : Nat) : (writeU32 x).length = 4 := rfl

theorem flatMap_writeU32_length (f : Nat → Nat) (n : Nat) :
    ((List.range n).flatMap (fun i => writeU32 (f i))).length = 4 * n := by
  induction n with
  | zero => rfl
  | succ n ih =>
    rw [List.range_succ, List.flatMap_append, List.length_append, ih]
    simp
    omega

theorem flatMap_writeU32_getD (f : Nat → Nat) (n i j : Nat) (hi : i < n) (hj : j < 4) :
    ((List.range n).flatMap (fun i => writeU32 (f i))).getD (4 * i + j) 0 =
      (writeU32 (f i)).getD j 0 := by
  induction n with
  | zero => omega
  | succ n ih =>
    rw [List.range_succ, List.flatMap_append]
    simp only [List.getD_eq_getElem?_getD] at *
    by_cases h : i < n
    · rw [List.getElem?_append_left (by rw [flatMap_writeU32_length]; omega)]
      exact ih h
    · have : i = n := by omega
      subst this
      rw [List.getElem?_append_right (by rw [flatMap_writeU32_length]; omega),
        flatMap_writeU32_length]
      simp only [List.flatMap_cons, List.flatMap_nil, List.append_nil]
      congr 2
      omega

theorem readU32_writeU32 (x : Nat) (h : x < 2 ^ 32) :
    readU32 ((writeU32 x).getD 0 0) ((writeU32 x).getD 1 0) ((writeU32 x).getD 2 0)
      ((writeU32 x).getD 3 0) = x := by
  simp only [writeU32, readU32, List.getD_cons_zero, List.getD_cons_succ]
  omega

theorem readU16_writeU16 (x : Nat) (h : x < 2 ^ 16) :
    readU16 ((writeU16 x).getD 0 0) ((writeU16 x).getD 1 0) = x := by
  simp only [writeU16, readU16, List.getD_cons_zero, List.getD_cons_succ]
  omega

theorem poke_spec (buf : List Nat) (off : Nat) (bytes : List Nat) (n k : Nat)
    (hl : buf.length = n) (hk : bytes.length = k) (h : off + k ≤ n) :
    (poke buf off bytes).length = n ∧ ∀ i, (poke buf off bytes).getD i 0 =
      if off ≤ i ∧ i < off + k then bytes.getD (i - off) 0 else buf.getD i 0 := by
  subst hk
  subst hl
  exact ⟨poke_length _ _ _ h, fun i => poke_getD _ _ _ i h⟩

theorem replicate_zero_getD (n i : Nat) : (List.replicate n 0).getD i 0 = 0 := by
  rw [List.getD_eq_getElem?_getD, List.getElem?_replicate]
  split_ifs <;> rfl

namespace Header

/-- The byte at offset `i` of the buffer that `Header::save` fills. -/
theorem save_getD (h : Header) (i : Nat) :
    (Header.save h).length = 512 ∧
    (Header.save h).getD i 0 =
      if 0x4c ≤ i ∧ i < 0x4c + 436 then
        ((List.range 109).flatMap (fun i => writeU32 (h.bb_blocks.getD i 0))).getD (i - 0x4c) 0
      else if 0x48 ≤ i ∧ i < 0x48 + 4 then (writeU32 h.num_mbat).getD (i - 0x48) 0
      else if 0x44 ≤ i ∧ i < 0x44 + 4 then (writeU32 h.mbat_start).getD (i - 0x44) 0
      else if 0x40 ≤ i ∧ i < 0x40 + 4 then (writeU32 h.num_sbat).getD (i - 0x40) 0
      else if 0x3c ≤ i ∧ i < 0x3c + 4 then (writeU32 h.sbat_start).getD (i - 0x3c) 0
      else if 0x38 ≤ i ∧ i < 0x38 + 4 then (writeU32 h.threshold).getD (i - 0x38) 0
      else if 0x30 ≤ i ∧ i < 0x30 + 4 then (writeU32 h.dirent_start).getD (i - 0x30) 0
      else if 0x2c ≤ i ∧ i < 0x2c + 4 then (writeU32 h.num_bat).getD (i - 0x2c) 0
      else if 0x20 ≤ i ∧ i < 0x20 + 2 then (writeU16 h.s_shift).getD (i - 0x20) 0
      else if 0x1e ≤ i ∧ i < 0x1e + 2 then (writeU16 h.b_shift).getD (i - 0x1e) 0
      else if 28 ≤ i ∧ i < 28 + 2 then (writeU16 0xfffe).getD (i - 28) 0
      else if 26 ≤ i ∧ i < 26 + 2 then (writeU16 3).getD (i - 26) 0
      else if 24 ≤ i ∧ i < 24 + 2 then (writeU16 0x003e).getD (i - 24) 0
      else if 16 ≤ i ∧ i < 16 + 4 then (writeU32 0).getD (i - 16) 0
      else if 12 ≤ i ∧ i < 12 + 4 then (writeU32 0).getD (i - 12) 0
      else if 8 ≤ i ∧ i < 8 + 4 then (writeU32 0).getD (i - 8) 0
      else if 0 ≤ i ∧ i < 0 + 8 then pole_magic.getD (i - 0) 0
      else 0 := by
  simp only [Header.save]
  have l0 : (List.replicate 512 0).length = 512 := List.length_replicate _ _
  have g0 : ∀ i, (List.replicate 512 0).getD i 0 = 0 := replicate_zero_getD 512
  generalize List.replicate 512 0 = b0 at *
  obtain ⟨l1, g1⟩ := poke_spec b0 0 pole_magic 512 8 l0 rfl (by decide)
  generalize poke b0 0 pole_magic = b1 at *
  obtain ⟨l2, g2⟩ := poke_spec b1 8 (writeU32 0) 512 4 l1 rfl (by decide)
  generalize poke b1 8 (writeU32 0) = b2 at *
  obtain ⟨l3, g3⟩ := poke_spec b2 12 (writeU32 0) 512 4 l2 rfl (by decide)
  generalize poke b2 12 (writeU32 0) = b3 at *
  obtain ⟨l4, g4⟩ := poke_spec b3 16 (writeU32 0) 512 4 l3 rfl (by decide)
  generalize poke b3 16 (writeU32 0) = b4 at *
  obtain ⟨l5, g5⟩ := poke_spec b4 24 (writeU16 0x003e) 512 2 l4 rfl (by decide)
  generalize poke b4 24 (writeU16 0x003e) = b5 at *
  obtain ⟨l6, g6⟩ := poke_spec b5 26 (writeU16 3) 512 2 l5 rfl (by decide)
  generalize poke b5 26 (writeU16 3) = b6 at *
  obtain ⟨l7, g7⟩ := poke_spec b6 28 (writeU16 0xfffe) 512 2 l6 rfl (by decide)
  generalize poke b6 28 (writeU16 0xfffe) = b7 at *
  obtain ⟨l8, g8⟩ := poke_spec b7 0x1e (writeU16 h.b_shift) 512 2 l7 rfl (by decide)
  generalize poke b7 0x1e (writeU16 h.b_shift) = b8 at *
  obtain ⟨l9, g9⟩ := poke_spec b8 0x20 (writeU16 h.s_shift) 512 2 l8 rfl (by decide)
  generalize poke b8 0x20 (writeU16 h.s_shift) = b9 at *
  obtain ⟨l10, g10⟩ := poke_spec b9 0x2c (writeU32 h.num_bat) 512 4 l9 rfl (by decide)
  generalize poke b9 0x2c (writeU32 h.num_bat) = b10 at *
  obtain ⟨l11, g11⟩ := poke_spec b10 0x30 (writeU32 h.dirent_start) 512 4 l10 rfl (by decide)
  generalize poke b10 0x30 (writeU32 h.dirent_start) = b11 at *
  obtain ⟨l12, g12⟩ := poke_spec b11 0x38 (writeU32 h.threshold) 512 4 l11 rfl (by decide)
  generalize poke b11 0x38 (writeU32 h.threshold) = b12 at *
  obtain ⟨l13, g13⟩ := poke_spec b12 0x3c (writeU32 h.sbat_start) 512 4 l12 rfl (by decide)
  generalize poke b12 0x3c (writeU32 h.sbat_start) = b13 at *
  obtain ⟨l14, g14⟩ := poke_spec b13 0x40 (writeU32 h.num_sbat) 512 4 l13 rfl (by decide)
  generalize poke b13 0x40 (writeU32 h.num_sbat) = b14 at *
  obtain ⟨l15, g15⟩ := poke_spec b14 0x44 (writeU32 h.mbat_start) 512 4 l14 rfl (by decide)
  generalize poke b14 0x44 (writeU32 h.mbat_start) = b15 at *
  obtain ⟨l16, g16⟩ := poke_spec b15 0x48 (writeU32 h.num_mbat) 512 4 l15 rfl (by decide)
  generalize poke b15 0x48 (writeU32 h.num_mbat) = b16 at *
  obtain ⟨l17, g17⟩ := poke_spec b16 0x4c
    ((List.range 109).flatMap (fun i => writeU32 (h.bb_blocks.getD i 0))) 512 436 l16
    (flatMap_writeU32_length _ 109) (by decide)
  refine ⟨l17, ?_⟩
  rw [g17, g16, g15, g14, g13, g12, g11, g10, g9, g8, g7, g6, g5, g4, g3, g2, g1, g0]

end Header

namespace Header

theorem u32At_of_bytes (buf : List Nat) (off x : Nat) (hx : x < 2 ^ 32)
    (hget : ∀ j, j < 4 → buf.getD (off + j) 0 = (writeU32 x).getD j 0) : u32At buf off = x := by
  have h0 := hget 0 (by decide)
  have h1 := hget 1 (by decide)
  have h2 := hget 2 (by decide)
  have h3 := hget 3 (by decide)
  simp only [Nat.add_zero] at h0
  simp only [u32At, h0, h1, h2, h3]
  exact readU32_writeU32 x hx

theorem u16At_of_bytes (buf : List Nat) (off x : Nat) (hx : x < 2 ^ 16)
    (hget : ∀ j, j < 2 → buf.getD (off + j) 0 = (writeU16 x).getD j 0) : u16At buf off = x := by
  have h0 := hget 0 (by decide)
  have h1 := hget 1 (by decide)
  simp only [Nat.add_zero] at h0
  simp only [u16At, h0, h1]
  exact readU16_writeU16 x hx

theorem save_u16 (h : Header) :
    u16At (Header.save h) 0x18 = 0x003e ∧ u16At (Header.save h) 0x1a = 3 ∧
    u16At (Header.save h) 0x1c = 0xfffe := by
  refine ⟨u16At_of_bytes _ _ _ (by decide) ?_, u16At_of_bytes _ _ _ (by decide) ?_,
    u16At_of_bytes _ _ _ (by decide) ?_⟩ <;>
  · intro j hj
    rw [(save_getD h _).2]
    interval_cases j <;> simp

theorem load_save_fields (h : Header) (hb : h.b_shift < 2 ^ 16) (hs : h.s_shift < 2 ^ 16)
    (h1 : h.num_bat < 2 ^ 32) (h2 : h.dirent_start < 2 ^ 32) (h3 : h.threshold < 2 ^ 32)
    (h4 : h.sbat_start < 2 ^ 32) (h5 : h.num_sbat < 2 ^ 32) (h6 : h.mbat_start < 2 ^ 32)
    (h7 : h.num_mbat < 2 ^ 32) :
    u16At (Header.save h) 0x1e = h.b_shift ∧ u16At (Header.save h) 0x20 = h.s_shift ∧
    u32At (Header.save h) 0x2c = h.num_bat ∧ u32At (Header.save h) 0x30 = h.dirent_start ∧
    u32At (Header.save h) 0x38 = h.threshold ∧ u32At (Header.save h) 0x3c = h.sbat_start ∧
    u32At (Header.save h) 0x40 = h.num_sbat ∧ u32At (Header.save h) 0x44 = h.mbat_start ∧
    u32At (Header.save h) 0x48 = h.num_mbat := by
  refine ⟨u16At_of_bytes _ _ _ hb ?_, u16At_of_bytes _ _ _ hs ?_, u32At_of_bytes _ _ _ h1 ?_,
    u32At_of_bytes _ _ _ h2 ?_, u32At_of_bytes _ _ _ h3 ?_, u32At_of_bytes _ _ _ h4 ?_,
    u32At_of_bytes _ _ _ h5 ?_, u32At_of_bytes _ _ _ h6 ?_, u32At_of_bytes _ _ _ h7 ?_⟩ <;>
  · intro j hj
    rw [(save_getD h _).2]
    interval_cases j <;> simp

theorem load_save_id (h : Header) :
    (List.range 8).map (fun i => (Header.save h).getD i 0) = pole_magic := by
  have hr : List.range 8 = [0, 1, 2, 3, 4, 5, 6, 7] := rfl
  simp only [hr, List.map_cons, List.map_nil, (save_getD h _).2]
  simp [pole_magic]

theorem load_save_bb (h : Header) (hl : h.bb_blocks.length = 109)
    (hv : ∀ x ∈ h.bb_blocks, x < 2 ^ 32) :
    (List.range 109).map (fun i => u32At (Header.save h) (0x4c + i * 4)) = h.bb_blocks := by
  apply List.ext_getElem
  · simp [hl]
  · intro i hi1 hi2
    simp only [List.length_map, List.length_range] at hi1
    simp only [List.getElem_map, List.getElem_range]
    apply u32At_of_bytes _ _ _ (hv _ (List.getElem_mem hi2))
    intro j hj
    rw [(save_getD h _).2, if_pos (by omega)]
    have e : 0x4c + i * 4 + j - 0x4c = 4 * i + j := by omega
    rw [e, flatMap_writeU32_getD _ _ _ _ hi1 hj]
    simp [List.getD_eq_getElem?_getD, List.getElem?_eq_getElem hi2]

end Header

/-- C14 (the claim as stated fails): on the header of a new container the 16-bit value at
offset 0x18 is not the byte-order marker 0xFFFE, the one at 0x1A is not 0x003E and the one at
0x1C is not 3. -/
theorem save_marker_not_at_0x18 :
    Header.u16At (Header.save Header.new) 0x18 ≠ 0xfffe ∧
    Header.u16At (Header.save Header.new) 0x1a ≠ 0x003e ∧
    Header.u16At (Header.save Header.new) 0x1c ≠ 3 := by
  obtain ⟨a, b, c⟩ := Header.save_u16 Header.new
  rw [a, b, c]
  decide

/-- C14 (amended): for every header, `Header::save` fills a prologue of 512 bytes in which the
little-endian 16-bit value at 0x18..0x19 is 0x003E, the one at 0x1A..0x1B is 3 and the one at
0x1C..0x1D is the byte-order marker 0xFFFE. -/
theorem save_version_layout (h : Header) :
    (Header.save h).length = 512 ∧
    Header.u16At (Header.save h) 0x18 = 0x003e ∧ Header.u16At (Header.save h) 0x1a = 3 ∧
    Header.u16At (Header.save h) 0x1c = 0xfffe ∧
    slice (Header.save h) 0x18 6 = [0x3e, 0x00, 0x03, 0x00, 0xfe, 0xff] := by
  refine ⟨(Header.save_getD h 0).1, (Header.save_u16 h).1, (Header.save_u16 h).2.1,
    (Header.save_u16 h).2.2, ?_⟩
  have hr : List.range 6 = [0, 1, 2, 3, 4, 5] := rfl
  simp only [slice, hr, List.map_cons, List.map_nil, (Header.save_getD h _).2]
  simp [writeU16]

/-- C15: for every header whose fields are in the range of their types (`b_shift` and
`s_shift` below 2^16 as stored, the 32-bit fields below 2^32, 109 inline slots),
`Header::load` applied to the 512 bytes written by `Header::save` restores every field, the
109 inline slots included; the loaded id is the magic and the loaded header is clean. -/
theorem header_load_save (h : Header) (hb : h.b_shift < 2 ^ 16) (hs : h.s_shift < 2 ^ 16)
    (h1 : h.num_bat < 2 ^ 32) (h2 : h.dirent_start < 2 ^ 32) (h3 : h.threshold < 2 ^ 32)
    (h4 : h.sbat_start < 2 ^ 32) (h5 : h.num_sbat < 2 ^ 32) (h6 : h.mbat_start < 2 ^ 32)
    (h7 : h.num_mbat < 2 ^ 32) (hl : h.bb_blocks.length = 109)
    (hv : ∀ x ∈ h.bb_blocks, x < 2 ^ 32) :
    Header.load (Header.save h) = { h with id := pole_magic, dirty := false } := by
  obtain ⟨a1, a2, a3, a4, a5, a6, a7, a8, a9⟩ :=
    Header.load_save_fields h hb hs h1 h2 h3 h4 h5 h6 h7
  simp only [Header.load, a1, a2, a3, a4, a5, a6, a7, a8, a9, Header.load_save_id h,
    Header.load_save_bb h hl hv]

/-- C15 at the header of a new container. -/
theorem header_load_save_witness :
    Header.load (Header.save Header.new) =
      { Header.new with id := pole_magic, dirty := false } :=
  header_load_save Header.new (by decide) (by decide) (by decide) (by decide) (by decide)
    (by decide) (by decide) (by decide) (by decide) (by decide) (by decide)

set_option maxRecDepth 100000 in
/-- C16: after `create` and `init` on the tables the constructor builds (whatever their unset
flags hold), `bb_blocks[0] = 0`, `dirent_start = 1`, `sbat_start = 2`, `num_bat = 1`,
`num_sbat = 1`, the slots 0 to 3 of the big table hold `Eof`, `sb_blocks` is `[3]` and the
header passes `Header::valid`. -/
theorem init_fresh (fragB fragS : Bool) :
    ( StorageIO.new fragB fragS).create.init.header.bb_blocks.getD 0 1 = 0 ∧
    ( StorageIO.new fragB fragS).create.init.header.dirent_start = 1 ∧
    ( StorageIO.new fragB fragS).create.init.header.sbat_start = 2 ∧
    ( StorageIO.new fragB fragS).create.init.header.num_bat = 1 ∧
    ( StorageIO.new fragB fragS).create.init.header.num_sbat = 1 ∧
    ( StorageIO.new fragB fragS).create.init.bbat.get 0 = AllocTable.Eof ∧
    ( StorageIO.new fragB fragS).create.init.bbat.get 1 = AllocTable.Eof ∧
    ( StorageIO.new fragB fragS).create.init.bbat.get 2 = AllocTable.Eof ∧
    ( StorageIO.new fragB fragS).create.init.bbat.get 3 = AllocTable.Eof ∧
    ( StorageIO.new fragB fragS).create.init.sb_blocks = [3] ∧
    ( StorageIO.new fragB fragS).create.init.header.valid = true := by
  cases fragB <;> cases fragS <;> decide

namespace StorageIO

theorem loadDirtree_result (io io2 : StorageIO) (h : io.loadDirtree = some io2) :
    io2.result = Result.Ok := by
  simp only [loadDirtree] at h
  split at h
  · exact Option.noConfusion h
  · split at h
    · exact Option.noConfusion h
    · simp only [Option.some.injEq] at h
      rw [← h]

/-- The result code of `StorageIO::load` on a host file that opens: `NotOLE` when the first
eight bytes are not the magic; otherwise `BadOLE` when `Header::valid` fails; otherwise `Ok`
whenever the call returns. In the first two cases the call returns. -/
theorem load_result (io : StorageIO) (host : Nat → Nat) (hostSize : Nat) :
    ((Header.load (fileRead host 0 512)).id ≠ pole_magic →
      ∃ io2, io.load host hostSize = some io2 ∧ io2.result = Result.NotOLE) ∧
    ((Header.load (fileRead host 0 512)).id = pole_magic →
      (Header.load (fileRead host 0 512)).valid = false →
      ∃ io2, io.load host hostSize = some io2 ∧ io2.result = Result.BadOLE) ∧
    ((Header.load (fileRead host 0 512)).id = pole_magic →
      (Header.load (fileRead host 0 512)).valid = true →
      ∀ io2, io.load host hostSize = some io2 → io2.result = Result.Ok) := by
  unfold load
  generalize Header.load (fileRead host 0 512) = H
  refine ⟨fun h => ?_, fun h hv => ?_, fun h hv io2 hl => ?_⟩
  · dsimp only
    rw [if_pos h]
    exact ⟨_, rfl, rfl⟩
  · dsimp only
    rw [if_neg (not_not.2 h), if_pos (Or.inl hv)]
    exact ⟨_, rfl, rfl⟩
  · have hthr : H.threshold = 4096 := by
      simp only [Header.valid] at hv
      by_contra hne
      rw [if_pos hne] at hv
      exact Bool.noConfusion hv
    dsimp only at hl
    rw [if_neg (not_not.2 h), if_neg (by rw [hv]; simp [hthr])] at hl
    split at hl
    · exact Option.noConfusion hl
    · exact loadDirtree_result _ _ hl

end StorageIO

set_option maxRecDepth 1000000 in
/-- C13 at a file whose directory chain is circular: the magic is right and `Header::valid`
holds, so the claim gives `Ok`; the walk `bbat->follow(dirent_start)` inside `load` never
ends, so `load` gives no result code at all. -/
theorem load_cyclic_no_result (fragB fragS : Bool) :
    (Header.load (fileRead cyclicHost 0 512)).id = pole_magic ∧
    (Header.load (fileRead cyclicHost 0 512)).valid = true ∧
    (( StorageIO.new fragB fragS).load cyclicHost 1024).isNone = true := by
  cases fragB <;> cases fragS <;> decide

set_option maxRecDepth 1000000 in
/-- C12 at a cursor past the new size: the stream holds 5000 bytes and its cursor is at
4500; after `setSize(100)` the entry size is 100 and the cursor is 200 (the 100 bytes read
into the scratch buffer plus the 100 bytes written back), not `min(4500, 100) = 100`. -/
theorem cursor_after_shrink (fragB fragS : Bool) :
    shrinkWithCursor fragB fragS = some (200, 100) := by
  cases fragB <;> cases fragS <;> decide

set_option maxRecDepth 1000000 in
/-- C19 at a small pool that grew after a flush: the second flush writes only the directory
sector of entry 4, so the root record in the host file still has size 512 (one backing
sector) while `|sb_blocks| * bigSize` is 1024 or more. -/
theorem root_record_stale (fragB fragS : Bool) :
    rootAfterGrowth fragB fragS = some (3, 512, 3, if fragS = true then 1024 else 9216) := by
  cases fragB <;> cases fragS <;> decide

namespace AllocTable

theorem resize_count (t : AllocTable) (n : Nat) : (t.resize n).count = n := by
  simp only [resize, count, List.length_append, List.length_take, List.length_replicate]
  omega

theorem resize_blockSize (t : AllocTable) (n : Nat) : (t.resize n).blockSize = t.blockSize := rfl

theorem resize_get_lt (t : AllocTable) (n i : Nat) (h : i < t.count) (h2 : i < n) :
    (t.resize n).get i = t.get i := by
  simp only [resize, get, count] at *
  rw [List.getD_append _ _ _ _ (by simp; omega)]
  simp only [List.getD_eq_getElem?_getD, List.getElem?_take, h2, if_true]

theorem resize_get_ge (t : AllocTable) (n i : Nat) (h : t.count ≤ i) (h2 : i < n) :
    (t.resize n).get i = Avail := by
  simp only [resize, get, count] at *
  rw [List.getD_append_right _ _ _ _ (by simp; omega)]
  simp only [List.getD_eq_getElem?_getD]
  rw [List.getElem?_replicate]
  simp only [List.length_take]
  rw [if_pos (by omega)]
  rfl

theorem resize_self (t : AllocTable) : (t.resize t.data.length).data = t.data := by
  simp [resize]

theorem get_ge (t : AllocTable) (i : Nat) (h : t.count ≤ i) : t.get i = 0 := by
  simp only [get, count] at *
  simp [List.getD_eq_getElem?_getD, List.getElem?_eq_none h]

theorem set_blockSize (t : AllocTable) (i v : Nat) : (t.set i v).blockSize = t.blockSize := by
  simp only [set]
  split_ifs <;> rfl

theorem set_count (t : AllocTable) (i v : Nat) (h : i + 1 < 2 ^ 32) :
    (t.set i v).count = max t.count (i + 1) := by
  simp only [set, count, List.length_set]
  split_ifs with h1
  · have := resize_count t ((i + 1) % 2 ^ 32)
    simp only [count] at this h1
    rw [this, Nat.mod_eq_of_lt h]
    omega
  · simp only [count] at h1
    omega

theorem set_get_self (t : AllocTable) (i v : Nat) (h : i + 1 < 2 ^ 32) :
    (t.set i v).get i = v := by
  have hc := set_count t i v h
  simp only [set, get, count] at *
  simp only [List.length_set] at hc
  rw [List.getD_eq_getElem?_getD, List.getElem?_set_self]
  · rfl
  · omega

theorem set_get_ne (t : AllocTable) (i v j : Nat) (h : i + 1 < 2 ^ 32) (hj : j < t.count)
    (hne : j ≠ i) : (t.set i v).get j = t.get j := by
  simp only [set, get]
  rw [List.getD_eq_getElem?_getD, List.getElem?_set_ne (Ne.symm hne)]
  split_ifs with h1
  · have := resize_get_lt t ((i + 1) % 2 ^ 32) j hj (by rw [Nat.mod_eq_of_lt h]; omega)
    simp only [get, List.getD_eq_getElem?_getD] at this
    rw [this, List.getD_eq_getElem?_getD]
  · simp [List.getD_eq_getElem?_getD]

theorem set_get_new (t : AllocTable) (i v j : Nat) (h : i + 1 < 2 ^ 32) (hj : t.count ≤ j)
    (hji : j < i) : (t.set i v).get j = Avail := by
  simp only [set, get]
  rw [List.getD_eq_getElem?_getD, List.getElem?_set_ne (by omega)]
  rw [if_pos (by omega)]
  have := resize_get_ge t ((i + 1) % 2 ^ 32) j hj (by rw [Nat.mod_eq_of_lt h]; omega)
  simp only [get, List.getD_eq_getElem?_getD] at this
  exact this

theorem markAsDirty_data (t : AllocTable) (i b : Nat) : (t.markAsDirty i b).data = t.data := by
  simp only [markAsDirty]
  split_ifs <;> rfl

theorem markAsDirty_blockSize (t : AllocTable) (i b : Nat) :
    (t.markAsDirty i b).blockSize = t.blockSize := by
  simp only [markAsDirty]
  split_ifs <;> rfl

theorem markAsDirty_count (t : AllocTable) (i b : Nat) : (t.markAsDirty i b).count = t.count := by
  simp only [count, markAsDirty_data]

theorem markAsDirty_get (t : AllocTable) (i b j : Nat) : (t.markAsDirty i b).get j = t.get j := by
  simp only [get, markAsDirty_data]

theorem scan_spec (ds : List Nat) (i k : Nat) (h : scan ds i = some k) :
    i ≤ k ∧ k < i + ds.length ∧ ds.getD (k - i) 0 = Avail := by
  induction ds generalizing i with
  | nil => simp [scan] at h
  | cons d ds ih =>
    simp only [scan] at h
    split_ifs at h with h1
    · simp only [Option.some.injEq] at h
      subst h
      simp [h1]
    · obtain ⟨h2, h3, h4⟩ := ih (i + 1) h
      refine ⟨by omega, by simp only [List.length_cons]; omega, ?_⟩
      have : k - i = (k - (i + 1)) + 1 := by omega
      rw [this, List.getD_cons_succ]
      exact h4

theorem unused_data (t : AllocTable) : t.unused.2.data = t.data := by
  simp only [unused]
  split
  · rfl
  · exact resize_self t

theorem unused_blockSize (t : AllocTable) : t.unused.2.blockSize = t.blockSize := by
  simp only [unused]
  split <;> rfl

theorem unused_count (t : AllocTable) : t.unused.2.count = t.count := by
  simp only [count, unused_data]

theorem unused_get (t : AllocTable) (j : Nat) : t.unused.2.get j = t.get j := by
  simp only [get, unused_data]

theorem unused_le (t : AllocTable) : t.unused.1 ≤ t.count := by
  simp only [unused, count]
  split
  · rename_i i h
    split_ifs at h
    have := scan_spec _ _ _ h
    omega
  · exact le_refl _

theorem unused_avail (t : AllocTable) (h : t.unused.1 < t.count) : t.get t.unused.1 = Avail := by
  simp only [unused, count, get] at *
  split at h
  · rename_i i hs
    split_ifs at hs
    have := scan_spec _ _ _ hs
    simpa using this.2.2
  · simp at h

end AllocTable

namespace AllocTable

theorem ext_refl (t : AllocTable) : Ext t t := ⟨le_refl _, rfl, fun _ _ _ => rfl⟩

theorem ext_trans {t1 t2 t3 : AllocTable} (h12 : Ext t1 t2) (h23 : Ext t2 t3) : Ext t1 t3 := by
  obtain ⟨a1, a2, a3⟩ := h12
  obtain ⟨b1, b2, b3⟩ := h23
  refine ⟨le_trans a1 b1, by rw [b2, a2], fun i hi hne => ?_⟩
  have e := a3 i hi hne
  rw [b3 i (by omega) (by rw [e]; exact hne), e]

theorem ext_unused (t : AllocTable) : Ext t t.unused.2 :=
  ⟨by rw [unused_count], unused_blockSize t, fun i _ _ => unused_get t i⟩

theorem ext_markAsDirty (t : AllocTable) (i b : Nat) : Ext t (t.markAsDirty i b) :=
  ⟨by rw [markAsDirty_count], markAsDirty_blockSize t i b, fun j _ _ => markAsDirty_get t i b j⟩

theorem ext_set_fresh (t : AllocTable) (i v : Nat) (h : i + 1 < 2 ^ 32)
    (hf : i < t.count → t.get i = Avail) : Ext t (t.set i v) := by
  refine ⟨by rw [set_count t i v h]; exact le_max_left _ _, set_blockSize t i v, fun j hj hne => ?_⟩
  apply set_get_ne t i v j h hj
  intro e
  subst e
  exact hne (hf hj)

/-- Claiming the slot handed out by `unused` extends the table. -/
theorem ext_claim (t : AllocTable) (v : Nat) (h : t.count + 1 < 2 ^ 32) :
    Ext t (t.unused.2.set t.unused.1 v) := by
  have hle := unused_le t
  apply ext_trans (ext_unused t)
  apply ext_set_fresh _ _ _ (by omega)
  intro hlt
  rw [unused_count] at hlt
  rw [unused_get]
  exact unused_avail t hlt

theorem claim_count (t : AllocTable) (v : Nat) (h : t.count + 1 < 2 ^ 32) :
    (t.unused.2.set t.unused.1 v).count ≤ t.count + 1 ∧
    t.unused.1 < (t.unused.2.set t.unused.1 v).count ∧
    (t.unused.2.set t.unused.1 v).get t.unused.1 = v := by
  have hle := unused_le t
  rw [set_count _ _ _ (by omega), unused_count, set_get_self _ _ _ (by omega)]
  refine ⟨by omega, by omega, rfl⟩

theorem isChain_cons (t : AllocTable) (a : Nat) (l : List Nat) :
    IsChain t (a :: l) ↔ a < t.count ∧ t.get a = l.head?.getD Eof ∧ IsChain t l := by
  simp only [IsChain]

theorem isChain_mem {t : AllocTable} {l : List Nat} (h : IsChain t l) (hc : t.count ≤ MetaBat) :
    ∀ a ∈ l, a < t.count ∧ t.get a ≠ Avail := by
  induction l with
  | nil => simp
  | cons b l ih =>
    obtain ⟨h1, h2, h3⟩ := (isChain_cons t b l).1 h
    intro a ha
    rcases List.mem_cons.1 ha with e | e
    · subst e
      refine ⟨h1, ?_⟩
      rw [h2]
      cases l with
      | nil => simp [Eof, Avail]
      | cons c l =>
        have := ((isChain_cons t c l).1 h3).1
        simp only [List.head?_cons, Option.getD_some]
        simp only [MetaBat, Avail] at *
        omega
    · exact ih h3 a e

theorem isChain_ext {t t2 : AllocTable} {l : List Nat} (he : Ext t t2) (hc : t.count ≤ MetaBat)
    (h : IsChain t l) : IsChain t2 l := by
  induction l with
  | nil => trivial
  | cons b l ih =>
    obtain ⟨h1, h2, h3⟩ := (isChain_cons t b l).1 h
    have hm := isChain_mem h hc b (List.mem_cons_self _ _)
    refine (isChain_cons t2 b l).2 ⟨lt_of_lt_of_le h1 he.1, ?_, ih h3⟩
    rw [he.2.2 b h1 hm.2, h2]

/-- Linking a new last element `n` after the last element `x` of a chain. -/
theorem isChain_snoc {t t2 : AllocTable} {l : List Nat} {x n : Nat}
    (h : IsChain t (l ++ [x])) (hc : t.count ≤ t2.count)
    (hsame : ∀ a ∈ l, t2.get a = t.get a) (hx : t2.get x = n) (hn : n < t2.count)
    (hne : t2.get n = Eof) : IsChain t2 (l ++ [x, n]) := by
  induction l with
  | nil =>
    obtain ⟨h1, -, -⟩ := (isChain_cons t x []).1 h
    simp only [List.nil_append]
    refine (isChain_cons _ _ _).2 ⟨by omega, by simpa using hx, ?_⟩
    exact (isChain_cons _ _ _).2 ⟨hn, by simpa using hne, trivial⟩
  | cons b l ih =>
    obtain ⟨h1, h2, h3⟩ := (isChain_cons t b (l ++ [x])).1 h
    refine (isChain_cons _ _ _).2 ⟨by omega, ?_, ih h3 (fun a ha => hsame a (List.mem_cons_of_mem _ ha))⟩
    rw [hsame b (List.mem_cons_self _ _), h2]
    cases l <;> simp

theorem followLoop_chain (t : AllocTable) (hc : t.count ≤ MetaBat) :
    ∀ (l : List Nat) (a fuel : Nat), IsChain t (a :: l) → l.length < fuel →
      t.followLoop fuel a = some (a :: l) := by
  intro l
  induction l with
  | nil =>
    intro a fuel h hf
    obtain ⟨h1, h2, -⟩ := (isChain_cons t a []).1 h
    obtain ⟨f, rfl⟩ : ∃ f, fuel = f + 1 := ⟨fuel - 1, by simp at hf; omega⟩
    simp only [followLoop, MetaBat, Bat, Eof] at *
    rw [if_pos h1, if_neg (by omega), if_neg (by omega), if_neg (by omega), if_neg (by omega)]
    simp only [List.head?_nil, Option.getD_none] at h2
    rw [if_pos (by rw [h2]; omega)]
  | cons b l ih =>
    intro a fuel h hf
    obtain ⟨h1, h2, h3⟩ := (isChain_cons t a (b :: l)).1 h
    obtain ⟨f, rfl⟩ : ∃ f, fuel = f + 1 := ⟨fuel - 1, by simp at hf; omega⟩
    have hb := ((isChain_cons t b l).1 h3).1
    simp only [List.head?_cons, Option.getD_some] at h2
    simp only [followLoop, MetaBat, Bat, Eof] at *
    rw [if_pos h1, if_neg (by omega), if_neg (by omega), if_neg (by omega), if_neg (by omega)]
    rw [if_neg (by rw [h2]; omega), h2, ih b f h3 (by simp at hf; omega)]
    rfl

/-- On a chain without repetition `follow` ends and returns the chain. -/
theorem follow_of_chain (t : AllocTable) (start : Nat) (l : List Nat) (hc : t.count ≤ MetaBat)
    (h : ChainFrom t start l) : t.follow start = some l := by
  obtain ⟨hnd, hch, hs⟩ := h
  cases l with
  | nil =>
    simp only [List.head?_nil, Option.getD_none] at hs
    simp only [follow]
    rw [if_pos (by simp only [MetaBat, Eof] at *; omega)]
  | cons a l =>
    simp only [List.head?_cons, Option.getD_some] at hs
    subst hs
    have h1 := ((isChain_cons t a l).1 hch).1
    simp only [follow]
    rw [if_neg (by omega)]
    apply followLoop_chain t hc l a _ hch
    have := length_le_of_nodup_lt hnd (fun x hx => (isChain_mem hch hc x hx).1)
    simp only [List.length_cons] at this
    omega

end AllocTable

namespace StorageIO

open AllocTable in
theorem same_refl (io : StorageIO) : Same io io :=
  ⟨rfl, rfl, rfl, rfl, rfl, rfl, rfl, rfl, rfl, rfl, rfl⟩

theorem same_trans {a b c : StorageIO} (h1 : Same a b) (h2 : Same b c) : Same a c :=
  ⟨h2.file.trans h1.file, h2.filesize.trans h1.filesize, h2.writeable.trans h1.writeable,
   h2.dirtree.trans h1.dirtree, h2.sbat.trans h1.sbat, h2.sb_blocks.trans h1.sb_blocks,
   h2.threshold.trans h1.threshold, h2.sbat_start.trans h1.sbat_start,
   h2.dirent_start.trans h1.dirent_start, h2.num_sbat.trans h1.num_sbat,
   h2.blockSize.trans h1.blockSize⟩

/-- One call of `addbbatBlock` claims at most two free slots and counts one more table
sector. -/
theorem addbbatBlock_spec (io : StorageIO) (h : io.bbat.count + 2 < 2 ^ 32) :
    AllocTable.Ext io.bbat io.addbbatBlock.bbat ∧
    io.addbbatBlock.bbat.count ≤ io.bbat.count + 2 ∧
    io.addbbatBlock.header.num_bat = io.header.num_bat + 1 ∧ Same io io.addbbatBlock := by
  have e1 := AllocTable.ext_claim io.bbat AllocTable.MetaBat (by omega)
  have c1 := AllocTable.claim_count io.bbat AllocTable.MetaBat (by omega)
  have e2 := AllocTable.ext_claim (io.bbat.unused.2.set io.bbat.unused.1 AllocTable.MetaBat)
    AllocTable.MetaBat (by omega)
  have c2 := AllocTable.claim_count (io.bbat.unused.2.set io.bbat.unused.1 AllocTable.MetaBat)
    AllocTable.MetaBat (by omega)
  have c3 : (io.bbat.unused.2.set io.bbat.unused.1 AllocTable.MetaBat).count ≤
      io.bbat.count + 2 := le_trans c1.1 (by omega)
  have c4 : ((io.bbat.unused.2.set io.bbat.unused.1 AllocTable.MetaBat).unused.2.set
      (io.bbat.unused.2.set io.bbat.unused.1 AllocTable.MetaBat).unused.1
        AllocTable.MetaBat).count ≤ io.bbat.count + 2 := le_trans c2.1 (by have := c1.1; omega)
  simp only [addbbatBlock]
  split_ifs
  all_goals first
    | exact ⟨e1, c3, rfl, ⟨rfl, rfl, rfl, rfl, rfl, rfl, rfl, rfl, rfl, rfl, e1.2.1⟩⟩
    | exact ⟨(AllocTable.ext_trans e1 e2), c4, rfl,
        ⟨rfl, rfl, rfl, rfl, rfl, rfl, rfl, rfl, rfl, rfl, (AllocTable.ext_trans e1 e2).2.1⟩⟩

end StorageIO

namespace StorageIO

/-- The loop `while (bbidx >= num_bat) addbbatBlock()` after slot `n` was claimed on a covered
table: it runs at most once, extends the table by at most two slots and leaves it covered. -/
theorem addbbat_phase (io1 : StorageIO) (n : Nat) (hq : 12 ≤ io1.bbat.blockSize)
    (hc : io1.bbat.count ≤ io1.header.num_bat * (io1.bbat.blockSize / 4) ∨
      (io1.bbat.count = n + 1 ∧ n = io1.header.num_bat * (io1.bbat.blockSize / 4)))
    (hn : n < io1.bbat.count) (hroom : io1.bbat.count + 2 < 2 ^ 32) :
    AllocTable.Ext io1.bbat
      (addbbatLoop (n / (io1.bbat.blockSize / 4) + 1 - io1.header.num_bat)
        (n / (io1.bbat.blockSize / 4)) io1).bbat ∧
    (addbbatLoop (n / (io1.bbat.blockSize / 4) + 1 - io1.header.num_bat)
        (n / (io1.bbat.blockSize / 4)) io1).bbat.count ≤ io1.bbat.count + 2 ∧
    Covered (addbbatLoop (n / (io1.bbat.blockSize / 4) + 1 - io1.header.num_bat)
        (n / (io1.bbat.blockSize / 4)) io1) ∧
    Same io1 (addbbatLoop (n / (io1.bbat.blockSize / 4) + 1 - io1.header.num_bat)
        (n / (io1.bbat.blockSize / 4)) io1) := by
  have hq3 : 3 ≤ io1.bbat.blockSize / 4 := by omega
  generalize hqq : io1.bbat.blockSize / 4 = q at *
  have hqpos : 0 < q := by omega
  by_cases hlt : n / q < io1.header.num_bat
  · have hf : n / q + 1 - io1.header.num_bat = 0 := by omega
    rw [hf]
    simp only [addbbatLoop]
    refine ⟨AllocTable.ext_refl _, by omega, ⟨hq, ?_⟩, same_refl _⟩
    rw [hqq]
    rcases hc with hc | ⟨hc1, hc2⟩
    · exact hc
    · rw [hc2, Nat.mul_div_cancel _ hqpos] at hlt
      omega
  · have hge : io1.header.num_bat * q ≤ n := by
      have := (Nat.le_div_iff_mul_le hqpos).1 (not_lt.1 hlt)
      exact this
    have hn2 : n = io1.header.num_bat * q ∧ io1.bbat.count = n + 1 := by
      rcases hc with hc | ⟨hc1, hc2⟩
      · omega
      · exact ⟨hc2, hc1⟩
    have hdiv : n / q = io1.header.num_bat := by
      rw [hn2.1, Nat.mul_div_cancel _ hqpos]
    have hf : n / q + 1 - io1.header.num_bat = 1 := by omega
    rw [hf, hdiv]
    simp only [addbbatLoop, ge_iff_le, le_refl, if_true]
    obtain ⟨a1, a2, a3, a4⟩ := addbbatBlock_spec io1 hroom
    refine ⟨a1, a2, ⟨by rw [a4.blockSize]; exact hq, ?_⟩, a4⟩
    rw [a3, a4.blockSize, hqq, Nat.add_mul]
    omega

end StorageIO

namespace StorageIO

/-- `ExtendFile` on a covered big table with room: the new block is the slot `unused` hands
out, it is appended to the chain, which stays a chain without repetition; every other slot in
use keeps its value; at most three slots are added and the table stays covered. -/
theorem ExtendFile_spec (io : StorageIO) (chain : List Nat) (hcov : Covered io)
    (hroom : io.bbat.count + 3 < AllocTable.MetaBat)
    (hch : AllocTable.IsChain io.bbat chain) (hnd : chain.Nodup) :
    (io.ExtendFile chain).2 = (chain ++ [io.bbat.unused.1], io.bbat.unused.1) ∧
    Same io (io.ExtendFile chain).1 ∧ Covered (io.ExtendFile chain).1 ∧
    io.bbat.count ≤ (io.ExtendFile chain).1.bbat.count ∧
    (io.ExtendFile chain).1.bbat.count ≤ io.bbat.count + 3 ∧
    (∀ i, i < io.bbat.count → io.bbat.get i ≠ AllocTable.Avail → i ∉ chain.getLast? →
      (io.ExtendFile chain).1.bbat.get i = io.bbat.get i) ∧
    AllocTable.IsChain (io.ExtendFile chain).1.bbat (chain ++ [io.bbat.unused.1]) ∧
    (chain ++ [io.bbat.unused.1]).Nodup := by
  have hM : AllocTable.MetaBat = 0xfffffffc := rfl
  have hle := AllocTable.unused_le io.bbat
  have e1 := AllocTable.ext_claim io.bbat AllocTable.Eof (by omega)
  have c1 := AllocTable.claim_count io.bbat AllocTable.Eof (by omega)
  have hcnt1 : (io.bbat.unused.2.set io.bbat.unused.1 AllocTable.Eof).count =
      max io.bbat.count (io.bbat.unused.1 + 1) := by
    rw [AllocTable.set_count _ _ _ (by omega), AllocTable.unused_count]
  generalize hn : io.bbat.unused.1 = n at *
  generalize hb1 : io.bbat.unused.2.set n AllocTable.Eof = b1 at *
  have hfresh : n < io.bbat.count → io.bbat.get n = AllocTable.Avail := by
    intro h
    rw [← hn]
    exact AllocTable.unused_avail io.bbat (by rw [hn]; exact h)
  have hbs1 : b1.blockSize = io.bbat.blockSize := e1.2.1
  obtain ⟨p1, p2, p3, p4⟩ := addbbat_phase { io with bbat := b1 } n (by show 12 ≤ b1.blockSize; rw [hbs1]; exact hcov.1)
    (by
      show b1.count ≤ io.header.num_bat * (b1.blockSize / 4) ∨
        (b1.count = n + 1 ∧ n = io.header.num_bat * (b1.blockSize / 4))
      rw [hbs1]
      have := hcov.2
      by_cases hx : n < io.header.num_bat * (io.bbat.blockSize / 4)
      · left; omega
      · right; omega)
    c1.2.1 (by show b1.count + 2 < 2 ^ 32; omega)
  simp only [] at p1 p2 p3 p4
  obtain ⟨io2, hio2⟩ : ∃ io2, io2 = addbbatLoop (n / (b1.blockSize / 4) + 1 - io.header.num_bat)
    (n / (b1.blockSize / 4)) { io with bbat := b1 } := ⟨_, rfl⟩
  rw [← hio2] at p1 p2 p3 p4
  have hmem := AllocTable.isChain_mem hch (by omega)
  have hnin : n ∉ chain := fun hmn => (hmem n hmn).2 (hfresh (hmem n hmn).1)
  have hb2n : io2.bbat.get n = AllocTable.Eof := by
    rw [p1.2.2 n c1.2.1 (by rw [c1.2.2]; decide), c1.2.2]
  have hsame02 : Same io io2 :=
    ⟨p4.file, p4.filesize, p4.writeable, p4.dirtree, p4.sbat, p4.sb_blocks, p4.threshold,
      p4.sbat_start, p4.dirent_start, p4.num_sbat, p4.blockSize.trans hbs1⟩
  have hext02 : AllocTable.Ext io.bbat io2.bbat := AllocTable.ext_trans e1 p1
  have hnd2 : (chain ++ [n]).Nodup := by
    rw [List.nodup_append]
    exact ⟨hnd, List.nodup_singleton n, by
      intro a ha hb
      simp only [List.mem_singleton] at hb
      subst hb
      exact hnin ha⟩
  rcases List.eq_nil_or_concat chain with hnil | ⟨l, x, hlx⟩
  · subst hnil
    have hE : io.ExtendFile [] =
        ({ io2 with bbat := io2.bbat.markAsDirty n io2.bbat.blockSize }, [] ++ [n], n) := by
      simp only [ExtendFile, hn, hb1]
      rw [← hio2]
      simp
    rw [hE]
    refine ⟨rfl, ?_⟩
    simp only [List.nil_append]
    refine ⟨⟨hsame02.file, hsame02.filesize, hsame02.writeable, hsame02.dirtree, hsame02.sbat,
      hsame02.sb_blocks, hsame02.threshold, hsame02.sbat_start, hsame02.dirent_start,
      hsame02.num_sbat, ?_⟩, ⟨?_, ?_⟩, ?_, ?_, ?_, ?_, hnd2⟩
    · show (io2.bbat.markAsDirty n io2.bbat.blockSize).blockSize = _
      rw [AllocTable.markAsDirty_blockSize]; exact hsame02.blockSize
    · show 12 ≤ (io2.bbat.markAsDirty n io2.bbat.blockSize).blockSize
      rw [AllocTable.markAsDirty_blockSize]; exact p3.1
    · show (io2.bbat.markAsDirty n io2.bbat.blockSize).count ≤
        io2.header.num_bat * ((io2.bbat.markAsDirty n io2.bbat.blockSize).blockSize / 4)
      rw [AllocTable.markAsDirty_blockSize, AllocTable.markAsDirty_count]; exact p3.2
    · show _ ≤ (io2.bbat.markAsDirty n io2.bbat.blockSize).count
      rw [AllocTable.markAsDirty_count]; exact hext02.1
    · show (io2.bbat.markAsDirty n io2.bbat.blockSize).count ≤ _
      rw [AllocTable.markAsDirty_count]; omega
    · intro i hi hne _
      show (io2.bbat.markAsDirty n io2.bbat.blockSize).get i = _
      rw [AllocTable.markAsDirty_get]; exact hext02.2.2 i hi hne
    · refine (AllocTable.isChain_cons _ _ _).2 ⟨?_, ?_, trivial⟩
      · show n < (io2.bbat.markAsDirty n io2.bbat.blockSize).count
        rw [AllocTable.markAsDirty_count]; exact lt_of_lt_of_le c1.2.1 p1.1
      · show (io2.bbat.markAsDirty n io2.bbat.blockSize).get n = _
        rw [AllocTable.markAsDirty_get]; simpa using hb2n
  · rw [List.concat_eq_append] at hlx
    subst hlx
    have hlast : (l ++ [x]).getD ((l ++ [x]).length - 1) 0 = x := by
      simp [List.getD_eq_getElem?_getD]
    have hpos : (l ++ [x]).length > 0 := by simp
    obtain ⟨bf, hbf⟩ : ∃ bf, bf = ((io2.bbat.markAsDirty n io2.bbat.blockSize).set x
      n).markAsDirty x io2.bbat.blockSize := ⟨_, rfl⟩
    have hE : io.ExtendFile (l ++ [x]) = ({ io2 with bbat := bf }, (l ++ [x]) ++ [n], n) := by
      simp only [ExtendFile, hn, hb1]
      rw [if_pos hpos, hlast, ← hio2, hbf]
      simp only [AllocTable.markAsDirty_blockSize]
    rw [hE]
    refine ⟨rfl, ?_⟩
    subst hbf
    have hx := hmem x (by simp)
    have hx2 : x < io2.bbat.count := lt_of_lt_of_le hx.1 hext02.1
    have hx32 : x + 1 < 2 ^ 32 := by omega
    have hxn : n ≠ x := fun e => hnin (by rw [e]; simp)
    have hcntf : (((io2.bbat.markAsDirty n io2.bbat.blockSize).set x n).markAsDirty x
        io2.bbat.blockSize).count = io2.bbat.count := by
      rw [AllocTable.markAsDirty_count, AllocTable.set_count _ _ _ hx32,
        AllocTable.markAsDirty_count]
      omega
    have hgetf : ∀ j, j < io2.bbat.count → j ≠ x →
        (((io2.bbat.markAsDirty n io2.bbat.blockSize).set x n).markAsDirty x
          io2.bbat.blockSize).get j = io2.bbat.get j := by
      intro j hj hjx
      rw [AllocTable.markAsDirty_get, AllocTable.set_get_ne _ _ _ _ hx32
        (by rw [AllocTable.markAsDirty_count]; exact hj) hjx, AllocTable.markAsDirty_get]
    have hgetx : (((io2.bbat.markAsDirty n io2.bbat.blockSize).set x n).markAsDirty x
          io2.bbat.blockSize).get x = n := by
      rw [AllocTable.markAsDirty_get, AllocTable.set_get_self _ _ _ hx32]
    have hbsf : (((io2.bbat.markAsDirty n io2.bbat.blockSize).set x n).markAsDirty x
          io2.bbat.blockSize).blockSize = io2.bbat.blockSize := by
      rw [AllocTable.markAsDirty_blockSize, AllocTable.set_blockSize,
        AllocTable.markAsDirty_blockSize]
    refine ⟨⟨hsame02.file, hsame02.filesize, hsame02.writeable, hsame02.dirtree, hsame02.sbat,
      hsame02.sb_blocks, hsame02.threshold, hsame02.sbat_start, hsame02.dirent_start,
      hsame02.num_sbat, hbsf.trans hsame02.blockSize⟩, ⟨?_, ?_⟩, ?_, ?_, ?_, ?_, hnd2⟩
    · show 12 ≤ AllocTable.blockSize _
      rw [hbsf]; exact p3.1
    · show AllocTable.count _ ≤ io2.header.num_bat * (AllocTable.blockSize _ / 4)
      rw [hbsf, hcntf]; exact p3.2
    · show _ ≤ AllocTable.count _
      rw [hcntf]; exact hext02.1
    · show AllocTable.count _ ≤ _
      rw [hcntf]; omega
    · intro i hi hne hil
      show AllocTable.get _ i = _
      rw [hgetf i (lt_of_lt_of_le hi hext02.1) (by
        intro e
        apply hil
        simp [e])]
      exact hext02.2.2 i hi hne
    · have := @AllocTable.isChain_snoc io.bbat (((io2.bbat.markAsDirty n io2.bbat.blockSize).set x
          n).markAsDirty x io2.bbat.blockSize) l x n hch (by rw [hcntf]; exact hext02.1)
        (by
          intro a ha
          have ha2 := hmem a (by simp [ha])
          have hax : a ≠ x := by
            intro e
            subst e
            have := (List.nodup_append.1 hnd).2.2 ha (by simp)
            exact this
          rw [hgetf a (lt_of_lt_of_le ha2.1 hext02.1) hax]
          exact hext02.2.2 a ha2.1 ha2.2)
        hgetx (by rw [hcntf]; exact lt_of_lt_of_le c1.2.1 p1.1)
        (by rw [hgetf n (lt_of_lt_of_le c1.2.1 p1.1) hxn]; exact hb2n)
      simpa using this

end StorageIO

theorem slice_getD (buf : List Nat) (off n i : Nat) (h : i < n) :
    (slice buf off n).getD i 0 = buf.getD (off + i) 0 := by
  simp only [slice, List.getD_eq_getElem?_getD]
  rw [List.getElem?_map, List.getElem?_range h]
  rfl

theorem slice_zero (buf : List Nat) (off : Nat) : slice buf off 0 = [] := rfl

theorem slice_drop (buf : List Nat) (off n c : Nat) (h : c ≤ n) :
    (slice buf off n).drop c = slice buf (off + c) (n - c) := by
  apply List.ext_getElem
  · simp [slice]
  · intro i h1 h2
    have h3 : i < n - c := by simpa [slice] using h2
    simp only [List.getElem_drop]
    have e1 := slice_getD buf off n (c + i) (by omega)
    have e2 := slice_getD buf (off + c) (n - c) i h3
    simp only [List.getD_eq_getElem?_getD] at e1 e2
    rw [List.getElem?_eq_getElem (by simp [slice]; omega)] at e1
    rw [List.getElem?_eq_getElem h2] at e2
    simp only [Option.getD_some] at e1 e2
    rw [e1, e2, Nat.add_assoc]

theorem slice_take (buf : List Nat) (off n c : Nat) (h : c ≤ n) :
    (slice buf off n).take c = slice buf off c := by
  apply List.ext_getElem
  · simp [slice, h]
  · intro i h1 h2
    have h3 : i < c := by simpa [slice] using h2
    have e1 := slice_getD buf off n i (by omega)
    have e2 := slice_getD buf off c i h3
    simp only [List.getD_eq_getElem?_getD] at e1 e2
    rw [List.getElem?_eq_getElem (by simp [slice]; omega)] at e1
    rw [List.getElem?_eq_getElem h2] at e2
    simp only [Option.getD_some] at e1 e2
    rw [List.getElem_take, e1, e2]

theorem slice_drop_list (data : List Nat) (tot n : Nat) :
    slice (data.drop tot) 0 n = slice data tot n := by
  simp only [slice]
  apply List.map_congr_left
  intro k _
  simp only [List.getD_eq_getElem?_getD, List.getElem?_drop, Nat.zero_add]

theorem slice_self (d : List Nat) : slice d 0 d.length = d := by
  apply List.ext_getElem
  · simp [slice]
  · intro i h1 h2
    have e1 := slice_getD d 0 d.length i h2
    simp only [List.getD_eq_getElem?_getD, Nat.zero_add] at e1
    rw [List.getElem?_eq_getElem h1, List.getElem?_eq_getElem h2] at e1
    simpa using e1

theorem fileWrite_in (f : Nat → Nat) (pos : Nat) (data : List Nat) (i : Nat)
    (h : i < data.length) : fileWrite f pos data (pos + i) = data.getD i 0 := by
  simp only [fileWrite]
  rw [if_pos ⟨by omega, by omega⟩]
  congr 1
  omega

theorem fileWrite_out (f : Nat → Nat) (pos : Nat) (data : List Nat) (a : Nat)
    (h : a < pos ∨ pos + data.length ≤ a) : fileWrite f pos data a = f a := by
  simp only [fileWrite]
  rw [if_neg (by omega)]

theorem fileRead_length (f : Nat → Nat) (pos n : Nat) : (fileRead f pos n).length = n := by
  simp [fileRead]

theorem fileRead_getD (f : Nat → Nat) (pos n i : Nat) (h : i < n) :
    (fileRead f pos n).getD i 0 = f (pos + i) := by
  simp only [fileRead, List.getD_eq_getElem?_getD]
  rw [List.getElem?_map, List.getElem?_range h]
  rfl

namespace StorageIO

theorem fileOnly_refl (io : StorageIO) : FileOnly io io :=
  ⟨le_refl _, rfl, rfl, rfl, rfl, rfl, rfl⟩

theorem fileOnly_trans {a b c : StorageIO} (h1 : FileOnly a b) (h2 : FileOnly b c) :
    FileOnly a c :=
  ⟨le_trans h1.filesize h2.filesize, h2.writeable.trans h1.writeable,
   h2.header.trans h1.header, h2.dirtree.trans h1.dirtree, h2.bbat.trans h1.bbat,
   h2.sbat.trans h1.sbat, h2.sb_blocks.trans h1.sb_blocks⟩

/-- One call of `saveBigBlock` with `len > 0`: the bytes written, the file and its size. -/
theorem saveBigBlock_eq (io : StorageIO) (block offset : Nat) (data : List Nat) (len : Nat)
    (hlen : 0 < len) :
    io.saveBigBlock block offset data len =
      ({ io with
          file := fileWrite io.file ((io.bbat.blockSize * (block + 1) + offset) % 2 ^ 32)
            (slice data 0 (if len > io.bbat.blockSize - offset then io.bbat.blockSize - offset
              else len))
          filesize :=
            if io.filesize < ((io.bbat.blockSize * (block + 1) + offset) % 2 ^ 32 +
                (if len > io.bbat.blockSize - offset then io.bbat.blockSize - offset
                  else len)) % 2 ^ 32 then
              ((io.bbat.blockSize * (block + 1) + offset) % 2 ^ 32 +
                (if len > io.bbat.blockSize - offset then io.bbat.blockSize - offset
                  else len)) % 2 ^ 32
            else io.filesize },
        if len > io.bbat.blockSize - offset then io.bbat.blockSize - offset else len) := by
  simp only [saveBigBlock, saveBigBlocks, List.length_singleton, Nat.lt_irrefl, false_or]
  rw [if_neg (by omega)]
  simp only [saveBigBlocksLoop, hlen, if_true, Nat.sub_zero, Nat.zero_add]

end StorageIO

namespace StreamIO

/-- The loop of the big-sector branch of `write` stores all `rem` bytes when the blocks have
room for them, changes only the file, and leaves every byte outside the sectors of `B`. -/
theorem writeBigLoop_spec (data : List Nat) :
    ∀ (B : List Nat) (off rem tot : Nat) (io : StorageIO),
      off < io.bbat.blockSize → rem + off ≤ B.length * io.bbat.blockSize →
      (∀ b ∈ B, io.bbat.blockSize * (b + 2) < 2 ^ 32) →
      (writeBigLoop data B off rem tot io).2 = tot + rem ∧
      StorageIO.FileOnly io (writeBigLoop data B off rem tot io).1 ∧
      (∀ a, (∀ b ∈ B, a < io.bbat.blockSize * (b + 1) ∨ io.bbat.blockSize * (b + 2) ≤ a) →
        (writeBigLoop data B off rem tot io).1.file a = io.file a) := by
  intro B
  induction B with
  | nil =>
    intro off rem tot io hoff hcap _
    simp only [List.length_nil, Nat.zero_mul] at hcap
    have : rem = 0 := by omega
    subst this
    have e : writeBigLoop data [] off 0 tot io = (io, tot) := rfl
    rw [e]
    exact ⟨rfl, StorageIO.fileOnly_refl _, fun _ _ => rfl⟩
  | cons b rest ih =>
    intro off rem tot io hoff hcap hnw
    by_cases hrem : rem > 0
    · simp only [writeBigLoop]
      rw [if_pos hrem]
      obtain ⟨c, hc⟩ : ∃ c, c = (if rem < io.bbat.blockSize - off then rem
        else io.bbat.blockSize - off) := ⟨_, rfl⟩
      rw [← hc]
      have hc0 : 0 < c := by rw [hc]; split_ifs <;> omega
      have hcle : c ≤ io.bbat.blockSize - off := by rw [hc]; split_ifs <;> omega
      have hcrem : c ≤ rem := by rw [hc]; split_ifs <;> omega
      rw [ StorageIO.saveBigBlock_eq _ _ _ _ _ hc0, if_neg (by omega)]
      have hb := hnw b (List.mem_cons_self _ _)
      have e2 : io.bbat.blockSize * (b + 2) = io.bbat.blockSize * (b + 1) + io.bbat.blockSize := by
        ring
      have hp : (io.bbat.blockSize * (b + 1) + off) % 2 ^ 32 =
          io.bbat.blockSize * (b + 1) + off := Nat.mod_eq_of_lt (by omega)
      have hp2 : (io.bbat.blockSize * (b + 1) + off + c) % 2 ^ 32 =
          io.bbat.blockSize * (b + 1) + off + c := Nat.mod_eq_of_lt (by omega)
      rw [hp, hp2]
      obtain ⟨io1, hio1⟩ : ∃ io1 : StorageIO, io1 = { io with
          file := fileWrite io.file (io.bbat.blockSize * (b + 1) + off)
            (slice (List.drop tot data) 0 c)
          filesize := if io.filesize < io.bbat.blockSize * (b + 1) + off + c then
              io.bbat.blockSize * (b + 1) + off + c
            else io.filesize } := ⟨_, rfl⟩
      rw [← hio1]
      have hbs1 : io1.bbat.blockSize = io.bbat.blockSize := by rw [hio1]
      have hcap2 : rem - c + 0 ≤ rest.length * io1.bbat.blockSize := by
        rw [hbs1]
        simp only [List.length_cons, Nat.add_mul, Nat.one_mul] at hcap
        by_cases hlt : rem < io.bbat.blockSize - off
        · rw [hc, if_pos hlt]; simp
        · rw [hc, if_neg hlt]; omega
      have hpos1 : 0 < io1.bbat.blockSize := by rw [hbs1]; omega
      obtain ⟨r1, r2, r3⟩ := ih 0 (rem - c) (tot + c) io1 hpos1 hcap2
        (fun x hx => by rw [hbs1]; exact hnw x (List.mem_cons_of_mem _ hx))
      have hfo : StorageIO.FileOnly io io1 := by
        rw [hio1]
        refine ⟨?_, rfl, rfl, rfl, rfl, rfl, rfl⟩
        show io.filesize ≤ if io.filesize < io.bbat.blockSize * (b + 1) + off + c then
          io.bbat.blockSize * (b + 1) + off + c else io.filesize
        split_ifs <;> omega
      refine ⟨by rw [r1]; omega, StorageIO.fileOnly_trans hfo r2, fun a ha => ?_⟩
      rw [r3 a (fun x hx => by rw [hbs1]; exact ha x (List.mem_cons_of_mem _ hx))]
      have hab := ha b (List.mem_cons_self _ _)
      rw [hio1]
      show fileWrite io.file (io.bbat.blockSize * (b + 1) + off) (slice (List.drop tot data) 0 c)
        a = io.file a
      apply fileWrite_out
      rw [slice_length]
      omega
    · have : rem = 0 := by omega
      subst this
      have e : writeBigLoop data (b :: rest) off 0 tot io = (io, tot) := by
        simp [writeBigLoop]
      rw [e]
      exact ⟨rfl, StorageIO.fileOnly_refl _, fun _ _ => rfl⟩

end StreamIO

theorem stored_nil (f : Nat → Nat) (fsz bbs : Nat) (B : List Nat) : Stored f fsz bbs B [] := by
  cases B with
  | nil => rfl
  | cons b rest => exact Or.inl rfl

theorem sector_disjoint (bbs a b x : Nat) (hne : x ≠ b) (h1 : bbs * (b + 1) ≤ a)
    (h2 : a < bbs * (b + 2)) : a < bbs * (x + 1) ∨ bbs * (x + 2) ≤ a := by
  rcases Nat.lt_or_gt_of_ne hne with h | h
  · right
    exact le_trans (Nat.mul_le_mul_left bbs (by omega)) h1
  · left
    exact lt_of_lt_of_le h2 (Nat.mul_le_mul_left bbs (by omega))

/-- Stored bytes stay stored when the file changes only outside their sectors and does not
shrink. -/
theorem stored_frame (f g : Nat → Nat) (fsz gsz bbs : Nat) :
    ∀ (B d : List Nat), Stored f fsz bbs B d → fsz ≤ gsz →
      (∀ a, (∃ b ∈ B, bbs * (b + 1) ≤ a ∧ a < bbs * (b + 2)) → g a = f a) →
      Stored g gsz bbs B d := by
  intro B
  induction B with
  | nil => intro d h _ _; exact h
  | cons b rest ih =>
    intro d h hsz hfr
    rcases h with h | ⟨h1, h2, h3⟩
    · exact Or.inl h
    · refine Or.inr ⟨fun i hi => ?_, by omega, ih _ h3 hsz (fun a ⟨x, hx, hxa⟩ =>
        hfr a ⟨x, List.mem_cons_of_mem _ hx, hxa⟩)⟩
      rw [hfr _ ⟨b, List.mem_cons_self _ _, by omega, by
        have : bbs * (b + 2) = bbs * (b + 1) + bbs := by ring
        have := Nat.min_le_right d.length bbs
        omega⟩]
      exact h1 i hi

namespace StreamIO

/-- After the big-sector loop of `write` from the start of the sectors `B`, the bytes written
are stored in `B`. -/
theorem writeBigLoop_stored (data : List Nat) :
    ∀ (B : List Nat) (rem tot : Nat) (io : StorageIO),
      0 < io.bbat.blockSize → rem ≤ B.length * io.bbat.blockSize →
      (∀ b ∈ B, io.bbat.blockSize * (b + 2) < 2 ^ 32) → B.Nodup →
      Stored (writeBigLoop data B 0 rem tot io).1.file
        (writeBigLoop data B 0 rem tot io).1.filesize io.bbat.blockSize B
        (slice data tot rem) := by
  intro B
  induction B with
  | nil =>
    intro rem tot io _ hcap _ _
    simp only [List.length_nil, Nat.zero_mul] at hcap
    have : rem = 0 := by omega
    subst this
    rfl
  | cons b rest ih =>
    intro rem tot io hpos hcap hnw hnd
    by_cases hrem : rem > 0
    · right
      have hlen : (slice data tot rem).length = rem := slice_length _ _ _
      rw [hlen]
      simp only [writeBigLoop]
      rw [if_pos hrem]
      simp only [Nat.sub_zero]
      obtain ⟨c, hc⟩ : ∃ c, c = (if rem < io.bbat.blockSize then rem
        else io.bbat.blockSize) := ⟨_, rfl⟩
      rw [← hc]
      have hcmin : min rem io.bbat.blockSize = c := by
        rw [hc]; split_ifs <;> omega
      rw [hcmin]
      have hc0 : 0 < c := by rw [hc]; split_ifs <;> omega
      have hcle : c ≤ io.bbat.blockSize := by rw [hc]; split_ifs <;> omega
      have hcrem : c ≤ rem := by rw [hc]; split_ifs <;> omega
      rw [ StorageIO.saveBigBlock_eq _ _ _ _ _ hc0, if_neg (by omega)]
      have hb := hnw b (List.mem_cons_self _ _)
      have e2 : io.bbat.blockSize * (b + 2) = io.bbat.blockSize * (b + 1) + io.bbat.blockSize := by
        ring
      have hp : (io.bbat.blockSize * (b + 1) + 0) % 2 ^ 32 =
          io.bbat.blockSize * (b + 1) := Nat.mod_eq_of_lt (by omega)
      have hp2 : (io.bbat.blockSize * (b + 1) + c) % 2 ^ 32 =
          io.bbat.blockSize * (b + 1) + c := Nat.mod_eq_of_lt (by omega)
      rw [hp, hp2]
      obtain ⟨io1, hio1⟩ : ∃ io1 : StorageIO, io1 = { io with
          file := fileWrite io.file (io.bbat.blockSize * (b + 1))
            (slice (List.drop tot data) 0 c)
          filesize := if io.filesize < io.bbat.blockSize * (b + 1) + c then
              io.bbat.blockSize * (b + 1) + c
            else io.filesize } := ⟨_, rfl⟩
      rw [← hio1]
      have hbs1 : io1.bbat.blockSize = io.bbat.blockSize := by rw [hio1]
      have hfs1 : io.bbat.blockSize * (b + 1) + c ≤ io1.filesize := by
        rw [hio1]
        show _ ≤ if io.filesize < io.bbat.blockSize * (b + 1) + c then
          io.bbat.blockSize * (b + 1) + c else io.filesize
        split_ifs <;> omega
      have hcap2 : rem - c ≤ rest.length * io1.bbat.blockSize := by
        rw [hbs1]
        simp only [List.length_cons, Nat.add_mul, Nat.one_mul] at hcap
        by_cases hlt : rem < io.bbat.blockSize
        · rw [hc, if_pos hlt]; simp
        · rw [hc, if_neg hlt]; omega
      have hnw1 : ∀ x ∈ rest, io1.bbat.blockSize * (x + 2) < 2 ^ 32 :=
        fun x hx => by rw [hbs1]; exact hnw x (List.mem_cons_of_mem _ hx)
      have hnd1 := (List.nodup_cons.1 hnd).2
      have hbn := (List.nodup_cons.1 hnd).1
      obtain ⟨-, r2, r3⟩ := writeBigLoop_spec data rest 0 (rem - c) (tot + c) io1
        (by rw [hbs1]; exact hpos) (by simpa using hcap2) hnw1
      have ih1 := ih (rem - c) (tot + c) io1 (by rw [hbs1]; exact hpos) hcap2 hnw1 hnd1
      rw [hbs1] at ih1
      refine ⟨fun i hi => ?_, le_trans hfs1 r2.filesize, ?_⟩
      · rw [r3 _ (fun x hx => by
          rw [hbs1]
          exact sector_disjoint _ _ b x (fun e => hbn (e ▸ hx)) (by omega) (by omega))]
        rw [hio1]
        show fileWrite io.file (io.bbat.blockSize * (b + 1)) (slice (List.drop tot data) 0 c)
          (io.bbat.blockSize * (b + 1) + i) = _
        rw [fileWrite_in _ _ _ _ (by rw [slice_length]; exact hi), slice_drop_list,
          slice_getD _ _ _ _ hi, slice_getD _ _ _ _ (by omega)]
      · rw [slice_drop _ _ _ _ hcrem]
        exact ih1
    · have : rem = 0 := by omega
      subst this
      exact Or.inl rfl

/-- Reading stored bytes back: the big-sector loop of `read` returns them. -/
theorem readBigLoop_of_stored (io : StorageIO) (hpos : 0 < io.bbat.blockSize) :
    ∀ (B d buf acc : List Nat), Stored io.file io.filesize io.bbat.blockSize B d →
      (∀ b ∈ B, io.bbat.blockSize * (b + 1) < 2 ^ 32) →
      readBigLoop io (acc.length + d.length) B 0 buf acc = acc ++ d := by
  intro B
  induction B with
  | nil =>
    intro d buf acc h _
    have : d = [] := h
    subst this
    simp [readBigLoop]
  | cons b rest ih =>
    intro d buf acc h hnw
    rcases h with h | ⟨h1, h2, h3⟩
    · subst h
      simp [readBigLoop]
    · by_cases hd : d.length = 0
      · have : d = [] := List.length_eq_zero.1 hd
        subst this
        simp [readBigLoop]
      · simp only [readBigLoop]
        rw [if_pos (by omega)]
        simp only [Nat.sub_zero, Nat.add_sub_cancel_left]
        obtain ⟨c, hc⟩ : ∃ c, c = (if io.bbat.blockSize > d.length then d.length
          else io.bbat.blockSize) := ⟨_, rfl⟩
        rw [← hc]
        have hcmin : min d.length io.bbat.blockSize = c := by
          rw [hc]; split_ifs <;> omega
        rw [hcmin] at h1 h2 h3
        have hcd : c ≤ d.length := by rw [hc]; split_ifs <;> omega
        have hcb : c ≤ io.bbat.blockSize := by rw [hc]; split_ifs <;> omega
        have hp : io.bbat.blockSize * (b + 1) % 2 ^ 32 = io.bbat.blockSize * (b + 1) :=
          Nat.mod_eq_of_lt (hnw b (List.mem_cons_self _ _))
        obtain ⟨got, hgot⟩ : ∃ got, got =
          (if io.bbat.blockSize * (b + 1) + io.bbat.blockSize > io.filesize then
            io.filesize - io.bbat.blockSize * (b + 1) else io.bbat.blockSize) := ⟨_, rfl⟩
        have hgc : c ≤ got := by rw [hgot]; split_ifs <;> omega
        have hbuf : (io.loadBigBlock b buf io.bbat.blockSize).1 =
            poke buf 0 (fileRead io.file (io.bbat.blockSize * (b + 1)) got) := by
          simp only [ StorageIO.loadBigBlock, StorageIO.loadBigBlocks, List.length_singleton,
            Nat.lt_irrefl, false_or]
          rw [if_neg (by omega)]
          simp only [ StorageIO.loadBigBlocksLoop, hpos, if_true, Nat.sub_zero, Nat.lt_irrefl,
            if_false, hp]
          rw [hgot]
        rw [hbuf]
        have hsl : slice (poke buf 0 (fileRead io.file (io.bbat.blockSize * (b + 1)) got)) 0 c
            = d.take c := by
          apply List.ext_getElem
          · simp [hcd]
          · intro i hi1 hi2
            have hi : i < c := by simpa using hi1
            have e1 := slice_getD (poke buf 0 (fileRead io.file (io.bbat.blockSize * (b + 1))
              got)) 0 c i hi
            simp only [List.getD_eq_getElem?_getD, Nat.zero_add] at e1
            rw [List.getElem?_eq_getElem hi1] at e1
            simp only [Option.getD_some] at e1
            rw [e1]
            simp only [poke, List.take_zero, List.nil_append, Nat.zero_add]
            rw [List.getElem?_append_left (by rw [fileRead_length]; omega)]
            have e2 := fileRead_getD io.file (io.bbat.blockSize * (b + 1)) got i (by omega)
            simp only [List.getD_eq_getElem?_getD] at e2
            rw [e2, h1 i hi, List.getElem_take]
            simp [List.getD_eq_getElem?_getD, List.getElem?_eq_getElem (by omega : i < d.length)]
        rw [hsl]
        have := ih (d.drop c) (poke buf 0 (fileRead io.file (io.bbat.blockSize * (b + 1)) got))
          (acc ++ d.take c) h3 (fun x hx => hnw x (List.mem_cons_of_mem _ hx))
        have hl : (acc ++ d.take c).length + (d.drop c).length = acc.length + d.length := by
          simp only [List.length_append, List.length_take, List.length_drop]
          omega
        rw [hl] at this
        rw [this, List.append_assoc, List.take_append_drop]

end StreamIO

namespace AllocTable

theorem extBut_refl (t : AllocTable) (x : Option Nat) : ExtBut t t x :=
  ⟨le_refl _, rfl, fun _ _ _ _ => rfl⟩

/-- Two allocations in a row: the second lengthens the chain at the block `n` that the first
one claimed. -/
theorem extBut_step {t t1 t2 : AllocTable} {x : Option Nat} {n : Nat}
    (h1 : ExtBut t t1 x) (h2 : ExtBut t1 t2 (some n))
    (hn : n < t.count → t.get n = Avail) : ExtBut t t2 x := by
  refine ⟨le_trans h1.1 h2.1, by rw [h2.2.1, h1.2.1], fun i hi hne hx => ?_⟩
  have e := h1.2.2 i hi hne hx
  rw [h2.2.2 i (lt_of_lt_of_le hi h1.1) (by rw [e]; exact hne) (by
    intro hin
    have : i = n := Option.some.inj hin
    subst this
    exact hne (hn hi)), e]

theorem isChain_extBut {t t2 : AllocTable} {l : List Nat} {x : Option Nat}
    (he : ExtBut t t2 x) (hc : t.count ≤ MetaBat) (h : IsChain t l)
    (hx : ∀ a ∈ l, some a ≠ x) : IsChain t2 l := by
  induction l with
  | nil => trivial
  | cons b l ih =>
    obtain ⟨h1, h2, h3⟩ := (isChain_cons t b l).1 h
    have hm := isChain_mem h hc b (List.mem_cons_self _ _)
    refine (isChain_cons t2 b l).2 ⟨lt_of_lt_of_le h1 he.1, ?_,
      ih h3 (fun a ha => hx a (List.mem_cons_of_mem _ ha))⟩
    rw [he.2.2 b h1 hm.2 (hx b (List.mem_cons_self _ _)), h2]

end AllocTable

namespace StreamIO

/-- The loop `while (index >= blocks.size()) ExtendFile(&blocks)` on a covered table with
room: the chain is lengthened by blocks that were free, stays a chain without repetition and
gets `index + 1` elements; every other slot in use keeps its value. -/
theorem growBigLoop_spec :
    ∀ (fuel index : Nat) (io : StorageIO) (blocks : List Nat),
      io.Covered → io.bbat.count + 3 * fuel < AllocTable.MetaBat →
      AllocTable.IsChain io.bbat blocks → blocks.Nodup →
      (growBigLoop fuel index io blocks).1.Covered ∧
      StorageIO.Same io (growBigLoop fuel index io blocks).1 ∧
      (growBigLoop fuel index io blocks).1.bbat.count ≤ io.bbat.count + 3 * fuel ∧
      AllocTable.ExtBut io.bbat (growBigLoop fuel index io blocks).1.bbat blocks.getLast? ∧
      AllocTable.IsChain (growBigLoop fuel index io blocks).1.bbat
        (growBigLoop fuel index io blocks).2 ∧
      (growBigLoop fuel index io blocks).2.Nodup ∧
      (∃ news, (growBigLoop fuel index io blocks).2 = blocks ++ news ∧
        ∀ x ∈ news, x < io.bbat.count → io.bbat.get x = AllocTable.Avail) ∧
      (index + 1 - blocks.length ≤ fuel →
        (growBigLoop fuel index io blocks).2.length = max blocks.length (index + 1)) := by
  intro fuel
  induction fuel with
  | zero =>
    intro index io blocks hcov hroom hch hnd
    simp only [growBigLoop]
    refine ⟨hcov, StorageIO.same_refl _, ?_, AllocTable.extBut_refl _ _, hch, hnd,
      ⟨[], by simp, by simp⟩, fun h => ?_⟩
    · show io.bbat.count ≤ _
      omega
    · show blocks.length = _
      omega
  | succ fuel ih =>
    intro index io blocks hcov hroom hch hnd
    simp only [growBigLoop]
    by_cases hidx : index ≥ blocks.length
    · rw [if_pos hidx]
      obtain ⟨e1, e2, e3, e4, e5, e6, e7, e8⟩ :=
        StorageIO.ExtendFile_spec io blocks hcov (by omega) hch hnd
      have hfr : io.bbat.unused.1 < io.bbat.count →
          io.bbat.get io.bbat.unused.1 = AllocTable.Avail := AllocTable.unused_avail io.bbat
      have he21 : (io.ExtendFile blocks).2.1 = blocks ++ [io.bbat.unused.1] := by rw [e1]
      rw [he21]
      obtain ⟨i1, i2, i3, i4, i5, i6, ⟨news, i7, i7b⟩, i8⟩ :=
        ih index (io.ExtendFile blocks).1 (blocks ++ [io.bbat.unused.1]) e3 (by omega) e7 e8
      have hb1 : AllocTable.ExtBut io.bbat (io.ExtendFile blocks).1.bbat blocks.getLast? :=
        ⟨e4, e2.blockSize, fun i hi hne hx => e6 i hi hne (by
          intro hmem
          exact hx (Option.mem_def.1 hmem).symm)⟩
      refine ⟨i1, StorageIO.same_trans e2 i2, by omega, ?_, i5, i6, ⟨io.bbat.unused.1 :: news, ?_, ?_⟩, ?_⟩
      · apply AllocTable.extBut_step hb1 _ hfr
        simpa using i4
      · rw [i7]; simp
      · intro x hx hlt
        rcases List.mem_cons.1 hx with e | e
        · rw [e]; exact hfr (by rw [← e]; exact hlt)
        · have := i7b x e (lt_of_lt_of_le hlt e4)
          by_contra hne
          have hk := e6 x hlt hne (by
            intro hmem
            have hxl : x ∈ blocks := List.mem_of_mem_getLast? (Option.mem_def.1 hmem)
            have hnd2 := i6
            rw [i7] at hnd2
            have := (List.nodup_append.1 hnd2).2.2 (List.mem_append_left _ hxl) e
            exact this)
          rw [hk] at this
          exact hne this
      · intro hf
        rw [i8 (by simp; omega)]
        simp
        omega
    · rw [if_neg hidx]
      refine ⟨hcov, StorageIO.same_refl _, ?_, AllocTable.extBut_refl _ _, hch, hnd,
        ⟨[], by simp, by simp⟩, fun h => ?_⟩
      · show io.bbat.count ≤ _
        omega
      · show blocks.length = _
        omega

end StreamIO

namespace StreamIO

theorem mul_div_room (bbs x : Nat) (h : 0 < bbs) : x ≤ (x / bbs + 1) * bbs := by
  have := Nat.div_add_mod x bbs
  have := Nat.mod_lt x h
  rw [Nat.add_mul, Nat.one_mul, Nat.mul_comm]
  omega

/-- The big-sector branch of `write` on a covered table with room: all `len` bytes are
written, the chain is lengthened by free blocks to `(pos + len - 1) / bigSize + 1` sectors (or
kept when it is longer) and stays a chain, `entry->start` is its first sector, and only the
big table, the file and that field change. When `pos = 0` the bytes are stored in the
chain. -/
theorem writeCore_big (io : StorageIO) (s : StreamIO) (pos : Nat) (data : List Nat) (len : Nat)
    (hbig : io.header.threshold ≤ (entAt io.dirtree.entries s.entryIdx).size)
    (hcov : io.Covered) (hlen : 0 < len) (hpl : pos + len ≤ 2 ^ 32)
    (hidx : s.entryIdx < io.dirtree.entries.length)
    (hroom : io.bbat.blockSize * (io.bbat.count +
      3 * ((pos + len - 1) / io.bbat.blockSize + 1 - s.blocks.length) + 2) < 2 ^ 32)
    (hch : AllocTable.IsChain io.bbat s.blocks) (hnd : s.blocks.Nodup) :
    ∃ io2 blocks2, writeCore io s pos data len =
        some (io2, { s with blocks := blocks2, m_pos := s.m_pos + len }, len) ∧
      StorageIO.Same { io with dirtree := io2.dirtree, file := io2.file, filesize := io2.filesize }
        io2 ∧
      io.filesize ≤ io2.filesize ∧ io2.Covered ∧
      io2.dirtree.entries.length = io.dirtree.entries.length ∧
      (entAt io2.dirtree.entries s.entryIdx) =
        { entAt io.dirtree.entries s.entryIdx with start := blocks2.getD 0 0 } ∧
      (∀ j, j ≠ s.entryIdx → entAt io2.dirtree.entries j = entAt io.dirtree.entries j) ∧
      AllocTable.IsChain io2.bbat blocks2 ∧ blocks2.Nodup ∧
      blocks2.length = max s.blocks.length ((pos + len - 1) / io.bbat.blockSize + 1) ∧
      AllocTable.ExtBut io.bbat io2.bbat s.blocks.getLast? ∧
      io2.bbat.count ≤ io.bbat.count +
        3 * ((pos + len - 1) / io.bbat.blockSize + 1 - s.blocks.length) ∧
      (∃ news, blocks2 = s.blocks ++ news ∧
        ∀ x ∈ news, x < io.bbat.count → io.bbat.get x = AllocTable.Avail) ∧
      (∀ a, (∀ b ∈ blocks2, a < io.bbat.blockSize * (b + 1) ∨ io.bbat.blockSize * (b + 2) ≤ a) →
        io2.file a = io.file a) ∧
      (pos = 0 → Stored io2.file io2.filesize io.bbat.blockSize blocks2 (slice data 0 len)) := by
  have hM : AllocTable.MetaBat = 0xfffffffc := rfl
  have hbs12 := hcov.1
  obtain ⟨index, hindex⟩ : ∃ index, index = (pos + len - 1) / io.bbat.blockSize := ⟨_, rfl⟩
  rw [← hindex] at hroom ⊢
  have hroom2 : io.bbat.count + 3 * (index + 1 - s.blocks.length) + 2 < 2 ^ 32 / 12 + 1 := by
    by_contra hc
    have h1 : 2 ^ 32 / 12 + 1 ≤ io.bbat.count + 3 * (index + 1 - s.blocks.length) + 2 := by
      omega
    have h2 := Nat.mul_le_mul hbs12 h1
    omega
  obtain ⟨g1, g2, g3, g4, g5, g6, ⟨news, g7, g7b⟩, g8⟩ :=
    growBigLoop_spec (index + 1 - s.blocks.length) index io s.blocks hcov (by omega) hch hnd
  have g8b := g8 (le_refl _)
  obtain ⟨g, hg⟩ : ∃ g, g = growBigLoop (index + 1 - s.blocks.length) index io s.blocks :=
    ⟨_, rfl⟩
  rw [← hg] at g1 g2 g3 g4 g5 g6 g7 g8b
  have hbsg : g.1.bbat.blockSize = io.bbat.blockSize := g2.blockSize
  have hposb : 0 < io.bbat.blockSize := by omega
  have hnwg : ∀ b ∈ g.2, io.bbat.blockSize * (b + 2) < 2 ^ 32 := by
    intro b hb
    have hb1 := (AllocTable.isChain_mem g5 (by omega) b hb).1
    exact lt_of_le_of_lt (Nat.mul_le_mul_left _ (by omega)) hroom
  have hcapidx : pos + len ≤ (index + 1) * io.bbat.blockSize := by
    have := mul_div_room io.bbat.blockSize (pos + len - 1) hposb
    rw [← hindex] at this
    have h1 : pos + len - 1 < (index + 1) * io.bbat.blockSize ∨
        pos + len - 1 = (index + 1) * io.bbat.blockSize := by omega
    rcases h1 with h1 | h1
    · omega
    · exfalso
      have h3 : (pos + len - 1) / io.bbat.blockSize = index + 1 := by
        rw [h1, Nat.mul_div_cancel _ hposb]
      omega
  have hdroplen : (g.2.drop (pos / io.bbat.blockSize)).length * io.bbat.blockSize ≥
      len + pos % io.bbat.blockSize := by
    rw [List.length_drop, g8b]
    have hle : index + 1 ≤ max s.blocks.length (index + 1) := le_max_right _ _
    have hdm := Nat.div_add_mod pos io.bbat.blockSize
    have hq : pos / io.bbat.blockSize ≤ index := by
      rw [hindex]
      exact Nat.div_le_div_right (by omega)
    have h5 : (index + 1 - pos / io.bbat.blockSize) * io.bbat.blockSize ≤
        (max s.blocks.length (index + 1) - pos / io.bbat.blockSize) * io.bbat.blockSize :=
      Nat.mul_le_mul_right _ (by omega)
    have h6 : (index + 1 - pos / io.bbat.blockSize) * io.bbat.blockSize =
        (index + 1) * io.bbat.blockSize - pos / io.bbat.blockSize * io.bbat.blockSize :=
      Nat.sub_mul _ _ _
    have h7 : pos / io.bbat.blockSize * io.bbat.blockSize =
        io.bbat.blockSize * (pos / io.bbat.blockSize) := Nat.mul_comm _ _
    omega
  obtain ⟨w1, w2, w3⟩ := writeBigLoop_spec data (g.2.drop (pos / g.1.bbat.blockSize))
    (pos % g.1.bbat.blockSize) len 0 g.1 (Nat.mod_lt _ (by rw [hbsg]; exact hposb))
    (by rw [hbsg]; omega)
    (fun b hb => by rw [hbsg]; exact hnwg b (List.mem_of_mem_drop hb))
  obtain ⟨w, hw⟩ : ∃ w, w = writeBigLoop data (g.2.drop (pos / g.1.bbat.blockSize))
    (pos % g.1.bbat.blockSize) len 0 g.1 := ⟨_, rfl⟩
  rw [← hw] at w1 w2 w3
  have hdt : w.1.dirtree = io.dirtree := w2.dirtree.trans g2.dirtree
  have hg2pos : g.2.length > 0 := by rw [g8b]; omega
  obtain ⟨dt1, hdt1⟩ : ∃ dt1, dt1 = (w.1.dirtree.modify s.entryIdx
    (fun e => { e with start := g.2.getD 0 0 })).markAsDirty s.entryIdx w.1.bbat.blockSize :=
    ⟨_, rfl⟩
  have hE : writeCore io s pos data len = some
      (if g.2.length > 0 ∧ (entAt w.1.dirtree.entries s.entryIdx).start ≠ g.2.getD 0 0 then
        { w.1 with dirtree := dt1 }
       else w.1, { s with blocks := g.2, m_pos := s.m_pos + len }, w.2) := by
    simp only [writeCore]
    rw [if_neg (by omega), Nat.mod_eq_of_lt (by omega : pos + len - 1 < 2 ^ 32), ← hindex,
      ← hg, ← hw, hdt1]
  rw [hE, w1, Nat.zero_add]
  have hstored : pos = 0 → Stored w.1.file w.1.filesize io.bbat.blockSize g.2
      (slice data 0 len) := by
    intro hp
    have := writeBigLoop_stored data g.2 len 0 g.1 (by rw [hbsg]; exact hposb)
      (by rw [hbsg, g8b]
          have : (index + 1) * io.bbat.blockSize ≤
            max s.blocks.length (index + 1) * io.bbat.blockSize :=
              Nat.mul_le_mul_right _ (le_max_right _ _)
          omega)
      (fun b hb => by rw [hbsg]; exact hnwg b hb) g6
    rw [hbsg] at this
    rw [hw, hp]
    simpa using this
  have hframe : ∀ a, (∀ b ∈ g.2, a < io.bbat.blockSize * (b + 1) ∨
      io.bbat.blockSize * (b + 2) ≤ a) → w.1.file a = io.file a := by
    intro a ha
    rw [w3 a (fun b hb => by rw [hbsg]; exact ha b (List.mem_of_mem_drop hb)), g2.file]
  have hsame : ∀ (dt : DirTree),
      StorageIO.Same { io with dirtree := dt, file := w.1.file, filesize := w.1.filesize }
        { w.1 with dirtree := dt } := by
    intro dt
    exact ⟨rfl, rfl, w2.writeable.trans g2.writeable, rfl, w2.sbat.trans g2.sbat,
      w2.sb_blocks.trans g2.sb_blocks, by rw [show ({ w.1 with dirtree := dt } :
        StorageIO).header = w.1.header from rfl, w2.header]; exact g2.threshold,
      by rw [show ({ w.1 with dirtree := dt } : StorageIO).header = w.1.header from rfl,
        w2.header]; exact g2.sbat_start,
      by rw [show ({ w.1 with dirtree := dt } : StorageIO).header = w.1.header from rfl,
        w2.header]; exact g2.dirent_start,
      by rw [show ({ w.1 with dirtree := dt } : StorageIO).header = w.1.header from rfl,
        w2.header]; exact g2.num_sbat,
      by rw [show ({ w.1 with dirtree := dt } : StorageIO).bbat = w.1.bbat from rfl,
        w2.bbat]; exact g2.blockSize⟩
  have hcovw : ∀ (dt : DirTree), ({ w.1 with dirtree := dt } : StorageIO).Covered := by
    intro dt
    show 12 ≤ w.1.bbat.blockSize ∧ w.1.bbat.count ≤ w.1.header.num_bat * (w.1.bbat.blockSize / 4)
    rw [w2.bbat, w2.header]
    exact g1
  by_cases hst : (entAt w.1.dirtree.entries s.entryIdx).start ≠ g.2.getD 0 0
  · rw [if_pos ⟨hg2pos, hst⟩]
    refine ⟨_, g.2, rfl, hsame _, le_trans g2.filesize.ge w2.filesize, hcovw _, ?_, ?_, ?_, ?_,
      g6, g8b, ?_, ?_, ⟨news, g7, g7b⟩, hframe, hstored⟩
    · show dt1.entries.length = _
      rw [hdt1, markAsDirty_entries, modify_length, hdt]
    · show entAt dt1.entries _ = _
      rw [hdt1, entAt_markAsDirty,
        entAt_modify_self _ _ _ (by rw [hdt]; exact hidx), hdt]
    · intro j hj
      show entAt dt1.entries _ = _
      rw [hdt1, entAt_markAsDirty, entAt_modify_ne _ _ _ _ hj, hdt]
    · show AllocTable.IsChain w.1.bbat g.2
      rw [w2.bbat]; exact g5
    · show AllocTable.ExtBut io.bbat w.1.bbat _
      rw [w2.bbat]; exact g4
    · show w.1.bbat.count ≤ _
      rw [w2.bbat]; exact g3
  · rw [if_neg (fun h => hst h.2)]
    have hst2 : (entAt w.1.dirtree.entries s.entryIdx).start = g.2.getD 0 0 := not_not.1 hst
    refine ⟨_, g.2, rfl, ?_, le_trans g2.filesize.ge w2.filesize, ?_, ?_, ?_, ?_, ?_,
      g6, g8b, ?_, ?_, ⟨news, g7, g7b⟩, hframe, hstored⟩
    · exact hsame w.1.dirtree
    · exact hcovw w.1.dirtree
    · rw [hdt]
    · rw [← hst2, hdt]
    · intro j _
      rw [hdt]
    · rw [w2.bbat]; exact g5
    · rw [w2.bbat]; exact g4
    · rw [w2.bbat]; exact g3

end StreamIO

namespace StreamIO

/-- `setSize` across the threshold on a stream of size 0 with an empty chain: nothing is read,
freed or written; only the `start` and `size` fields of the entry change. -/
theorem setSize_empty_over (io : StorageIO) (s : StreamIO) (n : Nat)
    (hw : io.writeable = true) (hsz : (entAt io.dirtree.entries s.entryIdx).size = 0)
    (hb : s.blocks = []) (hn : io.header.threshold ≤ n) (hthr : 0 < io.header.threshold)
    (hidx : s.entryIdx < io.dirtree.entries.length) :
    ∃ io2 s2, setSize io s n = some (io2, s2) ∧ io2.bbat = io.bbat ∧ io2.sbat = io.sbat ∧
      io2.header = io.header ∧ io2.file = io.file ∧ io2.filesize = io.filesize ∧
      io2.sb_blocks = io.sb_blocks ∧ io2.writeable = io.writeable ∧
      io2.dirtree.entries.length = io.dirtree.entries.length ∧
      entAt io2.dirtree.entries s.entryIdx =
        { entAt io.dirtree.entries s.entryIdx with start := DirTree.End, size := n } ∧
      (∀ j, j ≠ s.entryIdx → entAt io2.dirtree.entries j = entAt io.dirtree.entries j) ∧
      s2.blocks = [] ∧ s2.entryIdx = s.entryIdx ∧ (s2.m_pos = s.m_pos) := by
  obtain ⟨dt2, hdt2⟩ : ∃ dt2, dt2 = ((io.dirtree.modify s.entryIdx
    (fun e => { e with start := DirTree.End })).modify s.entryIdx
      (fun e => { e with size := n })).markAsDirty s.entryIdx io.bbat.blockSize := ⟨_, rfl⟩
  have hlen : dt2.entries.length = io.dirtree.entries.length := by
    rw [hdt2, markAsDirty_entries, modify_length, modify_length]
  have hself : entAt dt2.entries s.entryIdx =
      { entAt io.dirtree.entries s.entryIdx with start := DirTree.End, size := n } := by
    rw [hdt2, entAt_markAsDirty, entAt_modify_self _ _ _ (by rw [modify_length]; exact hidx),
      entAt_modify_self _ _ _ hidx]
  have hne : ∀ j, j ≠ s.entryIdx → entAt dt2.entries j = entAt io.dirtree.entries j := by
    intro j hj
    rw [hdt2, entAt_markAsDirty, entAt_modify_ne _ _ _ _ hj, entAt_modify_ne _ _ _ _ hj]
  unfold setSize
  rw [if_neg (by rw [hw]; exact Bool.noConfusion)]
  have hpos : n > 0 := by omega
  simp only [hsz, hb, freeLoop, hpos, if_true, ne_eq, not_true_eq_false, if_false]
  have h1 : (n ≥ io.header.threshold ∧ 0 < io.header.threshold) := ⟨hn, hthr⟩
  simp only [h1, decide_True, true_or, if_true]
  subst hdt2
  split_ifs
  all_goals first
    | exact ⟨_, _, rfl, rfl, rfl, rfl, rfl, rfl, rfl, rfl, hlen, hself, hne, rfl, rfl, rfl⟩
    | (exfalso; simp at *)

end StreamIO

namespace StreamIO

/-- Reading a big stream from position 0 returns the bytes stored in its chain. -/
theorem read_big_stored (io : StorageIO) (s : StreamIO) (d : List Nat)
    (hthr : io.header.threshold ≤ (entAt io.dirtree.entries s.entryIdx).size)
    (hsz : (entAt io.dirtree.entries s.entryIdx).size = d.length) (h32 : d.length < 2 ^ 32)
    (hd : 0 < d.length) (hpos : 0 < io.bbat.blockSize) (hb : 0 < s.blocks.length)
    (hst : Stored io.file io.filesize io.bbat.blockSize s.blocks d)
    (hnw : ∀ b ∈ s.blocks, io.bbat.blockSize * (b + 1) < 2 ^ 32) :
    read io s 0 d.length = d := by
  unfold read
  rw [if_neg (by omega)]
  simp only [Nat.zero_add, Nat.mod_eq_of_lt h32, hsz, gt_iff_lt, Nat.lt_irrefl, if_false,
    Nat.zero_div, Nat.zero_mod, List.drop_zero]
  rw [if_neg (by rw [← hsz]; omega), if_neg (by omega)]
  have := readBigLoop_of_stored io hpos s.blocks d (List.replicate io.bbat.blockSize 0) [] hst hnw
  simpa using this

end StreamIO

/-- C2: on a writeable container with threshold 4096 whose big table is covered by its table
sectors and has room below the 4 GiB limit of the 32-bit file positions, for every byte
string `D` of length `len >= 4096`: writing `D` at position 0 to a stream of size 0 with an
empty chain (a stream just created with size 0) returns `len` and leaves `entry.size = len`;
the small table is unchanged; `bbat.follow(entry.start)` is the stream's chain and has
`ceil(len / bigSize)` sectors; and reading `len` bytes from position 0 returns `D`. -/
theorem write_big_from_empty (io : StorageIO) (s : StreamIO) (D : List Nat)
    (hw : io.writeable = true) (hthr : io.header.threshold = 4096) (hlen : 4096 ≤ D.length)
    (h32 : D.length < 2 ^ 32) (hidx : s.entryIdx < io.dirtree.entryCount)
    (hsz : (entAt io.dirtree.entries s.entryIdx).size = 0) (hb : s.blocks = [])
    (hcov : io.Covered)
    (hroom : io.bbat.blockSize *
      (io.bbat.count + 3 * (D.length / io.bbat.blockSize + 1) + 2) < 2 ^ 32) :
    ∃ io2 s2, StreamIO.write io s 0 D D.length = some (io2, s2, D.length) ∧
      (entAt io2.dirtree.entries s2.entryIdx).size = D.length ∧
      io2.sbat = io.sbat ∧
      io2.bbat.follow (entAt io2.dirtree.entries s2.entryIdx).start = some s2.blocks ∧
      s2.blocks.length = (D.length + io.bbat.blockSize - 1) / io.bbat.blockSize ∧
      StreamIO.read io2 s2 0 D.length = D := by
  have hM : AllocTable.MetaBat = 0xfffffffc := rfl
  have hbs12 := hcov.1
  have hposb : 0 < io.bbat.blockSize := by omega
  obtain ⟨io1, s1, e0, e1, e2, e3, e4, e5, e6, e7, e8, e9, e10, e11, e12, e13⟩ :=
    StreamIO.setSize_empty_over io s D.length hw hsz hb (by omega) (by omega) hidx
  have hidxle : (0 + D.length - 1) / io.bbat.blockSize ≤ D.length / io.bbat.blockSize :=
    Nat.div_le_div_right (by omega)
  have hroom1 : io1.bbat.blockSize * (io1.bbat.count +
      3 * ((0 + D.length - 1) / io1.bbat.blockSize + 1 - s1.blocks.length) + 2) < 2 ^ 32 := by
    rw [e1, e11]
    refine lt_of_le_of_lt (Nat.mul_le_mul_left _ ?_) hroom
    simp only [List.length_nil, Nat.sub_zero]
    omega
  obtain ⟨io2, blocks2, w0, w1, w2, w3, w4, w5, w6, w7, w8, w9, w10, w11, w12, w13, w14⟩ :=
    StreamIO.writeCore_big io1 s1 0 D D.length (by rw [e12, e9, e3, hthr]; exact hlen)
      ⟨by rw [e1]; exact hcov.1, by rw [e1, e3]; exact hcov.2⟩ (by omega) (by omega)
      (by rw [e12, e8]; exact hidx) hroom1 (by rw [e11]; trivial) (by rw [e11]; exact List.nodup_nil)
  have hwrite : StreamIO.write io s 0 D D.length =
      some (io2, { s1 with blocks := blocks2, m_pos := s1.m_pos + D.length }, D.length) := by
    unfold StreamIO.write
    rw [if_neg (by omega), if_neg (by rw [hw]; exact Bool.noConfusion), Nat.zero_add,
      Nat.mod_eq_of_lt h32, if_pos (by omega)]
    rw [e0]
    exact w0
  have hblen : blocks2.length = (D.length + io.bbat.blockSize - 1) / io.bbat.blockSize := by
    rw [w9, e11, e1]
    simp only [List.length_nil, Nat.zero_add]
    rw [Nat.max_eq_right (Nat.zero_le _)]
    have : D.length + io.bbat.blockSize - 1 = D.length - 1 + io.bbat.blockSize := by omega
    rw [this, Nat.add_div_right _ hposb]
  have hbpos : 0 < blocks2.length := by
    rw [w9]
    exact lt_of_lt_of_le (Nat.succ_pos _) (le_max_right _ _)
  have hcnt : io2.bbat.count + 2 < 2 ^ 32 / 12 + 1 := by
    by_contra hc
    have h1 : 2 ^ 32 / 12 + 1 ≤ io1.bbat.count +
        3 * ((0 + D.length - 1) / io1.bbat.blockSize + 1 - s1.blocks.length) + 2 := by omega
    have h2 := Nat.mul_le_mul (by rw [e1]; exact hbs12 : 12 ≤ io1.bbat.blockSize) h1
    omega
  have hnw : ∀ b ∈ blocks2, io.bbat.blockSize * (b + 2) < 2 ^ 32 := by
    intro b hbm
    have hb1 := (AllocTable.isChain_mem w7 (by omega) b hbm).1
    rw [← e1]
    exact lt_of_le_of_lt (Nat.mul_le_mul_left _ (by omega)) hroom1
  refine ⟨io2, _, hwrite, ?_, ?_, ?_, hblen, ?_⟩
  · show (entAt io2.dirtree.entries s1.entryIdx).size = _
    rw [w5]
    show (entAt io1.dirtree.entries s1.entryIdx).size = _
    rw [e12, e9]
  · exact w1.sbat.trans e2
  · show io2.bbat.follow (entAt io2.dirtree.entries s1.entryIdx).start = some blocks2
    rw [w5]
    apply AllocTable.follow_of_chain _ _ _ (by omega)
    refine ⟨w8, w7, ?_⟩
    cases blocks2 with
    | nil => simp at hbpos
    | cons b l => simp
  · have hst := w14 rfl
    rw [slice_self, e1] at hst
    have hbs2 : io2.bbat.blockSize = io.bbat.blockSize := by
      rw [w1.blockSize]; exact congrArg AllocTable.blockSize e1
    apply StreamIO.read_big_stored io2 _ D
    · show io2.header.threshold ≤ (entAt io2.dirtree.entries s1.entryIdx).size
      rw [w5, w1.threshold]
      show io1.header.threshold ≤ (entAt io1.dirtree.entries s1.entryIdx).size
      rw [e12, e9, e3, hthr]; exact hlen
    · show (entAt io2.dirtree.entries s1.entryIdx).size = _
      rw [w5]
      show (entAt io1.dirtree.entries s1.entryIdx).size = _
      rw [e12, e9]
    · exact h32
    · omega
    · rw [hbs2]; exact hposb
    · exact hbpos
    · rw [hbs2]; exact hst
    · intro b hbm
      rw [hbs2]
      exact lt_of_le_of_lt (Nat.mul_le_mul_left _ (by omega)) (hnw b hbm)

set_option maxRecDepth 1000000 in
/-- C2 on the scenario of the spec: 4100 bytes of 0xAB written to the stream `/data` created
with size 0 on a fresh container. -/
theorem write_big_from_empty_witness :
    ∃ io2 s2, StreamIO.write (dataStream true true).1 (dataStream true true).2 0
        (List.replicate 4100 0xAB) (List.replicate 4100 0xAB).length =
          some (io2, s2, (List.replicate 4100 0xAB).length) ∧
      (entAt io2.dirtree.entries s2.entryIdx).size = (List.replicate 4100 0xAB).length ∧
      io2.sbat = (dataStream true true).1.sbat ∧
      io2.bbat.follow (entAt io2.dirtree.entries s2.entryIdx).start = some s2.blocks ∧
      s2.blocks.length = ((List.replicate 4100 0xAB).length +
        (dataStream true true).1.bbat.blockSize - 1) / (dataStream true true).1.bbat.blockSize ∧
      StreamIO.read io2 s2 0 (List.replicate 4100 0xAB).length = List.replicate 4100 0xAB :=
  write_big_from_empty (dataStream true true).1 (dataStream true true).2
    (List.replicate 4100 0xAB) (by decide) (by decide) (by simp only [List.length_replicate]; decide)
    (by simp only [List.length_replicate]; decide) (by decide)
    (by decide) (by decide) ⟨by decide, by decide⟩ (by simp only [List.length_replicate]; decide)

/-! ## The name comparator as an order -/

theorem strCompare_neg_iff (a b : List Nat) : strCompare a b < 0 ↔ List.Lex (· < ·) a b := by
  induction a generalizing b with
  | nil => cases b with
    | nil => simp [strCompare]
    | cons y ys => simp [strCompare, List.Lex.nil]
  | cons x xs ih => cases b with
    | nil => simp [strCompare]
    | cons y ys =>
      simp only [strCompare]
      constructor
      · intro h
        split_ifs at h with h1 h2
        · exact List.Lex.rel h1
        · omega
        · have hxy : x = y := by omega
          subst hxy
          exact List.Lex.cons ((ih ys).1 h)
      · intro h
        cases h with
        | rel hr => rw [if_pos hr]; decide
        | cons hl => rw [if_neg (lt_irrefl _), if_neg (lt_irrefl _)]; exact (ih _).2 hl

theorem strCompare_sign (a b : List Nat) :
    strCompare a b = -1 ∨ strCompare a b = 0 ∨ strCompare a b = 1 := by
  induction a generalizing b with
  | nil => cases b <;> simp [strCompare]
  | cons x xs ih => cases b with
    | nil => simp [strCompare]
    | cons y ys =>
      simp only [strCompare]
      split_ifs
      · simp
      · simp
      · exact ih ys

theorem cmpName_neg_iff (a b : List Nat) :
    cmpName a b < 0 ↔ a.length < b.length ∨ (a.length = b.length ∧ List.Lex (· < ·) a b) := by
  unfold cmpName
  split_ifs with h1 h2
  · simp [h1]
  · constructor
    · intro h; omega
    · rintro (h | ⟨h, -⟩) <;> omega
  · rw [strCompare_neg_iff]
    constructor
    · intro h; exact Or.inr ⟨by omega, h⟩
    · rintro (h | ⟨-, h⟩)
      · omega
      · exact h

/-- C21: `DirEntry::compare` is negative exactly when the first name is shorter, or as long and
before the second in the byte-wise lexicographic order; it is zero exactly on equal names; the
sign changes when the arguments are exchanged; "negative" is transitive; and the order is not the
plain lexicographic one: the name `b` comes before `aa`. -/
theorem compare_length_then_bytes (e1 e2 e3 : DirEntry) :
    (e1.compare e2.name < 0 ↔ e1.name.length < e2.name.length ∨
      (e1.name.length = e2.name.length ∧ List.Lex (· < ·) e1.name e2.name)) ∧
    (e1.compare e2.name = 0 ↔ e1.name = e2.name) ∧
    Int.sign (e1.compare e2.name) = - Int.sign (e2.compare e1.name) ∧
    (e1.compare e2.name < 0 → e2.compare e3.name < 0 → e1.compare e3.name < 0) ∧
    (∀ d : DirEntry, d.name = str "b" → d.compare (str "aa") < 0) ∧
    List.Lex (· < ·) (str "aa") (str "b") := by
  simp only [DirEntry.compare_eq]
  refine ⟨cmpName_neg_iff _ _, ⟨cmpName_eq_zero, fun h => by rw [h, cmpName_self]⟩, ?_,
    fun h1 h2 => nameLt_trans h1 h2, ?_, ?_⟩
  · rw [cmpName_swap e1.name e2.name, Int.sign_neg, neg_neg]
  · intro d hd
    rw [hd]
    decide
  · exact List.Lex.rel (by decide)

/-! ## `AllocTable::follow` -/

namespace AllocTable

theorem followLoop_spec (t : AllocTable) (hc : t.count ≤ MetaBat) :
    ∀ (fuel p : Nat) (l : List Nat), p < t.count → t.followLoop fuel p = some l →
      l.head? = some p ∧ (∀ x ∈ l, x < t.count) ∧
      (∀ i, i + 1 < l.length →
        t.get (l.getD i 0) < t.count ∧ l.getD (i + 1) 0 = t.get (l.getD i 0)) ∧
      ∃ q, l.getLast? = some q ∧ t.count ≤ t.get q := by
  intro fuel
  induction fuel with
  | zero => intro p l _ h; simp [followLoop] at h
  | succ f ih =>
    intro p l hp h
    simp only [followLoop, MetaBat, Bat, Eof] at *
    rw [if_pos hp, if_neg (by omega), if_neg (by omega), if_neg (by omega), if_neg (by omega)] at h
    split_ifs at h with h1
    · simp only [Option.some.injEq] at h
      subst h
      refine ⟨rfl, by simpa using hp, by simp, p, rfl, h1⟩
    · cases hr : t.followLoop f (t.get p) with
      | none => rw [hr] at h; simp at h
      | some l2 =>
        rw [hr] at h
        simp only [Option.map, Option.some.injEq] at h
        subst h
        obtain ⟨a1, a2, a3, q, a4, a5⟩ := ih (t.get p) l2 (by omega) hr
        obtain ⟨r, rfl⟩ : ∃ r, l2 = t.get p :: r := by
          cases l2 with
          | nil => simp at a1
          | cons b r => simp only [List.head?_cons, Option.some.injEq] at a1; exact ⟨r, by rw [a1]⟩
        refine ⟨rfl, ?_, ?_, q, ?_, a5⟩
        · intro x hx
          rcases List.mem_cons.1 hx with e | e
          · rw [e]; exact hp
          · exact a2 x e
        · intro i hi
          cases i with
          | zero => exact ⟨by simpa using (by omega : t.get p < t.count), rfl⟩
          | succ j =>
            simp only [List.getD_cons_succ]
            exact a3 j (by simp only [List.length_cons] at hi ⊢; omega)
        · rw [List.getLast?_cons_cons]
          exact a4

/-- C25: when `AllocTable::follow` returns on a table of at most `0xfffffffc` slots, the result is
empty for a start outside the table; for a start inside the table it begins with the start, every
element is an index of the table, each element but the last has an in-range successor `T[p]`
which is the next element, and the last element is the first one whose successor is not an index
of the table. -/
theorem follow_sequence (t : AllocTable) (start : Nat) (l : List Nat) (hc : t.count ≤ MetaBat)
    (h : t.follow start = some l) :
    (t.count ≤ start → l = []) ∧
    (start < t.count →
      l.head? = some start ∧ (∀ x ∈ l, x < t.count) ∧
      (∀ i, i + 1 < l.length →
        t.get (l.getD i 0) < t.count ∧ l.getD (i + 1) 0 = t.get (l.getD i 0)) ∧
      ∃ q, l.getLast? = some q ∧ t.count ≤ t.get q) := by
  unfold follow at h
  constructor
  · intro hs
    rw [if_pos hs] at h
    simp only [Option.some.injEq] at h
    exact h.symm
  · intro hs
    rw [if_neg (by omega)] at h
    exact followLoop_spec t hc _ _ _ hs h

theorem follow_sequence_witness :
    shortChain.count ≤ MetaBat ∧ shortChain.follow 0 = some [0, 1, 2] ∧
    ([0, 1, 2].head? = some 0 ∧ (∀ x ∈ [0, 1, 2], x < shortChain.count) ∧
      (∀ i, i + 1 < [0, 1, 2].length →
        shortChain.get ([0, 1, 2].getD i 0) < shortChain.count ∧
          [0, 1, 2].getD (i + 1) 0 = shortChain.get ([0, 1, 2].getD i 0)) ∧
      ∃ q, [0, 1, 2].getLast? = some q ∧ shortChain.count ≤ shortChain.get q) :=
  ⟨by decide, by decide,
    (follow_sequence shortChain 0 [0, 1, 2] (by decide) (by decide)).2 (by decide)⟩

theorem followLoop_mono (t : AllocTable) :
    ∀ (fuel p : Nat) (l : List Nat), t.followLoop fuel p = some l →
      t.followLoop (fuel + 1) p = some l := by
  intro fuel
  induction fuel with
  | zero => intro p l h; simp [followLoop] at h
  | succ f ih =>
    intro p l h
    rw [followLoop] at h ⊢
    split_ifs at h ⊢ <;> try exact h
    cases hr : t.followLoop f (t.get p) with
    | none => rw [hr] at h; simp at h
    | some l2 => rw [hr] at h; rw [ih _ _ hr]; exact h

theorem followLoop_iterate (t : AllocTable) :
    ∀ (k fuel p : Nat), (∀ i, i ≤ k → Nat.iterate t.get i p < t.count) →
      t.count ≤ Nat.iterate t.get (k + 1) p → k < fuel →
      ∃ m, m ≤ k + 1 ∧
        t.followLoop fuel p = some ((List.range m).map (fun i => Nat.iterate t.get i p)) := by
  intro k
  induction k with
  | zero =>
    intro fuel p hin hout hf
    obtain ⟨f, rfl⟩ : ∃ f, fuel = f + 1 := ⟨fuel - 1, by omega⟩
    have hp : p < t.count := hin 0 (le_refl _)
    have hg : t.count ≤ t.get p := hout
    rw [followLoop, if_pos hp]
    split_ifs
    · exact ⟨0, by omega, rfl⟩
    · exact ⟨0, by omega, rfl⟩
    · exact ⟨0, by omega, rfl⟩
    · exact ⟨0, by omega, rfl⟩
    · exact ⟨1, by omega, rfl⟩
  | succ k ih =>
    intro fuel p hin hout hf
    obtain ⟨f, rfl⟩ : ∃ f, fuel = f + 1 := ⟨fuel - 1, by omega⟩
    have hp : p < t.count := hin 0 (Nat.zero_le _)
    rw [followLoop, if_pos hp]
    split_ifs with h1 h2 h3 h4 h5
    · exact ⟨0, by omega, rfl⟩
    · exact ⟨0, by omega, rfl⟩
    · exact ⟨0, by omega, rfl⟩
    · exact ⟨0, by omega, rfl⟩
    · exact ⟨1, by omega, rfl⟩
    · obtain ⟨m, hm, hl⟩ := ih f (t.get p)
        (fun i hi => by
          have := hin (i + 1) (by omega)
          rwa [Function.iterate_succ_apply] at this)
        (by rwa [Function.iterate_succ_apply] at hout) (by omega)
      refine ⟨m + 1, by omega, ?_⟩
      rw [hl, List.range_succ_eq_map]
      simp only [Option.map, List.map_cons, List.map_map, Function.iterate_zero, id_eq]
      congr 2

/-- C26: when the sequence `s, T[s], T[T[s]], ...` stays inside the table for its first `n` terms
without repeating an index and its next term is not an index of the table, `AllocTable::follow`
ends, its loop makes at most `|T|` iterations, and the result has at most `|T|` elements, which
are pairwise distinct. -/
theorem follow_within_count (t : AllocTable) (s n : Nat)
    (hin : ∀ i, i < n → Nat.iterate t.get i s < t.count)
    (hout : t.count ≤ Nat.iterate t.get n s)
    (hdist : ∀ j, j < n → ∀ i, i < j → Nat.iterate t.get i s ≠ Nat.iterate t.get j s) :
    ∃ l, t.follow s = some l ∧ (s < t.count → t.followLoop t.count s = some l) ∧
      l.length ≤ t.count ∧ l.Nodup := by
  by_cases hs : t.count ≤ s
  · exact ⟨[], by rw [follow, if_pos hs], fun h => by omega, Nat.zero_le _, List.nodup_nil⟩
  · have hs2 : s < t.count := by omega
    have hn : 0 < n := by
      rcases Nat.eq_zero_or_pos n with e | e
      · subst e; exact absurd hout hs
      · exact e
    have hinj : ∀ m, m ≤ n →
        ((List.range m).map (fun i => Nat.iterate t.get i s)).Nodup := by
      intro m hm
      rw [List.nodup_map_iff_inj_on (List.nodup_range m)]
      intro x hx y hy hxy
      simp only [List.mem_range] at hx hy
      by_contra hne
      rcases Nat.lt_or_gt_of_ne hne with h1 | h1
      · exact hdist y (by omega) x h1 hxy
      · exact hdist x (by omega) y h1 hxy.symm
    have hlen : n ≤ t.count := by
      have := length_le_of_nodup_lt (hinj n (le_refl _)) (by
        intro x hx
        simp only [List.mem_map, List.mem_range] at hx
        obtain ⟨i, hi, rfl⟩ := hx
        exact hin i hi)
      simpa using this
    obtain ⟨m, hm, hl⟩ := followLoop_iterate t (n - 1) t.count s
      (fun i hi => hin i (by omega))
      (by rwa [Nat.sub_add_cancel hn]) (by omega)
    refine ⟨_, ?_, fun _ => hl, ?_, hinj m (by omega)⟩
    · rw [follow, if_neg hs]
      exact followLoop_mono t _ _ _ hl
    · simp only [List.length_map, List.length_range]
      omega

theorem follow_within_count_witness :
    ∃ l, shortChain.follow 0 = some l ∧
      (0 < shortChain.count → shortChain.followLoop shortChain.count 0 = some l) ∧
      l.length ≤ shortChain.count ∧ l.Nodup :=
  follow_within_count shortChain 0 3 (by decide) (by decide) (by decide)

theorem followLoop_selfLoop (fuel : Nat) : selfLoop.followLoop fuel 0 = none := by
  induction fuel with
  | zero => rfl
  | succ f ih =>
    rw [followLoop]
    have e : selfLoop.get 0 = 0 := rfl
    have c : selfLoop.count = 1 := rfl
    rw [e, c, ih]
    rfl

theorem followLoop_twoCycle (fuel : Nat) :
    twoCycle.followLoop fuel 0 = none ∧ twoCycle.followLoop fuel 1 = none := by
  induction fuel with
  | zero => exact ⟨rfl, rfl⟩
  | succ f ih =>
    have e0 : twoCycle.get 0 = 1 := rfl
    have e1 : twoCycle.get 1 = 0 := rfl
    have c : twoCycle.count = 2 := rfl
    constructor
    · rw [followLoop, e0, c, ih.2]
      rfl
    · rw [followLoop, e1, c, ih.1]
      rfl

end AllocTable

/-- C27 (the code does not meet the claim): on the table with `T[0] = 0`, and on the table with
`T[0] = 1` and `T[1] = 0`, the loop of `AllocTable::follow` started at 0 does not end within any
number of iterations, and `follow` yields no chain. -/
theorem follow_cycle_no_result :
    (∀ fuel, AllocTable.selfLoop.followLoop fuel 0 = none) ∧
    (∀ fuel, AllocTable.twoCycle.followLoop fuel 0 = none) ∧
    AllocTable.selfLoop.follow 0 = none ∧ AllocTable.twoCycle.follow 0 = none :=
  ⟨AllocTable.followLoop_selfLoop, fun f => (AllocTable.followLoop_twoCycle f).1,
    AllocTable.followLoop_selfLoop _, (AllocTable.followLoop_twoCycle _).1⟩

/-! ## `AllocTable::unused` and `AllocTable::set` -/

namespace AllocTable

theorem scan_least (ds : List Nat) (i k : Nat) (h : scan ds i = some k) :
    ∀ j, i ≤ j → j < k → ds.getD (j - i) 0 ≠ Avail := by
  induction ds generalizing i with
  | nil => simp [scan] at h
  | cons d ds ih =>
    simp only [scan] at h
    split_ifs at h with h1
    · simp only [Option.some.injEq] at h
      intro j h2 h3
      omega
    · intro j h2 h3
      rcases Nat.eq_or_lt_of_le h2 with e | e
      · subst e
        simpa using h1
      · have := ih (i + 1) h j e h3
        have e2 : j - i = (j - (i + 1)) + 1 := by omega
        rw [e2, List.getD_cons_succ]
        exact this

theorem scan_none (ds : List Nat) (i : Nat) (h : scan ds i = none) :
    ∀ j, j < ds.length → ds.getD j 0 ≠ Avail := by
  induction ds generalizing i with
  | nil => intro j hj; simp at hj
  | cons d ds ih =>
    simp only [scan] at h
    split_ifs at h with h1
    intro j hj
    cases j with
    | zero => simpa using h1
    | succ j =>
      rw [List.getD_cons_succ]
      exact ih (i + 1) h j (by simp only [List.length_cons] at hj; omega)

end AllocTable

/-- C28: with the fragmentation hint set and an `Avail` slot in the table, `AllocTable::unused`
returns the least index holding `Avail` and leaves the table as it was. -/
theorem unused_first_fit (t : AllocTable) (hf : t.bMaybeFragmented = true)
    (ha : ∃ j, j < t.count ∧ t.get j = AllocTable.Avail) :
    t.unused.1 < t.count ∧ t.get t.unused.1 = AllocTable.Avail ∧
    (∀ j, j < t.unused.1 → t.get j ≠ AllocTable.Avail) ∧ t.unused.2 = t := by
  obtain ⟨j, hj, hja⟩ := ha
  simp only [AllocTable.unused, hf, if_true]
  cases hs : AllocTable.scan t.data 0 with
  | none => exact absurd hja (AllocTable.scan_none _ _ hs j hj)
  | some k =>
    have h1 := AllocTable.scan_spec _ _ _ hs
    have h2 := AllocTable.scan_least _ _ _ hs
    simp only [AllocTable.count, AllocTable.get]
    refine ⟨by omega, by simpa using h1.2.2, ?_, trivial⟩
    intro i hi
    simpa using h2 i (Nat.zero_le _) hi

theorem unused_first_fit_witness :
    AllocTable.shortChain.unused.1 < AllocTable.shortChain.count ∧
    AllocTable.shortChain.get AllocTable.shortChain.unused.1 = AllocTable.Avail ∧
    (∀ j, j < AllocTable.shortChain.unused.1 →
      AllocTable.shortChain.get j ≠ AllocTable.Avail) ∧
    AllocTable.shortChain.unused.2 = AllocTable.shortChain :=
  unused_first_fit AllocTable.shortChain rfl ⟨3, by decide, by decide⟩

theorem unused_full (t : AllocTable) (hf : t.bMaybeFragmented = false) :
    t.unused.1 = t.count ∧ t.unused.2.count = t.count ∧ t.unused.2.data = t.data := by
  refine ⟨?_, AllocTable.unused_count t, AllocTable.unused_data t⟩
  simp only [AllocTable.unused, hf]
  rfl

set_option maxRecDepth 100000 in
/-- C29 (the code does not meet the claim): on the table of a new container whose hint is not
set, `AllocTable::unused` returns 128, the length of the table, and the length is still 128
afterwards, so that the returned index is not an index of the table; and for every table whose
hint is not set the returned value is the length and the length does not change. -/
theorem unused_leaves_length :
    (AllocTable.new false).count = 128 ∧ (AllocTable.new false).unused.1 = 128 ∧
    (AllocTable.new false).unused.2.count = 128 ∧
    ∀ t : AllocTable, t.bMaybeFragmented = false →
      t.unused.1 = t.count ∧ t.unused.2.count = t.count ∧ t.unused.2.data = t.data :=
  ⟨by decide, by decide, by decide, unused_full⟩

/-- C30: for an index below `2^32 - 1`, `AllocTable::set` leaves a table of length
`max |T| (i + 1)` whose slot `i` holds `v`, whose other old slots are as before and whose new
slots below `i` hold `Avail`; the hint is set when `v` is `Avail` and is as before otherwise. -/
theorem set_frame (t : AllocTable) (i v : Nat) (h : i < 2 ^ 32 - 1) :
    (t.set i v).count = max t.count (i + 1) ∧ (t.set i v).get i = v ∧
    (∀ j, j < t.count → j ≠ i → (t.set i v).get j = t.get j) ∧
    (∀ j, t.count ≤ j → j < i → (t.set i v).get j = AllocTable.Avail) ∧
    (v = AllocTable.Avail → (t.set i v).bMaybeFragmented = true) ∧
    (v ≠ AllocTable.Avail → (t.set i v).bMaybeFragmented = t.bMaybeFragmented) := by
  have h2 : i + 1 < 2 ^ 32 := by omega
  refine ⟨AllocTable.set_count t i v h2, AllocTable.set_get_self t i v h2,
    fun j hj hne => AllocTable.set_get_ne t i v j h2 hj hne,
    fun j hj hji => AllocTable.set_get_new t i v j h2 hj hji, ?_, ?_⟩
  · intro hv
    simp only [AllocTable.set, hv, if_true]
  · intro hv
    simp only [AllocTable.set, hv, if_false]
    split_ifs <;> rfl

theorem set_frame_witness :
    (AllocTable.shortChain.set 6 7).count = max AllocTable.shortChain.count (6 + 1) ∧
    (AllocTable.shortChain.set 6 7).get 6 = 7 ∧
    (∀ j, j < AllocTable.shortChain.count → j ≠ 6 →
      (AllocTable.shortChain.set 6 7).get j = AllocTable.shortChain.get j) ∧
    (∀ j, AllocTable.shortChain.count ≤ j → j < 6 →
      (AllocTable.shortChain.set 6 7).get j = AllocTable.Avail) ∧
    (7 = AllocTable.Avail → (AllocTable.shortChain.set 6 7).bMaybeFragmented = true) ∧
    (7 ≠ AllocTable.Avail → (AllocTable.shortChain.set 6 7).bMaybeFragmented =
      AllocTable.shortChain.bMaybeFragmented) :=
  set_frame AllocTable.shortChain 6 7 (by decide)

/-! ## The bytes of `DirTree::save` -/

namespace DirTree

theorem pokeName_spec (base : Nat) : ∀ (name : List Nat) (j : Nat) (buffer : List Nat) (n : Nat),
    buffer.length = n → base + 2 * (j + name.length) ≤ n →
    (pokeName base name j buffer).length = n ∧
    ∀ k, (pokeName base name j buffer).getD k 0 =
      if base + 2 * j ≤ k ∧ k < base + 2 * (j + name.length) ∧ (k - base) % 2 = 0
      then name.getD ((k - base) / 2 - j) 0 else buffer.getD k 0 := by
  intro name
  induction name with
  | nil =>
    intro j buffer n hl _
    refine ⟨hl, fun k => ?_⟩
    simp only [pokeName, List.length_nil]
    rw [if_neg (by omega)]
  | cons c cs ih =>
    intro j buffer n hl hn
    simp only [List.length_cons] at hn
    obtain ⟨l1, g1⟩ := poke_spec buffer (base + j * 2) [c] n 1 hl rfl (by omega)
    obtain ⟨l2, g2⟩ := ih (j + 1) (poke buffer (base + j * 2) [c]) n l1 (by omega)
    simp only [pokeName]
    refine ⟨l2, fun k => ?_⟩
    rw [g2, g1]
    by_cases hA : base + 2 * (j + 1) ≤ k ∧ k < base + 2 * (j + 1 + cs.length) ∧
        (k - base) % 2 = 0
    · rw [if_pos hA, if_pos (by simp only [List.length_cons]; omega)]
      have e : (k - base) / 2 - j = ((k - base) / 2 - (j + 1)) + 1 := by omega
      rw [e, List.getD_cons_succ]
    · rw [if_neg hA]
      by_cases hB : base + j * 2 ≤ k ∧ k < base + j * 2 + 1
      · rw [if_pos hB, if_pos (by simp only [List.length_cons]; omega)]
        have e1 : k - (base + j * 2) = 0 := by omega
        have e2 : (k - base) / 2 - j = 0 := by omega
        rw [e1, e2]
        rfl
      · rw [if_neg hB, if_neg (by simp only [List.length_cons]; omega)]

/-- The byte at offset `k` of the buffer after the stores of one iteration of `DirTree::save`. -/
theorem saveRecord_getD (buffer : List Nat) (i : Nat) (e : DirEntry) (n : Nat)
    (hl : buffer.length = n) (hn : (i + 1) * 128 ≤ n) (k : Nat) :
    (saveRecord buffer i e).length = n ∧
    (saveRecord buffer i e).getD k 0 =
      if i * 128 + 0x43 ≤ k ∧ k < i * 128 + 0x43 + 1 then [1].getD (k - (i * 128 + 0x43)) 0
      else if i * 128 + 0x42 ≤ k ∧ k < i * 128 + 0x42 + 1 then
        [if e.valid = false then 0 else if e.dir = true then 1 else 2].getD
          (k - (i * 128 + 0x42)) 0
      else if i * 128 + 0x4c ≤ k ∧ k < i * 128 + 0x4c + 4 then
        (writeU32 e.child).getD (k - (i * 128 + 0x4c)) 0
      else if i * 128 + 0x48 ≤ k ∧ k < i * 128 + 0x48 + 4 then
        (writeU32 e.next).getD (k - (i * 128 + 0x48)) 0
      else if i * 128 + 0x44 ≤ k ∧ k < i * 128 + 0x44 + 4 then
        (writeU32 e.prev).getD (k - (i * 128 + 0x44)) 0
      else if i * 128 + 0x78 ≤ k ∧ k < i * 128 + 0x78 + 4 then
        (writeU32 e.size).getD (k - (i * 128 + 0x78)) 0
      else if i * 128 + 0x74 ≤ k ∧ k < i * 128 + 0x74 + 4 then
        (writeU32 e.start).getD (k - (i * 128 + 0x74)) 0
      else if i * 128 + 0x40 ≤ k ∧ k < i * 128 + 0x40 + 2 then
        (writeU16 ((e.name.take 32).length * 2 + 2)).getD (k - (i * 128 + 0x40)) 0
      else if i * 128 + 2 * 0 ≤ k ∧ k < i * 128 + 2 * (0 + (e.name.take 32).length) ∧
          (k - i * 128) % 2 = 0 then
        (e.name.take 32).getD ((k - i * 128) / 2 - 0) 0
      else buffer.getD k 0 := by
  have h32 : (e.name.take 32).length ≤ 32 := by
    rw [List.length_take]
    exact Nat.min_le_left _ _
  simp only [saveRecord]
  generalize e.name.take 32 = nm at *
  obtain ⟨l1, g1⟩ := pokeName_spec (i * 128) nm 0 buffer n hl (by omega)
  generalize pokeName (i * 128) nm 0 buffer = b1 at *
  obtain ⟨l2, g2⟩ := poke_spec b1 (i * 128 + 0x40) (writeU16 (nm.length * 2 + 2)) n 2 l1 rfl
    (by omega)
  generalize poke b1 (i * 128 + 0x40) (writeU16 (nm.length * 2 + 2)) = b2 at *
  obtain ⟨l3, g3⟩ := poke_spec b2 (i * 128 + 0x74) (writeU32 e.start) n 4 l2 rfl (by omega)
  generalize poke b2 (i * 128 + 0x74) (writeU32 e.start) = b3 at *
  obtain ⟨l4, g4⟩ := poke_spec b3 (i * 128 + 0x78) (writeU32 e.size) n 4 l3 rfl (by omega)
  generalize poke b3 (i * 128 + 0x78) (writeU32 e.size) = b4 at *
  obtain ⟨l5, g5⟩ := poke_spec b4 (i * 128 + 0x44) (writeU32 e.prev) n 4 l4 rfl (by omega)
  generalize poke b4 (i * 128 + 0x44) (writeU32 e.prev) = b5 at *
  obtain ⟨l6, g6⟩ := poke_spec b5 (i * 128 + 0x48) (writeU32 e.next) n 4 l5 rfl (by omega)
  generalize poke b5 (i * 128 + 0x48) (writeU32 e.next) = b6 at *
  obtain ⟨l7, g7⟩ := poke_spec b6 (i * 128 + 0x4c) (writeU32 e.child) n 4 l6 rfl (by omega)
  generalize poke b6 (i * 128 + 0x4c) (writeU32 e.child) = b7 at *
  obtain ⟨l8, g8⟩ := poke_spec b7 (i * 128 + 0x42)
    [if e.valid = false then 0 else if e.dir = true then 1 else 2] n 1 l7 rfl (by omega)
  generalize poke b7 (i * 128 + 0x42)
    [if e.valid = false then 0 else if e.dir = true then 1 else 2] = b8 at *
  obtain ⟨l9, g9⟩ := poke_spec b8 (i * 128 + 0x43) [1] n 1 l8 rfl (by omega)
  refine ⟨l9, ?_⟩
  rw [g9, g8, g7, g6, g5, g4, g3, g2, g1]

/-- The byte at offset `k` of the buffer after the stores of `DirTree::save` for the root. -/
theorem saveRoot_getD (buffer : List Nat) (root : DirEntry) (n : Nat)
    (hl : buffer.length = n) (hn : 128 ≤ n) (k : Nat) :
    (saveRoot buffer root).length = n ∧
    (saveRoot buffer root).getD k 0 =
      if 0x42 ≤ k ∧ k < 0x42 + 1 then [5].getD (k - 0x42) 0
      else if 0x4c ≤ k ∧ k < 0x4c + 4 then (writeU32 root.child).getD (k - 0x4c) 0
      else if 0x48 ≤ k ∧ k < 0x48 + 4 then (writeU32 0xffffffff).getD (k - 0x48) 0
      else if 0x44 ≤ k ∧ k < 0x44 + 4 then (writeU32 0xffffffff).getD (k - 0x44) 0
      else if 0x78 ≤ k ∧ k < 0x78 + 4 then (writeU32 0).getD (k - 0x78) 0
      else if 0x74 ≤ k ∧ k < 0x74 + 4 then (writeU32 0xffffffff).getD (k - 0x74) 0
      else if 0x40 ≤ k ∧ k < 0x40 + 2 then
        (writeU16 ((str "Root Entry").length * 2 + 2)).getD (k - 0x40) 0
      else if 0 + 2 * 0 ≤ k ∧ k < 0 + 2 * (0 + (str "Root Entry").length) ∧ (k - 0) % 2 = 0 then
        (str "Root Entry").getD ((k - 0) / 2 - 0) 0
      else buffer.getD k 0 := by
  have h10 : (str "Root Entry").length = 10 := rfl
  simp only [saveRoot]
  generalize str "Root Entry" = nm at *
  obtain ⟨l1, g1⟩ := pokeName_spec 0 nm 0 buffer n hl (by omega)
  generalize pokeName 0 nm 0 buffer = b1 at *
  obtain ⟨l2, g2⟩ := poke_spec b1 0x40 (writeU16 (nm.length * 2 + 2)) n 2 l1 rfl (by omega)
  generalize poke b1 0x40 (writeU16 (nm.length * 2 + 2)) = b2 at *
  obtain ⟨l3, g3⟩ := poke_spec b2 0x74 (writeU32 0xffffffff) n 4 l2 rfl (by omega)
  generalize poke b2 0x74 (writeU32 0xffffffff) = b3 at *
  obtain ⟨l4, g4⟩ := poke_spec b3 0x78 (writeU32 0) n 4 l3 rfl (by omega)
  generalize poke b3 0x78 (writeU32 0) = b4 at *
  obtain ⟨l5, g5⟩ := poke_spec b4 0x44 (writeU32 0xffffffff) n 4 l4 rfl (by omega)
  generalize poke b4 0x44 (writeU32 0xffffffff) = b5 at *
  obtain ⟨l6, g6⟩ := poke_spec b5 0x48 (writeU32 0xffffffff) n 4 l5 rfl (by omega)
  generalize poke b5 0x48 (writeU32 0xffffffff) = b6 at *
  obtain ⟨l7, g7⟩ := poke_spec b6 0x4c (writeU32 root.child) n 4 l6 rfl (by omega)
  generalize poke b6 0x4c (writeU32 root.child) = b7 at *
  obtain ⟨l8, g8⟩ := poke_spec b7 0x42 [5] n 1 l7 rfl (by omega)
  refine ⟨l8, ?_⟩
  rw [g8, g7, g6, g5, g4, g3, g2, g1]

theorem saveRecord_frame (buffer : List Nat) (i : Nat) (e : DirEntry) (n : Nat)
    (hl : buffer.length = n) (hn : (i + 1) * 128 ≤ n) (k : Nat)
    (hk : k < i * 128 ∨ (i + 1) * 128 ≤ k) :
    (saveRecord buffer i e).getD k 0 = buffer.getD k 0 := by
  have h32 : (e.name.take 32).length ≤ 32 := by
    rw [List.length_take]
    exact Nat.min_le_left _ _
  rw [(saveRecord_getD buffer i e n hl hn k).2]
  repeat rw [if_neg (by omega)]

theorem saveRecord_congr (b1 b2 : List Nat) (i : Nat) (e : DirEntry) (n : Nat)
    (hl1 : b1.length = n) (hl2 : b2.length = n) (hn : (i + 1) * 128 ≤ n) (k : Nat)
    (hk : b1.getD k 0 = b2.getD k 0) :
    (saveRecord b1 i e).getD k 0 = (saveRecord b2 i e).getD k 0 := by
  rw [(saveRecord_getD b1 i e n hl1 hn k).2, (saveRecord_getD b2 i e n hl2 hn k).2, hk]

theorem saveLoop_spec : ∀ (es : List DirEntry) (i : Nat) (buffer : List Nat) (n : Nat),
    buffer.length = n → (i + es.length) * 128 ≤ n →
    (saveLoop es i buffer).length = n ∧
    (∀ k, k < i * 128 ∨ (i + es.length) * 128 ≤ k →
      (saveLoop es i buffer).getD k 0 = buffer.getD k 0) ∧
    (∀ m, m < es.length → ∀ k, (i + m) * 128 ≤ k → k < (i + m + 1) * 128 →
      (saveLoop es i buffer).getD k 0 =
        (saveRecord buffer (i + m) (es.getD m blankEntry)).getD k 0) := by
  intro es
  induction es with
  | nil =>
    intro i buffer n hl _
    exact ⟨hl, fun _ _ => rfl, fun m hm => by simp at hm⟩
  | cons e es ih =>
    intro i buffer n hl hn
    simp only [List.length_cons] at hn
    have l1 := (saveRecord_getD buffer i e n hl (by omega) 0).1
    obtain ⟨a1, a2, a3⟩ := ih (i + 1) (saveRecord buffer i e) n l1 (by omega)
    simp only [saveLoop]
    refine ⟨a1, ?_, ?_⟩
    · intro k hk
      simp only [List.length_cons] at hk
      rw [a2 k (by omega), saveRecord_frame buffer i e n hl (by omega) k (by omega)]
    · intro m hm k hk1 hk2
      simp only [List.length_cons] at hm
      cases m with
      | zero =>
        rw [a2 k (by omega)]
        rfl
      | succ m =>
        have e1 : i + (m + 1) = i + 1 + m := by omega
        rw [a3 m (by omega) k (by omega) (by omega), List.getD_cons_succ, e1]
        exact saveRecord_congr _ _ _ _ n l1 hl (by omega) k
          (saveRecord_frame buffer i e n hl (by omega) k (by omega))

theorem saveEntries_length (es : List DirEntry) : (saveEntries es).length = es.length := by
  cases es with
  | nil => rfl
  | cons r rest => simp [saveEntries]

theorem save_length (dt : DirTree) : (save dt).length = dt.entryCount * 128 := by
  simp only [save, entryCount]
  cases hes : dt.entries with
  | nil => simp [saveEntries]
  | cons r rest =>
    simp only [saveEntries]
    have l0 : (List.replicate ((r :: rest).length * 128) 0).length = (r :: rest).length * 128 :=
      List.length_replicate _ _
    have l1 := (saveRoot_getD _ r _ l0 (by simp only [List.length_cons]; omega) 0).1
    exact (saveLoop_spec _ 1 _ _ l1 (by simp only [List.length_cons, List.length_map]; omega)).1

/-- The bytes of the root record written by `DirTree::save`. -/
theorem save_root (dt : DirTree) (h0 : 0 < dt.entryCount) (k : Nat) (hk : k < 128) :
    (save dt).getD k 0 =
      (saveRoot (List.replicate 128 0) (entAt dt.entries 0)).getD k 0 := by
  simp only [save, entryCount] at *
  cases hes : dt.entries with
  | nil => rw [hes] at h0; simp at h0
  | cons r rest =>
    simp only [saveEntries]
    have l0 : (List.replicate ((r :: rest).length * 128) 0).length = (r :: rest).length * 128 :=
      List.length_replicate _ _
    have l1 := (saveRoot_getD _ r _ l0 (by simp only [List.length_cons]; omega) 0).1
    rw [(saveLoop_spec _ 1 _ _ l1 (by simp only [List.length_cons, List.length_map]; omega)).2.1
      k (by omega)]
    rw [(saveRoot_getD _ r _ l0 (by simp only [List.length_cons]; omega) k).2,
      (saveRoot_getD _ _ 128 (List.length_replicate _ _) (le_refl _) k).2,
      replicate_zero_getD, replicate_zero_getD]
    rfl

/-- The entry whose fields the loop of `DirTree::save` stores for index `i`: a storage is first
given `start = 0xffffffff` and `size = 0`. -/
theorem save_record (dt : DirTree) (i : Nat) (h1 : 1 ≤ i) (hi : i < dt.entryCount) (k : Nat)
    (hk1 : i * 128 ≤ k) (hk2 : k < (i + 1) * 128) :
    (save dt).getD k 0 =
      (saveRecord (List.replicate (dt.entryCount * 128) 0) i
        (if (entAt dt.entries i).dir = true then
          { entAt dt.entries i with start := 0xffffffff, size := 0 }
        else entAt dt.entries i)).getD k 0 := by
  simp only [save, entryCount] at *
  cases hes : dt.entries with
  | nil => rw [hes] at hi; simp at hi
  | cons r rest =>
    rw [hes] at hi
    simp only [List.length_cons] at hi
    simp only [saveEntries]
    have l0 : (List.replicate ((r :: rest).length * 128) 0).length = (r :: rest).length * 128 :=
      List.length_replicate _ _
    have l1 := (saveRoot_getD _ r _ l0 (by simp only [List.length_cons]; omega) 0).1
    obtain ⟨m, rfl⟩ : ∃ m, i = 1 + m := ⟨i - 1, by omega⟩
    rw [(saveLoop_spec _ 1 _ _ l1 (by simp only [List.length_cons, List.length_map]; omega)).2.2
      m (by simp only [List.length_map]; omega) k hk1 hk2]
    have e1 : (List.map (fun e => if e.dir = true then { e with start := 0xffffffff, size := 0 }
        else e) rest).getD m blankEntry =
        (if (entAt (r :: rest) (1 + m)).dir = true then
          { entAt (r :: rest) (1 + m) with start := 0xffffffff, size := 0 }
        else entAt (r :: rest) (1 + m)) := by
      have e2 : entAt (r :: rest) (1 + m) = rest.getD m blankEntry := by
        rw [Nat.add_comm]
        rfl
      rw [e2]
      simp only [List.getD_eq_getElem?_getD, List.getElem?_map]
      rw [List.getElem?_eq_getElem (by omega)]
      rfl
    rw [e1]
    apply saveRecord_congr _ _ _ _ _ l1 l0 (by simp only [List.length_cons]; omega)
    rw [(saveRoot_getD _ r _ l0 (by simp only [List.length_cons]; omega) k).2]
    have h10 : (str "Root Entry").length = 10 := rfl
    repeat rw [if_neg (by omega)]

end DirTree

namespace DirTree

/-- The fields of the record of index `i ≥ 1` in the bytes of `DirTree::save`. -/
theorem save_fields (dt : DirTree) (i : Nat) (h1 : 1 ≤ i) (hi : i < dt.entryCount) :
    (∀ x, x < min (entAt dt.entries i).name.length 32 →
      (save dt).getD (2 * x + i * 128) 0 = (entAt dt.entries i).name.getD x 0) ∧
    (∀ x, min (entAt dt.entries i).name.length 32 ≤ x → x < 32 →
      (save dt).getD (2 * x + i * 128) 0 = 0) ∧
    (∀ j, j < 2 → (save dt).getD (0x40 + i * 128 + j) 0 =
      (writeU16 (min (entAt dt.entries i).name.length 32 * 2 + 2)).getD j 0) ∧
    (save dt).getD (0x42 + i * 128) 0 =
      (if (entAt dt.entries i).valid = false then 0
        else if (entAt dt.entries i).dir = true then 1 else 2) ∧
    (save dt).getD (0x43 + i * 128) 0 = 1 ∧
    (∀ j, j < 4 → (save dt).getD (0x74 + i * 128 + j) 0 =
      (writeU32 (if (entAt dt.entries i).dir = true then 0xffffffff
        else (entAt dt.entries i).start)).getD j 0) ∧
    (∀ j, j < 4 → (save dt).getD (0x78 + i * 128 + j) 0 =
      (writeU32 (if (entAt dt.entries i).dir = true then 0
        else (entAt dt.entries i).size)).getD j 0) ∧
    (∀ j, j < 4 → (save dt).getD (0x44 + i * 128 + j) 0 =
      (writeU32 (entAt dt.entries i).prev).getD j 0) ∧
    (∀ j, j < 4 → (save dt).getD (0x48 + i * 128 + j) 0 =
      (writeU32 (entAt dt.entries i).next).getD j 0) ∧
    (∀ j, j < 4 → (save dt).getD (0x4c + i * 128 + j) 0 =
      (writeU32 (entAt dt.entries i).child).getD j 0) ∧
    (∀ x, x < 32 → (save dt).getD (2 * x + 1 + i * 128) 0 = 0) := by
  obtain ⟨e, he⟩ : ∃ e, e = entAt dt.entries i := ⟨_, rfl⟩
  obtain ⟨e2, he2⟩ : ∃ e2, e2 = (if e.dir = true then
      { e with start := 0xffffffff, size := 0 } else e) := ⟨_, rfl⟩
  have hrec : ∀ k, i * 128 ≤ k → k < (i + 1) * 128 →
      (save dt).getD k 0 =
        (saveRecord (List.replicate (dt.entryCount * 128) 0) i e2).getD k 0 := by
    intro k hk1 hk2
    rw [save_record dt i h1 hi k hk1 hk2, he2, he]
  have l0 : (List.replicate (dt.entryCount * 128) 0).length = dt.entryCount * 128 :=
    List.length_replicate _ _
  have hn : (i + 1) * 128 ≤ dt.entryCount * 128 := by omega
  have q1 : e2.name = e.name := by rw [he2]; split_ifs <;> rfl
  have q2 : e2.valid = e.valid := by rw [he2]; split_ifs <;> rfl
  have q3 : e2.dir = e.dir := by rw [he2]; split_ifs <;> rfl
  have q4 : e2.prev = e.prev := by rw [he2]; split_ifs <;> rfl
  have q5 : e2.next = e.next := by rw [he2]; split_ifs <;> rfl
  have q6 : e2.child = e.child := by rw [he2]; split_ifs <;> rfl
  have q7 : e2.start = (if e.dir = true then 0xffffffff else e.start) := by
    rw [he2]; split_ifs <;> rfl
  have q8 : e2.size = (if e.dir = true then 0 else e.size) := by
    rw [he2]; split_ifs <;> rfl
  have hlen : (e2.name.take 32).length = min e.name.length 32 := by
    rw [q1, List.length_take, Nat.min_comm]
  have hbyte := fun k => (saveRecord_getD _ i e2 _ l0 hn k).2
  rw [← he]
  refine ⟨?_, ?_, ?_, ?_, ?_, ?_, ?_, ?_, ?_, ?_, ?_⟩
  · intro x hx
    rw [hrec _ (by omega) (by omega), hbyte]
    repeat rw [if_neg (by omega)]
    rw [if_pos (by rw [hlen]; omega), q1]
    have e3 : (2 * x + i * 128 - i * 128) / 2 - 0 = x := by omega
    rw [e3]
    simp only [List.getD_eq_getElem?_getD]
    rw [List.getElem?_take_of_lt (by omega)]
  · intro x hx1 hx2
    rw [hrec _ (by omega) (by omega), hbyte]
    repeat rw [if_neg (by omega)]
    rw [replicate_zero_getD]
  · intro j hj
    rw [hrec _ (by omega) (by omega), hbyte]
    repeat rw [if_neg (by omega)]
    rw [if_pos (by omega), hlen]
    have e3 : 0x40 + i * 128 + j - (i * 128 + 0x40) = j := by omega
    rw [e3]
  · rw [hrec _ (by omega) (by omega), hbyte, if_neg (by omega), if_pos (by omega), q2, q3]
    have e3 : 0x42 + i * 128 - (i * 128 + 0x42) = 0 := by omega
    rw [e3]
    rfl
  · rw [hrec _ (by omega) (by omega), hbyte, if_pos (by omega)]
    have e3 : 0x43 + i * 128 - (i * 128 + 0x43) = 0 := by omega
    rw [e3]
    rfl
  · intro j hj
    rw [hrec _ (by omega) (by omega), hbyte]
    repeat rw [if_neg (by omega)]
    rw [if_pos (by omega), q7]
    have e3 : 0x74 + i * 128 + j - (i * 128 + 0x74) = j := by omega
    rw [e3]
  · intro j hj
    rw [hrec _ (by omega) (by omega), hbyte]
    repeat rw [if_neg (by omega)]
    rw [if_pos (by omega), q8]
    have e3 : 0x78 + i * 128 + j - (i * 128 + 0x78) = j := by omega
    rw [e3]
  · intro j hj
    rw [hrec _ (by omega) (by omega), hbyte, if_neg (by omega), if_neg (by omega),
      if_neg (by omega), if_neg (by omega), if_pos (by omega), q4]
    have e3 : 0x44 + i * 128 + j - (i * 128 + 0x44) = j := by omega
    rw [e3]
  · intro j hj
    rw [hrec _ (by omega) (by omega), hbyte, if_neg (by omega), if_neg (by omega),
      if_neg (by omega), if_pos (by omega), q5]
    have e3 : 0x48 + i * 128 + j - (i * 128 + 0x48) = j := by omega
    rw [e3]
  · intro j hj
    rw [hrec _ (by omega) (by omega), hbyte, if_neg (by omega), if_neg (by omega),
      if_pos (by omega), q6]
    have e3 : 0x4c + i * 128 + j - (i * 128 + 0x4c) = j := by omega
    rw [e3]
  · intro x hx
    rw [hrec _ (by omega) (by omega), hbyte]
    repeat rw [if_neg (by omega)]
    rw [replicate_zero_getD]

/-- The fields of the root record in the bytes of `DirTree::save`. -/
theorem save_root_fields (dt : DirTree) (h0 : 0 < dt.entryCount) :
    (∀ x, x < 10 → (save dt).getD (2 * x) 0 = (str "Root Entry").getD x 0) ∧
    (∀ x, 10 ≤ x → x < 32 → (save dt).getD (2 * x) 0 = 0) ∧
    (∀ j, j < 2 → (save dt).getD (0x40 + j) 0 = (writeU16 22).getD j 0) ∧
    (save dt).getD 0x42 0 = 5 ∧
    (save dt).getD 0x43 0 = 0 ∧
    (∀ j, j < 4 → (save dt).getD (0x74 + j) 0 = (writeU32 0xffffffff).getD j 0) ∧
    (∀ j, j < 4 → (save dt).getD (0x78 + j) 0 = (writeU32 0).getD j 0) ∧
    (∀ j, j < 4 → (save dt).getD (0x44 + j) 0 = (writeU32 0xffffffff).getD j 0) ∧
    (∀ j, j < 4 → (save dt).getD (0x48 + j) 0 = (writeU32 0xffffffff).getD j 0) ∧
    (∀ j, j < 4 → (save dt).getD (0x4c + j) 0 =
      (writeU32 (entAt dt.entries 0).child).getD j 0) := by
  have h10 : (str "Root Entry").length = 10 := rfl
  have hbyte := fun k => (saveRoot_getD (List.replicate 128 0) (entAt dt.entries 0) 128
    (List.length_replicate _ _) (le_refl _) k).2
  refine ⟨?_, ?_, ?_, ?_, ?_, ?_, ?_, ?_, ?_, ?_⟩
  · intro x hx
    rw [save_root dt h0 _ (by omega), hbyte]
    repeat rw [if_neg (by omega)]
    rw [if_pos (by omega)]
    have e3 : (2 * x - 0) / 2 - 0 = x := by omega
    rw [e3]
  · intro x hx1 hx2
    rw [save_root dt h0 _ (by omega), hbyte]
    repeat rw [if_neg (by omega)]
    rw [replicate_zero_getD]
  · intro j hj
    rw [save_root dt h0 _ (by omega), hbyte]
    repeat rw [if_neg (by omega)]
    rw [if_pos (by omega), h10]
    have e3 : 0x40 + j - 0x40 = j := by omega
    rw [e3]
  · rw [save_root dt h0 _ (by omega), hbyte, if_pos (by omega)]
    rfl
  · rw [save_root dt h0 _ (by omega), hbyte]
    repeat rw [if_neg (by omega)]
    rw [replicate_zero_getD]
  · intro j hj
    rw [save_root dt h0 _ (by omega), hbyte]
    repeat rw [if_neg (by omega)]
    rw [if_pos (by omega)]
    have e3 : 0x74 + j - 0x74 = j := by omega
    rw [e3]
  · intro j hj
    rw [save_root dt h0 _ (by omega), hbyte, if_neg (by omega), if_neg (by omega),
      if_neg (by omega), if_neg (by omega), if_pos (by omega)]
    have e3 : 0x78 + j - 0x78 = j := by omega
    rw [e3]
  · intro j hj
    rw [save_root dt h0 _ (by omega), hbyte, if_neg (by omega), if_neg (by omega),
      if_neg (by omega), if_pos (by omega)]
    have e3 : 0x44 + j - 0x44 = j := by omega
    rw [e3]
  · intro j hj
    rw [save_root dt h0 _ (by omega), hbyte, if_neg (by omega), if_neg (by omega),
      if_pos (by omega)]
    have e3 : 0x48 + j - 0x48 = j := by omega
    rw [e3]
  · intro j hj
    rw [save_root dt h0 _ (by omega), hbyte, if_neg (by omega), if_pos (by omega)]
    have e3 : 0x4c + j - 0x4c = j := by omega
    rw [e3]

end DirTree

/-- C22 (the claim as stated fails): in the bytes that `DirTree::save` produces for the
directory of a new container the byte at offset 0x43 of the root record is 0, not 1. -/
theorem root_color_byte_zero :
    (DirTree.save (DirTree.clear 512)).getD 0x43 0 = 0 ∧
    (DirTree.save (DirTree.clear 512)).getD 0x43 0 ≠ 1 := by
  have h := (DirTree.save_root_fields (DirTree.clear 512) (by decide)).2.2.2.2.1
  rw [h]
  exact ⟨rfl, by decide⟩

/-- C22 (amended): for every directory, the byte at offset 0x43 of the record of index `i` in
the bytes of `DirTree::save` is 1 for every `i ≥ 1` and 0 for the root record. -/
theorem save_color_byte (dt : DirTree) (i : Nat) (hi : i < dt.entryCount) :
    (DirTree.save dt).getD (i * 128 + 0x43) 0 = if i = 0 then 0 else 1 := by
  by_cases h : i = 0
  · subst h
    rw [if_pos rfl]
    exact (DirTree.save_root_fields dt hi).2.2.2.2.1
  · rw [if_neg h, Nat.add_comm]
    exact (DirTree.save_fields dt i (by omega) hi).2.2.2.2.1

set_option maxRecDepth 100000 in
theorem save_color_byte_witness :
    (DirTree.save threeNames.dirtree).getD (2 * 128 + 0x43) 0 = if 2 = 0 then 0 else 1 :=
  save_color_byte threeNames.dirtree 2 (by decide)

namespace DirTree

theorem save_name_len (dt : DirTree) (i : Nat) (h1 : 1 ≤ i) (hi : i < dt.entryCount) :
    Header.u16At (save dt) (i * 128 + 0x40) = 2 * min (entAt dt.entries i).name.length 32 + 2 := by
  apply Header.u16At_of_bytes _ _ _ (by omega)
  intro j hj
  have := (save_fields dt i h1 hi).2.2.1 j hj
  rw [Nat.add_comm (i * 128) 0x40, this, Nat.mul_comm]

theorem save_last_unit (dt : DirTree) (i : Nat) (h1 : 1 ≤ i) (hi : i < dt.entryCount)
    (hlen : 32 ≤ (entAt dt.entries i).name.length) :
    (save dt).getD (i * 128 + 62) 0 = (entAt dt.entries i).name.getD 31 0 := by
  have := (save_fields dt i h1 hi).1 31 (by omega)
  rw [← this]
  congr 1
  omega

end DirTree

set_option maxRecDepth 100000 in
/-- C23 (counterexample to the claim as stated): for the stream created with the 32-character
name `abcdefghijklmnopqrstuvwxyz012345`, `DirTree::save` stores all 32 characters: the
`name_len` field of its record is 66, above 64, and the last 16-bit unit of the 64-byte name
field is the character `5`, not zero. -/
theorem save_keeps_32_characters :
    (entAt longName.dirtree.entries 1).name = str "abcdefghijklmnopqrstuvwxyz012345" ∧
    Header.u16At (DirTree.save longName.dirtree) (128 + 0x40) = 66 ∧
    Header.u16At (DirTree.save longName.dirtree) (128 + 62) = 0x35 := by
  have hn : (entAt longName.dirtree.entries 1).name = str "abcdefghijklmnopqrstuvwxyz012345" := by
    decide
  have hc : 1 < longName.dirtree.entryCount := by decide
  refine ⟨hn, ?_, ?_⟩
  · have := DirTree.save_name_len longName.dirtree 1 (le_refl _) hc
    rw [hn] at this
    exact this
  · have a := DirTree.save_last_unit longName.dirtree 1 (le_refl _) hc (by rw [hn]; decide)
    have b := (DirTree.save_fields longName.dirtree 1 (le_refl _) hc).2.2.2.2.2.2.2.2.2.2 31
      (by decide)
    rw [hn] at a
    simp only [Header.u16At, readU16]
    have e1 : 128 + 62 = 1 * 128 + 62 := rfl
    have e2 : 128 + 62 + 1 = 2 * 31 + 1 + 1 * 128 := rfl
    rw [e2, b, e1, a]
    decide

/-- C23 (amended): whatever the length of an entry's name, `DirTree::save` stores its first
`min length 32` characters in the record of the entry (index `i ≥ 1`; record 0 always gets
the name `Root Entry`, with `name_len` 22): each as a 16-bit unit with the character in the
low byte, followed by zero units up to the 32nd. The `name_len` field is
`2 * min length 32 + 2`, so it never exceeds 66, and the last unit of the 64-byte name field
is zero when the name has fewer than 32 characters and is the 32nd character otherwise. -/
theorem save_name_at_most_32 (dt : DirTree) (i : Nat) (h1 : 1 ≤ i) (hi : i < dt.entryCount) :
    (∀ x, x < min (entAt dt.entries i).name.length 32 →
      (DirTree.save dt).getD (i * 128 + 2 * x) 0 = (entAt dt.entries i).name.getD x 0 ∧
      (DirTree.save dt).getD (i * 128 + 2 * x + 1) 0 = 0) ∧
    (∀ x, min (entAt dt.entries i).name.length 32 ≤ x → x < 32 →
      (DirTree.save dt).getD (i * 128 + 2 * x) 0 = 0 ∧
      (DirTree.save dt).getD (i * 128 + 2 * x + 1) 0 = 0) ∧
    Header.u16At (DirTree.save dt) (i * 128 + 0x40) =
      2 * min (entAt dt.entries i).name.length 32 + 2 ∧
    Header.u16At (DirTree.save dt) (i * 128 + 0x40) ≤ 66 ∧
    Header.u16At (DirTree.save dt) 0x40 = 22 ∧
    ((entAt dt.entries i).name.length < 32 →
      (DirTree.save dt).getD (i * 128 + 62) 0 = 0 ∧
      (DirTree.save dt).getD (i * 128 + 63) 0 = 0) ∧
    (32 ≤ (entAt dt.entries i).name.length →
      (DirTree.save dt).getD (i * 128 + 62) 0 = (entAt dt.entries i).name.getD 31 0 ∧
      (DirTree.save dt).getD (i * 128 + 63) 0 = 0) := by
  obtain ⟨f1, f2, -, -, -, -, -, -, -, -, f11⟩ := DirTree.save_fields dt i h1 hi
  have hlen := DirTree.save_name_len dt i h1 hi
  have hodd : ∀ x, x < 32 → (DirTree.save dt).getD (i * 128 + 2 * x + 1) 0 = 0 := by
    intro x hx
    have := f11 x hx
    rw [← this]
    congr 1
    omega
  have heven : ∀ x, (DirTree.save dt).getD (i * 128 + 2 * x) 0 =
      (DirTree.save dt).getD (2 * x + i * 128) 0 := by
    intro x
    congr 1
    omega
  refine ⟨fun x hx => ⟨?_, hodd x (by omega)⟩, fun x hx1 hx2 => ⟨?_, hodd x hx2⟩, hlen, ?_, ?_,
    fun hl => ⟨?_, hodd 31 (by omega)⟩, fun hl => ⟨?_, hodd 31 (by omega)⟩⟩
  · rw [heven, f1 x hx]
  · rw [heven, f2 x hx1 hx2]
  · rw [hlen]
    omega
  · apply Header.u16At_of_bytes _ _ _ (by decide)
    exact (DirTree.save_root_fields dt (by omega)).2.2.1
  · have := f2 31 (by omega) (by omega)
    rw [← this]
    congr 1
    omega
  · exact DirTree.save_last_unit dt i h1 hi hl

set_option maxRecDepth 100000 in
/-- Witness of C23 (amended): the theorem at the record of the stream `bb` (index 2) of the
directory holding `aaa`, `bb` and `c`. -/
theorem save_name_at_most_32_witness :
    (∀ x, x < min (entAt threeNames.dirtree.entries 2).name.length 32 →
      (DirTree.save threeNames.dirtree).getD (2 * 128 + 2 * x) 0 =
        (entAt threeNames.dirtree.entries 2).name.getD x 0 ∧
      (DirTree.save threeNames.dirtree).getD (2 * 128 + 2 * x + 1) 0 = 0) ∧
    (∀ x, min (entAt threeNames.dirtree.entries 2).name.length 32 ≤ x → x < 32 →
      (DirTree.save threeNames.dirtree).getD (2 * 128 + 2 * x) 0 = 0 ∧
      (DirTree.save threeNames.dirtree).getD (2 * 128 + 2 * x + 1) 0 = 0) ∧
    Header.u16At (DirTree.save threeNames.dirtree) (2 * 128 + 0x40) =
      2 * min (entAt threeNames.dirtree.entries 2).name.length 32 + 2 ∧
    Header.u16At (DirTree.save threeNames.dirtree) (2 * 128 + 0x40) ≤ 66 ∧
    Header.u16At (DirTree.save threeNames.dirtree) 0x40 = 22 ∧
    ((entAt threeNames.dirtree.entries 2).name.length < 32 →
      (DirTree.save threeNames.dirtree).getD (2 * 128 + 62) 0 = 0 ∧
      (DirTree.save threeNames.dirtree).getD (2 * 128 + 63) 0 = 0) ∧
    (32 ≤ (entAt threeNames.dirtree.entries 2).name.length →
      (DirTree.save threeNames.dirtree).getD (2 * 128 + 62) 0 =
        (entAt threeNames.dirtree.entries 2).name.getD 31 0 ∧
      (DirTree.save threeNames.dirtree).getD (2 * 128 + 63) 0 = 0) :=
  save_name_at_most_32 threeNames.dirtree 2 (by decide) (by decide)

/-! ## `DirTree::load` on the bytes of `DirTree::save` -/

namespace DirTree

theorem loadNameLoop_spec (buffer : List Nat) (p name_len : Nat) :
    ∀ (rest : List Nat) (m fuel : Nat) (acc : List Nat),
      (∀ x, x < rest.length →
        buffer.getD (2 * (m + x) + p) 0 = rest.getD x 0 ∧ rest.getD x 0 ≠ 0) →
      buffer.getD (2 * (m + rest.length) + p) 0 = 0 →
      2 * (m + rest.length) ≤ name_len → rest.length < fuel →
      loadNameLoop buffer p name_len fuel (2 * m) acc = acc ++ rest := by
  intro rest
  induction rest with
  | nil =>
    intro m fuel acc _ hend _ hf
    obtain ⟨f, rfl⟩ : ∃ f, fuel = f + 1 := ⟨fuel - 1, by simp at hf; omega⟩
    simp only [List.length_nil, Nat.add_zero] at hend
    simp only [loadNameLoop, hend, ne_eq, not_true_eq_false, false_and, if_false,
      List.append_nil]
  | cons c cs ih =>
    intro m fuel acc h hend hl hf
    simp only [List.length_cons] at h hend hl hf
    obtain ⟨f, rfl⟩ : ∃ f, fuel = f + 1 := ⟨fuel - 1, by omega⟩
    have h0 := h 0 (by omega)
    simp only [Nat.add_zero, List.getD_cons_zero] at h0
    rw [loadNameLoop, if_pos ⟨by rw [h0.1]; exact h0.2, by omega⟩, h0.1]
    have e : 2 * m + 2 = 2 * (m + 1) := by omega
    rw [e, ih (m + 1) f (acc ++ [c]) ?_ ?_ (by omega) (by omega)]
    · simp
    · intro x hx
      have := h (x + 1) (by omega)
      rw [List.getD_cons_succ] at this
      have e2 : m + 1 + x = m + (x + 1) := by omega
      rw [e2]
      exact this
    · have e2 : m + 1 + cs.length = m + (cs.length + 1) := by omega
      rw [e2]
      exact hend

/-- The entry that `DirTree::load` reads from a record whose name field holds the characters
`nm` (at most 31, none of them zero, the first one at least 32) followed by a zero byte. -/
theorem loadEntry_of_bytes (buffer : List Nat) (i : Nat) (nm : List Nat) (ty st sz pv nx ch : Nat)
    (hlen : nm.length ≤ 31)
    (hname : ∀ x, x < nm.length → buffer.getD (2 * x + i * 128) 0 = nm.getD x 0)
    (hnz : ∀ x, x < nm.length → nm.getD x 0 ≠ 0)
    (hend : buffer.getD (2 * nm.length + i * 128) 0 = 0)
    (hfirst : 32 ≤ buffer.getD (i * 128) 0)
    (hnl : ∀ j, j < 2 →
      buffer.getD (0x40 + i * 128 + j) 0 = (writeU16 (nm.length * 2 + 2)).getD j 0)
    (hty : buffer.getD (0x42 + i * 128) 0 = ty)
    (hst : ∀ j, j < 4 → buffer.getD (0x74 + i * 128 + j) 0 = (writeU32 st).getD j 0)
    (hsz : ∀ j, j < 4 → buffer.getD (0x78 + i * 128 + j) 0 = (writeU32 sz).getD j 0)
    (hpv : ∀ j, j < 4 → buffer.getD (0x44 + i * 128 + j) 0 = (writeU32 pv).getD j 0)
    (hnx : ∀ j, j < 4 → buffer.getD (0x48 + i * 128 + j) 0 = (writeU32 nx).getD j 0)
    (hch : ∀ j, j < 4 → buffer.getD (0x4c + i * 128 + j) 0 = (writeU32 ch).getD j 0)
    (b1 : st < 2 ^ 32) (b2 : sz < 2 ^ 32) (b3 : pv < 2 ^ 32) (b4 : nx < 2 ^ 32)
    (b5 : ch < 2 ^ 32) :
    (loadEntry buffer i).name = nm ∧
    (loadEntry buffer i).valid = decide (ty = 2 ∨ ty = 1 ∨ ty = 5) ∧
    (loadEntry buffer i).dir = decide (ty ≠ 2) ∧
    (loadEntry buffer i).start = st ∧ (loadEntry buffer i).size = sz ∧
    (loadEntry buffer i).prev = pv ∧ (loadEntry buffer i).next = nx ∧
    (loadEntry buffer i).child = ch := by
  have e1 : Header.u16At buffer (0x40 + i * 128) = nm.length * 2 + 2 :=
    Header.u16At_of_bytes _ _ _ (by omega) hnl
  have e3 : loadNameLoop buffer (i * 128) (nm.length * 2 + 2) 33 0 [] = nm := by
    have := loadNameLoop_spec buffer (i * 128) (nm.length * 2 + 2) nm 0 33 []
      (fun x hx => by
        rw [Nat.zero_add]
        exact ⟨hname x hx, hnz x hx⟩)
      (by rw [Nat.zero_add]; exact hend) (by omega) (by omega)
    simpa using this
  refine ⟨?_, ?_, ?_, Header.u32At_of_bytes _ _ _ b1 hst, Header.u32At_of_bytes _ _ _ b2 hsz,
    Header.u32At_of_bytes _ _ _ b3 hpv, Header.u32At_of_bytes _ _ _ b4 hnx,
    Header.u32At_of_bytes _ _ _ b5 hch⟩
  · simp only [loadEntry, e1]
    rw [if_neg (by omega : ¬ nm.length * 2 + 2 > 64), e3, if_neg (by omega)]
  · simp only [loadEntry, e1, hty]
    rw [if_neg (by omega : ¬ nm.length * 2 + 2 > 64)]
    apply decide_eq_decide.2
    constructor
    · intro h; exact h.2.1
    · intro h
      refine ⟨?_, h, by omega⟩
      rcases h with h | h | h <;> omega
  · simp only [loadEntry, hty]

theorem load_entryCount (dt0 : DirTree) (buffer : List Nat) (size : Nat) :
    (load dt0 buffer size).entryCount = size / 128 := by
  simp [load, entryCount]

theorem load_entAt (dt0 : DirTree) (buffer : List Nat) (size i : Nat) (hi : i < size / 128) :
    entAt (load dt0 buffer size).entries i = loadEntry buffer i := by
  simp only [load, entAt, List.getD_eq_getElem?_getD]
  rw [List.getElem?_map, List.getElem?_range hi]
  rfl

end DirTree

/-- C24: for every directory with a root whose other entries have names of 1 to 31 characters,
none of them zero and the first one at least 32, and whose 32-bit fields are below 2^32,
`DirTree::load` on the bytes of `DirTree::save` gives as many entries; every entry but the root
comes back with its name, valid flag, `prev`, `next` and `child`, with its `dir` flag when it is
valid, and with its `start` and `size` when it is a stream; the root comes back as a valid
storage named `Root Entry` with its `child`. -/
theorem dirtree_load_save (dt dt0 : DirTree) (h0 : 0 < dt.entryCount)
    (hname : ∀ i, i < dt.entryCount → 1 ≤ i →
      1 ≤ (entAt dt.entries i).name.length ∧ (entAt dt.entries i).name.length ≤ 31 ∧
      (∀ c ∈ (entAt dt.entries i).name, c ≠ 0) ∧ 32 ≤ (entAt dt.entries i).name.headD 0)
    (h32 : ∀ i, i < dt.entryCount →
      (entAt dt.entries i).start < 2 ^ 32 ∧ (entAt dt.entries i).size < 2 ^ 32 ∧
      (entAt dt.entries i).prev < 2 ^ 32 ∧ (entAt dt.entries i).next < 2 ^ 32 ∧
      (entAt dt.entries i).child < 2 ^ 32) :
    (DirTree.load dt0 (DirTree.save dt) (dt.entryCount * 128)).entryCount = dt.entryCount ∧
    (∀ i, i < dt.entryCount → 1 ≤ i →
      (entAt (DirTree.load dt0 (DirTree.save dt) (dt.entryCount * 128)).entries i).name =
        (entAt dt.entries i).name ∧
      (entAt (DirTree.load dt0 (DirTree.save dt) (dt.entryCount * 128)).entries i).valid =
        (entAt dt.entries i).valid ∧
      (entAt (DirTree.load dt0 (DirTree.save dt) (dt.entryCount * 128)).entries i).prev =
        (entAt dt.entries i).prev ∧
      (entAt (DirTree.load dt0 (DirTree.save dt) (dt.entryCount * 128)).entries i).next =
        (entAt dt.entries i).next ∧
      (entAt (DirTree.load dt0 (DirTree.save dt) (dt.entryCount * 128)).entries i).child =
        (entAt dt.entries i).child ∧
      ((entAt dt.entries i).valid = true →
        (entAt (DirTree.load dt0 (DirTree.save dt) (dt.entryCount * 128)).entries i).dir =
          (entAt dt.entries i).dir) ∧
      ((entAt dt.entries i).dir = false →
        (entAt (DirTree.load dt0 (DirTree.save dt) (dt.entryCount * 128)).entries i).start =
          (entAt dt.entries i).start ∧
        (entAt (DirTree.load dt0 (DirTree.save dt) (dt.entryCount * 128)).entries i).size =
          (entAt dt.entries i).size)) ∧
    (entAt (DirTree.load dt0 (DirTree.save dt) (dt.entryCount * 128)).entries 0).valid = true ∧
    (entAt (DirTree.load dt0 (DirTree.save dt) (dt.entryCount * 128)).entries 0).dir = true ∧
    (entAt (DirTree.load dt0 (DirTree.save dt) (dt.entryCount * 128)).entries 0).name =
      str "Root Entry" ∧
    (entAt (DirTree.load dt0 (DirTree.save dt) (dt.entryCount * 128)).entries 0).child =
      (entAt dt.entries 0).child := by
  have hdiv : dt.entryCount * 128 / 128 = dt.entryCount := Nat.mul_div_cancel _ (by decide)
  refine ⟨by rw [DirTree.load_entryCount, hdiv], ?_, ?_⟩
  · intro i hi h1
    rw [DirTree.load_entAt _ _ _ _ (by rw [hdiv]; exact hi)]
    obtain ⟨n1, n2, n3, n4⟩ := hname i hi h1
    obtain ⟨c1, c2, c3, c4, c5⟩ := h32 i hi
    obtain ⟨f1, f2, f3, f4, -, f6, f7, f8, f9, f10, -⟩ := DirTree.save_fields dt i h1 hi
    have hmin : min (entAt dt.entries i).name.length 32 = (entAt dt.entries i).name.length :=
      Nat.min_eq_left (by omega)
    rw [hmin] at f1 f2 f3
    have hnz : ∀ x, x < (entAt dt.entries i).name.length →
        (entAt dt.entries i).name.getD x 0 ≠ 0 := by
      intro x hx
      rw [List.getD_eq_getElem?_getD, List.getElem?_eq_getElem hx]
      exact n3 _ (List.getElem_mem hx)
    have hfirst : 32 ≤ (DirTree.save dt).getD (i * 128) 0 := by
      have := f1 0 (by omega)
      simp only [Nat.mul_zero, Nat.zero_add] at this
      rw [this]
      cases hnm : (entAt dt.entries i).name with
      | nil => rw [hnm] at n1; simp at n1
      | cons c cs => rw [hnm] at n4; simpa using n4
    obtain ⟨r1, r2, r3, r4, r5, r6, r7, r8⟩ := DirTree.loadEntry_of_bytes (DirTree.save dt) i
      (entAt dt.entries i).name _ _ _ _ _ _ n2 f1 hnz (f2 _ (le_refl _) (by omega)) hfirst f3 f4
      f6 f7 f8 f9 f10
      (by split_ifs <;> first | exact c1 | decide) (by split_ifs <;> first | exact c2 | decide)
      c3 c4 c5
    refine ⟨r1, ?_, r6, r7, r8, ?_, ?_⟩
    · rw [r2]
      cases hv : (entAt dt.entries i).valid <;> cases hd : (entAt dt.entries i).dir <;> simp
    · intro hv
      rw [r3, hv]
      cases hd : (entAt dt.entries i).dir <;> simp
    · intro hd
      rw [r4, r5, hd]
      simp
  · rw [DirTree.load_entAt _ _ _ _ (by rw [hdiv]; exact h0)]
    obtain ⟨f1, f2, f3, f4, -, f6, f7, f8, f9, f10⟩ := DirTree.save_root_fields dt h0
    have h10 : (str "Root Entry").length = 10 := rfl
    obtain ⟨r1, r2, r3, r4, r5, r6, r7, r8⟩ := DirTree.loadEntry_of_bytes (DirTree.save dt) 0
      (str "Root Entry") 5 0xffffffff 0 0xffffffff 0xffffffff (entAt dt.entries 0).child
      (by decide)
      (fun x hx => by rw [h10] at hx; simpa using f1 x hx)
      (by decide)
      (by rw [h10]; simpa using f2 10 (le_refl _) (by decide))
      (by have := f1 0 (by decide); simp only [Nat.mul_zero] at this
          rw [Nat.zero_mul, this]; decide)
      (fun j hj => by rw [h10]; simpa using f3 j hj)
      (by simpa using f4)
      (fun j hj => by simpa using f6 j hj)
      (fun j hj => by simpa using f7 j hj)
      (fun j hj => by simpa using f8 j hj)
      (fun j hj => by simpa using f9 j hj)
      (fun j hj => by simpa using f10 j hj)
      (by decide) (by decide) (by decide) (by decide) (h32 0 h0).2.2.2.2
    exact ⟨by rw [r2]; decide, by rw [r3]; decide, r1, r8⟩

set_option maxRecDepth 100000 in
/-- C24 on the directory of the container with the streams `aaa`, `bb` and `c`. -/
theorem dirtree_load_save_witness :
    (DirTree.load threeNames.dirtree (DirTree.save threeNames.dirtree)
      (threeNames.dirtree.entryCount * 128)).entryCount = threeNames.dirtree.entryCount ∧
    (∀ i, i < threeNames.dirtree.entryCount → 1 ≤ i →
      (entAt (DirTree.load threeNames.dirtree (DirTree.save threeNames.dirtree)
        (threeNames.dirtree.entryCount * 128)).entries i).name =
        (entAt threeNames.dirtree.entries i).name ∧
      (entAt (DirTree.load threeNames.dirtree (DirTree.save threeNames.dirtree)
        (threeNames.dirtree.entryCount * 128)).entries i).valid =
        (entAt threeNames.dirtree.entries i).valid ∧
      (entAt (DirTree.load threeNames.dirtree (DirTree.save threeNames.dirtree)
        (threeNames.dirtree.entryCount * 128)).entries i).prev =
        (entAt threeNames.dirtree.entries i).prev ∧
      (entAt (DirTree.load threeNames.dirtree (DirTree.save threeNames.dirtree)
        (threeNames.dirtree.entryCount * 128)).entries i).next =
        (entAt threeNames.dirtree.entries i).next ∧
      (entAt (DirTree.load threeNames.dirtree (DirTree.save threeNames.dirtree)
        (threeNames.dirtree.entryCount * 128)).entries i).child =
        (entAt threeNames.dirtree.entries i).child ∧
      ((entAt threeNames.dirtree.entries i).valid = true →
        (entAt (DirTree.load threeNames.dirtree (DirTree.save threeNames.dirtree)
          (threeNames.dirtree.entryCount * 128)).entries i).dir =
          (entAt threeNames.dirtree.entries i).dir) ∧
      ((entAt threeNames.dirtree.entries i).dir = false →
        (entAt (DirTree.load threeNames.dirtree (DirTree.save threeNames.dirtree)
          (threeNames.dirtree.entryCount * 128)).entries i).start =
          (entAt threeNames.dirtree.entries i).start ∧
        (entAt (DirTree.load threeNames.dirtree (DirTree.save threeNames.dirtree)
          (threeNames.dirtree.entryCount * 128)).entries i).size =
          (entAt threeNames.dirtree.entries i).size)) ∧
    (entAt (DirTree.load threeNames.dirtree (DirTree.save threeNames.dirtree)
      (threeNames.dirtree.entryCount * 128)).entries 0).valid = true ∧
    (entAt (DirTree.load threeNames.dirtree (DirTree.save threeNames.dirtree)
      (threeNames.dirtree.entryCount * 128)).entries 0).dir = true ∧
    (entAt (DirTree.load threeNames.dirtree (DirTree.save threeNames.dirtree)
      (threeNames.dirtree.entryCount * 128)).entries 0).name = str "Root Entry" ∧
    (entAt (DirTree.load threeNames.dirtree (DirTree.save threeNames.dirtree)
      (threeNames.dirtree.entryCount * 128)).entries 0).child =
      (entAt threeNames.dirtree.entries 0).child :=
  dirtree_load_save threeNames.dirtree threeNames.dirtree (by decide) (by decide) (by decide)

/-! ## `AllocTable::setChain` -/

namespace AllocTable

theorem setChain_spec : ∀ (l : List Nat) (t : AllocTable), l ≠ [] → l.Nodup →
    (∀ x ∈ l, x < MetaBat) → t.count ≤ MetaBat →
    IsChain (t.setChain l) l ∧ (t.setChain l).count ≤ MetaBat ∧ t.count ≤ (t.setChain l).count ∧
    ∀ j, j ∉ l → j < t.count → (t.setChain l).get j = t.get j := by
  have hM : MetaBat = 0xfffffffc := rfl
  intro l
  induction l with
  | nil => intro t h; exact absurd rfl h
  | cons c rest ih =>
    intro t _ hnd hlt hc
    have hcl := hlt c (List.mem_cons_self _ _)
    have h32 : c + 1 < 2 ^ 32 := by omega
    cases rest with
    | nil =>
      have e : t.setChain [c] = t.set c Eof := rfl
      rw [e]
      have hcnt := set_count t c Eof h32
      refine ⟨(isChain_cons _ _ _).2 ⟨by omega, by rw [set_get_self t c Eof h32]; rfl, trivial⟩,
        by omega, by omega, fun j hj hjc => ?_⟩
      exact set_get_ne t c Eof j h32 hjc (fun e => hj (by simp [e]))
    | cons d rest =>
      have e : t.setChain (c :: d :: rest) = (t.set c d).setChain (d :: rest) := rfl
      rw [e]
      have hcnt := set_count t c d h32
      obtain ⟨a1, a2, a3, a4⟩ := ih (t.set c d) (by simp) (List.nodup_cons.1 hnd).2
        (fun x hx => hlt x (List.mem_cons_of_mem _ hx)) (by omega)
      have hcn : c ∉ d :: rest := (List.nodup_cons.1 hnd).1
      refine ⟨(isChain_cons _ _ _).2 ⟨by omega, ?_, a1⟩, a2, by omega, fun j hj hjc => ?_⟩
      · rw [a4 c hcn (by omega), set_get_self t c d h32]
        rfl
      · rw [a4 j (fun h => hj (List.mem_cons_of_mem _ h)) (by omega)]
        exact set_get_ne t c d j h32 hjc (fun e => hj (by simp [e]))

theorem isChain_links {t : AllocTable} : ∀ {l : List Nat}, IsChain t l →
    (∀ i, i + 1 < l.length → t.get (l.getD i 0) = l.getD (i + 1) 0) ∧
    ∀ x, l.getLast? = some x → t.get x = Eof := by
  intro l
  induction l with
  | nil => intro _; exact ⟨fun i hi => by simp at hi, fun x hx => by simp at hx⟩
  | cons a rest ih =>
    intro h
    obtain ⟨h1, h2, h3⟩ := (isChain_cons t a rest).1 h
    obtain ⟨b1, b2⟩ := ih h3
    constructor
    · intro i hi
      cases i with
      | zero =>
        cases rest with
        | nil => simp at hi
        | cons b r => simpa using h2
      | succ i =>
        simp only [List.getD_cons_succ]
        exact b1 i (by simp only [List.length_cons] at hi; omega)
    · intro x hx
      cases rest with
      | nil =>
        simp only [List.getLast?_singleton, Option.some.injEq] at hx
        subst hx
        simpa using h2
      | cons b r =>
        rw [List.getLast?_cons_cons] at hx
        exact b2 x hx

end AllocTable

/-- C31: on a table of at most `0xfffffffc` slots, for a non-empty chain `c` of pairwise distinct
indices below `0xfffffffc`: after `setChain(c)` every element holds its successor, the last one
holds `Eof`, and `follow` from the first element returns `c`. -/
theorem setChain_follow (t : AllocTable) (c : List Nat) (hne : c ≠ []) (hnd : c.Nodup)
    (hlt : ∀ x ∈ c, x < 0xfffffffc) (hc : t.count ≤ AllocTable.MetaBat) :
    (∀ i, i + 1 < c.length → (t.setChain c).get (c.getD i 0) = c.getD (i + 1) 0) ∧
    (t.setChain c).get (c.getLast hne) = AllocTable.Eof ∧
    (t.setChain c).follow (c.head hne) = some c := by
  obtain ⟨a1, a2, -, -⟩ := AllocTable.setChain_spec c t hne hnd hlt hc
  obtain ⟨b1, b2⟩ := AllocTable.isChain_links a1
  refine ⟨b1, b2 _ (List.getLast?_eq_getLast _ hne), ?_⟩
  apply AllocTable.follow_of_chain _ _ _ a2
  refine ⟨hnd, a1, ?_⟩
  cases c with
  | nil => exact absurd rfl hne
  | cons a r => rfl

theorem setChain_follow_witness :
    (∀ i, i + 1 < [7, 2, 9].length →
      (AllocTable.shortChain.setChain [7, 2, 9]).get ([7, 2, 9].getD i 0) =
        [7, 2, 9].getD (i + 1) 0) ∧
    (AllocTable.shortChain.setChain [7, 2, 9]).get ([7, 2, 9].getLast (by decide)) =
      AllocTable.Eof ∧
    (AllocTable.shortChain.setChain [7, 2, 9]).follow ([7, 2, 9].head (by decide)) =
      some [7, 2, 9] :=
  setChain_follow AllocTable.shortChain [7, 2, 9] (by decide) (by decide) (by decide)
    (by decide)

/-! ## `StorageIO::addbbatBlock` and `StorageIO::ExtendFile` -/

namespace StorageIO

theorem addbbatBlock_slot (io : StorageIO) (h : io.bbat.count + 2 < 2 ^ 32) :
    io.addbbatBlock.bbat.get io.bbat.unused.1 = AllocTable.MetaBat := by
  have hle := AllocTable.unused_le io.bbat
  have g1 : (io.bbat.unused.2.set io.bbat.unused.1 AllocTable.MetaBat).get io.bbat.unused.1 =
      AllocTable.MetaBat := AllocTable.set_get_self _ _ _ (by omega)
  have c1 := AllocTable.claim_count io.bbat AllocTable.MetaBat (by omega)
  have e2 := AllocTable.ext_claim (io.bbat.unused.2.set io.bbat.unused.1 AllocTable.MetaBat)
    AllocTable.MetaBat (by omega)
  have g2 := e2.2.2 io.bbat.unused.1 c1.2.1 (by rw [g1]; decide)
  rw [g1] at g2
  simp only [addbbatBlock]
  split_ifs
  all_goals first
    | exact g1
    | exact g2

end StorageIO

set_option maxRecDepth 100000 in
/-- C33 (the code does not meet the claim): on a new container, whatever the unset flags of the
tables hold, the slot of the sector that `addbbatBlock` adds as the second table sector holds
`MetaBat` (`0xfffffffc`) afterwards, not `Bat` (`0xfffffffd`); and in every state with room
the slot of the sector claimed first by `addbbatBlock` holds `MetaBat` afterwards. -/
theorem addbbatBlock_marks_metabat (fragB fragS : Bool) :
    (freshContainer fragB fragS).addbbatBlock.header.num_bat = 2 ∧
    (freshContainer fragB fragS).addbbatBlock.header.bb_blocks.getD 1 0 =
      (freshContainer fragB fragS).bbat.unused.1 ∧
    (freshContainer fragB fragS).addbbatBlock.bbat.get
      ((freshContainer fragB fragS).addbbatBlock.header.bb_blocks.getD 1 0) =
        AllocTable.MetaBat ∧
    AllocTable.MetaBat ≠ AllocTable.Bat ∧
    ∀ io : StorageIO, io.bbat.count + 2 < 2 ^ 32 →
      io.addbbatBlock.bbat.get io.bbat.unused.1 = AllocTable.MetaBat := by
  refine ⟨?_, ?_, ?_, by decide, StorageIO.addbbatBlock_slot⟩ <;>
  cases fragB <;> cases fragS <;> decide

namespace StorageIO

theorem ceil_div (a p : Nat) (hp : 0 < p) :
    (a + p - 1) / p = a / p + (if a % p = 0 then 0 else 1) := by
  have h := Nat.div_add_mod a p
  obtain ⟨q, hq⟩ : ∃ q, q = a / p := ⟨_, rfl⟩
  obtain ⟨r, hr⟩ : ∃ r, r = a % p := ⟨_, rfl⟩
  have hrlt : r < p := by rw [hr]; exact Nat.mod_lt _ hp
  rw [← hq, ← hr] at h ⊢
  by_cases h0 : r = 0
  · rw [if_pos h0]
    have e : a + p - 1 = p * q + (p - 1) := by omega
    rw [e, Nat.mul_add_div hp, Nat.div_eq_of_lt (by omega)]
  · rw [if_neg h0]
    have e : a + p - 1 = p * (q + 1) + (r - 1) := by
      rw [Nat.mul_add, Nat.mul_one]
      omega
    rw [e, Nat.mul_add_div hp, Nat.div_eq_of_lt (by omega)]

theorem ceil_div_succ (a p : Nat) (hp : 0 < p) : (a + 1 + p - 1) / p = a / p + 1 := by
  have e : a + 1 + p - 1 = a + p := by omega
  rw [e, Nat.add_div_right _ hp]

end StorageIO

/-- C34: in a state whose meta-table bookkeeping is in step with `num_bat` (as it is after
`create` and after every `addbbatBlock`), `addbbatBlock` adds one to `num_bat` and sets the
header dirty. Below 109 table sectors the new sector goes to the inline slot `num_bat` and
the meta table is untouched. From 109 on it is appended to `mbat_data`, the inline slots are
untouched, and exactly when `num_bat - 109` is a multiple of `blockSize / 4 - 1` a further
sector is claimed, marked `MetaBat`, appended to `mbat_blocks` and counted in `num_mbat`,
and `mbat_start` is set to it if `num_mbat` was 0. The bookkeeping stays in step. -/
theorem addbbatBlock_header (io : StorageIO) (hm : io.MbatOK) (hbs : 8 ≤ io.bbat.blockSize) :
    io.addbbatBlock.header.num_bat = io.header.num_bat + 1 ∧
    io.addbbatBlock.header.dirty = true ∧
    (io.header.num_bat < 109 →
      io.addbbatBlock.header.bb_blocks =
        io.header.bb_blocks.set io.header.num_bat io.bbat.unused.1 ∧
      io.addbbatBlock.mbat_data = io.mbat_data ∧
      io.addbbatBlock.mbat_blocks = io.mbat_blocks ∧
      io.addbbatBlock.header.mbat_start = io.header.mbat_start ∧
      io.addbbatBlock.header.num_mbat = io.header.num_mbat) ∧
    (109 ≤ io.header.num_bat →
      io.addbbatBlock.header.bb_blocks = io.header.bb_blocks ∧
      io.addbbatBlock.mbat_data = io.mbat_data ++ [io.bbat.unused.1] ∧
      ((io.header.num_bat - 109) % (io.bbat.blockSize / 4 - 1) = 0 →
        io.addbbatBlock.mbat_blocks = io.mbat_blocks ++
          [(io.bbat.unused.2.set io.bbat.unused.1 AllocTable.MetaBat).unused.1] ∧
        io.addbbatBlock.header.num_mbat = io.header.num_mbat + 1 ∧
        io.addbbatBlock.header.mbat_start =
          (if io.header.num_mbat = 0 then
            (io.bbat.unused.2.set io.bbat.unused.1 AllocTable.MetaBat).unused.1
          else io.header.mbat_start) ∧
        (io.bbat.count + 2 < 2 ^ 32 → io.addbbatBlock.bbat.get
          (io.bbat.unused.2.set io.bbat.unused.1 AllocTable.MetaBat).unused.1 =
            AllocTable.MetaBat)) ∧
      ((io.header.num_bat - 109) % (io.bbat.blockSize / 4 - 1) ≠ 0 →
        io.addbbatBlock.mbat_blocks = io.mbat_blocks ∧
        io.addbbatBlock.header.num_mbat = io.header.num_mbat ∧
        io.addbbatBlock.header.mbat_start = io.header.mbat_start)) ∧
    io.addbbatBlock.MbatOK := by
  obtain ⟨m1, m2, m3⟩ := hm
  obtain ⟨p, hp⟩ : ∃ p, p = io.bbat.blockSize / 4 - 1 := ⟨_, rfl⟩
  have hppos : 0 < p := by omega
  have hbs1 : (io.bbat.unused.2.set io.bbat.unused.1 AllocTable.MetaBat).blockSize =
      io.bbat.blockSize := by
    rw [AllocTable.set_blockSize, AllocTable.unused_blockSize]
  rw [← hp] at m2 ⊢
  have hcd := StorageIO.ceil_div (io.header.num_bat - 109) p hppos
  by_cases hk : io.header.num_bat < 109
  · have hE : io.addbbatBlock = { io with
        bbat := io.bbat.unused.2.set io.bbat.unused.1 AllocTable.MetaBat
        header := { io.header with
          bb_blocks := io.header.bb_blocks.set io.header.num_bat io.bbat.unused.1
          num_bat := io.header.num_bat + 1, dirty := true } } := by
      simp only [ StorageIO.addbbatBlock]
      rw [if_pos hk]
    rw [hE]
    refine ⟨rfl, rfl, fun _ => ⟨rfl, rfl, rfl, rfl, rfl⟩, fun h => by omega, ?_, ?_, m3⟩
    · show io.mbat_data.length = io.header.num_bat + 1 - 109
      omega
    · show io.mbat_blocks.length = (io.header.num_bat + 1 - 109 +
        ((io.bbat.unused.2.set io.bbat.unused.1 AllocTable.MetaBat).blockSize / 4 - 1) - 1) /
          ((io.bbat.unused.2.set io.bbat.unused.1 AllocTable.MetaBat).blockSize / 4 - 1)
      rw [hbs1, ← hp, m2]
      have e1 : io.header.num_bat - 109 = 0 := by omega
      have e2 : io.header.num_bat + 1 - 109 = 0 := by omega
      rw [e1, e2]
  · have hk2 : 109 ≤ io.header.num_bat := by omega
    have hsucc : io.header.num_bat + 1 - 109 = io.header.num_bat - 109 + 1 := by omega
    have hcs := StorageIO.ceil_div_succ (io.header.num_bat - 109) p hppos
    by_cases hmod : (io.header.num_bat - 109) % p = 0
    · rw [if_pos hmod, Nat.add_zero] at hcd
      have hidx : (io.header.num_bat - 109) / p = io.mbat_blocks.length := by rw [m2, hcd]
      have hE : io.addbbatBlock = { io with
          bbat := (io.bbat.unused.2.set io.bbat.unused.1 AllocTable.MetaBat).unused.2.set
            (io.bbat.unused.2.set io.bbat.unused.1 AllocTable.MetaBat).unused.1
              AllocTable.MetaBat
          mbatDirty := true
          mbat_data := io.mbat_data ++ [io.bbat.unused.1]
          mbat_blocks := io.mbat_blocks ++
            [(io.bbat.unused.2.set io.bbat.unused.1 AllocTable.MetaBat).unused.1]
          header := { io.header with
            mbat_start := if io.header.num_mbat = 0 then
                (io.bbat.unused.2.set io.bbat.unused.1 AllocTable.MetaBat).unused.1
              else io.header.mbat_start
            num_mbat := io.header.num_mbat + 1
            num_bat := io.header.num_bat + 1, dirty := true } } := by
        simp only [ StorageIO.addbbatBlock]
        rw [if_neg hk, hbs1, ← hp, if_pos hidx]
      rw [hE]
      refine ⟨rfl, rfl, fun h => absurd h hk, fun _ => ⟨rfl, rfl, fun _ => ⟨rfl, rfl, rfl, ?_⟩,
        fun h => absurd hmod h⟩, ?_, ?_, ?_⟩
      · intro hroom
        have hle := AllocTable.unused_le io.bbat
        have c1 := AllocTable.claim_count io.bbat AllocTable.MetaBat (by omega)
        have hle2 := AllocTable.unused_le
          (io.bbat.unused.2.set io.bbat.unused.1 AllocTable.MetaBat)
        exact AllocTable.set_get_self _ _ _ (by omega)
      · show (io.mbat_data ++ [io.bbat.unused.1]).length = io.header.num_bat + 1 - 109
        rw [List.length_append, List.length_singleton, m1]
        omega
      · show (io.mbat_blocks ++ [_]).length = (io.header.num_bat + 1 - 109 + (AllocTable.blockSize
          ((io.bbat.unused.2.set io.bbat.unused.1 AllocTable.MetaBat).unused.2.set
            (io.bbat.unused.2.set io.bbat.unused.1 AllocTable.MetaBat).unused.1
              AllocTable.MetaBat) / 4 - 1) - 1) / (AllocTable.blockSize
          ((io.bbat.unused.2.set io.bbat.unused.1 AllocTable.MetaBat).unused.2.set
            (io.bbat.unused.2.set io.bbat.unused.1 AllocTable.MetaBat).unused.1
              AllocTable.MetaBat) / 4 - 1)
        rw [AllocTable.set_blockSize, AllocTable.unused_blockSize, hbs1, ← hp,
          List.length_append, List.length_singleton, hsucc, hcs, m2, hcd]
      · show io.header.num_mbat + 1 = (io.mbat_blocks ++ [_]).length
        rw [List.length_append, List.length_singleton, m3]
    · rw [if_neg hmod] at hcd
      have hidx : ¬ (io.header.num_bat - 109) / p = io.mbat_blocks.length := by
        rw [m2, hcd]
        omega
      have hE : io.addbbatBlock = { io with
          bbat := io.bbat.unused.2.set io.bbat.unused.1 AllocTable.MetaBat
          mbatDirty := true
          mbat_data := io.mbat_data ++ [io.bbat.unused.1]
          header := { io.header with num_bat := io.header.num_bat + 1, dirty := true } } := by
        simp only [ StorageIO.addbbatBlock]
        rw [if_neg hk, hbs1, ← hp, if_neg hidx]
      rw [hE]
      refine ⟨rfl, rfl, fun h => absurd h hk, fun _ => ⟨rfl, rfl, fun h => absurd h hmod,
        fun _ => ⟨rfl, rfl, rfl⟩⟩, ?_, ?_, m3⟩
      · show (io.mbat_data ++ [io.bbat.unused.1]).length = io.header.num_bat + 1 - 109
        rw [List.length_append, List.length_singleton, m1]
        omega
      · show io.mbat_blocks.length = (io.header.num_bat + 1 - 109 +
          ((io.bbat.unused.2.set io.bbat.unused.1 AllocTable.MetaBat).blockSize / 4 - 1) - 1) /
            ((io.bbat.unused.2.set io.bbat.unused.1 AllocTable.MetaBat).blockSize / 4 - 1)
        rw [hbs1, ← hp, hsucc, hcs, m2, hcd]

set_option maxRecDepth 100000 in
theorem addbbatBlock_header_witness :
    (freshContainer false false).MbatOK ∧
    (freshContainer false false).addbbatBlock.header.num_bat =
      (freshContainer false false).header.num_bat + 1 ∧
    (freshContainer false false).addbbatBlock.MbatOK :=
  ⟨⟨by decide, by decide, by decide⟩,
    (addbbatBlock_header (freshContainer false false) ⟨by decide, by decide, by decide⟩
      (by decide)).1,
    (addbbatBlock_header (freshContainer false false) ⟨by decide, by decide, by decide⟩
      (by decide)).2.2.2.2⟩

set_option maxRecDepth 100000 in
/-- C35 (counterexample): on a new container whose big table has its hint flag set, slot 4 is
free and `follow(4)` returns the chain `[4]`; `ExtendFile` on that chain claims sector 4
itself, returns 4, leaves slot 4 holding 4 rather than `Eof`, hands back the chain `[4, 4]`,
and `follow(4)` no longer ends. -/
theorem extendFile_free_tail :
    (freshContainer true true).bbat.follow 4 = some [4] ∧
    (freshContainer true true).bbat.get 4 = AllocTable.Avail ∧
    ((freshContainer true true).ExtendFile [4]).2 = ([4, 4], 4) ∧
    ((freshContainer true true).ExtendFile [4]).1.bbat.get 4 = 4 ∧
    ((freshContainer true true).ExtendFile [4]).1.bbat.get 4 ≠ AllocTable.Eof ∧
    ((freshContainer true true).ExtendFile [4]).1.bbat.follow 4 = none := by
  decide

theorem AllocTable.isChain_append_link {t : AllocTable} : ∀ (l : List Nat) (x n : Nat),
    AllocTable.IsChain t (l ++ [x, n]) → t.get x = n := by
  intro l
  induction l with
  | nil =>
    intro x n h
    have := ((AllocTable.isChain_cons t x [n]).1 h).2.1
    simpa using this
  | cons a l ih =>
    intro x n h
    exact ih x n ((AllocTable.isChain_cons t a _).1 h).2.2

/-- C35 (amended): in a state whose big table is covered by `num_bat` table sectors and has
room for three more slots below `0xfffffffc`, for every chain `c` without repetition whose
slots are linked in order and whose last slot holds `Eof` (the empty chain included):
`ExtendFile(c)` returns a sector `n` that held `Avail` or is the first index past the table,
the chain becomes `c ++ [n]`, slot `n` holds `Eof`, the old last slot of `c` holds `n`,
`follow` from the first element returns the extended chain, every slot in use other than the
old last slot of `c` is unchanged, and `n / (bigSize / 4) < num_bat` afterwards. -/
theorem extendFile_chain (io : StorageIO) (c : List Nat) (hcov : StorageIO.Covered io)
    (hroom : io.bbat.count + 3 < AllocTable.MetaBat)
    (hch : AllocTable.IsChain io.bbat c) (hnd : c.Nodup) :
    (io.ExtendFile c).2.2 = io.bbat.unused.1 ∧
    (io.bbat.unused.1 < io.bbat.count → io.bbat.get io.bbat.unused.1 = AllocTable.Avail) ∧
    io.bbat.unused.1 ≤ io.bbat.count ∧
    (io.ExtendFile c).2.1 = c ++ [io.bbat.unused.1] ∧
    (io.ExtendFile c).1.bbat.get io.bbat.unused.1 = AllocTable.Eof ∧
    (∀ x, c.getLast? = some x → (io.ExtendFile c).1.bbat.get x = io.bbat.unused.1) ∧
    (io.ExtendFile c).1.bbat.follow ((c ++ [io.bbat.unused.1]).head?.getD AllocTable.Eof) =
      some (c ++ [io.bbat.unused.1]) ∧
    (∀ i, i < io.bbat.count → io.bbat.get i ≠ AllocTable.Avail → i ∉ c.getLast? →
      (io.ExtendFile c).1.bbat.get i = io.bbat.get i) ∧
    io.bbat.unused.1 / (io.bbat.blockSize / 4) < (io.ExtendFile c).1.header.num_bat := by
  have hM : AllocTable.MetaBat = 0xfffffffc := rfl
  obtain ⟨h1, h2, h3, h4, h5, h6, h7, h8⟩ := StorageIO.ExtendFile_spec io c hcov hroom hch hnd
  obtain ⟨b1, b2⟩ := AllocTable.isChain_links h7
  have hn : io.bbat.unused.1 < (io.ExtendFile c).1.bbat.count :=
    (AllocTable.isChain_mem h7 (by omega) _ (by simp)).1
  refine ⟨by rw [h1], AllocTable.unused_avail io.bbat, AllocTable.unused_le io.bbat,
    by rw [h1], b2 _ (by simp), ?_, ?_, h6, ?_⟩
  · intro x hx
    obtain ⟨l, rfl⟩ : ∃ l, c = l ++ [x] := by
      rcases List.eq_nil_or_concat c with rfl | ⟨l, y, rfl⟩
      · simp at hx
      · simp only [List.concat_eq_append, List.getLast?_append, List.getLast?_singleton] at hx
        have hx2 : some y = some x := hx
        exact ⟨l, by rw [Option.some.inj hx2, List.concat_eq_append]⟩
    rw [List.append_assoc] at h7
    exact AllocTable.isChain_append_link l x _ h7
  · exact AllocTable.follow_of_chain _ _ _ (by omega) ⟨h8, h7, rfl⟩
  · obtain ⟨-, hc2⟩ := h3
    rw [h2.blockSize] at hc2
    have hpos : 0 < io.bbat.blockSize / 4 := by
      have := hcov.1
      omega
    rw [Nat.div_lt_iff_lt_mul hpos]
    omega

set_option maxRecDepth 100000 in
theorem extendFile_chain_witness :
    ((freshContainer true true).ExtendFile [3]).2.1 = [3, 4] ∧
    ((freshContainer true true).ExtendFile [3]).1.bbat.get 4 = AllocTable.Eof ∧
    ((freshContainer true true).ExtendFile [3]).1.bbat.follow 3 = some [3, 4] := by
  have h := extendFile_chain (freshContainer true true) [3] ⟨by decide, by decide⟩ (by decide)
    ⟨by decide, by decide, trivial⟩ (by decide)
  have e : (freshContainer true true).bbat.unused.1 = 4 := by decide
  rw [e] at h
  exact ⟨h.2.2.2.1, h.2.2.2.2.1, h.2.2.2.2.2.2.1⟩

/-! ## `DirTree::find_child` on a search tree -/

theorem getLast_cons_of_some {a q : Nat} {l : List Nat} (h : l.getLast? = some q) :
    (a :: l).getLast? = some q := by
  cases l with
  | nil => simp at h
  | cons b l => rw [List.getLast?_cons_cons]; exact h

/-- The search of `dirtree_find_sibling` ends at the last entry that the ordered search
probes: it returns that entry when its name is the one looked for, and 0 with the entry as
`closest` otherwise. -/
theorem find_sibling_probe (dt : DirTree) (nm : List Nat)
    (hlen : dt.entries.length ≤ DirTree.End) :
    ∀ (t : Shape) (p fuel cl : Nat), Rep dt.entries p t → t ≠ .leaf → t.height ≤ fuel →
      ∃ q, (Shape.probe dt.entries nm t).getLast? = some q ∧ q ∈ t.inorder ∧
        dirtree_find_sibling dt nm fuel p cl =
          if nameAt dt.entries q = nm then some (q, cl) else some (0, q) := by
  intro t
  induction t with
  | leaf => intro p fuel cl _ h; exact absurd rfl h
  | node l i r ihl ihr =>
    intro p fuel cl h _ hf
    obtain ⟨rfl, h0, h1, hv, hl, hr⟩ := Rep_node.1 h
    simp only [Shape.height] at hf
    obtain ⟨f, rfl⟩ : ∃ f, fuel = f + 1 := ⟨fuel - 1, by omega⟩
    rw [find_sibling_step dt nm f p cl h1 hv]
    by_cases hz : cmpName (nameAt dt.entries p) nm = 0
    · refine ⟨p, by simp [Shape.probe, hz], by simp [Shape.inorder], ?_⟩
      rw [if_pos hz, if_pos (cmpName_eq_zero hz)]
    · have hne : nameAt dt.entries p ≠ nm := fun e => hz (by rw [e]; exact cmpName_self nm)
      rw [if_neg hz]
      by_cases hpos : cmpName (nameAt dt.entries p) nm > 0
      · rw [if_pos hpos]
        rcases Rep_root_lt hl with ⟨rfl, hE⟩ | ⟨hq0, hq1⟩
        · have : ¬ ((entAt dt.entries p).prev > 0 ∧
              (entAt dt.entries p).prev < dt.entryCount) := by
            simp only [DirTree.entryCount]; omega
          rw [if_neg this]
          refine ⟨p, by simp [Shape.probe, hz, hpos], by simp [Shape.inorder], ?_⟩
          rw [if_neg hne]
        · rw [if_pos ⟨hq0, hq1⟩]
          have hlne : l ≠ .leaf := by
            rintro rfl
            have := Rep_leaf.1 hl
            omega
          obtain ⟨q, hq, hqm, hfind⟩ := ihl _ f cl hl hlne (by omega)
          refine ⟨q, ?_, by simp [Shape.inorder, hqm], hfind⟩
          simp only [Shape.probe, if_neg hz, if_pos hpos]
          exact getLast_cons_of_some hq
      · rw [if_neg hpos]
        rcases Rep_root_lt hr with ⟨rfl, hE⟩ | ⟨hq0, hq1⟩
        · have : ¬ ((entAt dt.entries p).next > 0 ∧
              (entAt dt.entries p).next < dt.entryCount) := by
            simp only [DirTree.entryCount]; omega
          rw [if_neg this]
          refine ⟨p, by simp [Shape.probe, hz, hpos], by simp [Shape.inorder], ?_⟩
          rw [if_neg hne]
        · rw [if_pos ⟨hq0, hq1⟩]
          have hrne : r ≠ .leaf := by
            rintro rfl
            have := Rep_leaf.1 hr
            omega
          obtain ⟨q, hq, hqm, hfind⟩ := ihr _ f cl hr hrne (by omega)
          refine ⟨q, ?_, by simp [Shape.inorder, hqm], hfind⟩
          simp only [Shape.probe, if_neg hz, if_neg hpos]
          exact getLast_cons_of_some hq

/-- On a tree whose names increase from left to right, the ordered search for the name of
one of its entries ends at that entry. -/
theorem probe_found (es : List DirEntry) (nm : List Nat) :
    ∀ t : Shape, SortedNames es t.inorder → ∀ j ∈ t.inorder, nameAt es j = nm →
      (Shape.probe es nm t).getLast? = some j := by
  intro t
  induction t with
  | leaf => intro _ j hj; simp [Shape.inorder] at hj
  | node l i r ihl ihr =>
    intro hs j hj hnm
    rw [sortedNames_iff] at hs
    simp only [Shape.inorder] at hs hj
    obtain ⟨hsl, hsr, hlr⟩ := List.pairwise_append.1 hs
    obtain ⟨hir, hsr2⟩ := List.pairwise_cons.1 hsr
    simp only [List.mem_append, List.mem_cons] at hj
    rcases hj with hj | rfl | hj
    · have hlt : nameLt (nameAt es j) (nameAt es i) := hlr j hj i (List.mem_cons_self _ _)
      rw [hnm] at hlt
      have hpos := cmp_pos_of_nameLt hlt
      have hz : ¬ cmpName (nameAt es i) nm = 0 := by omega
      simp only [Shape.probe, if_neg hz, if_pos hpos]
      exact getLast_cons_of_some (ihl (sortedNames_iff.2 hsl) j hj hnm)
    · have hz : cmpName (nameAt es j) nm = 0 := by rw [hnm]; exact cmpName_self nm
      simp [Shape.probe, hz]
    · have hlt : nameLt (nameAt es i) (nameAt es j) := hir j hj
      rw [hnm] at hlt
      have hneg : cmpName (nameAt es i) nm < 0 := hlt
      have hz : ¬ cmpName (nameAt es i) nm = 0 := by omega
      have hpos : ¬ cmpName (nameAt es i) nm > 0 := by omega
      simp only [Shape.probe, if_neg hz, if_neg hpos]
      exact getLast_cons_of_some (ihr (sortedNames_iff.2 hsr2) j hj hnm)

/-- C32: let the sibling tree below the valid entry `p` be the tree `t` of valid entries with
indices in `[1, entryCount)` whose names increase from left to right under the comparator.
Then `find_child(p, name)` returns the child named `name` if there is one (and leaves
`closest` as it was); otherwise it returns 0 and `closest` is the last entry probed by the
ordered search, or is left as it was (`End` at every call site) when `p` has no children. -/
theorem find_child_search (dt : DirTree) (p : Nat) (t : Shape) (nm : List Nat) (cl : Nat)
    (hlen : dt.entries.length ≤ DirTree.End) (hp : p < dt.entries.length)
    (hv : (entAt dt.entries p).valid = true)
    (hrep : Rep dt.entries (entAt dt.entries p).child t)
    (hs : SortedNames dt.entries t.inorder) :
    (∀ i ∈ t.inorder, nameAt dt.entries i = nm → dt.find_child p nm cl = some (i, cl)) ∧
    ((∀ i ∈ t.inorder, nameAt dt.entries i ≠ nm) →
      dt.find_child p nm cl =
        some (0, ((Shape.probe dt.entries nm t).getLast?).getD cl)) ∧
    (t = .leaf → dt.find_child p nm cl = some (0, cl)) := by
  have hh : t.height ≤ dt.entryCount + 1 := by
    have := height_le_length t
    have := length_le_of_nodup_lt (nodup_of_sorted hs) (fun x hx => (Rep_mem_lt hrep x hx).2)
    simp only [DirTree.entryCount]; omega
  have hleaf : t = .leaf → dt.find_child p nm cl = some (0, cl) := by
    rintro rfl
    have hc := Rep_leaf.1 hrep
    unfold DirTree.find_child
    rw [entry_eq_entAt dt hp]
    have : ¬ ((entAt dt.entries p).valid = true ∧
        (entAt dt.entries p).child < dt.entryCount) := by
      simp only [DirTree.entryCount]; omega
    simp only [if_neg this]
  have hnode : t ≠ .leaf → ∃ q, (Shape.probe dt.entries nm t).getLast? = some q ∧
      q ∈ t.inorder ∧ dt.find_child p nm cl =
        if nameAt dt.entries q = nm then some (q, cl) else some (0, q) := by
    intro hne
    obtain ⟨q, h1, h2, h3⟩ := find_sibling_probe dt nm hlen t _ (dt.entryCount + 1) cl hrep hne hh
    refine ⟨q, h1, h2, ?_⟩
    unfold DirTree.find_child
    rw [entry_eq_entAt dt hp]
    have hc : (entAt dt.entries p).valid = true ∧
        (entAt dt.entries p).child < dt.entryCount := by
      refine ⟨hv, ?_⟩
      rcases Rep_root_lt hrep with ⟨e, -⟩ | ⟨-, h⟩
      · exact absurd e hne
      · exact h
    simp only [if_pos hc]
    exact h3
  refine ⟨fun i hi hnm => ?_, fun hnone => ?_, hleaf⟩
  · have hne : t ≠ .leaf := by rintro rfl; simp [Shape.inorder] at hi
    obtain ⟨q, h1, h2, h3⟩ := hnode hne
    have := probe_found dt.entries nm t hs i hi hnm
    rw [h1] at this
    have e : q = i := Option.some.inj this
    rw [h3, e, if_pos hnm]
  · by_cases hne : t = .leaf
    · rw [hleaf hne, hne]
      rfl
    · obtain ⟨q, h1, h2, h3⟩ := hnode hne
      rw [h3, if_neg (hnone q h2), h1]
      rfl

set_option maxRecDepth 100000 in
theorem find_child_search_witness :
    threeNames.dirtree.find_child 0 (str "bb") DirTree.End = some (2, DirTree.End) ∧
    threeNames.dirtree.find_child 0 (str "zz") DirTree.End = some (0, 2) :=
  ⟨(find_child_search threeNames.dirtree 0 (.node (.node (.node .leaf 3 .leaf) 2 .leaf) 1 .leaf)
      (str "bb") DirTree.End (by decide) (by decide) (by decide) (by decide) (by decide)).1
      2 (by decide) (by decide),
    (find_child_search threeNames.dirtree 0 (.node (.node (.node .leaf 3 .leaf) 2 .leaf) 1 .leaf)
      (str "zz") DirTree.End (by decide) (by decide) (by decide) (by decide)
      (by decide)).2.1 (by decide)⟩

/-! ## The dirty set after a chain is freed -/

namespace AllocTable

theorem set_dirtyBlocks (t : AllocTable) (i v : Nat) :
    (t.set i v).dirtyBlocks = t.dirtyBlocks := by
  simp only [set, resize]
  split_ifs <;> rfl

theorem mem_markAsDirty {t : AllocTable} {i b x : Nat} (h : x ∈ (t.markAsDirty i b).dirtyBlocks) :
    x ∈ t.dirtyBlocks ∨ x = i / (b / 4) := by
  simp only [markAsDirty] at h
  split_ifs at h
  · exact Or.inl h
  · simp only [List.mem_append, List.mem_singleton] at h
    exact h

end AllocTable

/-- The loop that frees a chain marks as dirty the table sectors of the loop counters, not
those of the freed slots: every sector in the dirty set afterwards was in it before or is
`k / (bigBlockSize / 4)` for a position `k` of the chain. -/
theorem StreamIO.freeLoop_dirty (bbs : Nat) : ∀ (blocks : List Nat) (idx : Nat) (t : AllocTable)
    (x : Nat), x ∈ ( StreamIO.freeLoop bbs blocks idx t).dirtyBlocks →
      x ∈ t.dirtyBlocks ∨ ∃ k, idx ≤ k ∧ k < idx + blocks.length ∧ x = k / (bbs / 4) := by
  intro blocks
  induction blocks with
  | nil => intro idx t x h; exact Or.inl h
  | cons b rest ih =>
    intro idx t x h
    simp only [ StreamIO.freeLoop] at h
    rcases ih (idx + 1) _ x h with h1 | ⟨k, h1, h2, h3⟩
    · rcases AllocTable.mem_markAsDirty h1 with h2 | h2
      · rw [AllocTable.set_dirtyBlocks] at h2
        exact Or.inl h2
      · exact Or.inr ⟨idx, le_refl _, by simp, h2⟩
    · exact Or.inr ⟨k, by omega, by simp only [List.length_cons]; omega, h3⟩

set_option maxHeartbeats 0 in
set_option maxRecDepth 1000000 in
/-- C38 (the code does not meet the claim): on a fresh container the small streams `/a` and
`/b` take 64 blocks each and `/c` one block, and `flush` leaves the dirty set of the small
table empty. `deleteLeaf` on `/c` frees its block, which is block 128 in table sector 1 when
the unset flags of the tables are set and block 256 in table sector 2 when they are clear, and
leaves the dirty set `[0]`: the sector of the freed block is not in it. In general the freeing
loop adds only the sectors `k / (bigBlockSize / 4)` of the positions `k` in the chain. -/
theorem free_marks_loop_counter :
    freedDirty true true = some ([128], [], [0], [AllocTable.Avail]) ∧
    freedDirty false false = some ([256], [], [0], [AllocTable.Avail]) ∧
    128 / (512 / 4) ∉ [0] ∧ 256 / (512 / 4) ∉ [0] ∧
    ∀ (bbs : Nat) (blocks : List Nat) (t : AllocTable) (x : Nat),
      x ∈ ( StreamIO.freeLoop bbs blocks 0 t).dirtyBlocks →
        x ∈ t.dirtyBlocks ∨ ∃ k, k < blocks.length ∧ x = k / (bbs / 4) := by
  refine ⟨by decide!, by decide!, by decide, by decide, fun bbs blocks t x h => ?_⟩
  rcases StreamIO.freeLoop_dirty bbs blocks 0 t x h with h1 | ⟨k, -, h2, h3⟩
  · exact Or.inl h1
  · exact Or.inr ⟨k, by omega, h3⟩

/-! ## Deleting the root by name -/

set_option maxRecDepth 1000000 in
/-- C39 (the code does not meet the claim): on a fresh container, whatever the unset flags of
the tables hold, `deleteByName("/")` returns true and leaves entry 0 invalid; `DirTree::unused`
then hands out index 0, and `entry("/a", create = true)` returns entry 0, which now is the
stream `a` and its own child. -/
theorem deleteByName_root (fragB fragS : Bool) :
    ((freshContainer fragB fragS).deleteByName (str "/")).map
      (fun r => (r.2, (entAt r.1.dirtree.entries 0).valid, r.1.dirtree.unused.1)) =
      some (true, false, 0) ∧
    (((freshContainer fragB fragS).deleteByName (str "/")).bind
      (fun r => DirTree.entryByName r.1 (str "/a") true 512 0)).map
      (fun c => (c.2, (entAt c.1.dirtree.entries 0).name, (entAt c.1.dirtree.entries 0).dir,
        (entAt c.1.dirtree.entries 0).child)) =
      some (some 0, str "a", false, 0) := by
  cases fragB <;> cases fragS <;> exact ⟨by decide, by decide⟩

/-! ## `DirTree::fullName` -/

set_option maxRecDepth 1000000 in
/-- C40 (the code does not meet the claim): in the container with the streams `/A/a` and
`/B/x`, entry 4 is `x`, its parent is entry 3, the storage `B`, whose parent is the root; yet
`fullName(4)` is `/A/B/x`, because the loop walks down the indices 3, 2, 1 instead of up the
parents. `entry("/A/B/x")` is the null pointer, and `entry("/B/x")` is entry 4. -/
theorem fullName_walks_indices :
    nameAt twoStorages.dirtree.entries 4 = str "x" ∧
    nameAt twoStorages.dirtree.entries 3 = str "B" ∧
    nameAt twoStorages.dirtree.entries 1 = str "A" ∧
    twoStorages.dirtree.parent 4 = some 3 ∧
    twoStorages.dirtree.parent 3 = some 0 ∧
    twoStorages.dirtree.parent 1 = some 0 ∧
    twoStorages.dirtree.fullName 4 = some (str "/A/B/x") ∧
    twoStorages.dirtree.lookup (str "/A/B/x") = some none ∧
    twoStorages.dirtree.lookup (str "/B/x") = some (some 4) := by
  decide

/-! ## Chains under allocation -/

namespace AllocTable

/-- What `follow` returns lies inside the table, and its last element holds no index of the
table. -/
theorem follow_some_spec (t : AllocTable) (hc : t.count ≤ MetaBat) (s : Nat) (l : List Nat)
    (h : t.follow s = some l) :
    (∀ x ∈ l, x < t.count) ∧ ∀ q, l.getLast? = some q → t.count ≤ t.get q := by
  unfold follow at h
  split_ifs at h with h1
  · simp only [Option.some.injEq] at h
    subst h
    exact ⟨by simp, by simp⟩
  · obtain ⟨-, a2, -, q, a4, a5⟩ := followLoop_spec t hc _ s l (by omega) h
    refine ⟨a2, fun q2 hq2 => ?_⟩
    rw [a4] at hq2
    rw [← Option.some.inj hq2]
    exact a5

theorem eq_append_of_getLast {l : List Nat} {y : Nat} (h : l.getLast? = some y) :
    ∃ l0, l = l0 ++ [y] := by
  rcases List.eq_nil_or_concat l with rfl | ⟨l0, z, rfl⟩
  · simp at h
  · rw [List.concat_eq_append] at h ⊢
    simp only [List.getLast?_append, List.getLast?_singleton] at h
    have h2 : some z = some y := h
    exact ⟨l0, by rw [Option.some.inj h2]⟩

/-- An inner element of a chain holds an index of the table. -/
theorem isChain_inner {t : AllocTable} : ∀ {l : List Nat}, IsChain t l → ∀ y ∈ l,
    l.getLast? ≠ some y → l.Nodup → t.get y < t.count := by
  intro l
  induction l with
  | nil => intro _ y hy; simp at hy
  | cons a rest ih =>
    intro h y hy hlast hnd
    obtain ⟨h1, h2, h3⟩ := (isChain_cons t a rest).1 h
    cases rest with
    | nil =>
      simp only [List.mem_singleton] at hy
      subst hy
      simp at hlast
    | cons b r =>
      rw [List.getLast?_cons_cons] at hlast
      rcases List.mem_cons.1 hy with e | e
      · subst e
        rw [h2]
        simp only [List.head?_cons, Option.getD_some]
        exact ((isChain_cons t b r).1 h3).1
      · exact ih h3 y e hlast (List.nodup_cons.1 hnd).2

/-- A chain that starts at `r` survives an allocation that links behind `x`, when `x` is not an
inner element of the chain: the chain stays as it is, or gets the new slot as its last
element when `x` was its last element. -/
theorem chainFrom_linked {t t2 : AllocTable} {r : Nat} {L : List Nat} {x : Option Nat} {n : Nat}
    (hc : t.count ≤ MetaBat) (h : ChainFrom t r L) (hl : Linked t t2 x n)
    (hx : ∀ y, x = some y → y ∈ L → L.getLast? = some y) :
    n ∉ L ∧ ((ChainFrom t2 r L ∧ ∀ y, x = some y → y ∉ L) ∨
      (ChainFrom t2 r (L ++ [n]) ∧ x = L.getLast? ∧ L ≠ [])) := by
  obtain ⟨hnd, hch, hhead⟩ := h
  obtain ⟨he, hn2, hfresh, hxy, hne⟩ := hl
  have hmem := isChain_mem hch hc
  have hnL : n ∉ L := fun hm => (hmem n hm).2 (hfresh (hmem n hm).1)
  refine ⟨hnL, ?_⟩
  by_cases hin : ∃ y, x = some y ∧ y ∈ L
  · obtain ⟨y, rfl, hy⟩ := hin
    right
    have hlast := hx y rfl hy
    obtain ⟨l0, rfl⟩ := eq_append_of_getLast hlast
    have hyn : y ≠ n := fun e => hnL (e ▸ hy)
    refine ⟨⟨?_, ?_, ?_⟩, hlast.symm, by simp⟩
    · rw [List.nodup_append]
      exact ⟨hnd, List.nodup_singleton n, by
        intro a ha hb
        simp only [List.mem_singleton] at hb
        subst hb
        exact hnL ha⟩
    · rw [List.append_assoc]
      refine isChain_snoc hch he.1 (fun a ha => ?_) (hxy y rfl hyn) hn2
        (hne (fun e => hyn (Option.some.inj e)))
      have ha2 := hmem a (by simp [ha])
      refine he.2.2 a ha2.1 ha2.2 (fun e => ?_)
      have e2 : a = y := Option.some.inj e
      subst e2
      exact (List.nodup_append.1 hnd).2.2 ha (by simp) 
    · rw [← hhead]
      cases l0 <;> rfl
  · left
    have hno : ∀ y, x = some y → y ∉ L := fun y hy hm => hin ⟨y, hy, hm⟩
    refine ⟨⟨hnd, isChain_extBut he hc hch (fun a ha e => hno a e.symm ha), hhead⟩, hno⟩

/-- An allocation followed by further claims of free slots is an allocation. -/
theorem linked_ext {t t1 t2 : AllocTable} {x : Option Nat} {n : Nat}
    (h1 : Linked t t1 x n) (h2 : Ext t1 t2) (hc : t1.count ≤ MetaBat)
    (hx : ∀ y, x = some y → y < t1.count) : Linked t t2 x n := by
  obtain ⟨he, hn1, hfresh, hxy, hne⟩ := h1
  have hnA : n ≠ Avail := by
    have : MetaBat = 0xfffffffc := rfl
    have : Avail = 0xffffffff := rfl
    omega
  refine ⟨⟨le_trans he.1 h2.1, by rw [h2.2.1, he.2.1], fun i hi hna hix => ?_⟩,
    lt_of_lt_of_le hn1 h2.1, hfresh, fun y hy hyn => ?_, fun hxn => ?_⟩
  · have e := he.2.2 i hi hna hix
    rw [h2.2.2 i (lt_of_lt_of_le hi he.1) (by rw [e]; exact hna), e]
  · have e := hxy y hy hyn
    rw [h2.2.2 y (hx y hy) (by rw [e]; exact hnA), e]
  · have e := hne hxn
    rw [h2.2.2 n hn1 (by rw [e]; decide), e]

end AllocTable

/-! ## The tables under `addbbatBlock` and `ExtendFile` -/

namespace StorageIO

theorem endOK_none (io : StorageIO) (L : List Nat) : EndOK io L none := by
  intro y hy
  simp at hy

/-- The end of a chain that `follow` returned may be linked. -/
theorem endOK_follow {io : StorageIO} {L : List Nat} (h : io.BigOK L)
    (hc : io.bbat.count ≤ AllocTable.MetaBat) (s : Nat) (c : List Nat)
    (hf : io.bbat.follow s = some c) : EndOK io L c.getLast? := by
  obtain ⟨f1, f2⟩ := AllocTable.follow_some_spec io.bbat hc s c hf
  intro y hy
  have hyc : y ∈ c := List.mem_of_getLast?_eq_some hy
  refine ⟨f1 y hyc, fun hyL => ?_⟩
  by_contra hlast
  have := AllocTable.isChain_inner h.chain.2.1 y hyL hlast h.chain.1
  have := f2 y hy
  omega

/-- The state after an allocation that links behind `x`, when the header fields of the small
table are kept and `sb_blocks` is kept or, if `x` was its last sector, lengthened by the new
sector. -/
theorem bigOK_linked {io io2 : StorageIO} {L : List Nat} {x : Option Nat} {n : Nat}
    (h : io.BigOK L) (hc2 : io2.bbat.count ≤ AllocTable.MetaBat)
    (hl : AllocTable.Linked io.bbat io2.bbat x n) (hx : EndOK io L x)
    (hcov : io2.bbat.count ≤ io2.header.num_bat * (io2.bbat.blockSize / 4))
    (hs : io2.header.sbat_start = io.header.sbat_start)
    (hns : io2.header.num_sbat = io.header.num_sbat)
    (hsb : io2.sb_blocks = io.sb_blocks ∨
      (x = io.sb_blocks.getLast? ∧ io2.sb_blocks = io.sb_blocks ++ [n])) :
    ∃ L2, io2.BigOK L2 ∧ (L2 = L ∨ L2 = L ++ [n]) ∧ EndOK io2 L2 (some n) ∧
      (x = L.getLast? → L2 = L ++ [n]) ∧ (x = io.sb_blocks.getLast? → L2 = L) := by
  have hM : AllocTable.MetaBat = 0xfffffffc := rfl
  have hA : AllocTable.Avail = 0xffffffff := rfl
  have hE : AllocTable.Eof = 0xfffffffe := rfl
  have hc : io.bbat.count ≤ AllocTable.MetaBat := le_trans hl.1.1 hc2
  obtain ⟨hnL, hcase⟩ := AllocTable.chainFrom_linked hc h.chain hl (fun y hy => (hx y hy).2)
  obtain ⟨he, hn2, hfresh, hxy, hne⟩ := hl
  have hbs : io2.bbat.blockSize = io.bbat.blockSize := he.2.1
  -- the last sector of `sb_blocks` before the step
  have hsbx : ∀ y, io.sb_blocks.getLast? = some y → y ≠ n := by
    intro y hy e
    obtain ⟨a1, a2, -⟩ := h.sblast y hy
    subst e
    exact a2 (hfresh a1)
  have hsbnew : ∀ L2, (L2 = L ∨ (L2 = L ++ [n] ∧ x ≠ io.sb_blocks.getLast?)) →
      ∀ y, io2.sb_blocks.getLast? = some y →
        y < io2.bbat.count ∧ io2.bbat.get y ≠ AllocTable.Avail ∧ y ∉ L2 := by
    intro L2 hL2 y hy
    rcases hsb with e | ⟨e1, e2⟩
    · rw [e] at hy
      obtain ⟨a1, a2, a3⟩ := h.sblast y hy
      have hyn := hsbx y hy
      refine ⟨lt_of_lt_of_le a1 he.1, ?_, ?_⟩
      · by_cases hxy2 : x = some y
        · rw [hxy y hxy2 hyn]
          omega
        · rw [he.2.2 y a1 a2 (fun e3 => hxy2 e3.symm)]
          exact a2
      · rcases hL2 with e3 | ⟨e3, -⟩
        · rw [e3]; exact a3
        · rw [e3]
          simp only [List.mem_append, List.mem_singleton, not_or]
          exact ⟨a3, hyn⟩
    · rw [e2] at hy
      simp only [List.getLast?_append, List.getLast?_singleton] at hy
      have hy2 : some n = some y := hy
      have hny : n = y := Option.some.inj hy2
      subst hny
      refine ⟨hn2, ?_, ?_⟩
      · rw [hne (by
          rw [e1]
          intro e3
          exact hsbx n e3 rfl)]
        omega
      · rcases hL2 with e3 | ⟨-, e3⟩
        · rw [e3]; exact hnL
        · exact absurd e1 e3
  rcases hcase with ⟨hch, hno⟩ | ⟨hch, hxl, hLne⟩
  · refine ⟨L, ⟨by rw [hbs]; exact h.bbs, hc2, hcov, by rw [hs]; exact hch, h.ne,
      by rw [hns]; exact h.nsbat, hsbnew L (Or.inl rfl)⟩, Or.inl rfl, ?_, ?_, fun _ => rfl⟩
    · intro y hy
      have : n = y := Option.some.inj hy
      subst this
      exact ⟨hn2, fun hm => absurd hm hnL⟩
    · intro e
      exfalso
      obtain ⟨l0, y, hl0⟩ : ∃ l0 y, L = l0 ++ [y] := by
        rcases List.eq_nil_or_concat L with e2 | ⟨l0, y, e2⟩
        · exact absurd e2 h.ne
        · exact ⟨l0, y, by rw [e2, List.concat_eq_append]⟩
      have hlast : L.getLast? = some y := by rw [hl0]; simp
      exact hno y (e.trans hlast) (by rw [hl0]; simp)
  · have hxsb : x ≠ io.sb_blocks.getLast? := by
      intro e
      obtain ⟨l0, y, hl0⟩ : ∃ l0 y, L = l0 ++ [y] := by
        rcases List.eq_nil_or_concat L with e2 | ⟨l0, y, e2⟩
        · exact absurd e2 h.ne
        · exact ⟨l0, y, by rw [e2, List.concat_eq_append]⟩
      have hlast : L.getLast? = some y := by rw [hl0]; simp
      have := (h.sblast y (by rw [← e, hxl, hlast])).2.2
      exact this (by rw [hl0]; simp)
    refine ⟨L ++ [n], ⟨by rw [hbs]; exact h.bbs, hc2, hcov, by rw [hs]; exact hch, by simp,
      by rw [hns, List.length_append, List.length_singleton]; have := h.nsbat; omega,
      hsbnew (L ++ [n]) (Or.inr ⟨rfl, hxsb⟩)⟩, Or.inr rfl, ?_, fun _ => rfl,
      fun e => absurd e hxsb⟩
    intro y hy
    have : n = y := Option.some.inj hy
    subst this
    exact ⟨hn2, fun _ => by simp⟩

/-- The state after further claims of free slots. -/
theorem bigOK_ext {io io2 : StorageIO} {L : List Nat} (h : io.BigOK L)
    (hc2 : io2.bbat.count ≤ AllocTable.MetaBat) (he : AllocTable.Ext io.bbat io2.bbat)
    (hcov : io2.bbat.count ≤ io2.header.num_bat * (io2.bbat.blockSize / 4))
    (hs : io2.header.sbat_start = io.header.sbat_start)
    (hns : io2.header.num_sbat = io.header.num_sbat)
    (hsb : io2.sb_blocks = io.sb_blocks) : io2.BigOK L := by
  refine ⟨by rw [he.2.1]; exact h.bbs, hc2, hcov, ?_, h.ne, by rw [hns]; exact h.nsbat, ?_⟩
  · rw [hs]
    exact ⟨h.chain.1, AllocTable.isChain_ext he h.lim h.chain.2.1, h.chain.2.2⟩
  · intro y hy
    rw [hsb] at hy
    obtain ⟨a1, a2, a3⟩ := h.sblast y hy
    exact ⟨lt_of_lt_of_le a1 he.1, by rw [he.2.2 y a1 a2]; exact a2, a3⟩

/-- The tables stay in order through `addbbatBlock`. -/
theorem addbbatBlock_tablesOK {io : StorageIO} {L : List Nat} (h : io.TablesOK L)
    (hroom : io.bbat.count + 2 < AllocTable.MetaBat) :
    io.addbbatBlock.TablesOK L ∧ io.addbbatBlock.bbat.count ≤ io.bbat.count + 2 := by
  have hM : AllocTable.MetaBat = 0xfffffffc := rfl
  obtain ⟨a1, a2, a3, a4⟩ := addbbatBlock_spec io (by omega)
  have hbs := h.1.bbs
  have hcov := h.1.cov
  have hq : 128 ≤ io.bbat.blockSize / 4 := by omega
  refine ⟨⟨bigOK_ext h.1 (by omega) a1 ?_ a4.sbat_start a4.num_sbat a4.sb_blocks, ?_⟩, a2⟩
  · rw [a3, a4.blockSize, Nat.add_mul]
    omega
  · rw [a4.sbat, a4.num_sbat, a4.blockSize]
    exact h.2

/-- The slots after `ExtendFile` on any chain whose last sector is a slot of the table: the
sector returned was free or past the end, the last sector of the chain is linked to it, and
the table stays covered. -/
theorem ExtendFile_linked (io : StorageIO) (chain : List Nat) (hbs : 12 ≤ io.bbat.blockSize)
    (hcov : io.bbat.count ≤ io.header.num_bat * (io.bbat.blockSize / 4))
    (hroom : io.bbat.count + 3 < AllocTable.MetaBat)
    (hx : ∀ y, chain.getLast? = some y → y < io.bbat.count) :
    (io.ExtendFile chain).2 = (chain ++ [io.bbat.unused.1], io.bbat.unused.1) ∧
    Same io (io.ExtendFile chain).1 ∧ Covered (io.ExtendFile chain).1 ∧
    (io.ExtendFile chain).1.bbat.count ≤ io.bbat.count + 3 ∧
    AllocTable.Linked io.bbat (io.ExtendFile chain).1.bbat chain.getLast? io.bbat.unused.1 := by
  have hM : AllocTable.MetaBat = 0xfffffffc := rfl
  have hle := AllocTable.unused_le io.bbat
  have e1 := AllocTable.ext_claim io.bbat AllocTable.Eof (by omega)
  have c1 := AllocTable.claim_count io.bbat AllocTable.Eof (by omega)
  have hcnt1 : (io.bbat.unused.2.set io.bbat.unused.1 AllocTable.Eof).count =
      max io.bbat.count (io.bbat.unused.1 + 1) := by
    rw [AllocTable.set_count _ _ _ (by omega), AllocTable.unused_count]
  generalize hn : io.bbat.unused.1 = n at *
  generalize hb1 : io.bbat.unused.2.set n AllocTable.Eof = b1 at *
  have hfresh : n < io.bbat.count → io.bbat.get n = AllocTable.Avail := by
    intro h
    rw [← hn]
    exact AllocTable.unused_avail io.bbat (by rw [hn]; exact h)
  have hbs1 : b1.blockSize = io.bbat.blockSize := e1.2.1
  obtain ⟨p1, p2, p3, p4⟩ := addbbat_phase { io with bbat := b1 } n
    (by show 12 ≤ b1.blockSize; rw [hbs1]; exact hbs)
    (by
      show b1.count ≤ io.header.num_bat * (b1.blockSize / 4) ∨
        (b1.count = n + 1 ∧ n = io.header.num_bat * (b1.blockSize / 4))
      rw [hbs1]
      by_cases hx : n < io.header.num_bat * (io.bbat.blockSize / 4)
      · left; omega
      · right; omega)
    c1.2.1 (by show b1.count + 2 < 2 ^ 32; omega)
  simp only [] at p1 p2 p3 p4
  obtain ⟨io2, hio2⟩ : ∃ io2, io2 = addbbatLoop (n / (b1.blockSize / 4) + 1 - io.header.num_bat)
    (n / (b1.blockSize / 4)) { io with bbat := b1 } := ⟨_, rfl⟩
  rw [← hio2] at p1 p2 p3 p4
  have hb2n : io2.bbat.get n = AllocTable.Eof := by
    rw [p1.2.2 n c1.2.1 (by rw [c1.2.2]; decide), c1.2.2]
  have hsame02 : Same io io2 :=
    ⟨p4.file, p4.filesize, p4.writeable, p4.dirtree, p4.sbat, p4.sb_blocks, p4.threshold,
      p4.sbat_start, p4.dirent_start, p4.num_sbat, p4.blockSize.trans hbs1⟩
  have hext02 : AllocTable.Ext io.bbat io2.bbat := AllocTable.ext_trans e1 p1
  have hn2 : n < io2.bbat.count := lt_of_lt_of_le c1.2.1 p1.1
  rcases List.eq_nil_or_concat chain with hnil | ⟨l, x, hlx⟩
  · subst hnil
    have hE : io.ExtendFile [] =
        ({ io2 with bbat := io2.bbat.markAsDirty n io2.bbat.blockSize }, [] ++ [n], n) := by
      simp only [ExtendFile, hn, hb1]
      rw [← hio2]
      simp
    rw [hE]
    refine ⟨rfl, ⟨hsame02.file, hsame02.filesize, hsame02.writeable, hsame02.dirtree,
      hsame02.sbat, hsame02.sb_blocks, hsame02.threshold, hsame02.sbat_start,
      hsame02.dirent_start, hsame02.num_sbat, ?_⟩, ⟨?_, ?_⟩, ?_, ⟨⟨?_, ?_, ?_⟩, ?_, hfresh, ?_, ?_⟩⟩
    · show (io2.bbat.markAsDirty n io2.bbat.blockSize).blockSize = _
      rw [AllocTable.markAsDirty_blockSize]; exact hsame02.blockSize
    · show 12 ≤ (io2.bbat.markAsDirty n io2.bbat.blockSize).blockSize
      rw [AllocTable.markAsDirty_blockSize]; exact p3.1
    · show (io2.bbat.markAsDirty n io2.bbat.blockSize).count ≤
        io2.header.num_bat * ((io2.bbat.markAsDirty n io2.bbat.blockSize).blockSize / 4)
      rw [AllocTable.markAsDirty_blockSize, AllocTable.markAsDirty_count]; exact p3.2
    · show (io2.bbat.markAsDirty n io2.bbat.blockSize).count ≤ _
      rw [AllocTable.markAsDirty_count]; omega
    · show _ ≤ (io2.bbat.markAsDirty n io2.bbat.blockSize).count
      rw [AllocTable.markAsDirty_count]; exact hext02.1
    · show (io2.bbat.markAsDirty n io2.bbat.blockSize).blockSize = _
      rw [AllocTable.markAsDirty_blockSize]; exact hsame02.blockSize
    · intro i hi hne _
      show (io2.bbat.markAsDirty n io2.bbat.blockSize).get i = _
      rw [AllocTable.markAsDirty_get]; exact hext02.2.2 i hi hne
    · show n < (io2.bbat.markAsDirty n io2.bbat.blockSize).count
      rw [AllocTable.markAsDirty_count]; exact hn2
    · intro y hy
      simp at hy
    · intro _
      show (io2.bbat.markAsDirty n io2.bbat.blockSize).get n = _
      rw [AllocTable.markAsDirty_get]; exact hb2n
  · rw [List.concat_eq_append] at hlx
    subst hlx
    have hlast : (l ++ [x]).getD ((l ++ [x]).length - 1) 0 = x := by
      simp [List.getD_eq_getElem?_getD]
    have hpos : (l ++ [x]).length > 0 := by simp
    have hgl : (l ++ [x]).getLast? = some x := by simp
    obtain ⟨bf, hbf⟩ : ∃ bf, bf = ((io2.bbat.markAsDirty n io2.bbat.blockSize).set x
      n).markAsDirty x io2.bbat.blockSize := ⟨_, rfl⟩
    have hE : io.ExtendFile (l ++ [x]) = ({ io2 with bbat := bf }, (l ++ [x]) ++ [n], n) := by
      simp only [ExtendFile, hn, hb1]
      rw [if_pos hpos, hlast, ← hio2, hbf]
      simp only [AllocTable.markAsDirty_blockSize]
    rw [hE, hgl]
    subst hbf
    have hx1 : x < io.bbat.count := hx x hgl
    have hx2 : x < io2.bbat.count := lt_of_lt_of_le hx1 hext02.1
    have hx32 : x + 1 < 2 ^ 32 := by omega
    have hcntf : (((io2.bbat.markAsDirty n io2.bbat.blockSize).set x n).markAsDirty x
        io2.bbat.blockSize).count = io2.bbat.count := by
      rw [AllocTable.markAsDirty_count, AllocTable.set_count _ _ _ hx32,
        AllocTable.markAsDirty_count]
      omega
    have hgetf : ∀ j, j < io2.bbat.count → j ≠ x →
        (((io2.bbat.markAsDirty n io2.bbat.blockSize).set x n).markAsDirty x
          io2.bbat.blockSize).get j = io2.bbat.get j := by
      intro j hj hjx
      rw [AllocTable.markAsDirty_get, AllocTable.set_get_ne _ _ _ _ hx32
        (by rw [AllocTable.markAsDirty_count]; exact hj) hjx, AllocTable.markAsDirty_get]
    have hgetx : (((io2.bbat.markAsDirty n io2.bbat.blockSize).set x n).markAsDirty x
          io2.bbat.blockSize).get x = n := by
      rw [AllocTable.markAsDirty_get, AllocTable.set_get_self _ _ _ hx32]
    have hbsf : (((io2.bbat.markAsDirty n io2.bbat.blockSize).set x n).markAsDirty x
          io2.bbat.blockSize).blockSize = io2.bbat.blockSize := by
      rw [AllocTable.markAsDirty_blockSize, AllocTable.set_blockSize,
        AllocTable.markAsDirty_blockSize]
    refine ⟨rfl, ⟨hsame02.file, hsame02.filesize, hsame02.writeable, hsame02.dirtree,
      hsame02.sbat, hsame02.sb_blocks, hsame02.threshold, hsame02.sbat_start,
      hsame02.dirent_start, hsame02.num_sbat, hbsf.trans hsame02.blockSize⟩, ⟨?_, ?_⟩, ?_,
      ⟨⟨?_, hbsf.trans hsame02.blockSize, ?_⟩, ?_, hfresh, ?_, ?_⟩⟩
    · show 12 ≤ AllocTable.blockSize _
      rw [hbsf]; exact p3.1
    · show AllocTable.count _ ≤ io2.header.num_bat * (AllocTable.blockSize _ / 4)
      rw [hbsf, hcntf]; exact p3.2
    · show AllocTable.count _ ≤ _
      rw [hcntf]; omega
    · show _ ≤ AllocTable.count _
      rw [hcntf]; exact hext02.1
    · intro i hi hne hix
      show AllocTable.get _ i = _
      rw [hgetf i (lt_of_lt_of_le hi hext02.1) (fun e => hix (by rw [e]))]
      exact hext02.2.2 i hi hne
    · show n < AllocTable.count _
      rw [hcntf]; exact hn2
    · intro y hy _
      have : x = y := Option.some.inj hy
      subst this
      exact hgetx
    · intro hxn
      show AllocTable.get _ n = _
      rw [hgetf n hn2 (fun e => hxn (by rw [e])), hb2n]

end StorageIO

namespace StorageIO

theorem endOK_sb {io : StorageIO} {L : List Nat} (h : io.BigOK L) :
    EndOK io L io.sb_blocks.getLast? := by
  intro y hy
  obtain ⟨a1, -, a3⟩ := h.sblast y hy
  exact ⟨a1, fun hm => absurd hm a3⟩

theorem endOK_last {io : StorageIO} {L : List Nat} (h : io.BigOK L)
    (hc : io.bbat.count ≤ AllocTable.MetaBat) : EndOK io L L.getLast? := by
  intro y hy
  have hyL : y ∈ L := List.mem_of_getLast?_eq_some hy
  exact ⟨(AllocTable.isChain_mem h.chain.2.1 hc y hyL).1, fun _ => hy⟩

theorem bigOK_congr {io io2 : StorageIO} {L : List Nat} (h1 : io2.bbat = io.bbat)
    (h2 : io2.header = io.header) (h3 : io2.sb_blocks = io.sb_blocks) (h : io.BigOK L) :
    io2.BigOK L := by
  obtain ⟨a, a2, b, c, d, e, f⟩ := h
  exact ⟨by rw [h1]; exact a, by rw [h1]; exact a2, by rw [h1, h2]; exact b,
    by rw [h1, h2]; exact c, d, by rw [h2]; exact e, by rw [h1, h3]; exact f⟩

theorem tablesOK_congr {io io2 : StorageIO} {L : List Nat} (h1 : io2.bbat = io.bbat)
    (h2 : io2.header = io.header) (h3 : io2.sb_blocks = io.sb_blocks) (h4 : io2.sbat = io.sbat)
    (h : io.TablesOK L) : io2.TablesOK L :=
  ⟨bigOK_congr h1 h2 h3 h.1, by rw [h4, h2, h1]; exact h.2⟩

/-- `ExtendFile` on a chain whose end may be linked keeps the big table in order. -/
theorem ExtendFile_bigOK {io : StorageIO} {L : List Nat} (c : List Nat) (h : io.BigOK L)
    (hroom : io.bbat.count + 3 < AllocTable.MetaBat) (hx : EndOK io L c.getLast?) :
    ∃ L2, (io.ExtendFile c).1.BigOK L2 ∧ (L2 = L ∨ L2 = L ++ [io.bbat.unused.1]) ∧
      EndOK (io.ExtendFile c).1 L2 (some io.bbat.unused.1) ∧
      (c.getLast? = L.getLast? → L2 = L ++ [io.bbat.unused.1]) ∧
      Same io (io.ExtendFile c).1 ∧ (io.ExtendFile c).1.bbat.count ≤ io.bbat.count + 3 ∧
      (io.ExtendFile c).2 = (c ++ [io.bbat.unused.1], io.bbat.unused.1) := by
  have hbs := h.bbs
  obtain ⟨e1, e2, e3, e4, e5⟩ := ExtendFile_linked io c (by omega) h.cov hroom
    (fun y hy => (hx y hy).1)
  obtain ⟨L2, b1, b2, b3, b4, -⟩ := bigOK_linked h (by omega) e5 hx e3.2 e2.sbat_start
    e2.num_sbat (Or.inl e2.sb_blocks)
  exact ⟨L2, b1, b2, b3, b4, e2, e4, e1⟩

/-- The loop `while (index >= blocks.size()) ExtendFile(&blocks)` keeps the big table in
order. -/
theorem growBigLoop_bigOK :
    ∀ (fuel index : Nat) (io : StorageIO) (blocks L : List Nat),
      io.BigOK L → io.bbat.count + 3 * fuel < AllocTable.MetaBat →
      EndOK io L blocks.getLast? →
      ∃ L2, ( StreamIO.growBigLoop fuel index io blocks).1.BigOK L2 ∧
        Same io ( StreamIO.growBigLoop fuel index io blocks).1 ∧
        ( StreamIO.growBigLoop fuel index io blocks).1.bbat.count ≤ io.bbat.count + 3 * fuel ∧
        EndOK ( StreamIO.growBigLoop fuel index io blocks).1 L2
          ( StreamIO.growBigLoop fuel index io blocks).2.getLast? := by
  intro fuel
  induction fuel with
  | zero =>
    intro index io blocks L h _ hx
    exact ⟨L, h, same_refl _, le_refl _, hx⟩
  | succ fuel ih =>
    intro index io blocks L h hroom hx
    by_cases hidx : index ≥ blocks.length
    · obtain ⟨L1, a1, -, a3, -, a5, a6, a7⟩ := ExtendFile_bigOK blocks h (by omega) hx
      have hE : StreamIO.growBigLoop (fuel + 1) index io blocks =
          StreamIO.growBigLoop fuel index (io.ExtendFile blocks).1
            (blocks ++ [io.bbat.unused.1]) := by
        rw [ StreamIO.growBigLoop, if_pos hidx]
        simp only [a7]
      rw [hE]
      obtain ⟨L2, b1, b2, b3, b4⟩ := ih index (io.ExtendFile blocks).1
        (blocks ++ [io.bbat.unused.1]) L1 a1 (by omega) (by simpa using a3)
      exact ⟨L2, b1, same_trans a5 b2, by omega, b4⟩
    · have hE : StreamIO.growBigLoop (fuel + 1) index io blocks = (io, blocks) := by
        rw [ StreamIO.growBigLoop, if_neg hidx]
      rw [hE]
      exact ⟨L, h, same_refl _, by show io.bbat.count ≤ _; omega, hx⟩

theorem saveBigBlock_fileOnly (io : StorageIO) (block offset : Nat) (data : List Nat)
    (len : Nat) : FileOnly io (io.saveBigBlock block offset data len).1 := by
  rcases Nat.eq_zero_or_pos len with h | h
  · subst h
    have e : io.saveBigBlock block offset data 0 = (io, 0) := by
      simp [saveBigBlock, saveBigBlocks]
    rw [e]
    exact fileOnly_refl _
  · rw [saveBigBlock_eq _ _ _ _ _ h]
    refine ⟨?_, rfl, rfl, rfl, rfl, rfl, rfl⟩
    show io.filesize ≤ ite _ _ _
    split_ifs <;> omega

/-- The loop that stores the bytes of a big stream changes only the host file. -/
theorem writeBigLoop_fileOnly (data : List Nat) :
    ∀ (B : List Nat) (off rem tot : Nat) (io : StorageIO),
      FileOnly io ( StreamIO.writeBigLoop data B off rem tot io).1 := by
  intro B
  induction B with
  | nil => intro off rem tot io; exact fileOnly_refl _
  | cons b rest ih =>
    intro off rem tot io
    by_cases hrem : rem > 0
    · rw [ StreamIO.writeBigLoop, if_pos hrem]
      exact fileOnly_trans (saveBigBlock_fileOnly _ _ _ _ _) (ih _ _ _ _)
    · rw [ StreamIO.writeBigLoop, if_neg hrem]
      exact fileOnly_refl _

/-- The loop of `saveSmallBlocks` changes only the host file. -/
theorem saveSmallBlocksLoop_fileOnly (data : List Nat) (len : Nat) :
    ∀ (B : List Nat) (off bytes : Nat) (io : StorageIO),
      FileOnly io (saveSmallBlocksLoop data len B off bytes io).1 := by
  intro B
  induction B with
  | nil => intro off bytes io; exact fileOnly_refl _
  | cons b rest ih =>
    intro off bytes io
    by_cases hlt : bytes < len
    · rw [saveSmallBlocksLoop, if_pos hlt]
      dsimp only
      by_cases hbb : b * io.sbat.blockSize % 2 ^ 32 / io.bbat.blockSize ≥ io.sb_blocks.length
      · rw [if_pos hbb]
        exact fileOnly_refl _
      · rw [if_neg hbb]
        refine fileOnly_trans (fileOnly_trans (saveBigBlock_fileOnly io
          (io.sb_blocks.getD (b * io.sbat.blockSize % 2 ^ 32 / io.bbat.blockSize) 0)
          (b * io.sbat.blockSize % 2 ^ 32 % io.bbat.blockSize + off) (List.drop bytes data)
          (if len - bytes > io.sbat.blockSize - off then io.sbat.blockSize - off
            else len - bytes)) ?_) (ih _ _ _)
        refine ⟨?_, rfl, rfl, rfl, rfl, rfl, rfl⟩
        show _ ≤ ite _ _ _
        split_ifs <;> omega
    · rw [saveSmallBlocksLoop, if_neg hlt]
      exact fileOnly_refl _

theorem saveSmallBlocks_fileOnly (io : StorageIO) (blocks : List Nat) (offset : Nat)
    (data : List Nat) (len start : Nat) :
    FileOnly io (io.saveSmallBlocks blocks offset data len start).1 := by
  unfold saveSmallBlocks
  split_ifs
  · exact fileOnly_refl _
  · exact saveSmallBlocksLoop_fileOnly _ _ _ _ _ _

end StorageIO

/-! ## The tables under the growth of a small chain -/

namespace StorageIO

theorem kept_refl (io : StorageIO) : Kept io io := ⟨rfl, rfl, rfl, rfl, rfl, rfl, rfl, rfl, rfl⟩

theorem kept_trans {a b c : StorageIO} (h1 : Kept a b) (h2 : Kept b c) : Kept a c :=
  ⟨h2.file.trans h1.file, h2.filesize.trans h1.filesize, h2.writeable.trans h1.writeable,
   h2.dirtree.trans h1.dirtree, h2.sbat.trans h1.sbat, h2.threshold.trans h1.threshold,
   h2.sbat_start.trans h1.sbat_start, h2.dirent_start.trans h1.dirent_start,
   h2.blockSize.trans h1.blockSize⟩

theorem kept_of_same {a b : StorageIO} (h : Same a b) : Kept a b :=
  ⟨h.file, h.filesize, h.writeable, h.dirtree, h.sbat, h.threshold, h.sbat_start,
   h.dirent_start, h.blockSize⟩

theorem grown_refl (io : StorageIO) : Grown io io :=
  ⟨rfl, rfl, rfl, rfl, rfl, rfl, rfl, ⟨[], by simp⟩⟩

theorem grown_trans {a b c : StorageIO} (h1 : Grown a b) (h2 : Grown b c) : Grown a c := by
  obtain ⟨m1, e1⟩ := h1.sb
  obtain ⟨m2, e2⟩ := h2.sb
  exact ⟨h2.file.trans h1.file, h2.filesize.trans h1.filesize, h2.writeable.trans h1.writeable,
    h2.dirtree.trans h1.dirtree, h2.threshold.trans h1.threshold, h2.bbs.trans h1.bbs,
    h2.sbs.trans h1.sbs, ⟨m1 ++ m2, by rw [e2, e1, List.append_assoc]⟩⟩

/-- The loop `while (bbidx >= num_sbat)` of `write`, run for as long as the source runs it:
it ends, every pass lengthens the chain of the small table by one sector and adds one to
`num_sbat`, and the big table stays in order. -/
theorem sbatGrowLoop_bigOK :
    ∀ (fuel bbidx : Nat) (io : StorageIO) (L : List Nat),
      io.BigOK L → io.bbat.count + 3 * fuel < AllocTable.MetaBat →
      fuel = bbidx + 1 - io.header.num_sbat →
      ∃ io2 L2, StreamIO.sbatGrowLoop fuel bbidx io = some io2 ∧ io2.BigOK L2 ∧
        Kept io io2 ∧ io2.sb_blocks = io.sb_blocks ∧
        io2.bbat.count ≤ io.bbat.count + 3 * fuel ∧
        io2.header.num_sbat = io.header.num_sbat + fuel := by
  have hM : AllocTable.MetaBat = 0xfffffffc := rfl
  intro fuel
  induction fuel with
  | zero =>
    intro bbidx io L h _ _
    exact ⟨io, L, rfl, h, kept_refl _, rfl, le_refl _, rfl⟩
  | succ fuel ih =>
    intro bbidx io L h hroom hf
    have hidx : bbidx ≥ io.header.num_sbat := by omega
    have hfol : io.bbat.follow io.header.sbat_start = some L :=
      AllocTable.follow_of_chain _ _ _ (by omega) h.chain
    obtain ⟨L1, a1, -, -, a4, a5, a6, -⟩ := ExtendFile_bigOK L h (by omega)
      (endOK_last h (by omega))
    have hL1 := a4 rfl
    subst hL1
    obtain ⟨io1, hio1⟩ : ∃ io1 : StorageIO, io1 = { (io.ExtendFile L).1 with
        header := { (io.ExtendFile L).1.header with
          num_sbat := (io.ExtendFile L).1.header.num_sbat + 1 } } := ⟨_, rfl⟩
    have hE : StreamIO.sbatGrowLoop (fuel + 1) bbidx io =
        StreamIO.sbatGrowLoop fuel bbidx io1 := by
      rw [ StreamIO.sbatGrowLoop, if_pos hidx, hfol, hio1]
    have hns1 : io1.header.num_sbat = io.header.num_sbat + 1 := by
      rw [hio1]
      show (io.ExtendFile L).1.header.num_sbat + 1 = _
      rw [a5.num_sbat]
    have hb1 : io1.BigOK (L ++ [io.bbat.unused.1]) := by
      obtain ⟨b1, b0, b2, b3, b4, b5, b6⟩ := a1
      rw [hio1]
      refine ⟨b1, b0, b2, b3, b4, ?_, b6⟩
      show (io.ExtendFile L).1.header.num_sbat + 1 ≤ _
      rw [a5.num_sbat, List.length_append, List.length_singleton]
      have := h.nsbat
      omega
    have hk1 : Kept io io1 := by
      have k := kept_of_same a5
      rw [hio1]
      exact ⟨k.file, k.filesize, k.writeable, k.dirtree, k.sbat, k.threshold, k.sbat_start,
        k.dirent_start, k.blockSize⟩
    have hcnt1 : io1.bbat.count ≤ io.bbat.count + 3 := by rw [hio1]; exact a6
    have hsb1 : io1.sb_blocks = io.sb_blocks := by rw [hio1]; exact a5.sb_blocks
    obtain ⟨io2, L2, c1, c2, c3, c4, c5, c6⟩ := ih bbidx io1 _ hb1 (by omega) (by omega)
    exact ⟨io2, L2, hE.trans c1, c2, kept_trans hk1 c3, c4.trans hsb1, by omega, by omega⟩

/-- The loop `while (sidx >= sb_blocks.size()) ExtendFile(&sb_blocks)`, run for as long as the
source runs it: every pass adds one sector to `sb_blocks`, and the big table stays in order
around the same chain of the small table. -/
theorem sbBlocksGrowLoop_bigOK :
    ∀ (fuel sidx : Nat) (io : StorageIO) (L : List Nat),
      io.BigOK L → io.bbat.count + 3 * fuel < AllocTable.MetaBat →
      fuel = sidx + 1 - io.sb_blocks.length →
      ( StreamIO.sbBlocksGrowLoop fuel sidx io).BigOK L ∧
        Kept io ( StreamIO.sbBlocksGrowLoop fuel sidx io) ∧
        ( StreamIO.sbBlocksGrowLoop fuel sidx io).header.num_sbat = io.header.num_sbat ∧
        ( StreamIO.sbBlocksGrowLoop fuel sidx io).bbat.count ≤ io.bbat.count + 3 * fuel ∧
        (∃ more, ( StreamIO.sbBlocksGrowLoop fuel sidx io).sb_blocks = io.sb_blocks ++ more ∧
          more.length = fuel) := by
  have hM : AllocTable.MetaBat = 0xfffffffc := rfl
  intro fuel
  induction fuel with
  | zero =>
    intro sidx io L h _ _
    exact ⟨h, kept_refl _, rfl, le_refl _, [], by simp [ StreamIO.sbBlocksGrowLoop], rfl⟩
  | succ fuel ih =>
    intro sidx io L h hroom hf
    have hidx : sidx ≥ io.sb_blocks.length := by omega
    have hbs := h.bbs
    obtain ⟨e1, e2, e3, e4, e5⟩ := ExtendFile_linked io io.sb_blocks (by omega) h.cov (by omega)
      (fun y hy => (h.sblast y hy).1)
    obtain ⟨io1, hio1⟩ : ∃ io1 : StorageIO, io1 = { (io.ExtendFile io.sb_blocks).1 with
        sb_blocks := (io.ExtendFile io.sb_blocks).2.1 } := ⟨_, rfl⟩
    have hE : StreamIO.sbBlocksGrowLoop (fuel + 1) sidx io =
        StreamIO.sbBlocksGrowLoop fuel sidx io1 := by
      rw [ StreamIO.sbBlocksGrowLoop, if_pos hidx, hio1]
    have hsb1 : io1.sb_blocks = io.sb_blocks ++ [io.bbat.unused.1] := by
      rw [hio1]
      show (io.ExtendFile io.sb_blocks).2.1 = _
      rw [e1]
    have hb1 : io1.BigOK L := by
      obtain ⟨L2, b1, -, -, -, b5⟩ := @bigOK_linked io io1 L io.sb_blocks.getLast?
        io.bbat.unused.1 h (by rw [hio1]; show (io.ExtendFile io.sb_blocks).1.bbat.count ≤ _; omega)
        (by rw [hio1]; exact e5) (endOK_sb h) (by rw [hio1]; exact e3.2)
        (by rw [hio1]; exact e2.sbat_start) (by rw [hio1]; exact e2.num_sbat)
        (Or.inr ⟨rfl, hsb1⟩)
      rw [← b5 rfl]
      exact b1
    have hk1 : Kept io io1 := by
      have k := kept_of_same e2
      rw [hio1]
      exact ⟨k.file, k.filesize, k.writeable, k.dirtree, k.sbat, k.threshold, k.sbat_start,
        k.dirent_start, k.blockSize⟩
    have hcnt1 : io1.bbat.count ≤ io.bbat.count + 3 := by rw [hio1]; exact e4
    have hns1 : io1.header.num_sbat = io.header.num_sbat := by rw [hio1]; exact e2.num_sbat
    rw [hE]
    obtain ⟨c1, c2, c3, c4, more, c5, c6⟩ := ih sidx io1 L hb1 (by omega)
      (by rw [hsb1, List.length_append, List.length_singleton]; omega)
    refine ⟨c1, kept_trans hk1 c2, c3.trans hns1, by omega, io.bbat.unused.1 :: more, ?_, ?_⟩
    · rw [c5, hsb1, List.append_assoc]
      rfl
    · simp only [List.length_cons, c6]

end StorageIO

namespace AllocTable

/-- The slot count after the small-sector branch of `write` has linked a new block behind a
chain whose last block is a slot of the table. -/
theorem link_count (t : AllocTable) (blocks : List Nat) (bbs : Nat)
    (hend : ∀ y, blocks.getLast? = some y → y < t.count) (h32 : t.count + 1 < 2 ^ 32) :
    (((if blocks.length > 0 then
        (t.unused.2.set (blocks.getD (blocks.length - 1) 0) t.unused.1).markAsDirty
          (blocks.getD (blocks.length - 1) 0) bbs
      else t.unused.2).set t.unused.1 Eof).markAsDirty t.unused.1 bbs).count =
        max t.count (t.unused.1 + 1) ∧
    (((if blocks.length > 0 then
        (t.unused.2.set (blocks.getD (blocks.length - 1) 0) t.unused.1).markAsDirty
          (blocks.getD (blocks.length - 1) 0) bbs
      else t.unused.2).set t.unused.1 Eof).markAsDirty t.unused.1 bbs).blockSize =
        t.blockSize := by
  have hle := unused_le t
  rcases List.eq_nil_or_concat blocks with rfl | ⟨l, y, rfl⟩
  · simp only [List.length_nil, gt_iff_lt, Nat.lt_irrefl, if_false]
    rw [markAsDirty_count, markAsDirty_blockSize, set_count _ _ _ (by omega), set_blockSize,
      unused_count, unused_blockSize]
    exact ⟨rfl, rfl⟩
  · rw [List.concat_eq_append]
    have hlast : (l ++ [y]).getD ((l ++ [y]).length - 1) 0 = y := by
      simp [List.getD_eq_getElem?_getD]
    have hpos : (l ++ [y]).length > 0 := by simp
    have hy := hend y (by simp)
    rw [if_pos hpos, hlast, markAsDirty_count, markAsDirty_blockSize, set_count _ _ _ (by omega),
      set_blockSize, markAsDirty_count, markAsDirty_blockSize, set_count _ _ _ (by omega),
      set_blockSize, unused_count, unused_blockSize]
    refine ⟨?_, rfl⟩
    have : max t.count (y + 1) = t.count := by omega
    rw [this]

end AllocTable

namespace StreamIO

theorem index_le (n sbs bbs : Nat) (hs : sbs ≤ bbs) : n * sbs % 2 ^ 32 / bbs ≤ n := by
  refine le_trans (Nat.div_le_div_right (Nat.mod_le _ _)) ?_
  apply Nat.div_le_of_le_mul
  rw [Nat.mul_comm bbs n]
  exact Nat.mul_le_mul_left n hs

theorem succ_le_mul (n q k : Nat) (hq : 0 < q) (hk : n / q + 1 ≤ k) : n + 1 ≤ k * q := by
  have h1 := Nat.div_add_mod n q
  have h2 := Nat.mod_lt n hq
  have h3 := Nat.mul_le_mul_right q hk
  rw [Nat.add_mul, Nat.one_mul, Nat.mul_comm] at h3
  omega

theorem tab_room1 (B T ns sl bb n M : Nat) (hbud : B + 3 * ((T - ns) + (T - sl)) + 3 < M)
    (h1 : bb ≤ n) (h2 : n < T) : B + 3 * (bb + 1 - ns) < M := by
  omega

theorem tab_room2 (B B2 T ns sl bb sidx n M : Nat)
    (hbud : B + 3 * ((T - ns) + (T - sl)) + 3 < M) (hB2 : B2 ≤ B + 3 * (bb + 1 - ns))
    (h1 : bb ≤ n) (h3 : sidx ≤ n) (h2 : n < T) : B2 + 3 * (sidx + 1 - sl) < M := by
  omega

theorem tab_room3 (B B2 B3 T ns sl bb sidx n M : Nat)
    (hbud : B + 3 * ((T - ns) + (T - sl)) + 3 < M) (hB2 : B2 ≤ B + 3 * (bb + 1 - ns))
    (hB3 : B3 ≤ B2 + 3 * (sidx + 1 - sl)) (h1 : bb ≤ n) (h3 : sidx ≤ n) (h2 : n < T) :
    B3 + 3 * ((T - (ns + (bb + 1 - ns))) + (T - (sl + (sidx + 1 - sl)))) + 3 < M := by
  omega

/-- One pass of the loop `while (index >= blocks.size())` of the small-sector branch of
`write` on tables in order with room: the tables stay in order. -/
theorem growSmall_tables (T fuel index : Nat) (io : StorageIO) (blocks L : List Nat)
    (h : io.TablesOK L) (hsle : io.sbat.blockSize ≤ io.bbat.blockSize)
    (hbud : io.bbat.count + 3 * ((T - io.header.num_sbat) + (T - io.sb_blocks.length)) + 3 <
      AllocTable.MetaBat)
    (hT : T < AllocTable.MetaBat) (hcnt : io.sbat.count < T)
    (hend : ∀ y, blocks.getLast? = some y → y < io.sbat.count)
    (hidx : index ≥ blocks.length) :
    ∃ io3 L3, growSmallLoop (fuel + 1) index io blocks =
        growSmallLoop fuel index io3 (blocks ++ [io.sbat.unused.1]) ∧
      io3.TablesOK L3 ∧ io3.sbat.blockSize ≤ io3.bbat.blockSize ∧
      io3.bbat.count + 3 * ((T - io3.header.num_sbat) + (T - io3.sb_blocks.length)) + 3 <
        AllocTable.MetaBat ∧
      io3.sbat.count ≤ io.sbat.count + 1 ∧ io.sbat.unused.1 < io3.sbat.count ∧
      StorageIO.Grown io io3 := by
  have hM : AllocTable.MetaBat = 0xfffffffc := rfl
  have hbs := h.1.bbs
  have hq : 0 < io.bbat.blockSize / 4 := by omega
  obtain ⟨k1, k2⟩ := AllocTable.link_count io.sbat blocks io.bbat.blockSize hend (by omega)
  have hnle := AllocTable.unused_le io.sbat
  obtain ⟨n, hn⟩ : ∃ n, n = io.sbat.unused.1 := ⟨_, rfl⟩
  rw [← hn] at k1 k2 hnle ⊢
  obtain ⟨sb2, hsb2⟩ : ∃ sb2, sb2 = ((if blocks.length > 0 then
      (io.sbat.unused.2.set (blocks.getD (blocks.length - 1) 0) n).markAsDirty
        (blocks.getD (blocks.length - 1) 0) io.bbat.blockSize
    else io.sbat.unused.2).set n AllocTable.Eof).markAsDirty n io.bbat.blockSize :=
    ⟨_, rfl⟩
  rw [← hsb2] at k1 k2
  have hnT : n < T := by omega
  obtain ⟨bb, hbb⟩ : ∃ bb, bb = n / (io.bbat.blockSize / 4) := ⟨_, rfl⟩
  have hbbn : bb ≤ n := by rw [hbb]; exact Nat.div_le_self _ _
  have hb1 : StorageIO.BigOK { io with sbat := sb2 } L :=
    @ StorageIO.bigOK_congr io { io with sbat := sb2 } L rfl rfl rfl h.1
  obtain ⟨io2, L2, r0, r1, r2, r3, r4, r5⟩ :=
    StorageIO.sbatGrowLoop_bigOK (bb + 1 - io.header.num_sbat) bb { io with sbat := sb2 } L hb1
      (tab_room1 _ _ _ _ _ _ _ hbud hbbn hnT) rfl
  have r4b : io2.bbat.count ≤ io.bbat.count + 3 * (bb + 1 - io.header.num_sbat) := r4
  have r5b : io2.header.num_sbat = io.header.num_sbat + (bb + 1 - io.header.num_sbat) := r5
  clear r4 r5
  have hbs2 : io2.bbat.blockSize = io.bbat.blockSize := r2.blockSize
  have hsbat2 : io2.sbat = sb2 := r2.sbat
  have hss2 : io2.sbat.blockSize = io.sbat.blockSize := by rw [hsbat2]; exact k2
  have hsbl2 : io2.sb_blocks = io.sb_blocks := r3
  obtain ⟨sidx, hsidx⟩ : ∃ sidx, sidx = n * io2.sbat.blockSize % 2 ^ 32 / io2.bbat.blockSize :=
    ⟨_, rfl⟩
  have hsidxle : sidx ≤ n := by
    rw [hsidx]
    exact index_le _ _ _ (by rw [hss2, hbs2]; exact hsle)
  obtain ⟨q1, q2, q3, q4, more, q5, q6⟩ :=
    StorageIO.sbBlocksGrowLoop_bigOK (sidx + 1 - io2.sb_blocks.length) sidx io2 L2 r1 (by
      rw [hsbl2]
      exact tab_room2 _ _ _ _ _ _ _ _ _ hbud r4b hbbn hsidxle hnT) rfl
  obtain ⟨io3, hio3⟩ : ∃ io3, io3 = sbBlocksGrowLoop (sidx + 1 - io2.sb_blocks.length) sidx
    io2 := ⟨_, rfl⟩
  rw [← hio3] at q1 q2 q3 q4 q5
  have hsb3 : io3.sbat = sb2 := q2.sbat.trans hsbat2
  have hbs3 : io3.bbat.blockSize = io.bbat.blockSize := q2.blockSize.trans hbs2
  have hss3 : io3.sbat.blockSize = io.sbat.blockSize := by rw [hsb3]; exact k2
  have hsbl3 : io3.sb_blocks = io.sb_blocks ++ more := by rw [q5, hsbl2]
  have hsbl3len : io3.sb_blocks.length =
      io.sb_blocks.length + (sidx + 1 - io.sb_blocks.length) := by
    rw [hsbl3, List.length_append, q6, hsbl2]
  rw [hsbl2] at q4
  have hE : growSmallLoop (fuel + 1) index io blocks =
      growSmallLoop fuel index io3 (blocks ++ [n]) := by
    rw [growSmallLoop, if_pos hidx]
    dsimp only
    split
    · rename_i heq
      rw [hsb2, hbb, hn] at r0
      exact absurd (heq.symm.trans r0) (by simp)
    · rename_i x heq
      rw [hsb2, hbb, hn] at r0
      have hx : x = io2 := Option.some.inj (heq.symm.trans r0)
      subst hx
      rw [hio3, hsidx, hn]
  have hns3 : io3.header.num_sbat = io.header.num_sbat + (bb + 1 - io.header.num_sbat) :=
    q3.trans r5b
  refine ⟨io3, L2, hE, ⟨q1, ?_⟩, by rw [hss3, hbs3]; exact hsle, ?_,
    by rw [hsb3, k1]; exact max_le (by omega) (by omega),
    by rw [hsb3, k1]; exact lt_of_lt_of_le (Nat.lt_succ_self n) (le_max_right _ _),
    ⟨q2.file.trans r2.file, q2.filesize.trans r2.filesize, q2.writeable.trans r2.writeable,
      q2.dirtree.trans r2.dirtree, q2.threshold.trans r2.threshold, hbs3, hss3,
      ⟨more, hsbl3⟩⟩⟩
  · rw [hsb3, k1, hbs3]
    have h2 := h.2
    have h3 : n + 1 ≤ io3.header.num_sbat * (io.bbat.blockSize / 4) :=
      succ_le_mul n _ _ hq (by rw [hns3, ← hbb]; clear hbud; omega)
    have h4 : io.header.num_sbat * (io.bbat.blockSize / 4) ≤
        io3.header.num_sbat * (io.bbat.blockSize / 4) :=
      Nat.mul_le_mul_right _ (by rw [hns3]; clear hbud; omega)
    exact max_le (le_trans h2 h4) h3
  · rw [hns3, hsbl3len]
    exact tab_room3 _ _ _ _ _ _ _ _ _ _ hbud r4b q4 hbbn hsidxle hnT

/-- The loop `while (index >= blocks.size())` of the small-sector branch of `write`, on tables
in order with room (`T` bounds the small block numbers): it ends and the tables stay in
order. -/
theorem growSmallLoop_tables (T : Nat) (hT : T < AllocTable.MetaBat) :
    ∀ (fuel index : Nat) (io : StorageIO) (blocks L : List Nat),
      io.TablesOK L → io.sbat.blockSize ≤ io.bbat.blockSize →
      io.bbat.count + 3 * ((T - io.header.num_sbat) + (T - io.sb_blocks.length)) + 3 <
        AllocTable.MetaBat →
      io.sbat.count + fuel ≤ T →
      (∀ y, blocks.getLast? = some y → y < io.sbat.count) →
      ∃ io2 blocks2 L2, growSmallLoop fuel index io blocks = some (io2, blocks2) ∧
        io2.TablesOK L2 ∧ StorageIO.Grown io io2 := by
  intro fuel
  induction fuel with
  | zero =>
    intro index io blocks L h _ _ _ _
    exact ⟨io, blocks, L, rfl, h, StorageIO.grown_refl _⟩
  | succ fuel ih =>
    intro index io blocks L h hsle hbud hS hend
    by_cases hidx : index ≥ blocks.length
    · obtain ⟨io3, L3, hE, p1, p2, p3, p4, p5, p6⟩ :=
        growSmall_tables T fuel index io blocks L h hsle hbud hT (by omega) hend hidx
      obtain ⟨io4, blocks4, L4, s0, s1, s2⟩ := ih index io3 (blocks ++ [io.sbat.unused.1]) L3
        p1 p2 p3 (by omega) (by
          intro y hy
          simp only [List.getLast?_append, List.getLast?_singleton] at hy
          have hy2 : some io.sbat.unused.1 = some y := hy
          rw [← Option.some.inj hy2]
          exact p5)
      exact ⟨io4, blocks4, L4, hE.trans s0, s1, StorageIO.grown_trans p6 s2⟩
    · have hE : growSmallLoop (fuel + 1) index io blocks = some (io, blocks) := by
        rw [growSmallLoop, if_neg hidx]
      exact ⟨io, blocks, L, hE, h, StorageIO.grown_refl _⟩

end StreamIO

namespace StreamIO

theorem size_modify_start (dt : DirTree) (i j v b : Nat) :
    (entAt ((dt.modify i (fun e => { e with start := v })).markAsDirty i b).entries j).size =
      (entAt dt.entries j).size := by
  rw [entAt_markAsDirty, entAt_modify]
  split_ifs with h
  · rw [h.1]
  · rfl

/-- The small-sector loop also keeps the end of the chain inside the small table. -/
theorem growSmallLoop_end (T : Nat) (hT : T < AllocTable.MetaBat) :
    ∀ (fuel index : Nat) (io : StorageIO) (blocks L : List Nat),
      io.TablesOK L → io.sbat.blockSize ≤ io.bbat.blockSize →
      io.bbat.count + 3 * ((T - io.header.num_sbat) + (T - io.sb_blocks.length)) + 3 <
        AllocTable.MetaBat →
      io.sbat.count + fuel ≤ T →
      (∀ y, blocks.getLast? = some y → y < io.sbat.count) →
      ∀ io2 blocks2, growSmallLoop fuel index io blocks = some (io2, blocks2) →
        ∀ y, blocks2.getLast? = some y → y < io2.sbat.count := by
  intro fuel
  induction fuel with
  | zero =>
    intro index io blocks L _ _ _ _ hend io2 blocks2 hg
    simp only [growSmallLoop, Option.some.injEq, Prod.mk.injEq] at hg
    rw [← hg.1, ← hg.2]
    exact hend
  | succ fuel ih =>
    intro index io blocks L h hsle hbud hS hend io2 blocks2 hg
    by_cases hidx : index ≥ blocks.length
    · obtain ⟨io3, L3, hE, p1, p2, p3, p4, p5, -⟩ :=
        growSmall_tables T fuel index io blocks L h hsle hbud hT (by omega) hend hidx
      rw [hE] at hg
      exact ih index io3 (blocks ++ [io.sbat.unused.1]) L3 p1 p2 p3 (by omega) (by
          intro y hy
          simp only [List.getLast?_append, List.getLast?_singleton] at hy
          have hy2 : some io.sbat.unused.1 = some y := hy
          rw [← Option.some.inj hy2]
          exact p5) io2 blocks2 hg
    · rw [growSmallLoop, if_neg hidx] at hg
      simp only [Option.some.injEq, Prod.mk.injEq] at hg
      rw [← hg.1, ← hg.2]
      exact hend

/-- The body of `write` after `setSize` keeps the tables in order, in either pool, when the
chain of the stream ends inside its table and there is room for the sectors it claims. -/
theorem writeCore_tables (io : StorageIO) (s : StreamIO) (pos : Nat) (data : List Nat)
    (len T : Nat) (L : List Nat) (h : io.TablesOK L)
    (hsle : io.sbat.blockSize ≤ io.bbat.blockSize) (hpl : pos + len - 1 < 2 ^ 32)
    (hsmall : (entAt io.dirtree.entries s.entryIdx).size < io.header.threshold →
      io.bbat.count + 3 * ((T - io.header.num_sbat) + (T - io.sb_blocks.length)) + 3 <
        AllocTable.MetaBat ∧ T < AllocTable.MetaBat ∧
      io.sbat.count + ((pos + len - 1) / io.sbat.blockSize + 1 - s.blocks.length) ≤ T ∧
      ∀ y, s.blocks.getLast? = some y → y < io.sbat.count)
    (hbig : io.header.threshold ≤ (entAt io.dirtree.entries s.entryIdx).size →
      io.bbat.count + 3 * ((pos + len - 1) / io.bbat.blockSize + 1 - s.blocks.length) <
        AllocTable.MetaBat ∧ StorageIO.EndOK io L s.blocks.getLast?) :
    ∃ io2 s2 n L2, writeCore io s pos data len = some (io2, s2, n) ∧ io2.TablesOK L2 ∧
      s2.entryIdx = s.entryIdx ∧
      (entAt io2.dirtree.entries s.entryIdx).size = (entAt io.dirtree.entries s.entryIdx).size ∧
      io2.dirtree.entries.length = io.dirtree.entries.length ∧
      io2.header.threshold = io.header.threshold ∧
      io2.bbat.blockSize = io.bbat.blockSize ∧ io2.sbat.blockSize = io.sbat.blockSize ∧
      io2.writeable = io.writeable ∧
      ((entAt io.dirtree.entries s.entryIdx).size < io.header.threshold →
        ∀ y, s2.blocks.getLast? = some y → y < io2.sbat.count) ∧
      (io.header.threshold ≤ (entAt io.dirtree.entries s.entryIdx).size →
        StorageIO.EndOK io2 L2 s2.blocks.getLast? ∧ io2.sbat = io.sbat ∧
        io2.bbat.count ≤ io.bbat.count +
          3 * ((pos + len - 1) / io.bbat.blockSize + 1 - s.blocks.length)) := by
  by_cases hs : (entAt io.dirtree.entries s.entryIdx).size < io.header.threshold
  · obtain ⟨r1, r2, r3, r4⟩ := hsmall hs
    obtain ⟨io1, blocks2, L2, g0, g1, g2⟩ := growSmallLoop_tables T r2 _
      ((pos + len - 1) / io.sbat.blockSize) io s.blocks L h hsle r1 r3 r4
    have gend := growSmallLoop_end T r2 _ ((pos + len - 1) / io.sbat.blockSize) io s.blocks L
      h hsle r1 r3 r4 io1 blocks2 g0
    obtain ⟨w, hw⟩ : ∃ w, w = io1.saveSmallBlocks blocks2 (pos % io1.sbat.blockSize) data len
      (pos / io1.sbat.blockSize) := ⟨_, rfl⟩
    have fo : StorageIO.FileOnly io1 w.1 := by
      rw [hw]; exact StorageIO.saveSmallBlocks_fileOnly _ _ _ _ _ _
    obtain ⟨dt2, hdt2⟩ : ∃ dt2 : DirTree, dt2 = (w.1.dirtree.modify s.entryIdx
      (fun e => { e with start := blocks2.getD 0 0 })).markAsDirty s.entryIdx
        w.1.bbat.blockSize := ⟨_, rfl⟩
    obtain ⟨io2, hio2⟩ : ∃ io2 : StorageIO, io2 =
        (if blocks2.length > 0 ∧
            (entAt w.1.dirtree.entries s.entryIdx).start ≠ blocks2.getD 0 0 then
          { w.1 with dirtree := dt2 }
        else w.1) := ⟨_, rfl⟩
    have hE : writeCore io s pos data len =
        some (io2, { s with blocks := blocks2, m_pos := s.m_pos + len }, w.2) := by
      unfold writeCore
      simp only [if_pos hs, Nat.mod_eq_of_lt hpl, g0]
      rw [hio2, hdt2, hw]
    have t1 : io2.bbat = io1.bbat := by rw [hio2]; split_ifs <;> exact fo.bbat
    have t2 : io2.sbat = io1.sbat := by rw [hio2]; split_ifs <;> exact fo.sbat
    have t3 : io2.header = io1.header := by rw [hio2]; split_ifs <;> exact fo.header
    have t4 : io2.sb_blocks = io1.sb_blocks := by rw [hio2]; split_ifs <;> exact fo.sb_blocks
    have t5 : io2.writeable = io1.writeable := by rw [hio2]; split_ifs <;> exact fo.writeable
    have t6 : (entAt io2.dirtree.entries s.entryIdx).size =
        (entAt io1.dirtree.entries s.entryIdx).size := by
      rw [hio2]
      split_ifs
      · show (entAt dt2.entries _).size = _
        rw [hdt2, size_modify_start, fo.dirtree]
      · rw [fo.dirtree]
    have t7 : io2.dirtree.entries.length = io1.dirtree.entries.length := by
      rw [hio2]
      split_ifs
      · show dt2.entries.length = _
        rw [hdt2, markAsDirty_entries, modify_length, fo.dirtree]
      · rw [fo.dirtree]
    refine ⟨io2, _, w.2, L2, hE, StorageIO.tablesOK_congr t1 t3 t4 t2 g1, rfl,
      by rw [t6, g2.dirtree], by rw [t7, g2.dirtree], by rw [t3, g2.threshold],
      by rw [t1, g2.bbs], by rw [t2, g2.sbs], by rw [t5, g2.writeable],
      fun _ => by rw [t2]; exact gend, fun hb => absurd hs (by omega)⟩
  · have hb : io.header.threshold ≤ (entAt io.dirtree.entries s.entryIdx).size := by omega
    obtain ⟨r1, r2⟩ := hbig hb
    obtain ⟨L2, g1, g2, g3, g4⟩ := StorageIO.growBigLoop_bigOK
      ((pos + len - 1) / io.bbat.blockSize + 1 - s.blocks.length)
      ((pos + len - 1) / io.bbat.blockSize) io s.blocks L h.1 r1 r2
    obtain ⟨g, hg⟩ : ∃ g, g = growBigLoop
      ((pos + len - 1) / io.bbat.blockSize + 1 - s.blocks.length)
      ((pos + len - 1) / io.bbat.blockSize) io s.blocks := ⟨_, rfl⟩
    rw [← hg] at g1 g2 g3 g4
    obtain ⟨w, hw⟩ : ∃ w, w = writeBigLoop data (g.2.drop (pos / g.1.bbat.blockSize))
      (pos % g.1.bbat.blockSize) len 0 g.1 := ⟨_, rfl⟩
    have fo : StorageIO.FileOnly g.1 w.1 := by
      rw [hw]; exact StorageIO.writeBigLoop_fileOnly _ _ _ _ _ _
    obtain ⟨dt2, hdt2⟩ : ∃ dt2 : DirTree, dt2 = (w.1.dirtree.modify s.entryIdx
      (fun e => { e with start := g.2.getD 0 0 })).markAsDirty s.entryIdx
        w.1.bbat.blockSize := ⟨_, rfl⟩
    obtain ⟨io2, hio2⟩ : ∃ io2 : StorageIO, io2 =
        (if g.2.length > 0 ∧
            (entAt w.1.dirtree.entries s.entryIdx).start ≠ g.2.getD 0 0 then
          { w.1 with dirtree := dt2 }
        else w.1) := ⟨_, rfl⟩
    have hE : writeCore io s pos data len =
        some (io2, { s with blocks := g.2, m_pos := s.m_pos + len }, w.2) := by
      unfold writeCore
      simp only [if_neg hs, Nat.mod_eq_of_lt hpl]
      rw [hio2, hdt2, hw, hg]
    have t1 : io2.bbat = g.1.bbat := by rw [hio2]; split_ifs <;> exact fo.bbat
    have t2 : io2.sbat = g.1.sbat := by rw [hio2]; split_ifs <;> exact fo.sbat
    have t3 : io2.header = g.1.header := by rw [hio2]; split_ifs <;> exact fo.header
    have t4 : io2.sb_blocks = g.1.sb_blocks := by rw [hio2]; split_ifs <;> exact fo.sb_blocks
    have t5 : io2.writeable = g.1.writeable := by rw [hio2]; split_ifs <;> exact fo.writeable
    have t6 : (entAt io2.dirtree.entries s.entryIdx).size =
        (entAt g.1.dirtree.entries s.entryIdx).size := by
      rw [hio2]
      split_ifs
      · show (entAt dt2.entries _).size = _
        rw [hdt2, size_modify_start, fo.dirtree]
      · rw [fo.dirtree]
    have t7 : io2.dirtree.entries.length = g.1.dirtree.entries.length := by
      rw [hio2]
      split_ifs
      · show dt2.entries.length = _
        rw [hdt2, markAsDirty_entries, modify_length, fo.dirtree]
      · rw [fo.dirtree]
    have hb2 : io2.BigOK L2 := StorageIO.bigOK_congr t1 t3 t4 g1
    refine ⟨io2, _, w.2, L2, hE, ⟨hb2, ?_⟩, rfl,
      by rw [t6, g2.dirtree], by rw [t7, g2.dirtree], by rw [t3, g2.threshold],
      by rw [t1, g2.blockSize], by rw [t2, g2.sbat], by rw [t5, g2.writeable],
      fun hs2 => absurd hs2 hs, fun _ => ⟨?_, by rw [t2, g2.sbat], by rw [t1]; exact g3⟩⟩
    · rw [t2, t3, t1, g2.sbat, g2.num_sbat, g2.blockSize]
      exact h.2
    · intro y hy
      obtain ⟨a1, a2⟩ := g4 y hy
      exact ⟨by rw [t1]; exact a1, a2⟩

end StreamIO

namespace StreamIO

theorem freeLoop_count (bbs : Nat) : ∀ (blocks : List Nat) (idx : Nat) (t : AllocTable),
    (∀ b ∈ blocks, b < t.count) → t.count < 2 ^ 32 →
    (freeLoop bbs blocks idx t).count = t.count ∧
      (freeLoop bbs blocks idx t).blockSize = t.blockSize := by
  intro blocks
  induction blocks with
  | nil => intro idx t _ _; exact ⟨rfl, rfl⟩
  | cons b rest ih =>
    intro idx t hb h32
    have hb0 := hb b (List.mem_cons_self _ _)
    have hc : ((t.set b AllocTable.Avail).markAsDirty idx bbs).count = t.count := by
      rw [AllocTable.markAsDirty_count, AllocTable.set_count _ _ _ (by omega)]
      omega
    have hs : ((t.set b AllocTable.Avail).markAsDirty idx bbs).blockSize = t.blockSize := by
      rw [AllocTable.markAsDirty_blockSize, AllocTable.set_blockSize]
    obtain ⟨a1, a2⟩ := ih (idx + 1) ((t.set b AllocTable.Avail).markAsDirty idx bbs)
      (fun x hx => by rw [hc]; exact hb x (List.mem_cons_of_mem _ hx)) (by rw [hc]; exact h32)
    simp only [freeLoop]
    exact ⟨a1.trans hc, a2.trans hs⟩

theorem readCur_fields (io : StorageIO) (s : StreamIO) (n : Nat) :
    (readCur io s n).1.blocks = s.blocks ∧ (readCur io s n).1.entryIdx = s.entryIdx :=
  ⟨rfl, rfl⟩

/-- `setSize` with a larger size, as `write` calls it, keeps the tables in order. Without a
change of pool only the size in the directory changes; on the way to the big pool the small
chain is freed and the old bytes are written to a new big chain. -/
theorem setSize_grow_tables (io : StorageIO) (s : StreamIO) (newSize : Nat) (L : List Nat)
    (h : io.TablesOK L) (hw : io.writeable = true)
    (hidx : s.entryIdx < io.dirtree.entries.length)
    (hgt : newSize > (entAt io.dirtree.entries s.entryIdx).size)
    (hsm : (entAt io.dirtree.entries s.entryIdx).size < io.header.threshold →
      ∀ b ∈ s.blocks, b < io.sbat.count)
    (hsle : io.sbat.blockSize ≤ io.bbat.blockSize) (hS : io.sbat.count < 2 ^ 32)
    (hN : newSize < 2 ^ 32)
    (hroom : io.bbat.count +
      3 * (((entAt io.dirtree.entries s.entryIdx).size - 1) / io.bbat.blockSize + 1) <
        AllocTable.MetaBat) :
    ∃ io2 s2 L2, setSize io s newSize = some (io2, s2) ∧ io2.TablesOK L2 ∧
      s2.entryIdx = s.entryIdx ∧
      (entAt io2.dirtree.entries s.entryIdx).size = newSize ∧
      io2.dirtree.entries.length = io.dirtree.entries.length ∧
      io2.header.threshold = io.header.threshold ∧
      io2.bbat.blockSize = io.bbat.blockSize ∧ io2.sbat.blockSize = io.sbat.blockSize ∧
      io2.writeable = io.writeable ∧
      ((io2.bbat = io.bbat ∧ io2.sbat = io.sbat ∧ io2.header = io.header ∧
          io2.sb_blocks = io.sb_blocks ∧ s2.blocks = s.blocks ∧ L2 = L ∧
          ((entAt io.dirtree.entries s.entryIdx).size < io.header.threshold →
            newSize < io.header.threshold)) ∨
        ((entAt io.dirtree.entries s.entryIdx).size < io.header.threshold ∧
          io.header.threshold ≤ newSize ∧ StorageIO.EndOK io2 L2 s2.blocks.getLast? ∧
          io2.bbat.count ≤ io.bbat.count +
            3 * (((entAt io.dirtree.entries s.entryIdx).size - 1) / io.bbat.blockSize + 1))) := by
  have hM : AllocTable.MetaBat = 0xfffffffc := rfl
  obtain ⟨sz, hsz⟩ : ∃ sz, sz = (entAt io.dirtree.entries s.entryIdx).size := ⟨_, rfl⟩
  rw [← hsz] at hgt hsm hroom ⊢
  by_cases hover : newSize ≥ io.header.threshold ∧ sz < io.header.threshold
  · -- the chain moves to the big pool
    obtain ⟨rd, hrd⟩ : ∃ rd, rd = (if sz ≠ 0 then readCur io (s.seek 0) sz else (s, [])) :=
      ⟨_, rfl⟩
    have hrd1 : rd.1.blocks = s.blocks ∧ rd.1.entryIdx = s.entryIdx := by
      rw [hrd]; split_ifs <;> exact ⟨rfl, rfl⟩
    obtain ⟨sb1, hsb1⟩ : ∃ sb1, sb1 = freeLoop io.bbat.blockSize rd.1.blocks 0 io.sbat :=
      ⟨_, rfl⟩
    obtain ⟨f1, f2⟩ := freeLoop_count io.bbat.blockSize rd.1.blocks 0 io.sbat
      (by rw [hrd1.1]; exact hsm hover.2) hS
    rw [← hsb1] at f1 f2
    obtain ⟨dt2, hdt2⟩ : ∃ dt2, dt2 = ((io.dirtree.modify s.entryIdx
      (fun e => { e with start := DirTree.End })).modify s.entryIdx
        (fun e => { e with size := newSize })).markAsDirty s.entryIdx io.bbat.blockSize :=
      ⟨_, rfl⟩
    have hlen : dt2.entries.length = io.dirtree.entries.length := by
      rw [hdt2, markAsDirty_entries, modify_length, modify_length]
    have hself : (entAt dt2.entries s.entryIdx).size = newSize := by
      rw [hdt2, entAt_markAsDirty, entAt_modify_self _ _ _ (by rw [modify_length]; exact hidx)]
    obtain ⟨io2, hio2⟩ : ∃ io2 : StorageIO, io2 = { io with sbat := sb1, dirtree := dt2 } :=
      ⟨_, rfl⟩
    have hok2 : io2.TablesOK L := by
      rw [hio2]
      refine ⟨@ StorageIO.bigOK_congr io _ L rfl rfl rfl h.1, ?_⟩
      show sb1.count ≤ _
      rw [f1]
      exact h.2
    have hsz2 : (entAt io2.dirtree.entries s.entryIdx).size = newSize := by
      rw [hio2]; exact hself
    have hE : setSize io s newSize =
        (match (if sz ≠ 0 then (writeCore io2 { rd.1 with blocks := [] } 0
            (rd.2 ++ List.replicate (sz - rd.2.length) 0) sz).map (fun r => (r.1, r.2.1))
          else some (io2, { rd.1 with blocks := [] })) with
        | none => none
        | some (io3, s3) =>
          if s.tell ≤ (entAt io3.dirtree.entries s.entryIdx).size then
            some (io3, s3.seek s.tell)
          else some (io3, s3)) := by
      unfold setSize
      rw [if_neg (by rw [hw]; exact Bool.noConfusion)]
      simp only [← hsz, hover, decide_True, true_or, if_true, and_self, hgt]
      rw [hio2, hsb1, hdt2, hrd]
    have hb2 := hok2.1
    by_cases hz : sz ≠ 0
    · obtain ⟨io3, s3, n, L3, w0, w1, w2, w3, w4, w5, w6, w7, w8, -, w10⟩ :=
        writeCore_tables io2 { rd.1 with blocks := [] } 0
          (rd.2 ++ List.replicate (sz - rd.2.length) 0) sz 0 L hok2
          (by rw [hio2]; show sb1.blockSize ≤ _; rw [f2]; exact hsle) (by omega)
          (fun hc => absurd hc (by
            have e1 : ({ rd.1 with blocks := [] } : StreamIO).entryIdx = s.entryIdx := hrd1.2
            rw [e1, hsz2]
            have e2 : io2.header.threshold = io.header.threshold := by rw [hio2]
            rw [e2]
            omega))
          (fun _ => ⟨by
            have e3 : io2.bbat = io.bbat := by rw [hio2]
            rw [e3]
            show io.bbat.count + 3 * ((0 + sz - 1) / io.bbat.blockSize + 1 - 0) < _
            rw [Nat.zero_add, Nat.sub_zero]
            exact hroom, StorageIO.endOK_none _ _⟩)
      have e1 : ({ rd.1 with blocks := [] } : StreamIO).entryIdx = s.entryIdx := hrd1.2
      rw [e1] at w3
      have e2 : io2.header.threshold = io.header.threshold := by rw [hio2]
      have hbig2 : io2.header.threshold ≤ (entAt io2.dirtree.entries s.entryIdx).size := by
        rw [e2, hsz2]; exact hover.1
      obtain ⟨x1, x2, x3⟩ := w10 (by rw [e1]; exact hbig2)
      rw [hE, if_pos hz, w0]
      simp only [Option.map]
      have hres : ∃ s4 : StreamIO, (if s.tell ≤ (entAt io3.dirtree.entries s.entryIdx).size then
            some (io3, s3.seek s.tell) else some (io3, s3)) = some (io3, s4) ∧
          s4.blocks = s3.blocks ∧ s4.entryIdx = s3.entryIdx := by
        split_ifs
        · exact ⟨_, rfl, rfl, rfl⟩
        · exact ⟨_, rfl, rfl, rfl⟩
      obtain ⟨s4, h41, h42, h43⟩ := hres
      refine ⟨io3, s4, L3, h41, w1, by rw [h43, w2]; exact e1, by rw [w3]; exact hsz2,
        by rw [w4, hio2]; exact hlen, by rw [w5, e2], by rw [w6, hio2],
        by rw [w7, hio2]; exact f2, by rw [w8, hio2], Or.inr ⟨hover.2, hover.1, ?_, ?_⟩⟩
      · rw [h42]; exact x1
      · have e3 : io2.bbat = io.bbat := by rw [hio2]
        rw [e3] at x3
        have : (0 + sz - 1) / io.bbat.blockSize + 1 -
            ({ rd.1 with blocks := [] } : StreamIO).blocks.length =
            (sz - 1) / io.bbat.blockSize + 1 := by
          show (0 + sz - 1) / io.bbat.blockSize + 1 - 0 = _
          rw [Nat.zero_add, Nat.sub_zero]
        rw [this] at x3
        exact x3
    · rw [hE, if_neg hz]
      have hres : ∃ s4 : StreamIO, (if s.tell ≤ (entAt io2.dirtree.entries s.entryIdx).size then
            some (io2, StreamIO.seek { rd.1 with blocks := [] } s.tell)
            else some (io2, { rd.1 with blocks := [] })) = some (io2, s4) ∧
          s4.blocks = [] ∧ s4.entryIdx = s.entryIdx := by
        split_ifs
        · exact ⟨_, rfl, rfl, hrd1.2⟩
        · exact ⟨_, rfl, rfl, hrd1.2⟩
      obtain ⟨s4, h41, h42, h43⟩ := hres
      refine ⟨io2, s4, L, h41, hok2, h43, hsz2, by rw [hio2]; exact hlen, by rw [hio2],
        by rw [hio2], by rw [hio2]; exact f2, by rw [hio2],
        Or.inr ⟨hover.2, hover.1, ?_, ?_⟩⟩
      · rw [h42]; exact StorageIO.endOK_none _ _
      · rw [hio2]
        show io.bbat.count ≤ _
        omega
  · -- the pool stays: only the size changes
    obtain ⟨dt2, hdt2⟩ : ∃ dt2, dt2 = (io.dirtree.modify s.entryIdx
        (fun e => { e with size := newSize })).markAsDirty s.entryIdx io.bbat.blockSize :=
      ⟨_, rfl⟩
    have hlen : dt2.entries.length = io.dirtree.entries.length := by
      rw [hdt2, markAsDirty_entries, modify_length]
    have hself : (entAt dt2.entries s.entryIdx).size = newSize := by
      rw [hdt2, entAt_markAsDirty, entAt_modify_self _ _ _ hidx]
    have hE : setSize io s newSize = some ({ io with dirtree := dt2 }, s) := by
      unfold setSize
      rw [if_neg (by rw [hw]; exact Bool.noConfusion)]
      have hu : ¬ (newSize < io.header.threshold ∧ sz ≥ io.header.threshold) := by omega
      have hne : sz ≠ newSize := by omega
      simp only [← hsz, hover, hu, decide_False, or_self, if_false, Bool.false_eq_true, hne,
        ne_eq, not_false_eq_true, if_true]
      rw [hdt2]
    refine ⟨{ io with dirtree := dt2 }, s, L, hE,
      @ StorageIO.tablesOK_congr io _ L rfl rfl rfl rfl h, rfl, hself, hlen, rfl, rfl, rfl, rfl,
      Or.inl ⟨rfl, rfl, rfl, rfl, rfl, rfl, fun hc => ?_⟩⟩
    by_contra hcon
    exact hover ⟨by omega, hc⟩

end StreamIO

namespace StreamIO

theorem wr_small (B S a T ns sl M : Nat) (b : Nat)
    (h : B + 6 * (S + a + 1) + 6 * (b + 1) + 3 < M) (hT : T = S + a + 1) :
    B + 3 * ((T - ns) + (T - sl)) + 3 < M ∧ T < M := by
  omega

theorem wr_count (B S a b : Nat) (h : B + 6 * (S + a + 1) + 6 * (b + 1) + 3 < 0xfffffffc) :
    S < 2 ^ 32 ∧ S ≤ 0xfffffffc ∧ B ≤ 0xfffffffc := by
  omega

theorem wr_fuel (S x a k T : Nat) (hx : x ≤ a) (hT : T = S + a + 1) : S + (x + 1 - k) ≤ T := by
  omega

theorem wr_big (B S a b x k M : Nat) (h : B + 6 * (S + a + 1) + 6 * (b + 1) + 3 < M)
    (hx : x ≤ b) : B + 3 * (x + 1 - k) < M := by
  omega

theorem wr_cross (B B2 S a b x y k M : Nat) (h : B + 6 * (S + a + 1) + 6 * (b + 1) + 3 < M)
    (hB2 : B2 ≤ B + 3 * (y + 1)) (hy : y ≤ b) (hx : x ≤ b) : B2 + 3 * (x + 1 - k) < M := by
  omega

/-- Stream writes: `write` keeps the tables in order, in either pool and across the
threshold, when the chain of the stream object lies inside its table. -/
theorem write_tables (io : StorageIO) (s : StreamIO) (pos : Nat) (data : List Nat) (len : Nat)
    (L : List Nat) (h : io.TablesOK L) (hidx : s.entryIdx < io.dirtree.entries.length)
    (hsm : (entAt io.dirtree.entries s.entryIdx).size < io.header.threshold →
      ∀ b ∈ s.blocks, b < io.sbat.count)
    (hbg : io.header.threshold ≤ (entAt io.dirtree.entries s.entryIdx).size →
      StorageIO.EndOK io L s.blocks.getLast?)
    (hroom : io.WriteRoom pos len) :
    ∃ io2 s2 n L2, write io s pos data len = some (io2, s2, n) ∧ io2.TablesOK L2 := by
  have hM : AllocTable.MetaBat = 0xfffffffc := rfl
  obtain ⟨hsle, h32, hr⟩ := hroom
  unfold write
  by_cases hl0 : len = 0
  · rw [if_pos hl0]
    exact ⟨io, s, 0, L, rfl, h⟩
  rw [if_neg hl0]
  by_cases hwf : io.writeable = false
  · rw [if_pos hwf]
    exact ⟨io, s, 0, L, rfl, h⟩
  rw [if_neg hwf]
  have hw : io.writeable = true := by
    cases hb : io.writeable
    · exact absurd hb hwf
    · rfl
  dsimp only
  rw [Nat.mod_eq_of_lt h32]
  have hda : (pos + len - 1) / io.sbat.blockSize ≤ (pos + len) / io.sbat.blockSize :=
    Nat.div_le_div_right (Nat.sub_le _ _)
  have hdb : (pos + len - 1) / io.bbat.blockSize ≤ (pos + len) / io.bbat.blockSize :=
    Nat.div_le_div_right (Nat.sub_le _ _)
  obtain ⟨T, hT⟩ : ∃ T, T = io.sbat.count + (pos + len) / io.sbat.blockSize + 1 := ⟨_, rfl⟩
  have hlast : ∀ (bl : List Nat) (c : Nat), (∀ b ∈ bl, b < c) →
      ∀ y, bl.getLast? = some y → y < c :=
    fun bl c hb y hy => hb y (List.mem_of_getLast?_eq_some hy)
  by_cases hgt : pos + len > (entAt io.dirtree.entries s.entryIdx).size
  · rw [if_pos hgt]
    have hdz : ((entAt io.dirtree.entries s.entryIdx).size - 1) / io.bbat.blockSize ≤
        (pos + len) / io.bbat.blockSize := Nat.div_le_div_right (by omega)
    obtain ⟨io2, s2, L2, e0, e1, e2, e3, e4, e5, e6, e7, e8, e9⟩ :=
      setSize_grow_tables io s (pos + len) L h hw hidx hgt hsm hsle
        (wr_count _ _ _ _ (by rw [← hM]; exact hr)).1 h32
        (by
          have := wr_big _ _ _ _ _ 0 _ hr hdz
          omega)
    rw [e0]
    dsimp only
    rcases e9 with ⟨a1, a2, a3, a4, a5, a6, a7⟩ | ⟨c1, c2, c3, c4⟩
    · subst a6
      obtain ⟨io3, s3, n, L3, w0, w1, -⟩ := writeCore_tables io2 s2 pos data len T L2 e1
        (by rw [e7, e6]; exact hsle) (by omega)
        (fun hc => by
          rw [e2, e3, e5] at hc
          rw [a1, a2, a3, a4, a5]
          have hsz : (entAt io.dirtree.entries s.entryIdx).size < io.header.threshold := by omega
          exact ⟨(wr_small _ _ _ T _ _ _ _ hr hT).1, (wr_small _ _ _ T 0 0 _ _ hr hT).2,
            wr_fuel _ _ _ _ _ hda hT, hlast _ _ (hsm hsz)⟩)
        (fun hc => by
          rw [e2, e3, e5] at hc
          rw [a1, a5]
          have hsz : io.header.threshold ≤ (entAt io.dirtree.entries s.entryIdx).size := by
            by_contra hcon
            have := a7 (by omega)
            omega
          refine ⟨wr_big _ _ _ _ _ _ _ hr hdb, ?_⟩
          intro y hy
          have := hbg hsz y hy
          rw [a1]
          exact this)
      exact ⟨io3, s3, n, L3, w0, w1⟩
    · obtain ⟨io3, s3, n, L3, w0, w1, -⟩ := writeCore_tables io2 s2 pos data len 0 L2 e1
        (by rw [e7, e6]; exact hsle) (by omega)
        (fun hc => by
          rw [e2, e3, e5] at hc
          omega)
        (fun _ => by
          rw [e6]
          exact ⟨wr_cross _ _ _ _ _ _ _ _ _ hr c4 hdz hdb, c3⟩)
      exact ⟨io3, s3, n, L3, w0, w1⟩
  · rw [if_neg hgt]
    obtain ⟨io3, s3, n, L3, w0, w1, -⟩ := writeCore_tables io s pos data len T L h hsle
      (by omega)
      (fun hc => ⟨(wr_small _ _ _ T _ _ _ _ hr hT).1, (wr_small _ _ _ T 0 0 _ _ hr hT).2,
        wr_fuel _ _ _ _ _ hda hT, hlast _ _ (hsm hc)⟩)
      (fun hc => ⟨wr_big _ _ _ _ _ _ _ hr hdb, hbg hc⟩)
    exact ⟨io3, s3, n, L3, w0, w1⟩

/-- The chain of a stream object that was just opened lies inside its table. -/
theorem new_sync (io : StorageIO) (e : Nat) (s : StreamIO) (L : List Nat) (h : io.TablesOK L)
    (hc : io.bbat.count ≤ AllocTable.MetaBat) (hs : io.sbat.count ≤ AllocTable.MetaBat)
    (hn : StreamIO.new io e = some s) :
    s.entryIdx = e ∧
    ((entAt io.dirtree.entries e).size < io.header.threshold →
      ∀ b ∈ s.blocks, b < io.sbat.count) ∧
    (io.header.threshold ≤ (entAt io.dirtree.entries e).size →
      StorageIO.EndOK io L s.blocks.getLast?) := by
  unfold StreamIO.new at hn
  dsimp only at hn
  split at hn
  · simp at hn
  · rename_i blocks hf
    simp only [Option.some.injEq] at hn
    subst hn
    refine ⟨rfl, fun hsz => ?_, fun hsz => ?_⟩
    · rw [if_neg (by omega)] at hf
      exact (AllocTable.follow_some_spec io.sbat hs _ _ hf).1
    · rw [if_pos hsz] at hf
      exact StorageIO.endOK_follow h.1 hc _ _ hf

end StreamIO

/-! ## The tables under entry creation -/

namespace AllocTable

/-- The slots after a new block was linked behind a chain in the order of `DirTree::entry` and
of the small-sector branch of `write`: first the link, then `Eof` in the new block. -/
theorem link_linked (t : AllocTable) (blocks : List Nat) (bbs : Nat)
    (hend : ∀ y, blocks.getLast? = some y → y < t.count) (h32 : t.count + 1 < 2 ^ 32) :
    Linked t (((if blocks.length > 0 then
        (t.unused.2.set (blocks.getD (blocks.length - 1) 0) t.unused.1).markAsDirty
          (blocks.getD (blocks.length - 1) 0) bbs
      else t.unused.2).set t.unused.1 Eof).markAsDirty t.unused.1 bbs)
      blocks.getLast? t.unused.1 := by
  have hle := unused_le t
  have hfresh := unused_avail t
  obtain ⟨c1, c2⟩ := link_count t blocks bbs hend h32
  generalize hn : t.unused.1 = n at *
  have hn32 : n + 1 < 2 ^ 32 := by omega
  rcases List.eq_nil_or_concat blocks with rfl | ⟨l, y, rfl⟩
  · simp only [List.length_nil, gt_iff_lt, Nat.lt_irrefl, if_false] at c1 c2 ⊢
    refine ⟨⟨by rw [c1]; exact le_max_left _ _, c2, fun i hi hne _ => ?_⟩,
      by rw [c1]; exact lt_of_lt_of_le (Nat.lt_succ_self n) (le_max_right _ _), hfresh,
      fun y hy => by simp at hy, fun _ => ?_⟩
    · rw [markAsDirty_get, set_get_ne _ _ _ _ hn32 (by rw [unused_count]; exact hi)
        (fun e => hne (by rw [e]; exact hfresh (e ▸ hi))), unused_get]
    · rw [markAsDirty_get, set_get_self _ _ _ hn32]
  · rw [List.concat_eq_append] at c1 c2 hend ⊢
    have hlast : (l ++ [y]).getD ((l ++ [y]).length - 1) 0 = y := by
      simp [List.getD_eq_getElem?_getD]
    have hpos : (l ++ [y]).length > 0 := by simp
    have hgl : (l ++ [y]).getLast? = some y := by simp
    have hy := hend y hgl
    have hy32 : y + 1 < 2 ^ 32 := by omega
    rw [if_pos hpos, hlast] at c1 c2 ⊢
    rw [hgl]
    have hc1 : ((t.unused.2.set y n).markAsDirty y bbs).count = t.count := by
      rw [markAsDirty_count, set_count _ _ _ hy32, unused_count]
      omega
    refine ⟨⟨by rw [c1]; exact le_max_left _ _, c2, fun i hi hne hiy => ?_⟩,
      by rw [c1]; exact lt_of_lt_of_le (Nat.lt_succ_self n) (le_max_right _ _), hfresh,
      fun z hz hzn => ?_, fun _ => ?_⟩
    · have hin : i ≠ n := fun e => hne (by rw [e]; exact hfresh (e ▸ hi))
      have hiy2 : i ≠ y := fun e => hiy (by rw [e])
      rw [markAsDirty_get, set_get_ne _ _ _ _ hn32 (by rw [hc1]; exact hi) hin,
        markAsDirty_get, set_get_ne _ _ _ _ hy32 (by rw [unused_count]; exact hi) hiy2,
        unused_get]
    · have : y = z := Option.some.inj hz
      subst this
      rw [markAsDirty_get, set_get_ne _ _ _ _ hn32 (by rw [hc1]; exact hy) hzn,
        markAsDirty_get, set_get_self _ _ _ hy32]
    · rw [markAsDirty_get, set_get_self _ _ _ hn32]

end AllocTable

namespace StorageIO

/-- One pass of the loop of `DirTree::entry` that lengthens the directory chain keeps the big
table in order. -/
theorem extendDir_bigOK (bigBlockSize fuel bbidx : Nat) (blocks : List Nat) (io : StorageIO)
    (L : List Nat) (h : io.BigOK L) (hroom : io.bbat.count + 3 < AllocTable.MetaBat)
    (hx : EndOK io L blocks.getLast?) (hidx : blocks.length ≤ bbidx) :
    ∃ io2 L2, extendDirLoop bigBlockSize (fuel + 1) bbidx blocks io =
        extendDirLoop bigBlockSize fuel bbidx (blocks ++ [io.bbat.unused.1]) io2 ∧
      io2.BigOK L2 ∧ EndOK io2 L2 (some io.bbat.unused.1) ∧ Same io io2 ∧
      io2.bbat.count ≤ io.bbat.count + 3 := by
  have hM : AllocTable.MetaBat = 0xfffffffc := rfl
  have hbs := h.bbs
  have hcov := h.cov
  have hle := AllocTable.unused_le io.bbat
  obtain ⟨c1, c2⟩ := AllocTable.link_count io.bbat blocks bigBlockSize
    (fun y hy => (hx y hy).1) (by omega)
  have hl := AllocTable.link_linked io.bbat blocks bigBlockSize (fun y hy => (hx y hy).1)
    (by omega)
  obtain ⟨n, hn⟩ : ∃ n, n = io.bbat.unused.1 := ⟨_, rfl⟩
  rw [← hn] at c1 c2 hl hle ⊢
  obtain ⟨b2, hb2⟩ : ∃ b2, b2 = ((if blocks.length > 0 then
      (io.bbat.unused.2.set (blocks.getD (blocks.length - 1) 0) n).markAsDirty
        (blocks.getD (blocks.length - 1) 0) bigBlockSize
    else io.bbat.unused.2).set n AllocTable.Eof).markAsDirty n bigBlockSize := ⟨_, rfl⟩
  rw [← hb2] at c1 c2 hl
  have hnb2 : n < b2.count := hl.2.1
  obtain ⟨p1, p2, p3, p4⟩ := addbbat_phase { io with bbat := b2 } n
    (by show 12 ≤ b2.blockSize; rw [c2]; omega)
    (by
      show b2.count ≤ io.header.num_bat * (b2.blockSize / 4) ∨
        (b2.count = n + 1 ∧ n = io.header.num_bat * (b2.blockSize / 4))
      rw [c2, c1]
      by_cases hlt : n < io.header.num_bat * (io.bbat.blockSize / 4)
      · left; exact max_le hcov hlt
      · right
        have : n = io.header.num_bat * (io.bbat.blockSize / 4) := by omega
        exact ⟨by rw [max_eq_right (by omega)], this⟩)
    hnb2 (by
      show b2.count + 2 < 2 ^ 32
      have : b2.count ≤ io.bbat.count + 1 := by rw [c1]; exact max_le (by omega) (by omega)
      omega)
  simp only [] at p1 p2 p3 p4
  obtain ⟨io2, hio2⟩ : ∃ io2, io2 = addbbatLoop (n / (b2.blockSize / 4) + 1 - io.header.num_bat)
    (n / (b2.blockSize / 4)) { io with bbat := b2 } := ⟨_, rfl⟩
  rw [← hio2] at p1 p2 p3 p4
  have hb2c : b2.count ≤ io.bbat.count + 1 := by
    rw [c1]; exact max_le (by omega) (by omega)
  have hl2 : AllocTable.Linked io.bbat io2.bbat blocks.getLast? n :=
    AllocTable.linked_ext hl p1 (by omega)
      (fun y hy => lt_of_lt_of_le (hx y hy).1 hl.1.1)
  have hsame : Same io io2 :=
    ⟨p4.file, p4.filesize, p4.writeable, p4.dirtree, p4.sbat, p4.sb_blocks, p4.threshold,
      p4.sbat_start, p4.dirent_start, p4.num_sbat, p4.blockSize.trans c2⟩
  have hcnt : io2.bbat.count ≤ io.bbat.count + 3 := by
    have : io2.bbat.count ≤ b2.count + 2 := p2
    omega
  obtain ⟨L2, q1, -, q3, -, -⟩ := bigOK_linked h (by omega) hl2 hx p3.2 hsame.sbat_start
    hsame.num_sbat (Or.inl hsame.sb_blocks)
  have hE : extendDirLoop bigBlockSize (fuel + 1) bbidx blocks io =
      extendDirLoop bigBlockSize fuel bbidx (blocks ++ [n]) io2 := by
    rw [extendDirLoop, if_pos hidx, hio2, hb2, hn]
  exact ⟨io2, L2, hE, q1, q3, hsame, hcnt⟩

/-- The loop of `DirTree::entry` that lengthens the directory chain keeps the big table in
order. -/
theorem extendDirLoop_bigOK (bigBlockSize : Nat) :
    ∀ (fuel bbidx : Nat) (blocks : List Nat) (io : StorageIO) (L : List Nat),
      io.BigOK L → io.bbat.count + 3 * fuel < AllocTable.MetaBat →
      EndOK io L blocks.getLast? →
      ∃ L2, (extendDirLoop bigBlockSize fuel bbidx blocks io).BigOK L2 ∧
        Same io (extendDirLoop bigBlockSize fuel bbidx blocks io) ∧
        (extendDirLoop bigBlockSize fuel bbidx blocks io).bbat.count ≤
          io.bbat.count + 3 * fuel := by
  intro fuel
  induction fuel with
  | zero =>
    intro bbidx blocks io L h _ _
    exact ⟨L, h, same_refl _, le_refl _⟩
  | succ fuel ih =>
    intro bbidx blocks io L h hroom hx
    by_cases hidx : blocks.length ≤ bbidx
    · obtain ⟨io2, L2, hE, a1, a2, a3, a4⟩ :=
        extendDir_bigOK bigBlockSize fuel bbidx blocks io L h (by omega) hx hidx
      rw [hE]
      obtain ⟨L3, b1, b2, b3⟩ := ih bbidx (blocks ++ [io.bbat.unused.1]) io2 L2 a1 (by omega)
        (by simpa using a2)
      exact ⟨L3, b1, same_trans a3 b2, by omega⟩
    · have hE : extendDirLoop bigBlockSize (fuel + 1) bbidx blocks io = io := by
        rw [extendDirLoop, if_neg hidx]
      rw [hE]
      exact ⟨L, h, same_refl _, by omega⟩

theorem tablesOK_same {io io2 : StorageIO} {L L2 : List Nat} (h : io.TablesOK L)
    (hs : Same io io2) (hb : io2.BigOK L2) : io2.TablesOK L2 :=
  ⟨hb, by rw [hs.sbat, hs.num_sbat, hs.blockSize]; exact h.2⟩

end StorageIO

namespace DirTree

theorem unused_fst_le (dt : DirTree) : dt.unused.1 ≤ dt.entries.length := by
  unfold DirTree.unused
  cases h : DirTree.firstInvalid dt.entries 0 with
  | none => simp
  | some i =>
    have := firstInvalid_some h
    simp only
    omega

theorem create_fuel (E m d K c f : Nat) (hK : (E + (m + 1)) / d + 1 ≤ K) (hc : c ≤ E)
    (hf : f ≤ c / d + 1) : f ≤ K := by
  have h1 : c / d ≤ (E + (m + 1)) / d := Nat.div_le_div_right (by omega)
  omega

theorem create_next (E E2 m d K : Nat) (hK : (E + (m + 1)) / d + 1 ≤ K) (hE : E2 ≤ E + 1) :
    (E2 + m) / d + 1 ≤ K := by
  have h1 : (E2 + m) / d ≤ (E + (m + 1)) / d := Nat.div_le_div_right (by omega)
  omega

/-- The loop of `DirTree::entry` over the components of a path keeps the tables in order, for
every number of entries it creates. -/
theorem entryLoop_tables (create : Bool) (bigBlockSize streamSize K : Nat) :
    ∀ (names : List (List Nat)) (index : Nat) (io : StorageIO) (L : List Nat),
      io.TablesOK L →
      io.bbat.count + 3 * (names.length * K) < AllocTable.MetaBat →
      (io.dirtree.entries.length + names.length) / (bigBlockSize / 128) + 1 ≤ K →
      ∀ r, entryLoop create bigBlockSize streamSize names index io = some r →
        ∃ L2, r.1.TablesOK L2 := by
  have hM : AllocTable.MetaBat = 0xfffffffc := rfl
  intro names
  induction names with
  | nil =>
    intro index io L h _ _ r hr
    simp only [entryLoop, Option.some.injEq] at hr
    rw [← hr]
    exact ⟨L, h⟩
  | cons nm rest ih =>
    intro index io L h hroom hK r hr
    simp only [List.length_cons] at hroom hK
    have hmul : (rest.length + 1) * K = rest.length * K + K := by
      rw [Nat.add_mul, Nat.one_mul]
    rw [hmul] at hroom
    rw [entryLoop] at hr
    cases hfc : io.dirtree.find_child index nm End with
    | none => rw [hfc] at hr; simp at hr
    | some fr =>
      rw [hfc] at hr
      dsimp only at hr
      by_cases hpos : fr.1 > 0
      · rw [if_pos hpos] at hr
        exact ih fr.1 io L h (by omega)
          (le_trans (Nat.add_le_add_right (Nat.div_le_div_right (by omega)) 1) hK) r hr
      · rw [if_neg hpos] at hr
        by_cases hcr : create = false ∨ io.writeable = false
        · rw [if_pos hcr] at hr
          simp only [Option.some.injEq] at hr
          rw [← hr]
          exact ⟨L, h⟩
        · rw [if_neg hcr] at hr
          obtain ⟨c, hc⟩ : ∃ c, c = io.dirtree.createEntry index fr.2 nm
            (decide (rest.length > 0)) streamSize bigBlockSize := ⟨_, rfl⟩
          rw [← hc] at hr
          have hc1 : c.1 ≤ io.dirtree.entries.length := by
            rw [hc, createEntry_fst]; exact unused_fst_le _
          have hc2 : c.2.entries.length ≤ io.dirtree.entries.length + 1 := by
            rw [hc, createEntry_length]; exact unused_length_le _
          have h1 : StorageIO.TablesOK { io with dirtree := c.2 } L :=
            @ StorageIO.tablesOK_congr io _ L rfl rfl rfl rfl h
          cases hfo : io.bbat.follow io.header.dirent_start with
          | none =>
            have hfo2 : ({ io with dirtree := c.2 } : StorageIO).bbat.follow
                ({ io with dirtree := c.2 } : StorageIO).header.dirent_start = none := hfo
            rw [hfo2] at hr
            simp at hr
          | some blocks =>
            have hfo2 : ({ io with dirtree := c.2 } : StorageIO).bbat.follow
                ({ io with dirtree := c.2 } : StorageIO).header.dirent_start = some blocks :=
              hfo
            rw [hfo2] at hr
            dsimp only at hr
            have hf : c.1 / (bigBlockSize / 128) + 1 - blocks.length ≤ K :=
              create_fuel _ _ _ _ _ _ hK hc1 (Nat.sub_le _ _)
            obtain ⟨L2, a1, a2, a3⟩ := StorageIO.extendDirLoop_bigOK bigBlockSize
              (c.1 / (bigBlockSize / 128) + 1 - blocks.length) (c.1 / (bigBlockSize / 128))
              blocks { io with dirtree := c.2 } L h1.1 (by
                show io.bbat.count + 3 * _ < _
                omega)
              ( StorageIO.endOK_follow h1.1 (by show io.bbat.count ≤ _; omega) _ _ hfo2)
            have a3b : ( StorageIO.extendDirLoop bigBlockSize
                (c.1 / (bigBlockSize / 128) + 1 - blocks.length) (c.1 / (bigBlockSize / 128))
                blocks { io with dirtree := c.2 }).bbat.count ≤ io.bbat.count +
                  3 * (c.1 / (bigBlockSize / 128) + 1 - blocks.length) := a3
            refine ih c.1 _ L2 ( StorageIO.tablesOK_same h1 a2 a1) (by omega) ?_ r hr
            rw [a2.dirtree]
            exact create_next _ _ _ _ _ hK hc2

/-- Entry creation: `DirTree::entry(name, create, ...)` keeps the tables in order
whenever it returns. -/
theorem entryByName_tables (io : StorageIO) (name : List Nat) (create : Bool)
    (streamSize : Nat) (L : List Nat) (h : io.TablesOK L) (hroom : io.CreateRoom name)
    (r : StorageIO × Option Nat)
    (hr : entryByName io name create io.bbat.blockSize streamSize = some r) :
    ∃ L2, r.1.TablesOK L2 := by
  unfold entryByName at hr
  by_cases h0 : name.length = 0
  · rw [if_pos h0] at hr
    simp only [Option.some.injEq] at hr
    rw [← hr]; exact ⟨L, h⟩
  · rw [if_neg h0] at hr
    by_cases h1 : name = [47]
    · rw [if_pos h1] at hr
      simp only [Option.some.injEq] at hr
      rw [← hr]; exact ⟨L, h⟩
    · rw [if_neg h1] at hr
      exact entryLoop_tables create io.bbat.blockSize streamSize _ _ 0 io L h hroom (le_refl _)
        r hr

end DirTree

namespace StorageIO

/-- The end of a chain may be linked: it is not an inner sector of the small table's chain. -/
theorem endOK_chainEnd {io : StorageIO} {L : List Nat} (h : io.BigOK L) (x : Option Nat)
    (hx : io.ChainEnd x) : EndOK io L x := by
  intro y hy
  obtain ⟨h1, h2⟩ := hx y hy
  refine ⟨h1, fun hyL => ?_⟩
  by_contra hlast
  have := AllocTable.isChain_inner h.chain.2.1 y hyL hlast h.chain.1
  omega

/-- A chain that `follow` returned ends a chain of the big table. -/
theorem chainEnd_follow (io : StorageIO) (hc : io.bbat.count ≤ AllocTable.MetaBat) (s : Nat)
    (c : List Nat) (hf : io.bbat.follow s = some c) : io.ChainEnd c.getLast? := by
  obtain ⟨f1, f2⟩ := AllocTable.follow_some_spec io.bbat hc s c hf
  intro y hy
  exact ⟨f1 y (List.mem_of_getLast?_eq_some hy), f2 y hy⟩

set_option maxRecDepth 100000 in
/-- The created container is in order around the chain `[2]`. -/
theorem fresh_tablesOK (fragB fragS : Bool) : (freshContainer fragB fragS).TablesOK [2] := by
  have key : ∀ fb fs : Bool,
      512 ≤ (freshContainer fb fs).bbat.blockSize ∧
      (freshContainer fb fs).bbat.count ≤ AllocTable.MetaBat ∧
      (freshContainer fb fs).bbat.count ≤
        (freshContainer fb fs).header.num_bat * ((freshContainer fb fs).bbat.blockSize / 4) ∧
      (freshContainer fb fs).header.sbat_start = 2 ∧
      2 < (freshContainer fb fs).bbat.count ∧
      (freshContainer fb fs).bbat.get 2 = AllocTable.Eof ∧
      (freshContainer fb fs).header.num_sbat ≤ 1 ∧
      (freshContainer fb fs).sb_blocks = [3] ∧
      3 < (freshContainer fb fs).bbat.count ∧
      (freshContainer fb fs).bbat.get 3 = AllocTable.Eof ∧
      (freshContainer fb fs).sbat.count ≤
        (freshContainer fb fs).header.num_sbat * ((freshContainer fb fs).bbat.blockSize / 4) := by
    decide
  obtain ⟨k1, k2, k3, k4, k5, k6, k7, k8, k9, k10, k11⟩ := key fragB fragS
  refine ⟨⟨k1, k2, k3, ⟨by simp, ⟨k5, by simpa using k6, trivial⟩, by simpa using k4.symm⟩,
    by simp, by simpa using k7, ?_⟩, k11⟩
  intro y hy
  rw [k8] at hy
  simp only [List.getLast?_singleton, Option.some.injEq] at hy
  subst hy
  refine ⟨k9, ?_, by simp⟩
  rw [k10]
  decide

end StorageIO

namespace StreamIO

/-- The stream object that the constructor builds fits the container. -/
theorem new_fits (io : StorageIO) (e : Nat) (s : StreamIO)
    (he : e < io.dirtree.entries.length) (hc : io.bbat.count ≤ AllocTable.MetaBat)
    (hs : io.sbat.count ≤ AllocTable.MetaBat) (hn : StreamIO.new io e = some s) :
    Sync io s := by
  unfold StreamIO.new at hn
  dsimp only at hn
  split at hn
  · simp at hn
  · rename_i blocks hf
    simp only [Option.some.injEq] at hn
    subst hn
    refine ⟨he, fun hsm b hb => ?_, fun hbg => ?_⟩
    · dsimp only at hsm hb ⊢
      rw [if_neg (by omega)] at hf
      exact (AllocTable.follow_some_spec io.sbat hs _ _ hf).1 b hb
    · dsimp only at hbg ⊢
      rw [if_pos hbg] at hf
      exact StorageIO.chainEnd_follow io hc _ _ hf

end StreamIO

/-- Every reachable state is in order around some chain of the small table's sectors. -/
theorem reach_tablesOK (io : StorageIO) (h : Reach io) : ∃ L, io.TablesOK L := by
  induction h with
  | init fragB fragS => exact ⟨[2], StorageIO.fresh_tablesOK fragB fragS⟩
  | create io name size r _ hroom hr ih =>
    obtain ⟨L, hL⟩ := ih
    exact DirTree.entryByName_tables io name true size L hL hroom r hr
  | write io s pos data len r _ hsync hroom hw ih =>
    obtain ⟨L, hL⟩ := ih
    obtain ⟨io2, s2, n, L2, h1, h2⟩ := StreamIO.write_tables io s pos data len L hL hsync.1
      hsync.2.1 (fun hbg => StorageIO.endOK_chainEnd hL.1 _ (hsync.2.2 hbg)) hroom
    rw [h1] at hw
    simp only [Option.some.injEq] at hw
    subst hw
    exact ⟨L2, h2⟩
  | extend io c _ hroom hend ih =>
    obtain ⟨L, hL⟩ := ih
    obtain ⟨L2, b1, -, -, -, b5, -, -⟩ := StorageIO.ExtendFile_bigOK c hL.1 hroom
      ( StorageIO.endOK_chainEnd hL.1 _ hend)
    exact ⟨L2, StorageIO.tablesOK_same hL b5 b1⟩
  | addbbat io _ hroom ih =>
    obtain ⟨L, hL⟩ := ih
    exact ⟨L, ( StorageIO.addbbatBlock_tablesOK hL hroom).1⟩

/-- The bytes that `AllocTable::save` writes: four for every slot. -/
theorem AllocTable.save_bytes (t : AllocTable) : t.save.length = 4 * t.count := by
  unfold AllocTable.save AllocTable.count
  induction t.data with
  | nil => rfl
  | cons a l ih =>
    simp only [List.flatMap_cons, List.length_append, writeU32_length, List.length_cons, ih]
    omega

/-- An option that holds a value is that value. -/
theorem some_getD {α : Type} (x : Option α) (d : α) (h : x.isSome = true) :
    x = some (x.getD d) := by
  cases x with
  | none => simp at h
  | some a => rfl

/-- C37 (amended): in every state reachable from a created container by entry creation, stream
writes through stream objects that fit the container, `ExtendFile` on chains that end in an
end marker, and `addbbatBlock`, each step starting with room below the 32-bit limit, the big
blocks have at least 512 bytes, `num_bat` sectors cover the big table, the walk from
`sbat_start` returns a chain whose sectors cover the small table, and the bytes that
`AllocTable::save` writes for either table fit the buffer of one big block per backing sector
that `AllocTable::flush` allocates. -/
theorem reachable_tables_covered (io : StorageIO) (h : Reach io) :
    512 ≤ io.bbat.blockSize ∧
    io.bbat.count ≤ io.header.num_bat * (io.bbat.blockSize / 4) ∧
    io.bbat.save.length ≤ io.bbat.blockSize * io.header.num_bat ∧
    ∃ L, io.bbat.follow io.header.sbat_start = some L ∧
      io.sbat.count ≤ L.length * (io.bbat.blockSize / 4) ∧
      io.sbat.save.length ≤ io.bbat.blockSize * L.length := by
  obtain ⟨L, hL⟩ := reach_tablesOK io h
  have hb := hL.1.bbs
  have hcov := hL.1.cov
  have hq : 4 * (io.bbat.blockSize / 4) ≤ io.bbat.blockSize := Nat.mul_div_le _ 4
  have hs : io.sbat.count ≤ L.length * (io.bbat.blockSize / 4) :=
    le_trans hL.2 (Nat.mul_le_mul_right _ hL.1.nsbat)
  have e1 : 4 * (io.header.num_bat * (io.bbat.blockSize / 4)) ≤
      io.bbat.blockSize * io.header.num_bat := by
    calc 4 * (io.header.num_bat * (io.bbat.blockSize / 4))
        = (4 * (io.bbat.blockSize / 4)) * io.header.num_bat := by ring
      _ ≤ io.bbat.blockSize * io.header.num_bat := Nat.mul_le_mul_right _ hq
  have e2 : 4 * (L.length * (io.bbat.blockSize / 4)) ≤ io.bbat.blockSize * L.length := by
    calc 4 * (L.length * (io.bbat.blockSize / 4))
        = (4 * (io.bbat.blockSize / 4)) * L.length := by ring
      _ ≤ io.bbat.blockSize * L.length := Nat.mul_le_mul_right _ hq
  refine ⟨hb, hcov, ?_, L, AllocTable.follow_of_chain _ _ _ hL.1.lim hL.1.chain, hs, ?_⟩
  · rw [AllocTable.save_bytes]
    omega
  · rw [AllocTable.save_bytes]
    omega

set_option maxHeartbeats 0 in
/-- Witness of C37 (amended), at a state reached in three steps: the entry `/a` is created on a fresh container,
100 bytes are written to it, and a sector is added to the big table. -/
theorem reachable_tables_covered_witness :
    512 ≤ reachedWrite.1.addbbatBlock.bbat.blockSize ∧
    reachedWrite.1.addbbatBlock.bbat.count ≤ reachedWrite.1.addbbatBlock.header.num_bat *
      (reachedWrite.1.addbbatBlock.bbat.blockSize / 4) ∧
    reachedWrite.1.addbbatBlock.bbat.save.length ≤
      reachedWrite.1.addbbatBlock.bbat.blockSize * reachedWrite.1.addbbatBlock.header.num_bat ∧
    ∃ L, reachedWrite.1.addbbatBlock.bbat.follow reachedWrite.1.addbbatBlock.header.sbat_start
        = some L ∧
      reachedWrite.1.addbbatBlock.sbat.count ≤
        L.length * (reachedWrite.1.addbbatBlock.bbat.blockSize / 4) ∧
      reachedWrite.1.addbbatBlock.sbat.save.length ≤
        reachedWrite.1.addbbatBlock.bbat.blockSize * L.length :=
  reachable_tables_covered reachedWrite.1.addbbatBlock
    (Reach.addbbat reachedWrite.1
      (Reach.write reachedCreate.1 reachedStream 0 (List.replicate 100 7) 100 reachedWrite
        (Reach.create (freshContainer true true) (str "/a") 0 reachedCreate
          (Reach.init true true) (by unfold StorageIO.CreateRoom; decide!)
          (some_getD _ _ (by decide!)))
        ( StreamIO.new_fits reachedCreate.1 1 reachedStream (by decide!) (by decide!)
          (by decide!) (by decide!))
        (by unfold StorageIO.WriteRoom; decide!) (some_getD _ _ (by decide!)))
      (by decide!))

set_option maxRecDepth 100000 in
/-- C8 (counterexample to the claim as stated): on the container made by
`entry("/P//R", create)` the stream `R` (index 3) is the only child of the storage with the
empty name (index 2), which is the only child of `P` (index 1), and `/P//R` is the full path
that `DirTree::entry` resolves to `R`. The parent part `/P/` of that path resolves to `P`, so
`deleteEntry(3, "/P//R")` clears the `child` link of `P`: afterwards the walk of the storage
with the empty name still returns `R`, and `P` has lost its child. -/
theorem deleteEntry_empty_component :
    emptyComponent.dirtree.lookup (str "/P//R") = some (some 3) ∧
    (entAt emptyComponent.dirtree.entries 2).valid = true ∧
    (entAt emptyComponent.dirtree.entries 3).valid = true ∧
    emptyComponent.dirtree.children 2 = some [3] ∧
    emptyComponent.dirtree.children 1 = some [2] ∧
    DirTree.parentName (str "/P//R") = some (str "/P/") ∧
    emptyComponent.dirtree.lookup (str "/P/") = some (some 1) ∧
    (emptyComponent.dirtree.deleteEntry 3 (str "/P//R") 512).map
      (fun d => ((entAt d.entries 3).valid, d.children 2, d.children 1)) =
        some (false, some [3], some []) := by
  decide

set_option maxHeartbeats 0 in
/-- C37 (counterexample to the claim as stated): entry creation and three stream writes
through two stream objects on the same stream reach a state in which the big table has 129
slots while `num_bat = 1` sector of 512 bytes holds 128 of them, so `AllocTable::save` writes
516 bytes to the 512-byte buffer of `AllocTable::flush`. -/
theorem stale_stream_outgrows_table :
    (staleWrite true false).map (fun io =>
      (io.bbat.count, io.header.num_bat, io.bbat.blockSize, io.bbat.save.length)) =
        some (129, 1, 512, 516) := by
  decide!

end POLE
